import Mathlib

/-!
# Verification of the ctomat collections runtime

A shallow embedding of `src/collections.c` (memory pool, doubly linked list with
its stack / queue / set views, n-ary tree) and the proofs of its specification.

Memory model.  The heap is split by field: every field of a C node structure
is a map from addresses to values.  A pointer is `Option Nat`, `none` being `NULL`.
The first word of a pool cell is shared by three structures of the source:
`pool_node.next`, `list_node.prev` and `ntree_node.first_child` all live at
offset 0 of the cell, so all three are the one map `pool.link`.  The word at
offset 8 is `list_node.next` in a list and `ntree_node.next_sibling` in a tree.

A handle (`POOL`, `LIST`, `NTREE`, ...) is embedded as the structure value it
points to, the payload (`data_bytes` bytes) as a value of a type `D`, so that
`memcpy` is assignment and `memcmp(..) == 0` is equality.  Element counters
(`size_t`, `ssize_t`, `int`) are `Nat` / `Int`: they stay between `0` and the
capacity of the pool; the size of a node, which `list_init` and `ntree_init`
add up in `size_t`, wraps modulo `2 ^ 64`.  A dereference of `NULL` and a loop
that runs out of its iteration budget yield `none`.
-/

namespace Ctomat

/-! ## Definitions: memory pool -/

/-- A C pointer: `none` is `NULL`, `some a` is the address `a`. -/
abbrev Ptr := Option Nat

/-- The values the source assigns to `errno`. -/
inductive Errno where
  | EINVAL
  | ENOMEM
  | ERANGE
  | ENOENT
  deriving DecidableEq, Repr

/-- The value of `sizeof(struct pool_node)`: one pointer. -/
def sizeof_pool_node : Nat := 8

/-- The record `struct pool`, together with the first word of every cell of `mem`. -/
structure pool where
  mem : Nat
  data_bytes : Nat
  capacity : Nat
  freeable : Nat
  root : Ptr
  link : Nat → Ptr

/-- The function `internal_pool_push`: `node->next = root; root = node; ++freeable`. -/
def internal_pool_push (self : pool) (node : Nat) : pool :=
  { self with
    link := Function.update self.link node self.root
    root := some node
    freeable := self.freeable + 1 }

/-- The function `internal_pool_pop`; the last component is the value given to `errno`. -/
def internal_pool_pop (self : pool) : pool × Ptr × Option Errno :=
  match self.root with
  | none => (self, none, some Errno.ENOMEM)
  | some node =>
    ({ self with root := self.link node, freeable := self.freeable - 1 }, some node, none)

/-- The size of one cell: `max(data_bytes, sizeof(struct pool_node))`. -/
def node_bytes (data_bytes : Nat) : Nat := max data_bytes sizeof_pool_node

/-- The address of the `i`-th cell of the region: `head + node_bytes * i`. -/
def cell_addr (mem data_bytes i : Nat) : Nat := mem + node_bytes data_bytes * i

/-- The initialiser `POOL_INITIALIZER(m, b, c)`; `link` is the content of the region. -/
def POOL_INITIALIZER (m b c : Nat) (link : Nat → Ptr) : pool :=
  { mem := m, data_bytes := b, capacity := c, freeable := 0, root := none, link := link }

/-- The function `internal_pool_setup`: the structure is reset and the cells are pushed
for `i = 0, 1, ..., capacity - 1`; the words of the region keep their content until pushed. -/
def internal_pool_setup (self : pool) (mem data_bytes capacity : Nat) : pool :=
  (List.range capacity).foldl
    (fun s i => internal_pool_push s (cell_addr mem data_bytes i))
    (POOL_INITIALIZER mem data_bytes capacity self.link)

/-- The function `pool_init`; `mem` is the region returned by `calloc` (zero filled). -/
def pool_init (mem data_bytes capacity : Nat) : Except Errno pool :=
  if data_bytes = 0 ∨ capacity = 0 then Except.error Errno.EINVAL
  else Except.ok (internal_pool_setup
    (POOL_INITIALIZER mem data_bytes capacity (fun _ => none)) mem data_bytes capacity)

/-- The function `pool_clear` on a valid handle. -/
def pool_clear (self : pool) : pool × Int :=
  (internal_pool_setup self self.mem self.data_bytes self.capacity, 0)

/-- The function `pool_alloc` on a valid handle. -/
def pool_alloc (self : pool) : pool × Ptr × Option Errno :=
  internal_pool_pop self

/-- The function `pool_free` on a valid handle: a `NULL` pointer is ignored. -/
def pool_free (self : pool) (ptr : Ptr) : pool :=
  match ptr with
  | none => self
  | some node => internal_pool_push self node

/-- The function `pool_capacity` on a valid handle. -/
def pool_capacity (self : pool) : Int := self.capacity

/-- The function `pool_freeable` on a valid handle. -/
def pool_freeable (self : pool) : Int := self.freeable

/-- The function `pool_contains`: `mem <= ptr < mem + data_bytes * capacity`. -/
def pool_contains (self : pool) (ptr : Nat) : Bool :=
  decide (self.mem ≤ ptr) && decide (ptr < self.mem + self.data_bytes * self.capacity)

/-- A client loop calling `pool_alloc` `k` times: the final pool and the returned pointers. -/
def pool_alloc_n : Nat → pool → pool × List Ptr
  | 0, p => (p, [])
  | k + 1, p =>
    let r := pool_alloc p
    let rest := pool_alloc_n k r.1
    (rest.1, r.2.1 :: rest.2)

/-- A client loop calling `pool_free` on each pointer of `ps`, in order. -/
def pool_free_all (p : pool) (ps : List Nat) : pool :=
  ps.foldl (fun s a => pool_free s (some a)) p

/-- The cells of the region, in address order. -/
def pool_cells (mem data_bytes capacity : Nat) : List Nat :=
  (List.range capacity).map (cell_addr mem data_bytes)

/-- `Seg nx p ns q`: following the link `nx` from `p` visits exactly the
addresses `ns`, in this order, and arrives at `q`. -/
def Seg (nx : Nat → Ptr) : Ptr → List Nat → Ptr → Prop
  | p, [], q => p = q
  | p, a :: t, q => p = some a ∧ Seg nx (nx a) t q

/-- The states a client can bring a pool to, with the list of the cells it holds:
creation, allocation, release of a held cell, reset, and a write into a held cell. -/
inductive PoolReach (mem data_bytes capacity : Nat) : pool → List Nat → Prop where
  | init (p : pool) : pool_init mem data_bytes capacity = Except.ok p →
      PoolReach mem data_bytes capacity p []
  | alloc (p : pool) (live : List Nat) (a : Nat) :
      PoolReach mem data_bytes capacity p live → (pool_alloc p).2.1 = some a →
      PoolReach mem data_bytes capacity (pool_alloc p).1 (a :: live)
  | free (p : pool) (live : List Nat) (a : Nat) :
      PoolReach mem data_bytes capacity p live → a ∈ live →
      PoolReach mem data_bytes capacity (pool_free p (some a)) (live.erase a)
  | clear (p : pool) (live : List Nat) :
      PoolReach mem data_bytes capacity p live →
      PoolReach mem data_bytes capacity (pool_clear p).1 []
  | write (p : pool) (live : List Nat) (a : Nat) (v : Ptr) :
      PoolReach mem data_bytes capacity p live → a ∈ live →
      PoolReach mem data_bytes capacity { p with link := Function.update p.link a v } live

/-- The invariant of a pool over the region `(mem, data_bytes, capacity)` whose
client holds the cells `live`: `fl` is the free list. -/
def PoolInv (mem data_bytes capacity : Nat) (p : pool) (fl live : List Nat) : Prop :=
  Seg p.link p.root fl none ∧ (fl ++ live).Perm (pool_cells mem data_bytes capacity) ∧
  p.freeable = fl.length ∧ p.mem = mem ∧ p.data_bytes = data_bytes ∧ p.capacity = capacity


/-! ## Definitions: list, stack, queue, set -/

/-- The value of `sizeof(struct list_node)`: the two pointers before the payload. -/
def sizeof_list_node : Nat := 16

/-- The record `struct list` with the fields of its nodes.  The field `list_node.prev` is the
first word of the cell, that is `pool.link`; `next` and `data` are maps of their own.
The address of a payload is given as the address of its node. -/
structure list (D : Type) where
  pool : pool
  root : Ptr
  last : Ptr
  data_bytes : Nat
  next : Nat → Ptr
  data : Nat → D

/-- The field read `node->prev`. -/
def list.prev {D : Type} (self : list D) (node : Nat) : Ptr := self.pool.link node

/-- The field write `node->prev = v`. -/
def list.set_prev {D : Type} (self : list D) (node : Nat) (v : Ptr) : list D :=
  { self with pool := { self.pool with link := Function.update self.pool.link node v } }

/-- The field write `node->next = v`. -/
def list.set_next {D : Type} (self : list D) (node : Nat) (v : Ptr) : list D :=
  { self with next := Function.update self.next node v }

/-- The write `memcpy(node->data, data, data_bytes)`. -/
def list.set_data {D : Type} (self : list D) (node : Nat) (d : D) : list D :=
  { self with data := Function.update self.data node d }

/-- The record `struct ntree_iter` (the function `ntree_iter` has the plain name); the
fringe is a stack of node addresses, which are pushed only when they are not `NULL`. -/
structure struct_ntree_iter where
  fringe : list Nat
  age : Int
  node : Ptr

/-- What the field `object` of an iterator points to: a node, or a `struct ntree_iter`. -/
inductive iter_object where
  | addr (a : Nat)
  | iter (it : struct_ntree_iter)

/-- The record `ITER`.  A handler is a function of the object it is given and reads the
memory of the container the iterator was made for; its result is `none` when the C call
has no defined result, and else the returned pointer and the value given to `errno`. -/
structure ITER where
  object : Option iter_object
  next : Option (iter_object → Option (Option iter_object × Option Errno))
  data : Option (iter_object → Option (Ptr × Option Errno))
  release : Option (iter_object → Unit)

/-- The constant `NULL_ITER`. -/
def NULL_ITER : ITER := { object := none, next := none, data := none, release := none }

/-- The function `iter_release`; the memory of an iterator is not part of the model. -/
def iter_release (iter : ITER) : Unit :=
  match iter.release, iter.object with
  | some f, some o => f o
  | _, _ => ()

/-- The function `iter_is_end`. -/
def iter_is_end (iter : ITER) : Bool := iter.object.isNone

/-- The function `iter_next`. -/
def iter_next (iter : ITER) : Option (ITER × Option Errno) :=
  match iter.object with
  | none => some (NULL_ITER, some Errno.EINVAL)
  | some o =>
    match iter.next with
    | none => none
    | some f =>
      match f o with
      | none => none
      | some (none, e) => some (NULL_ITER, e)
      | some (some o2, e) => some ({ iter with object := some o2 }, e)

/-- The function `iter_data`. -/
def iter_data (iter : ITER) : Option (Ptr × Option Errno) :=
  match iter.object with
  | none => some (none, some Errno.EINVAL)
  | some o =>
    match iter.data with
    | none => none
    | some f => f o

/-- The handler `list_iter_next` on a non-null object. -/
def list_iter_next {D : Type} (mem : list D) (object : iter_object) :
    Option (Option iter_object × Option Errno) :=
  match object with
  | iter_object.addr a => some ((mem.next a).map iter_object.addr, none)
  | iter_object.iter _ => none

/-- The handler `list_iter_data` on a non-null object. -/
def list_iter_data (object : iter_object) : Option (Ptr × Option Errno) :=
  match object with
  | iter_object.addr a => some (some a, none)
  | iter_object.iter _ => none

/-- The initialiser `LIST_INITIALIZER(p, b)`; `next` and `data` are the content of the
region of the pool. -/
def LIST_INITIALIZER {D : Type} (p : pool) (b : Nat) (next : Nat → Ptr) (data : Nat → D) :
    list D :=
  { pool := p, root := none, last := none, data_bytes := b, next := next, data := data }

/-- The function `list_init`; `mem` is the region returned by `calloc`, `zero` its payloads.
The size of a node, `sizeof(struct list_node) + data_bytes`, is computed in `size_t` and
wraps modulo `2 ^ 64`; a failure of `pool_init`, which refuses the size 0, is reported as
`ENOMEM`. -/
def list_init {D : Type} (mem : Nat) (zero : D) (data_bytes capacity : Nat) :
    Except Errno (list D) :=
  if data_bytes = 0 ∨ capacity = 0 then Except.error Errno.EINVAL
  else
    match pool_init mem ((sizeof_list_node + data_bytes) % 2 ^ 64) capacity with
    | Except.error _ => Except.error Errno.ENOMEM
    | Except.ok p => Except.ok (LIST_INITIALIZER p data_bytes (fun _ => none) (fun _ => zero))

/-- The function `list_clear` on a valid handle. -/
def list_clear {D : Type} (self : list D) : list D × Int :=
  ({ self with pool := (pool_clear self.pool).1, root := none, last := none }, 0)

/-- The function `list_count` on a valid handle. -/
def list_count {D : Type} (self : list D) : Int :=
  pool_capacity self.pool - pool_freeable self.pool

/-- The function `list_insert_head`. -/
def list_insert_head {D : Type} (self : list D) (node : Nat) : list D :=
  match self.root with
  | none => { self with root := some node, last := some node }
  | some r => { ((self.set_next node (some r)).set_prev r (some node)) with root := some node }

/-- The function `list_insert_tail`. -/
def list_insert_tail {D : Type} (self : list D) (node : Nat) : list D :=
  match self.last with
  | none => { self with root := some node, last := some node }
  | some l => { ((self.set_prev node (some l)).set_next l (some node)) with last := some node }

/-- The loop of `list_insert`: `index` steps from `iter`; the outer `none` is the exit
with `ERANGE`, taken when `iter` is `NULL` at the head of an iteration. -/
def list_insert_walk (next : Nat → Ptr) : Nat → Ptr → Option Ptr
  | 0, iter => some iter
  | _ + 1, none => none
  | k + 1, some a => list_insert_walk next k (next a)

/-- The function `list_insert` on a valid handle with valid data.  The result is `none`
when a `NULL` pointer is dereferenced; otherwise it is the list, the returned address
and the value given to `errno`. -/
def list_insert {D : Type} (self : list D) (index : Int) (data : D) :
    Option (list D × Ptr × Option Errno) :=
  match pool_alloc self.pool with
  | (p, none, e) => some ({ self with pool := p }, none, e)
  | (p, some node, _) =>
    let s := ((({ self with pool := p }.set_prev node none).set_next node none).set_data
      node data)
    if index = 0 then some (list_insert_head s node, some node, none)
    else if index > 0 then
      match list_insert_walk s.next index.toNat s.root with
      | none => some (s, none, some Errno.ERANGE)
      | some none =>
        match s.last with
        | none => none
        | some l =>
          some ({ ((s.set_prev node (some l)).set_next l (some node)) with last := some node },
            some node, none)
      | some (some it) =>
        let s1 := (s.set_next node (some it)).set_prev node (s.prev it)
        match s1.prev node with
        | none => none
        | some pv => some ((s1.set_next pv (some node)).set_prev it (some node), some node, none)
    else some (list_insert_tail s node, some node, none)

/-- The loop of `list_get`: at most `index` steps from `node`, left when `node` is `NULL`. -/
def list_get_walk (next : Nat → Ptr) : Nat → Ptr → Ptr
  | 0, node => node
  | _ + 1, none => none
  | k + 1, some a => list_get_walk next k (next a)

/-- The function `list_get` on a valid handle: the returned value, what is copied into
the buffer `data` (`none`: nothing is written) and the value given to `errno`. -/
def list_get {D : Type} (self : list D) (index : Int) : Int × Option D × Option Errno :=
  let node := if index ≥ 0 then list_get_walk self.next index.toNat self.root else self.last
  match node with
  | none => (-1, none, some Errno.ERANGE)
  | some a => (0, some (self.data a), none)

/-- The function `list_push`. -/
def list_push {D : Type} (self : list D) (data : D) : Option (list D × Ptr × Option Errno) :=
  list_insert self (-1) data

/-- The function `list_pop` on a valid handle: the list, the returned value and what is
copied into the buffer `data` (`none`: nothing is written). -/
def list_pop {D : Type} (self : list D) : list D × Int × Option D :=
  match self.last with
  | none => (self, -1, none)
  | some node =>
    let s1 := if self.root = some node then { self with root := none } else self
    let s2 := { s1 with last := s1.prev node }
    let s3 := match s2.prev node with
      | some pv => s2.set_next pv none
      | none => s2
    let s4 := { s3 with pool := pool_free s3.pool (some node) }
    (s4, list_count s4, some (s3.data node))

/-- The function `list_unshift`. -/
def list_unshift {D : Type} (self : list D) (data : D) :
    Option (list D × Ptr × Option Errno) :=
  list_insert self 0 data

/-- The function `list_shift` on a valid handle: the list, the returned value and what is
copied into the buffer `data` (`none`: nothing is written). -/
def list_shift {D : Type} (self : list D) : list D × Int × Option D :=
  match self.root with
  | none => (self, -1, none)
  | some node =>
    let s1 := { self with root := self.next node }
    let s2 := if s1.last = some node then { s1 with last := none } else s1
    let s3 := match s2.next node with
      | some nx => s2.set_prev nx none
      | none => s2
    let s4 := { s3 with pool := pool_free s3.pool (some node) }
    (s4, list_count s4, some (s3.data node))

/-- The function `list_remove` on a valid handle; `none` when the object of the iterator
is not a node. -/
def list_remove {D : Type} (self : list D) (iter : ITER) :
    Option (list D × Int × Option Errno) :=
  if iter_is_end iter then some (self, -1, some Errno.EINVAL)
  else
    match iter.object with
    | some (iter_object.addr node) =>
      let s1 := if self.root = some node then { self with root := self.next node } else self
      let s2 := if s1.last = some node then { s1 with last := s1.prev node } else s1
      let s3 := match s2.prev node with
        | some pv => s2.set_next pv (s2.next node)
        | none => s2
      let s4 := match s3.next node with
        | some nx => s3.set_prev nx (s3.prev node)
        | none => s3
      some ({ s4 with pool := pool_free s4.pool (some node) }, 0, none)
    | _ => none

/-- The function `list_iter` on a valid handle. -/
def list_iter {D : Type} (self : list D) : ITER × Option Errno :=
  match self.root with
  | none => (NULL_ITER, some Errno.ENOENT)
  | some r =>
    ({ object := some (iter_object.addr r), next := some (list_iter_next self),
       data := some list_iter_data, release := none }, none)

/-- The function `stack_init`. -/
def stack_init {D : Type} (mem : Nat) (zero : D) (data_bytes capacity : Nat) :
    Except Errno (list D) :=
  list_init mem zero data_bytes capacity

/-- The function `stack_clear`. -/
def stack_clear {D : Type} (stack : list D) : list D × Int := list_clear stack

/-- The function `stack_push`. -/
def stack_push {D : Type} (stack : list D) (data : D) : Option (list D × Ptr × Option Errno) :=
  list_push stack data

/-- The function `stack_pop`. -/
def stack_pop {D : Type} (stack : list D) : list D × Int × Option D := list_pop stack

/-- The function `stack_peek`. -/
def stack_peek {D : Type} (stack : list D) : Int × Option D × Option Errno :=
  list_get stack (-1)

/-- The function `stack_count`. -/
def stack_count {D : Type} (stack : list D) : Int := list_count stack

/-- The function `stack_iter`. -/
def stack_iter {D : Type} (stack : list D) : ITER × Option Errno := list_iter stack

/-- The function `queue_init`. -/
def queue_init {D : Type} (mem : Nat) (zero : D) (data_bytes capacity : Nat) :
    Except Errno (list D) :=
  list_init mem zero data_bytes capacity

/-- The function `queue_clear`. -/
def queue_clear {D : Type} (que : list D) : list D × Int := list_clear que

/-- The function `queue_enq`. -/
def queue_enq {D : Type} (que : list D) (data : D) : Option (list D × Ptr × Option Errno) :=
  list_push que data

/-- The function `queue_deq`. -/
def queue_deq {D : Type} (que : list D) : list D × Int × Option D := list_shift que

/-- The function `queue_count`. -/
def queue_count {D : Type} (que : list D) : Int := list_count que

/-- The function `queue_iter`. -/
def queue_iter {D : Type} (que : list D) : ITER × Option Errno := list_iter que

/-- The function `set_init`. -/
def set_init {D : Type} (mem : Nat) (zero : D) (data_bytes capacity : Nat) :
    Except Errno (list D) :=
  list_init mem zero data_bytes capacity

/-- The function `set_clear`. -/
def set_clear {D : Type} (set : list D) : list D × Int := list_clear set

/-- The loop of `set_add` from the iterator `iter`, with a budget of `fuel` iterations:
`some p` is the early `return p`, `none` the end of the loop; the outer `none` is an
undefined result or an exhausted budget. -/
def set_add_loop {D : Type} [DecidableEq D] (self : list D) (data : D) :
    Nat → ITER → Option (Option Nat)
  | 0, _ => none
  | fuel + 1, iter =>
    if iter_is_end iter then some none
    else
      match iter_data iter with
      | some (some p, _) =>
        if data = self.data p then some (some p)
        else
          match iter_next iter with
          | none => none
          | some (iter2, _) => set_add_loop self data fuel iter2
      | _ => none

/-- The function `set_add` on a valid handle with valid data, its loop having a budget
of `fuel` iterations. -/
def set_add {D : Type} [DecidableEq D] (fuel : Nat) (set : list D) (data : D) :
    Option (list D × Ptr × Option Errno) :=
  match set_add_loop set data fuel (list_iter set).1 with
  | none => none
  | some (some p) => some (set, some p, (list_iter set).2)
  | some none =>
    match list_insert set (-1) data with
    | none => none
    | some (s, r, e) => some (s, r, if e.isSome then e else (list_iter set).2)

/-- The function `set_count`. -/
def set_count {D : Type} (set : list D) : Int := list_count set

/-- The function `set_iter`. -/
def set_iter {D : Type} (set : list D) : ITER × Option Errno := list_iter set


/-- `ListInv l ns fl`: the list `l` links exactly the nodes `ns`, head to tail, through
`next` from `root` and, backwards, through `prev` from `last`; the free list of its pool
is `fl`, no cell occurs twice and `freeable` is the length of the free list. -/
def ListInv {D : Type} (l : list D) (ns fl : List Nat) : Prop :=
  Seg l.next l.root ns none ∧ Seg l.pool.link l.last ns.reverse none ∧
  Seg l.pool.link l.pool.root fl none ∧ (ns ++ fl).Nodup ∧ l.pool.freeable = fl.length

/-- `ListHolds l ns fl xs`: the list `l` holds the sequence `xs`, stored in the nodes `ns`;
every cell of the pool is a node of the list or on the free list `fl`. -/
def ListHolds {D : Type} (l : list D) (ns fl : List Nat) (xs : List D) : Prop :=
  ListInv l ns fl ∧ ns.map l.data = xs

/-- The fields of a list that no operation changes. -/
def list.same_frame {D : Type} (l l2 : list D) : Prop :=
  l2.data_bytes = l.data_bytes ∧ l2.pool.capacity = l.pool.capacity ∧
  l2.pool.mem = l.pool.mem ∧ l2.pool.data_bytes = l.pool.data_bytes

/-- `ListWF l ns fl xs`: the list `l` holds `xs` in the nodes `ns`, and every cell of its
pool is one of these nodes or on the free list `fl`, so that `list_count` is the length. -/
def ListWF {D : Type} (l : list D) (ns fl : List Nat) (xs : List D) : Prop :=
  ListHolds l ns fl xs ∧ l.pool.capacity = ns.length + fl.length

/-- The node `a` has just been taken from the pool and initialised: it is linked nowhere,
and `ns`, `fl` describe the rest. -/
def ListFresh {D : Type} (s : list D) (ns fl : List Nat) (a : Nat) : Prop :=
  ListInv s ns fl ∧ a ∉ ns ∧ a ∉ fl ∧ s.next a = none ∧ s.pool.link a = none


/-! ## Definitions: client loops and abstract models of the list interfaces -/

/-- A call of the double-ended interface of a list. -/
inductive ListOp (D : Type) where
  | push (d : D)
  | unshift (d : D)
  | pop
  | shift

/-- What a call of the double-ended interface shows to its caller: whether the address
returned by `list_push` / `list_unshift` is not `NULL`, or the value returned by
`list_pop` / `list_shift` together with what was copied into the buffer. -/
inductive ListObs (D : Type) where
  | stored (ok : Bool)
  | removed (ret : Int) (out : Option D)

/-- One call on the list. -/
def list_step {D : Type} (l : list D) : ListOp D → Option (list D × ListObs D)
  | ListOp.push d => (list_push l d).map (fun r => (r.1, ListObs.stored r.2.1.isSome))
  | ListOp.unshift d => (list_unshift l d).map (fun r => (r.1, ListObs.stored r.2.1.isSome))
  | ListOp.pop => some ((list_pop l).1, ListObs.removed (list_pop l).2.1 (list_pop l).2.2)
  | ListOp.shift => some ((list_shift l).1, ListObs.removed (list_shift l).2.1 (list_shift l).2.2)

/-- A sequence of calls on the list, with what each call showed. -/
def list_run {D : Type} : list D → List (ListOp D) → Option (list D × List (ListObs D))
  | l, [] => some (l, [])
  | l, op :: ops =>
    match list_step l op with
    | none => none
    | some (l2, o) =>
      match list_run l2 ops with
      | none => none
      | some (l3, os) => some (l3, o :: os)

/-- The abstract double-ended sequence of the specification: `push` appends, `unshift`
prepends, `pop` / `shift` remove the last / first element and return the number of
elements left, or `-1` on the empty sequence. -/
def deque_step {D : Type} (xs : List D) : ListOp D → List D × ListObs D
  | ListOp.push d => (xs ++ [d], ListObs.stored true)
  | ListOp.unshift d => (d :: xs, ListObs.stored true)
  | ListOp.pop =>
    match xs.getLast? with
    | none => (xs, ListObs.removed (-1) none)
    | some x => (xs.dropLast, ListObs.removed (xs.dropLast.length : Nat) (some x))
  | ListOp.shift =>
    match xs with
    | [] => ([], ListObs.removed (-1) none)
    | x :: t => (t, ListObs.removed (t.length : Nat) (some x))

/-- A sequence of calls on the abstract sequence. -/
def deque_run {D : Type} : List D → List (ListOp D) → List D × List (ListObs D)
  | xs, [] => (xs, [])
  | xs, op :: ops =>
    ((deque_run (deque_step xs op).1 ops).1, (deque_step xs op).2 :: (deque_run (deque_step xs op).1 ops).2)

/-- The sequence of calls never makes the abstract sequence longer than `c`. -/
def deque_within {D : Type} (c : Nat) : List D → List (ListOp D) → Prop
  | xs, [] => xs.length ≤ c
  | xs, op :: ops => xs.length ≤ c ∧ deque_within c (deque_step xs op).1 ops

/-- A call of the queue interface. -/
inductive QueueOp (D : Type) where
  | enq (d : D)
  | deq

/-- One call on the queue, with `queue_count` after it. -/
def queue_step {D : Type} (q : list D) : QueueOp D → Option (list D × ListObs D × Int)
  | QueueOp.enq d =>
    (queue_enq q d).map (fun r => (r.1, ListObs.stored r.2.1.isSome, queue_count r.1))
  | QueueOp.deq =>
    some ((queue_deq q).1, ListObs.removed (queue_deq q).2.1 (queue_deq q).2.2,
      queue_count (queue_deq q).1)

/-- A sequence of calls on the queue. -/
def queue_run {D : Type} : list D → List (QueueOp D) → Option (list D × List (ListObs D × Int))
  | q, [] => some (q, [])
  | q, op :: ops =>
    match queue_step q op with
    | none => none
    | some (q2, o) =>
      match queue_run q2 ops with
      | none => none
      | some (q3, os) => some (q3, o :: os)

/-- The abstract FIFO of the specification, with its length after each call. -/
def fifo_step {D : Type} (xs : List D) : QueueOp D → List D × ListObs D × Int
  | QueueOp.enq d => (xs ++ [d], ListObs.stored true, ((xs ++ [d]).length : Nat))
  | QueueOp.deq =>
    match xs with
    | [] => ([], ListObs.removed (-1) none, 0)
    | x :: t => (t, ListObs.removed (t.length : Nat) (some x), (t.length : Nat))

/-- A sequence of calls on the abstract FIFO. -/
def fifo_run {D : Type} : List D → List (QueueOp D) → List D × List (ListObs D × Int)
  | xs, [] => (xs, [])
  | xs, op :: ops =>
    ((fifo_run (fifo_step xs op).1 ops).1, (fifo_step xs op).2 :: (fifo_run (fifo_step xs op).1 ops).2)

/-- The sequence of calls never makes the abstract FIFO longer than `c`. -/
def fifo_within {D : Type} (c : Nat) : List D → List (QueueOp D) → Prop
  | xs, [] => xs.length ≤ c
  | xs, op :: ops => xs.length ≤ c ∧ fifo_within c (fifo_step xs op).1 ops

/-- A client loop calling `stack_push` on every element of `xs`, in order. -/
def stack_push_all {D : Type} : list D → List D → Option (list D)
  | s, [] => some s
  | s, x :: xs =>
    match stack_push s x with
    | none => none
    | some (s2, _, _) => stack_push_all s2 xs

/-- A client loop calling `stack_pop` `k` times: the stack, and what each call returned
and copied out. -/
def stack_pop_n {D : Type} : Nat → list D → list D × List (Int × Option D)
  | 0, s => (s, [])
  | k + 1, s => ((stack_pop_n k (stack_pop s).1).1,
      ((stack_pop s).2.1, (stack_pop s).2.2) :: (stack_pop_n k (stack_pop s).1).2)

/-- The states a client can bring a set to: creation, `set_add` (with any budget with
which it returns) and `set_clear`. -/
inductive SetReach {D : Type} [DecidableEq D] (mem : Nat) (zero : D)
    (data_bytes capacity : Nat) : list D → Prop where
  | init (s : list D) : set_init mem zero data_bytes capacity = Except.ok s →
      SetReach mem zero data_bytes capacity s
  | add (s s2 : list D) (fuel : Nat) (d : D) (r : Ptr) (e : Option Errno) :
      SetReach mem zero data_bytes capacity s → set_add fuel s d = some (s2, r, e) →
      SetReach mem zero data_bytes capacity s2
  | clear (s : list D) : SetReach mem zero data_bytes capacity s →
      SetReach mem zero data_bytes capacity (set_clear s).1

/-- The elements of a list, head to tail, read by at most `fuel` links from `root`. -/
def list_elems {D : Type} (l : list D) : Nat → Ptr → List D
  | 0, _ => []
  | _ + 1, none => []
  | fuel + 1, some a => l.data a :: list_elems l fuel (l.next a)

/-- What removing the elements of `xs` one after the other, first to last, shows: each
call returns the number of elements left and copies the element out. -/
def drain_results {D : Type} : List D → List (Int × Option D)
  | [] => []
  | x :: t => (((t.length : Nat) : Int), some x) :: drain_results t

/-- The observations of `drain_results`, as calls of the double-ended interface. -/
def drain_obs {D : Type} (xs : List D) : List (ListObs D) :=
  (drain_results xs).map (fun r => ListObs.removed r.1 r.2)

/-- The iterator of the list `l` on the pointer `p`: the end marker when `p` is `NULL`. -/
def list_iter_at {D : Type} (l : list D) : Ptr → ITER
  | none => NULL_ITER
  | some a =>
    { object := some (iter_object.addr a), next := some (list_iter_next l),
      data := some list_iter_data, release := none }


/-! ## Definitions: n-ary tree -/

/-- The enumeration `enum ntree_trav_action`. -/
inductive ntree_trav_action where
  | ACT_INACTIVE
  | ACT_GOING_LEFT
  | ACT_GOING_RIGHT
  deriving DecidableEq, Repr

/-- The value of `sizeof(struct ntree_node)`: three pointers, the action and the age. -/
def sizeof_ntree_node : Nat := 32

/-- The value of `sizeof(struct ntree_node *)`, the payload size of the fringe stack. -/
def sizeof_ntree_node_ptr : Nat := 8

/-- The record `struct ntree` with the fields of its nodes.  The field
`ntree_node.first_child` is the first word of the cell, that is `pool.link`.  The address
of a payload is given as the address of its node. -/
structure ntree (D : Type) where
  pool : pool
  root : Ptr
  data_bytes : Nat
  next_sibling : Nat → Ptr
  parent : Nat → Ptr
  action : Nat → ntree_trav_action
  age : Nat → Int
  data : Nat → D

/-- The field read `node->first_child`. -/
def ntree.first_child {D : Type} (self : ntree D) (node : Nat) : Ptr := self.pool.link node

/-- The field write `node->first_child = v`. -/
def ntree.set_first_child {D : Type} (self : ntree D) (node : Nat) (v : Ptr) : ntree D :=
  { self with pool := { self.pool with link := Function.update self.pool.link node v } }

/-- The field write `node->next_sibling = v`. -/
def ntree.set_next_sibling {D : Type} (self : ntree D) (node : Nat) (v : Ptr) : ntree D :=
  { self with next_sibling := Function.update self.next_sibling node v }

/-- The field write `node->parent = v`. -/
def ntree.set_parent {D : Type} (self : ntree D) (node : Nat) (v : Ptr) : ntree D :=
  { self with parent := Function.update self.parent node v }

/-- The field write `node->action = v`. -/
def ntree.set_action {D : Type} (self : ntree D) (node : Nat) (v : ntree_trav_action) :
    ntree D :=
  { self with action := Function.update self.action node v }

/-- The field write `node->age = v`. -/
def ntree.set_age {D : Type} (self : ntree D) (node : Nat) (v : Int) : ntree D :=
  { self with age := Function.update self.age node v }

/-- The write `memcpy(node->data, data, data_bytes)`. -/
def ntree.set_data {D : Type} (self : ntree D) (node : Nat) (d : D) : ntree D :=
  { self with data := Function.update self.data node d }

/-- The assignment `*node = NTREE_NODE_INITIALIZER`. -/
def NTREE_NODE_INITIALIZER {D : Type} (self : ntree D) (node : Nat) : ntree D :=
  ((((self.set_first_child node none).set_next_sibling node none).set_parent node none).set_action
    node ntree_trav_action.ACT_INACTIVE).set_age node 0

/-- The initialiser `NTREE_INITIALIZER(p, b)`; the fields of the nodes are the content of
the zero filled region of the pool, `zero` being its payloads. -/
def NTREE_INITIALIZER {D : Type} (p : pool) (b : Nat) (zero : D) : ntree D :=
  { pool := p, root := none, data_bytes := b,
    next_sibling := fun _ => none, parent := fun _ => none,
    action := fun _ => ntree_trav_action.ACT_INACTIVE, age := fun _ => 0,
    data := fun _ => zero }

/-- The function `ntree_init`; `mem` is the region returned by `calloc`, `zero` its payloads.
The size of a node, `sizeof(struct ntree_node) + data_bytes`, is computed in `size_t` and
wraps modulo `2 ^ 64`; a failure of `pool_init`, which refuses the size 0, is reported as
`ENOMEM`. -/
def ntree_init {D : Type} (mem : Nat) (zero : D) (data_bytes capacity : Nat) :
    Except Errno (ntree D) :=
  if data_bytes = 0 ∨ capacity = 0 then Except.error Errno.EINVAL
  else
    match pool_init mem ((sizeof_ntree_node + data_bytes) % 2 ^ 64) capacity with
    | Except.error _ => Except.error Errno.ENOMEM
    | Except.ok p => Except.ok (NTREE_INITIALIZER p data_bytes zero)

/-- The function `ntree_clear` on a valid handle: only the pool is reset. -/
def ntree_clear {D : Type} (self : ntree D) : ntree D × Int :=
  ({ self with pool := (pool_clear self.pool).1 }, 0)

/-- The function `ntree_count` on a valid handle. -/
def ntree_count {D : Type} (self : ntree D) : Int :=
  pool_capacity self.pool - pool_freeable self.pool

/-- The function `ntree_data`. -/
def ntree_data (node : Ptr) : Ptr := node

/-- The loop `while (sibling->next_sibling != NULL) sibling = sibling->next_sibling;` with
a budget of `fuel` tests. -/
def ntree_last_sibling (next_sibling : Nat → Ptr) : Nat → Nat → Option Nat
  | 0, _ => none
  | fuel + 1, sibling =>
    match next_sibling sibling with
    | none => some sibling
    | some b => ntree_last_sibling next_sibling fuel b

/-- The end of `ntree_insert_at`: the node `added` is initialised and filled. -/
def ntree_fill {D : Type} (self : ntree D) (added : Nat) (parent : Ptr) (age : Int)
    (data : D) : ntree D :=
  (((NTREE_NODE_INITIALIZER self added).set_parent added parent).set_age added age).set_data
    added data

/-- The function `ntree_insert_at` on a valid handle with valid data; its loops have a
budget of `fuel` tests.  The result is `none` when a loop runs out of budget. -/
def ntree_insert_at {D : Type} (fuel : Nat) (self : ntree D) (parent : Ptr) (data : D) :
    Option (ntree D × Ptr × Option Errno) :=
  let r := pool_alloc self.pool
  match self.root with
  | none =>
    let s := { self with pool := r.1, root := r.2.1 }
    match r.2.1 with
    | none => some (s, none, r.2.2)
    | some added => some (ntree_fill s added parent 1 data, some added, none)
  | some root =>
    match parent with
    | none =>
      match ntree_last_sibling self.next_sibling fuel root with
      | none => none
      | some sibling =>
        let s := { self with pool := r.1 }.set_next_sibling sibling r.2.1
        match r.2.1 with
        | none => some (s, none, r.2.2)
        | some added => some (ntree_fill s added parent 1 data, some added, none)
    | some node =>
      match self.first_child node with
      | none =>
        let s := { self with pool := r.1 }.set_first_child node r.2.1
        match r.2.1 with
        | none => some (s, none, r.2.2)
        | some added =>
          some (ntree_fill s added parent (s.age node + 1) data, some added, none)
      | some first =>
        match ntree_last_sibling self.next_sibling fuel first with
        | none => none
        | some child =>
          let s := { self with pool := r.1 }.set_next_sibling child r.2.1
          match r.2.1 with
          | none => some (s, none, r.2.2)
          | some added =>
            some (ntree_fill s added parent (s.age node + 1) data, some added, none)

/-- The function `ntree_insert`. -/
def ntree_insert {D : Type} (fuel : Nat) (self : ntree D) (data : D) :
    Option (ntree D × Ptr × Option Errno) :=
  ntree_insert_at fuel self none data

/-- The function `internal_ntree_insert`, with a budget of `fuel` nested calls and loop
tests. -/
def internal_ntree_insert {D : Type} [DecidableEq D] :
    Nat → ntree D → Nat → D → D → Option (ntree D × Ptr × Option Errno)
  | 0, _, _, _, _ => none
  | fuel + 1, self, node, parent, data =>
    if (match self.parent node with
        | none => false
        | some p => decide (parent = self.data p)) then
      match ntree_last_sibling self.next_sibling fuel node with
      | none => none
      | some last =>
        let r := pool_alloc self.pool
        let s := { self with pool := r.1 }.set_next_sibling last r.2.1
        match r.2.1 with
        | none => some (s, none, r.2.2)
        | some sibling =>
          let s1 := NTREE_NODE_INITIALIZER s sibling
          let s2 := s1.set_parent sibling (s1.parent node)
          match s2.parent node with
          | none => none
          | some p =>
            let s3 := s2.set_age sibling (s2.age p + 1)
            some (s3.set_data sibling data, some sibling, none)
    else
      let first : Option (ntree D × Ptr × Option Errno) :=
        match self.next_sibling node with
        | none => some (self, none, none)
        | some next => internal_ntree_insert fuel self next parent data
      match first with
      | none => none
      | some (s, some added, e) => some (s, some added, e)
      | some (s, none, e) =>
        match s.first_child node with
        | none => some (s, none, e)
        | some child =>
          match internal_ntree_insert fuel s child parent data with
          | none => none
          | some (s2, added, e2) => some (s2, added, if e2.isSome then e2 else e)

/-- The function `ntree_insert_at_by_data` on a valid handle with valid data. -/
def ntree_insert_at_by_data {D : Type} [DecidableEq D] (fuel : Nat) (self : ntree D)
    (parent : D) (data : D) : Option (ntree D × Ptr × Option Errno) :=
  match self.root with
  | none =>
    let r := pool_alloc self.pool
    let s := { self with pool := r.1, root := r.2.1 }
    match r.2.1 with
    | none => some (s, none, r.2.2)
    | some root =>
      some (((NTREE_NODE_INITIALIZER s root).set_age root 1).set_data root data, some root, none)
  | some root => internal_ntree_insert fuel self root parent data

/-- The function `save_returning_node`: the state and the returned node. -/
def save_returning_node {D : Type} (self : ntree D) (current : Nat) (older : Ptr) :
    ntree D × Ptr :=
  if self.action current = ntree_trav_action.ACT_GOING_LEFT then
    (self.set_first_child current older, self.first_child current)
  else
    (self.set_next_sibling current older, self.next_sibling current)

/-- The function `restore_returning_node`: the state and the returned node. -/
def restore_returning_node {D : Type} (self : ntree D) (current : Nat) (just_done : Ptr) :
    ntree D × Ptr :=
  if self.action current = ntree_trav_action.ACT_GOING_LEFT then
    (self.set_first_child current just_done, self.first_child current)
  else
    (self.set_next_sibling current just_done, self.next_sibling current)

/-- The loop `while (old_sib->next_sibling != current) old_sib = old_sib->next_sibling;`
with a budget of `fuel` tests; `none` also when `old_sib` becomes `NULL`. -/
def ntree_find_prev (next_sibling : Nat → Ptr) (current : Nat) : Nat → Ptr → Option Nat
  | 0, _ => none
  | _ + 1, none => none
  | fuel + 1, some old_sib =>
    if next_sibling old_sib = some current then some old_sib
    else ntree_find_prev next_sibling current fuel (next_sibling old_sib)

/-- The part of `ntree_remove` that unlinks `current` from its parent or from the root
level and cuts its `parent` and `next_sibling`. -/
def ntree_unlink {D : Type} (fuel : Nat) (self : ntree D) (current : Nat) :
    Option (ntree D) :=
  let unlinked : Option (ntree D) :=
    if self.root = some current then some { self with root := self.next_sibling current }
    else
      match self.parent current with
      | some parent =>
        if self.first_child parent = some current then
          some (self.set_first_child parent (self.next_sibling current))
        else
          match ntree_find_prev self.next_sibling current fuel (self.first_child parent) with
          | none => none
          | some old_sib => some (self.set_next_sibling old_sib (self.next_sibling current))
      | none =>
        match ntree_find_prev self.next_sibling current fuel self.root with
        | none => none
        | some old_sib => some (self.set_next_sibling old_sib (self.next_sibling current))
  match unlinked with
  | none => none
  | some s => some ((s.set_next_sibling current none).set_parent current none)

/-- The loop `while (current != NULL)` of `ntree_remove` with a budget of `fuel`
iterations: the state, and the cells given to `pool_free`, in order. -/
def ntree_remove_loop {D : Type} :
    Nat → ntree D → Ptr → Ptr → List Nat → Option (ntree D × List Nat)
  | _, self, none, _, freed => some (self, freed)
  | 0, _, some _, _, _ => none
  | fuel + 1, self, some current, older, freed =>
    let r := if self.action current ≠ ntree_trav_action.ACT_INACTIVE
      then restore_returning_node self current none else (self, older)
    let s := r.1
    let older1 := r.2
    if s.action current = ntree_trav_action.ACT_INACTIVE ∧ s.first_child current ≠ none then
      let s1 := s.set_action current ntree_trav_action.ACT_GOING_LEFT
      ntree_remove_loop fuel (save_returning_node s1 current older1).1
        (save_returning_node s1 current older1).2 (some current) freed
    else if s.action current ≠ ntree_trav_action.ACT_GOING_RIGHT
        ∧ s.next_sibling current ≠ none then
      let s1 := s.set_action current ntree_trav_action.ACT_GOING_RIGHT
      ntree_remove_loop fuel (save_returning_node s1 current older1).1
        (save_returning_node s1 current older1).2 (some current) freed
    else
      let s1 := s.set_action current ntree_trav_action.ACT_INACTIVE
      ntree_remove_loop fuel { s1 with pool := pool_free s1.pool (some current) } older1
        older1 (freed ++ [current])

/-- The function `ntree_remove` on a valid handle, its loops having a budget of `fuel`. -/
def ntree_remove {D : Type} (fuel : Nat) (self : ntree D) (node : Ptr) :
    Option (ntree D × Int × Option Errno) :=
  match node with
  | none => some (self, -1, some Errno.EINVAL)
  | some current =>
    if self.root = none then some (self, -1, some Errno.ENOENT)
    else
      match ntree_unlink fuel self current with
      | none => none
      | some s =>
        match ntree_remove_loop fuel s (some current) none [] with
        | none => none
        | some (s2, _) => some (s2, 0, none)


/-! ## Definitions: tree iterators -/

/-- The initialiser `NTREE_ITER_INITIALIZER` with the field `fringe` set. -/
def NTREE_ITER_INITIALIZER (fringe : list Nat) : struct_ntree_iter :=
  { fringe := fringe, age := 0, node := none }

/-- The function `internal_ntree_iter`; `fmem` is the region `calloc` returns for the pool
of the fringe.  The inner `none` is the returned `NULL`. -/
def internal_ntree_iter {D : Type} (fmem : Nat) (self : ntree D) (node : Ptr) :
    Option (Option struct_ntree_iter) :=
  match stack_init fmem (0 : Nat) sizeof_ntree_node_ptr self.pool.capacity with
  | Except.error _ => some none
  | Except.ok fringe =>
    match node with
    | none => some (some (NTREE_ITER_INITIALIZER fringe))
    | some n =>
      match stack_push fringe n with
      | none => none
      | some (f, _, _) => some (some (NTREE_ITER_INITIALIZER f))

/-- The function `ntree_iter_next` on a non-null iterator: the result is `none` when the C
call has no defined result, and else the returned pointer (the iterator itself, updated,
or `NULL`) and the value given to `errno`. -/
def ntree_iter_next {D : Type} (mem : ntree D) (self : struct_ntree_iter) :
    Option (Option struct_ntree_iter × Option Errno) :=
  if stack_count self.fringe = 0 then some (none, some Errno.ENOENT)
  else
    match stack_pop self.fringe with
    | (f, ret, out) =>
      if ret = -1 then some (none, none)
      else
        match out with
        | none => none
        | some node =>
          let f1 : Option (list Nat × Option Errno) :=
            match mem.next_sibling node with
            | none => some (f, none)
            | some sib => (stack_push f sib).map (fun r => (r.1, r.2.2))
          match f1 with
          | none => none
          | some (fa, e1) =>
            let f2 : Option (list Nat × Option Errno) :=
              match mem.first_child node with
              | none => some (fa, e1)
              | some child =>
                (stack_push fa child).map (fun r => (r.1, if r.2.2.isSome then r.2.2 else e1))
            match f2 with
            | none => none
            | some (fb, e2) =>
              some (some { fringe := fb, age := mem.age node, node := some node }, e2)

/-- The handler `ntree_iter_next` of an iterator over the tree `mem`. -/
def ntree_iter_next_handler {D : Type} (mem : ntree D) (object : iter_object) :
    Option (Option iter_object × Option Errno) :=
  match object with
  | iter_object.iter it =>
    (ntree_iter_next mem it).map (fun r => (r.1.map iter_object.iter, r.2))
  | iter_object.addr _ => none

/-- The handler `ntree_iter_data`: the payload of `self->node`. -/
def ntree_iter_data (object : iter_object) : Option (Ptr × Option Errno) :=
  match object with
  | iter_object.iter it =>
    match it.node with
    | none => none
    | some a => some (some a, none)
  | iter_object.addr _ => none

/-- The handler `ntree_iter_release`; the memory of an iterator is not part of the model. -/
def ntree_iter_release (_ : iter_object) : Unit := ()

/-- The function `ntree_iter` on a valid handle. -/
def ntree_iter {D : Type} (fmem : Nat) (self : ntree D) : Option (ITER × Option Errno) :=
  match internal_ntree_iter fmem self self.root with
  | none => none
  | some none => some (NULL_ITER, none)
  | some (some iter) =>
    match ntree_iter_next self iter with
    | none => none
    | some (none, e) => some (NULL_ITER, e)
    | some (some it, e) =>
      some ({ object := some (iter_object.iter it), next := some (ntree_iter_next_handler self),
              data := some ntree_iter_data, release := some ntree_iter_release }, e)

/-- The handler `ntree_children_iter_next` of an iterator over the tree `mem`. -/
def ntree_children_iter_next {D : Type} (mem : ntree D) (object : iter_object) :
    Option (Option iter_object × Option Errno) :=
  match object with
  | iter_object.addr a => some ((mem.next_sibling a).map iter_object.addr, none)
  | iter_object.iter _ => none

/-- The handler `ntree_children_iter_data`. -/
def ntree_children_iter_data (object : iter_object) : Option (Ptr × Option Errno) :=
  match object with
  | iter_object.addr a => some (some a, none)
  | iter_object.iter _ => none

/-- The function `ntree_children_iter`. -/
def ntree_children_iter {D : Type} (mem : ntree D) (node : Ptr) : ITER × Option Errno :=
  match node with
  | none => (NULL_ITER, some Errno.EINVAL)
  | some a =>
    match mem.first_child a with
    | none => (NULL_ITER, some Errno.ENOENT)
    | some c =>
      ({ object := some (iter_object.addr c), next := some (ntree_children_iter_next mem),
         data := some ntree_children_iter_data, release := none }, none)

/-- The `int` that the low four bytes of a stored pointer hold (little-endian, 32 bit
`int`): zero for `NULL`. -/
def int_of_low_half (p : Ptr) : Int :=
  match p with
  | none => 0
  | some a =>
    if a % 2 ^ 32 < 2 ^ 31 then ((a % 2 ^ 32 : Nat) : Int)
    else ((a % 2 ^ 32 : Nat) : Int) - 2 ^ 32

/-- The function `ntree_iter_age`: the object of the iterator is read as a
`struct ntree_iter`, whose field `age` is the `int` at offset 8, behind the pointer
`fringe`.  `word1 a` is the pointer stored at offset 8 of the node at `a` (`next` of a
`struct list_node`, `next_sibling` of a `struct ntree_node`): when the object is a node,
the read gives the low half of that pointer, and `errno` is not assigned. -/
def ntree_iter_age (word1 : Nat → Ptr) (iter : ITER) : Option (Int × Option Errno) :=
  match iter.object with
  | none => some (-1, some Errno.EINVAL)
  | some (iter_object.iter it) => some (it.age, none)
  | some (iter_object.addr a) => some (int_of_low_half (word1 a), none)

/-- The client loop `for (it = ..; !iter_is_end(it); it = iter_next(it))` over a tree
iterator, with a budget of `fuel` iterations: the payload (read in the tree `mem`) and the
`ntree_iter_age` of every position. -/
def ntree_walk {D : Type} (mem : ntree D) : Nat → ITER → Option (List (D × Int))
  | 0, _ => none
  | fuel + 1, it =>
    if iter_is_end it then some []
    else
      match iter_data it, ntree_iter_age mem.next_sibling it, iter_next it with
      | some (some p, _), some (age, _), some (it2, _) =>
        (ntree_walk mem fuel it2).map (fun rest => (mem.data p, age) :: rest)
      | _, _, _ => none

/-- The pre-order sequence of a tree as a client reads it: `ntree_iter`, then the loop. -/
def ntree_preorder {D : Type} (fmem fuel : Nat) (self : ntree D) : Option (List (D × Int)) :=
  match ntree_iter fmem self with
  | none => none
  | some (it, _) => ntree_walk self fuel it


/-! ## Definitions: the abstract forest -/

/-- A forest in first-child / next-sibling form: `node a c s` is the node at address `a`,
`c` the forest of its children and `s` the forest of its later siblings. -/
inductive BT where
  | nil
  | node (a : Nat) (child : BT) (sib : BT)
  deriving DecidableEq, Repr

/-- The pre-order sequence: a node, then the subtree of its first child, then the subtree
of its next sibling. -/
def BT.pre : BT → List Nat
  | BT.nil => []
  | BT.node a c s => a :: (c.pre ++ s.pre)

/-- The order of the recursive destruction `destroy(x) = destroy(x.first_child);
destroy(x.next_sibling); free(x)`. -/
def BT.post : BT → List Nat
  | BT.nil => []
  | BT.node a c s => c.post ++ s.post ++ [a]

/-- The pointer to a forest: its first node, or `NULL`. -/
def BT.ptr : BT → Ptr
  | BT.nil => none
  | BT.node a _ _ => some a

/-- The nodes of the first sibling chain of a forest. -/
def BT.sibs : BT → List Nat
  | BT.nil => []
  | BT.node a _ s => a :: s.sibs

/-- The forest with the node `a` (without children) as new last sibling of its first
sibling chain. -/
def BT.append_sib : BT → Nat → BT
  | BT.nil, a => BT.node a BT.nil BT.nil
  | BT.node x c s, a => BT.node x c (s.append_sib a)

/-- The forest with the node `a` (without children) as new last child of the node `p`. -/
def BT.add_child : BT → Nat → Nat → BT
  | BT.nil, _, _ => BT.nil
  | BT.node x c s, p, a =>
    if x = p then BT.node x (c.append_sib a) s
    else BT.node x (c.add_child p a) (s.add_child p a)

/-- The children of the node `p`, oldest first. -/
def BT.children : BT → Nat → List Nat
  | BT.nil, _ => []
  | BT.node x c s, p => if x = p then c.sibs else c.children p ++ s.children p

/-- The forest of the children of the node `n`. -/
def BT.child_of : BT → Nat → BT
  | BT.nil, _ => BT.nil
  | BT.node x c s, n =>
    if x = n then c
    else if n ∈ c.pre then c.child_of n else s.child_of n

/-- The forest without the node `n` and its descendants; the later siblings of `n` stay. -/
def BT.remove : BT → Nat → BT
  | BT.nil, _ => BT.nil
  | BT.node x c s, n => if x = n then s else BT.node x (c.remove n) (s.remove n)

/-- `TRep t par p b`: in the tree `t` the pointer `p` points to the forest `b`, whose first
sibling chain has the parent `par`. -/
def TRep {D : Type} (t : ntree D) : Ptr → Ptr → BT → Prop
  | _, p, BT.nil => p = none
  | par, p, BT.node a c s =>
    p = some a ∧ t.parent a = par ∧ TRep t (some a) (t.pool.link a) c ∧
      TRep t par (t.next_sibling a) s

/-- `TreeInv t b fl`: the nodes linked from the root of `t` form the forest `b`, none of
them has a pending traversal action, the free list of the pool is `fl`, no cell occurs
twice and `freeable` is the length of the free list. -/
def TreeInv {D : Type} (t : ntree D) (b : BT) (fl : List Nat) : Prop :=
  TRep t none t.root b ∧ Seg t.pool.link t.pool.root fl none ∧ (b.pre ++ fl).Nodup ∧
  t.pool.freeable = fl.length ∧
  ∀ a ∈ b.pre, t.action a = ntree_trav_action.ACT_INACTIVE

/-- `TreeWF t b fl`: `TreeInv`, and every cell of the pool is a node of the forest or on
the free list, so that `ntree_count` is the number of nodes. -/
def TreeWF {D : Type} (t : ntree D) (b : BT) (fl : List Nat) : Prop :=
  TreeInv t b fl ∧ t.pool.capacity = b.pre.length + fl.length

/-- The test of `internal_ntree_insert` on a node: `node->parent != NULL` and the payload
of the parent equals `parent`. -/
def ntree_parent_matches {D : Type} [DecidableEq D] (t : ntree D) (parent : D) (node : Nat) :
    Bool :=
  match t.parent node with
  | none => false
  | some p => decide (parent = t.data p)

/-- The search order of `internal_ntree_insert`: a node, then the forest of its next
sibling, then the forest of its first child; the result is the first node that passes
the test `m`. -/
def BT.find_by (m : Nat → Bool) : BT → Option Nat
  | BT.nil => none
  | BT.node x c s =>
    if m x then some x
    else
      match s.find_by m with
      | some y => some y
      | none => c.find_by m

/-- The first node in pre-order that passes the test `m`. -/
def BT.find_pre (m : Nat → Bool) (b : BT) : Option Nat := b.pre.find? m

/-- A client sequence of `ntree_insert_at` calls on the tree `t`: each entry gives the
parent as the index of an earlier inserted node (`none`: no parent) and the payload.  The
result is the tree and the handles of the inserted nodes, in order. -/
def ntree_build {D : Type} (fuel : Nat) :
    ntree D → List (Option Nat × D) → List Nat → Option (ntree D × List Nat)
  | t, [], hs => some (t, hs)
  | t, (pi, d) :: rest, hs =>
    match ntree_insert_at fuel t (pi.bind (fun i => hs.get? i)) d with
    | some (t2, some a, _) => ntree_build fuel t2 rest (hs ++ [a])
    | _ => none

/-! ## Definitions: client loops over iterators, and the fringe of a traversal -/

/-- The client code `it = iter_next(it)` repeated `k` times. -/
def iter_next_n : Nat → ITER → Option ITER
  | 0, it => some it
  | k + 1, it =>
    match iter_next it with
    | none => none
    | some (it2, _) => iter_next_n k it2

/-- The client loop `for (it = ..; !iter_is_end(it); it = iter_next(it))` with a budget of
`fuel` iterations: the pointers `iter_data` returns. -/
def iter_walk : Nat → ITER → Option (List Nat)
  | 0, _ => none
  | fuel + 1, it =>
    if iter_is_end it then some []
    else
      match iter_data it, iter_next it with
      | some (some p, _), some (it2, _) => (iter_walk fuel it2).map (fun rest => p :: rest)
      | _, _ => none

/-- The iterator `ntree_iter` and `iter_next` hand out for the depth-first iterator record
`it` of the tree `t`. -/
def ntree_iter_at {D : Type} (t : ntree D) (it : struct_ntree_iter) : ITER :=
  { object := some (iter_object.iter it), next := some (ntree_iter_next_handler t),
    data := some ntree_iter_data, release := some ntree_iter_release }

/-- The iterator over the children of a node of `t` on the pointer `p`: the end marker
when `p` is `NULL`. -/
def ntree_children_iter_at {D : Type} (t : ntree D) : Ptr → ITER
  | none => NULL_ITER
  | some a =>
    { object := some (iter_object.addr a), next := some (ntree_children_iter_next t),
      data := some ntree_children_iter_data, release := none }

/-- The pre-order sequence of a list of forests. -/
def BT.pres : List BT → List Nat
  | [] => []
  | b :: r => b.pre ++ BT.pres r

/-- The first nodes of a list of forests. -/
def BT.roots : List BT → List Nat
  | [] => []
  | BT.nil :: r => BT.roots r
  | BT.node a _ _ :: r => a :: BT.roots r

/-- The forest `b` in front of the list `l`, unless it is empty. -/
def BT.push_nonnil : BT → List BT → List BT
  | BT.nil, l => l
  | BT.node a c s, l => BT.node a c s :: l

/-- `StackHolds f xs`: the stack `f` holds `xs`, the top last, and every cell of its pool
is an element or free. -/
def StackHolds {D : Type} (f : list D) (xs : List D) : Prop :=
  ∃ ns fl, ListWF f ns fl xs

/-- `FringeInv t f pend`: the fringe `f` of a traversal of `t` holds the first nodes of
the forests `pend` that are still to visit, the next one on top; the forests are not
empty, are linked in `t`, and fit into the fringe. -/
def FringeInv {D : Type} (t : ntree D) (f : list Nat) (pend : List BT) : Prop :=
  StackHolds f (BT.roots pend).reverse ∧
  (∀ b ∈ pend, b ≠ BT.nil ∧ ∃ par, TRep t par b.ptr b) ∧
  (BT.pres pend).length ≤ f.pool.capacity

/-! ## Definitions: `string_match` (utils.c)

A C string is the list of the codes of its characters (a character read as an
`unsigned char`), without the terminating `'\0'`: reading `*p` at the end of the list
gives 0.  The functions `toupper` and `isupper` are those of the C locale: they change and
accept the ASCII letters only.  On ASCII characters `char` is not negative, and the codes
are the values the source computes with. -/

/-- The function `toupper` of the C locale. -/
def toupper (c : Nat) : Nat := if 97 ≤ c ∧ c ≤ 122 then c - 32 else c

/-- The function `isupper` of the C locale. -/
def isupper (c : Nat) : Bool := decide (65 ≤ c ∧ c ≤ 90)

/-- The constant `PAT_ESCAPED`. -/
def PAT_ESCAPED : Nat := 256

/-- The pointers `pat + 1` and `str + 1`; `none` when one of the strings is at its
terminator, behind which the source would read. -/
def next_chars (pat str : List Nat) : Option (List Nat × List Nat) :=
  match pat, str with
  | _ :: p, _ :: s => some (p, s)
  | _, _ => none

/-- The function `internal_string_match`, with a budget of `fuel` nested calls.  The
operators `||` and `&&` evaluate their right operand only when needed.  The result is
`none` when the budget is exhausted, and where the source would read behind the
terminator of a string. -/
def internal_string_match :
    Nat → List Nat → List Nat → Bool → Bool → Bool → Option Bool
  | 0, _, _, _, _, _ => none
  | fuel + 1, pat, str, pat_escaped, str_escaped, case_sensitive =>
    let pat_c := if case_sensitive then pat.headD 0 else toupper (pat.headD 0)
    let str_c := if case_sensitive then str.headD 0 else toupper (str.headD 0)
    let str_esc := decide (str.headD 0 = 92)
    let key := pat_c ||| (if pat_escaped then PAT_ESCAPED else 0)
    if key = 0 then some (decide (str_c = 0))
    else if key = 42 then
      match internal_string_match fuel pat.tail str false str_escaped case_sensitive with
      | none => none
      | some true => some true
      | some false =>
        if str_c ≠ 0 then
          internal_string_match fuel pat str.tail false str_esc case_sensitive
        else some false
    else if key = 42 ||| PAT_ESCAPED then
      if str_c = pat_c then
        internal_string_match fuel pat.tail str.tail false str_esc case_sensitive
      else some false
    else if key = 43 then
      match internal_string_match fuel pat.tail str false str_escaped case_sensitive with
      | none => none
      | some true => some true
      | some false =>
        if str_c ≠ 0 ∧ (pat.tail.headD 0 ≠ str_c ∨ str_escaped = true) then
          internal_string_match fuel pat str.tail false str_esc case_sensitive
        else some false
    else if key = 43 ||| PAT_ESCAPED then
      if str_c = pat_c then
        internal_string_match fuel pat.tail str.tail false str_esc case_sensitive
      else some false
    else if key = 63 then
      if str_c ≠ 0 then
        internal_string_match fuel pat.tail str.tail false str_esc case_sensitive
      else some false
    else if key = 92 then
      internal_string_match fuel pat.tail str true str_esc case_sensitive
    else
      if str_c = pat_c ∧ str_escaped = pat_escaped then
        match next_chars pat str with
        | none => none
        | some (p, s) => internal_string_match fuel p s false str_esc case_sensitive
      else some false

/-- The function `string_match`: the match is case sensitive when the pattern has an upper
case letter. -/
def string_match (fuel : Nat) (pat str : List Nat) : Option Bool :=
  internal_string_match fuel pat str false false (pat.any isupper)

/-- The codes of the characters of a string literal. -/
def cstr (s : String) : List Nat := s.toList.map Char.toNat

/-- Modelled from the spec: the lower case form of a letter, for the comparison ignoring
letter case. -/
def fold_case (c : Nat) : Nat := if 65 ≤ c ∧ c ≤ 90 then c + 32 else c

/-- Modelled from the spec: glob semantics over the whole string.  `*` (42) matches any,
possibly empty, run of characters, `?` (63) exactly one character, every other pattern
character the same character ignoring letter case. -/
def glob_match : List Nat → List Nat → Bool
  | [], s => s.isEmpty
  | c :: p, s =>
    if c = 42 then s.tails.any (fun rest => glob_match p rest)
    else
      match s with
      | [] => false
      | d :: rest =>
        if c = 63 then glob_match p rest
        else decide (fold_case c = fold_case d) && glob_match p rest

/-- Modelled from the spec: equality of two strings ignoring letter case. -/
def eq_ignoring_case (p s : List Nat) : Bool := decide (p.map fold_case = s.map fold_case)

/-- An ASCII character of a string: its code is between 1 and 127. -/
abbrev is_ascii (c : Nat) : Prop := 1 ≤ c ∧ c ≤ 127

/-- An ASCII letter or digit. -/
abbrev is_alnum (c : Nat) : Prop := (48 ≤ c ∧ c ≤ 57) ∨ (65 ≤ c ∧ c ≤ 90) ∨ (97 ≤ c ∧ c ≤ 122)

/-! ## Definitions: the state of a removal -/

/-- `NoLinkTo t l n el es`: no `first_child` and no `next_sibling` of a node of `l` points
to `n`, except the `first_child` of `el` and the `next_sibling` of `es`. -/
def NoLinkTo {D : Type} (t : ntree D) (l : List Nat) (n : Nat) (el es : Option Nat) : Prop :=
  ∀ y ∈ l, (some y ≠ el → t.pool.link y ≠ some n) ∧ (some y ≠ es → t.next_sibling y ≠ some n)

/-- The tree `t` with the fields the loop of `ntree_remove` writes: the links, the actions,
the root of the pool and its counter. -/
def ntree.with_walk {D : Type} (t : ntree D) (link ns : Nat → Ptr)
    (act : Nat → ntree_trav_action) (proot : Ptr) (fr : Nat) : ntree D :=
  { t with pool := { t.pool with link := link, root := proot, freeable := fr },
           next_sibling := ns, action := act }

/-- `RemoveWalk D b`: what the loop of `ntree_remove` does from the first node `x` of the
forest `b`, all of whose nodes are inactive: after `2 * size - 1` iterations every node of
`b` has been given back to the pool, in the order `b.post`, nothing else has changed, and
the loop continues with `older`. -/
def RemoveWalk (D : Type) (b : BT) : Prop :=
  ∀ (H : ntree D) (x : Nat) (par older : Ptr) (fl freed : List Nat) (k : Nat),
    TRep H par (some x) b →
    (∀ y ∈ b.pre, H.action y = ntree_trav_action.ACT_INACTIVE) →
    Seg H.pool.link H.pool.root fl none → (b.pre ++ fl).Nodup →
    ∃ (link ns : Nat → Ptr) (act : Nat → ntree_trav_action) (proot : Ptr),
      ntree_remove_loop (k + (2 * b.pre.length - 1)) H (some x) older freed
        = ntree_remove_loop k
            (H.with_walk link ns act proot (H.pool.freeable + b.pre.length)) older older
            (freed ++ b.post) ∧
      Seg link proot (b.post.reverse ++ fl) none ∧
      ∀ y, y ∉ b.pre →
        link y = H.pool.link y ∧ ns y = H.next_sibling y ∧ act y = H.action y


/-! ## Definitions: `string_match` with checked reads -/

/-- The outcome of a call of `internal_string_match` when every read is checked: the
budget of nested calls is exhausted, a read falls behind the terminator of a string, or
the call returns. -/
inductive sm_outcome where
  | out_of_fuel : sm_outcome
  | out_of_range : sm_outcome
  | value (b : Bool) : sm_outcome
deriving DecidableEq, Repr

/-- The pointer `p + 1` of a position `p` in a string: the position behind the terminator
is `none`. -/
def str_succ : List Nat → Option (List Nat)
  | [] => none
  | _ :: t => some t

/-- The function `internal_string_match` with checked reads.  A position is `some` of the
rest of the string (the empty list at the terminator) and `none` behind the terminator;
the reads `*pat`, `*str` at the head of the function and `*(pat + 1)` in the case `'+'`
give `out_of_range` at `none`. -/
def internal_string_match_checked :
    Nat → Option (List Nat) → Option (List Nat) → Bool → Bool → Bool → sm_outcome
  | 0, _, _, _, _, _ => sm_outcome.out_of_fuel
  | fuel + 1, pat_pos, str_pos, pat_escaped, str_escaped, case_sensitive =>
    match pat_pos with
    | none => sm_outcome.out_of_range
    | some pat =>
    match str_pos with
    | none => sm_outcome.out_of_range
    | some str =>
    let pat_c := if case_sensitive then pat.headD 0 else toupper (pat.headD 0)
    let str_c := if case_sensitive then str.headD 0 else toupper (str.headD 0)
    let str_esc := decide (str.headD 0 = 92)
    let key := pat_c ||| (if pat_escaped then PAT_ESCAPED else 0)
    if key = 0 then sm_outcome.value (decide (str_c = 0))
    else if key = 42 then
      match internal_string_match_checked fuel (str_succ pat) (some str) false str_escaped
          case_sensitive with
      | sm_outcome.value false =>
        if str_c ≠ 0 then
          internal_string_match_checked fuel (some pat) (str_succ str) false str_esc
            case_sensitive
        else sm_outcome.value false
      | r => r
    else if key = 42 ||| PAT_ESCAPED then
      if str_c = pat_c then
        internal_string_match_checked fuel (str_succ pat) (str_succ str) false str_esc
          case_sensitive
      else sm_outcome.value false
    else if key = 43 then
      match internal_string_match_checked fuel (str_succ pat) (some str) false str_escaped
          case_sensitive with
      | sm_outcome.value false =>
        if str_c ≠ 0 then
          match str_succ pat with
          | none => sm_outcome.out_of_range
          | some p1 =>
            if p1.headD 0 ≠ str_c ∨ str_escaped = true then
              internal_string_match_checked fuel (some pat) (str_succ str) false str_esc
                case_sensitive
            else sm_outcome.value false
        else sm_outcome.value false
      | r => r
    else if key = 43 ||| PAT_ESCAPED then
      if str_c = pat_c then
        internal_string_match_checked fuel (str_succ pat) (str_succ str) false str_esc
          case_sensitive
      else sm_outcome.value false
    else if key = 63 then
      if str_c ≠ 0 then
        internal_string_match_checked fuel (str_succ pat) (str_succ str) false str_esc
          case_sensitive
      else sm_outcome.value false
    else if key = 92 then
      internal_string_match_checked fuel (str_succ pat) (some str) true str_esc case_sensitive
    else
      if str_c = pat_c ∧ str_escaped = pat_escaped then
        internal_string_match_checked fuel (str_succ pat) (str_succ str) false str_esc
          case_sensitive
      else sm_outcome.value false

/-- The function `string_match` with checked reads. -/
def string_match_checked (fuel : Nat) (pat str : List Nat) : sm_outcome :=
  internal_string_match_checked fuel (some pat) (some str) false false (pat.any isupper)

/-- Modelled from the spec: the pattern ends in a lone backslash, one that is not itself
escaped by a backslash before it.  The flag tells whether the first character of the list
is escaped. -/
def lone_backslash : Bool → List Nat → Bool
  | _, [] => false
  | true, _ :: t => lone_backslash false t
  | false, c :: t => if c = 92 then (if t = [] then true else lone_backslash true t)
    else lone_backslash false t

/-- Modelled from the spec: the conditions of a delimited run on the characters after the
first.  The list has at least two characters and ends with `q`, the final `q` is not
immediately preceded by a backslash, and every `q` strictly between the first and the last
character is immediately preceded by a backslash. -/
def delimited_tail (q : Nat) (s : List Nat) : Prop :=
  2 ≤ s.length ∧ s.getLast? = some q ∧ s[s.length - 2]? ≠ some 92 ∧
    ∀ i < s.length, 0 < i → i + 1 < s.length → s[i]? = some q → s[i - 1]? = some 92

instance delimited_tail_decidable (q : Nat) (s : List Nat) : Decidable (delimited_tail q s) := by
  unfold delimited_tail
  infer_instance

/-- Modelled from the spec: the string `s` is a run delimited by `q`.  It has at least two
characters, starts and ends with `q`, the final `q` is not immediately preceded by a
backslash, and every `q` strictly between the first and the last character is immediately
preceded by a backslash. -/
def delimited_run (q : Nat) (s : List Nat) : Prop :=
  s.head? = some q ∧ delimited_tail q s

instance delimited_run_decidable (q : Nat) (s : List Nat) : Decidable (delimited_run q s) := by
  unfold delimited_run
  infer_instance

/-! ## Definitions: `list_to_array`, list well-formedness, recursive destruction, ages -/

/-- The loop `while (list_shift(list, buf) > 0) buf += data_bytes;` of `list_to_array`, with
a budget of `fuel` iterations.  The buffer is the list `array` of its elements (`none`: not
written yet) and `buf` the index of the element `list_shift` copies into; a copy behind
the end of the buffer has no defined result. -/
def list_to_array_loop {D : Type} :
    Nat → list D → List (Option D) → Nat → Option (list D × List (Option D))
  | 0, _, _, _ => none
  | fuel + 1, self, array, buf =>
    let r := list_shift self
    let written : Option (List (Option D)) :=
      match r.2.2 with
      | none => some array
      | some d => if buf < array.length then some (array.set buf (some d)) else none
    match written with
    | none => none
    | some array2 =>
      if r.2.1 > 0 then list_to_array_loop fuel r.1 array2 (buf + 1)
      else some (r.1, array2)

/-- The function `list_to_array` on a valid handle with valid pointers, the allocation
of the buffer succeeding: the list, the returned value, the array and `*count`. -/
def list_to_array {D : Type} (fuel : Nat) (self : list D) :
    Option (list D × Int × List (Option D) × Int) :=
  let count := list_count self
  if count < 0 then none
  else
    match list_to_array_loop fuel self (List.replicate count.toNat none) 0 with
    | none => none
    | some (s, array) => some (s, 0, array, count)

/-- The function `queue_to_array`. -/
def queue_to_array {D : Type} (fuel : Nat) (que : list D) :
    Option (list D × Int × List (Option D) × Int) :=
  list_to_array fuel que

/-- `ListLive l ns fl`: `ListInv`, and the nodes and the free cells are cells of the region
of the pool.  Other cells of the region may be neither linked nor free: a call of
`list_insert` that fails with `ERANGE` keeps the cell it took from the pool. -/
def ListLive {D : Type} (l : list D) (ns fl : List Nat) : Prop :=
  ListInv l ns fl ∧
  ∀ x, x ∈ ns ++ fl → x ∈ pool_cells l.pool.mem l.pool.data_bytes l.pool.capacity

/-- `PoolFree p fl`: the free list of the pool `p` is `fl`: the chain from `root`, made of
cells of the region, which `freeable` counts. -/
def PoolFree (p : pool) (fl : List Nat) : Prop :=
  Seg p.link p.root fl none ∧ p.freeable = fl.length ∧
  ∀ x ∈ fl, x ∈ pool_cells p.mem p.data_bytes p.capacity

/-- Modelled from the spec: doubly-linked well-formedness of the list `l` whose linked
nodes are `ns`, head to tail, and whose pool has the free list `fl`.  The `prev` of the
head and the `next` of the tail are null; `x.next.prev` is `x` for every linked node `x`
with a successor; following `next` from the head visits the linked nodes, each once, and
ends at the tail; the list is empty exactly when head and tail are both null; and every
linked node is a cell of the pool that is not free. -/
def list_wellformed {D : Type} (l : list D) (ns fl : List Nat) : Prop :=
  (∀ h, l.root = some h → l.prev h = none) ∧
  (∀ t, l.last = some t → l.next t = none) ∧
  (∀ x ∈ ns, ∀ y, l.next x = some y → l.prev y = some x) ∧
  (Seg l.next l.root ns none ∧ ns.Nodup ∧ l.last = ns.getLast?) ∧
  (ns = [] ↔ l.root = none ∧ l.last = none) ∧
  (Seg l.pool.link l.pool.root fl none ∧
    ∀ x ∈ ns, x ∈ pool_cells l.pool.mem l.pool.data_bytes l.pool.capacity ∧ x ∉ fl)

/-- The states a client can bring a list to from `list_init`: every call of `list_insert`
(`list_push` is the index -1, `list_unshift` the index 0), whatever it returns, of
`list_pop`, `list_shift` and `list_clear`, and of `list_remove` with an iterator that
`list_iter` and `k` calls of `iter_next` gave on the list as it is. -/
inductive ListReach {D : Type} (mem : Nat) (zero : D) (data_bytes capacity : Nat) :
    list D → Prop where
  | init (l : list D) : list_init mem zero data_bytes capacity = Except.ok l →
      ListReach mem zero data_bytes capacity l
  | insert (l l2 : list D) (index : Int) (d : D) (r : Ptr) (e : Option Errno) :
      ListReach mem zero data_bytes capacity l → list_insert l index d = some (l2, r, e) →
      ListReach mem zero data_bytes capacity l2
  | pop (l : list D) : ListReach mem zero data_bytes capacity l →
      ListReach mem zero data_bytes capacity (list_pop l).1
  | shift (l : list D) : ListReach mem zero data_bytes capacity l →
      ListReach mem zero data_bytes capacity (list_shift l).1
  | remove (l l2 : list D) (k : Nat) (it : ITER) (r : Int) (e : Option Errno) :
      ListReach mem zero data_bytes capacity l → iter_next_n k (list_iter l).1 = some it →
      list_remove l it = some (l2, r, e) → ListReach mem zero data_bytes capacity l2
  | clear (l : list D) : ListReach mem zero data_bytes capacity l →
      ListReach mem zero data_bytes capacity (list_clear l).1

/-- Modelled from the spec: the recursive procedure
`destroy(x) = destroy(x.first_child); destroy(x.next_sibling); free(x)`, with a budget of
`fuel` nested calls: the state, and the cells given to `pool_free`, in order. -/
def destroy {D : Type} : Nat → ntree D → Ptr → Option (ntree D × List Nat)
  | _, self, none => some (self, [])
  | 0, _, some _ => none
  | fuel + 1, self, some x =>
    match destroy fuel self (self.first_child x) with
    | none => none
    | some (s1, l1) =>
      match destroy fuel s1 (s1.next_sibling x) with
      | none => none
      | some (s2, l2) =>
        some ({ s2 with pool := pool_free s2.pool (some x) }, l1 ++ l2 ++ [x])

/-- The cells a call of `ntree_remove` gives to `pool_free`, in order. -/
def ntree_remove_freed {D : Type} (fuel : Nat) (self : ntree D) (current : Nat) :
    Option (List Nat) :=
  match ntree_unlink fuel self current with
  | none => none
  | some s => (ntree_remove_loop fuel s (some current) none []).map (fun r => r.2)

/-- Modelled from the spec: in the forest `b`, whose first sibling chain is at depth `d`,
the age of every node is its depth. -/
def AgeRep {D : Type} (t : ntree D) : Nat → BT → Prop
  | _, BT.nil => True
  | d, BT.node x c s => t.age x = (d : Int) ∧ AgeRep t (d + 1) c ∧ AgeRep t d s

/-- The states a client can bring a tree to from `ntree_init`, with the nodes it holds:
`ntree_insert`, `ntree_insert_at` under no parent or under a node it holds,
`ntree_insert_at_by_data`, and `ntree_remove` of a node it holds, after which it holds
the nodes that were not given back to the pool.  Every call has any budget with which it
returns. -/
inductive TreeReach {D : Type} [DecidableEq D] (mem : Nat) (zero : D)
    (data_bytes capacity : Nat) : ntree D → List Nat → Prop where
  | init (t : ntree D) : ntree_init mem zero data_bytes capacity = Except.ok t →
      TreeReach mem zero data_bytes capacity t []
  | insert (t : ntree D) (live : List Nat) (fuel : Nat) (d : D) (t2 : ntree D) (r : Ptr)
      (e : Option Errno) :
      TreeReach mem zero data_bytes capacity t live →
      ntree_insert fuel t d = some (t2, r, e) →
      TreeReach mem zero data_bytes capacity t2 (r.toList ++ live)
  | insert_at (t : ntree D) (live : List Nat) (fuel : Nat) (parent : Ptr) (d : D)
      (t2 : ntree D) (r : Ptr) (e : Option Errno) :
      TreeReach mem zero data_bytes capacity t live →
      (∀ q, parent = some q → q ∈ live) →
      ntree_insert_at fuel t parent d = some (t2, r, e) →
      TreeReach mem zero data_bytes capacity t2 (r.toList ++ live)
  | insert_at_by_data (t : ntree D) (live : List Nat) (fuel : Nat) (parent d : D)
      (t2 : ntree D) (r : Ptr) (e : Option Errno) :
      TreeReach mem zero data_bytes capacity t live →
      ntree_insert_at_by_data fuel t parent d = some (t2, r, e) →
      TreeReach mem zero data_bytes capacity t2 (r.toList ++ live)
  | remove (t : ntree D) (live : List Nat) (fuel : Nat) (n : Nat) (t2 : ntree D) (r : Int)
      (e : Option Errno) (freed : List Nat) :
      TreeReach mem zero data_bytes capacity t live → n ∈ live →
      ntree_remove fuel t (some n) = some (t2, r, e) →
      ntree_remove_freed fuel t n = some freed →
      TreeReach mem zero data_bytes capacity t2 (live.filter (fun y => decide (y ∉ freed)))

/-- The subtree of the node `n` in the forest `b`: `n`, the forest of its children, and no
sibling. -/
def BT.subtree (b : BT) (n : Nat) : BT := BT.node n (b.child_of n) BT.nil

/-! ## Lemmas: link segments -/

theorem Seg_append (nx : Nat → Ptr) (xs ys : List Nat) (p q r : Ptr) :
    Seg nx p xs q → Seg nx q ys r → Seg nx p (xs ++ ys) r := by
  induction xs generalizing p with
  | nil => intro h1 h2; simp only [Seg] at h1; subst h1; simpa using h2
  | cons a t ih =>
    intro h1 h2
    exact ⟨h1.1, ih _ h1.2 h2⟩

theorem Seg_split (nx : Nat → Ptr) (xs ys : List Nat) (p r : Ptr) :
    Seg nx p (xs ++ ys) r → ∃ q, Seg nx p xs q ∧ Seg nx q ys r := by
  induction xs generalizing p with
  | nil => intro h; exact ⟨p, rfl, h⟩
  | cons a t ih =>
    intro h
    obtain ⟨q, h1, h2⟩ := ih _ h.2
    exact ⟨q, ⟨h.1, h1⟩, h2⟩

theorem Seg_congr (nx nx2 : Nat → Ptr) (xs : List Nat) (p q : Ptr)
    (h : ∀ a ∈ xs, nx2 a = nx a) : Seg nx p xs q → Seg nx2 p xs q := by
  induction xs generalizing p with
  | nil => intro h1; exact h1
  | cons a t ih =>
    intro h1
    refine ⟨h1.1, ?_⟩
    rw [h a (List.mem_cons_self a t)]
    exact ih _ (fun b hb => h b (List.mem_cons_of_mem a hb)) h1.2

theorem Seg_update (nx : Nat → Ptr) (xs : List Nat) (p q : Ptr) (a : Nat) (v : Ptr)
    (ha : a ∉ xs) : Seg nx p xs q → Seg (Function.update nx a v) p xs q := by
  apply Seg_congr
  intro b hb
  rw [Function.update_noteq]
  rintro rfl
  exact ha hb

theorem Seg_snoc (nx : Nat → Ptr) (xs : List Nat) (p : Ptr) (a : Nat) (q : Ptr) :
    Seg nx p xs (some a) → nx a = q → Seg nx p (xs ++ [a]) q := by
  intro h1 h2
  exact Seg_append nx xs [a] p (some a) q h1 ⟨rfl, h2⟩

/-- Two null terminated segments from the same pointer are equal. -/
theorem Seg_unique (nx : Nat → Ptr) (xs ys : List Nat) (p : Ptr) :
    Seg nx p xs none → Seg nx p ys none → xs = ys := by
  induction xs generalizing p ys with
  | nil =>
    intro h1 h2
    cases ys with
    | nil => rfl
    | cons b t => simp only [Seg] at h1; rw [h1] at h2; exact absurd h2.1 (by simp)
  | cons a t ih =>
    intro h1 h2
    cases ys with
    | nil => simp only [Seg] at h2; rw [h2] at h1; exact absurd h1.1 (by simp)
    | cons b u =>
      have hab : a = b := by
        have := h1.1.symm.trans h2.1
        exact Option.some.inj this
      subst hab
      rw [ih u _ h1.2 h2.2]

/-! ## Lemmas: memory pool -/

theorem push_all_fields (p : pool) (xs : List Nat) :
    (pool_free_all p xs).mem = p.mem ∧ (pool_free_all p xs).data_bytes = p.data_bytes ∧
    (pool_free_all p xs).capacity = p.capacity ∧
    (pool_free_all p xs).freeable = p.freeable + xs.length ∧
    (∀ b, b ∉ xs → (pool_free_all p xs).link b = p.link b) := by
  induction xs generalizing p with
  | nil => simp [pool_free_all]
  | cons a t ih =>
    have h := ih (pool_free p (some a))
    simp only [pool_free_all, List.foldl_cons] at h ⊢
    obtain ⟨h1, h2, h3, h4, h5⟩ := h
    refine ⟨h1, h2, h3, ?_, ?_⟩
    · rw [h4]; simp [pool_free, internal_pool_push]; omega
    · intro b hb
      simp only [List.mem_cons, not_or] at hb
      rw [h5 b hb.2]
      simp [pool_free, internal_pool_push, Function.update_noteq hb.1]

/-- Releasing pairwise distinct cells builds a segment through them, newest first,
that ends at the old head of the free list. -/
theorem push_all_seg (p : pool) (xs : List Nat) (hnd : xs.Nodup) :
    Seg (pool_free_all p xs).link (pool_free_all p xs).root xs.reverse p.root := by
  induction xs generalizing p with
  | nil => simp [pool_free_all, Seg]
  | cons a t ih =>
    have hnd2 := List.nodup_cons.mp hnd
    have h := ih (pool_free p (some a)) hnd2.2
    have hf := (push_all_fields (pool_free p (some a)) t).2.2.2.2 a hnd2.1
    simp only [pool_free_all, List.foldl_cons, List.reverse_cons] at h hf ⊢
    refine Seg_snoc _ _ _ _ _ ?_ ?_
    · simpa [pool_free, internal_pool_push] using h
    · rw [hf]; simp [pool_free, internal_pool_push]

/-- Allocating along a segment returns its cells in order. -/
theorem alloc_n_seg (p : pool) (xs : List Nat) (q : Ptr)
    (h : Seg p.link p.root xs q) :
    pool_alloc_n xs.length p =
      ({ p with root := q, freeable := p.freeable - xs.length }, xs.map some) := by
  induction xs generalizing p with
  | nil =>
    simp only [Seg] at h
    simp [pool_alloc_n, ← h]
  | cons a t ih =>
    obtain ⟨h1, h2⟩ := h
    have hpop : pool_alloc p =
        ({ p with root := p.link a, freeable := p.freeable - 1 }, some a, none) := by
      simp [pool_alloc, internal_pool_pop, h1]
    have := ih { p with root := p.link a, freeable := p.freeable - 1 } h2
    simp only [pool_alloc_n, List.length_cons, hpop, this, List.map_cons]
    congr 2
    simp only [Nat.sub_sub]
    congr 1
    omega

theorem alloc_empty (p : pool) (h : p.root = none) :
    pool_alloc p = (p, none, some Errno.ENOMEM) := by
  simp [pool_alloc, internal_pool_pop, h]

theorem setup_eq_free_all (s : pool) (mem data_bytes capacity : Nat) :
    internal_pool_setup s mem data_bytes capacity =
      pool_free_all (POOL_INITIALIZER mem data_bytes capacity s.link) (pool_cells mem data_bytes capacity) := by
  simp [internal_pool_setup, pool_free_all, pool_cells, List.foldl_map, pool_free]

theorem node_bytes_pos (data_bytes : Nat) : 0 < node_bytes data_bytes := by
  simp [node_bytes, sizeof_pool_node]

theorem cell_addr_inj (mem data_bytes i j : Nat)
    (h : cell_addr mem data_bytes i = cell_addr mem data_bytes j) : i = j := by
  have hp := node_bytes_pos data_bytes
  simp only [cell_addr] at h
  have : node_bytes data_bytes * i = node_bytes data_bytes * j := by omega
  exact Nat.eq_of_mul_eq_mul_left hp this

theorem pool_cells_nodup (mem data_bytes capacity : Nat) :
    (pool_cells mem data_bytes capacity).Nodup := by
  unfold pool_cells
  apply List.Nodup.map _ (List.nodup_range capacity)
  intro i j h
  exact cell_addr_inj mem data_bytes i j h

theorem pool_cells_length (mem data_bytes capacity : Nat) :
    (pool_cells mem data_bytes capacity).length = capacity := by
  simp [pool_cells]

/-- The state after `internal_pool_setup`: the free list is the region in
descending address order. -/
theorem setup_spec (s : pool) (mem data_bytes capacity : Nat) :
    let q := internal_pool_setup s mem data_bytes capacity
    Seg q.link q.root (pool_cells mem data_bytes capacity).reverse none ∧
    q.mem = mem ∧ q.data_bytes = data_bytes ∧ q.capacity = capacity ∧
    q.freeable = capacity := by
  intro q
  have hq : q = pool_free_all (POOL_INITIALIZER mem data_bytes capacity s.link) (pool_cells mem data_bytes capacity) :=
    setup_eq_free_all s mem data_bytes capacity
  have h1 := push_all_seg (POOL_INITIALIZER mem data_bytes capacity s.link) (pool_cells mem data_bytes capacity)
        (pool_cells_nodup mem data_bytes capacity)
  have h2 := push_all_fields (POOL_INITIALIZER mem data_bytes capacity s.link) (pool_cells mem data_bytes capacity)
  rw [← hq] at h1 h2
  refine ⟨h1, h2.1, h2.2.1, h2.2.2.1, ?_⟩
  rw [h2.2.2.2.1, pool_cells_length]
  simp [POOL_INITIALIZER]


theorem PoolInv_nodup {mem data_bytes capacity : Nat} {p : pool} {fl live : List Nat}
    (h : PoolInv mem data_bytes capacity p fl live) : (fl ++ live).Nodup :=
  (List.Perm.nodup_iff h.2.1).mpr (pool_cells_nodup mem data_bytes capacity)

theorem PoolInv_length {mem data_bytes capacity : Nat} {p : pool} {fl live : List Nat}
    (h : PoolInv mem data_bytes capacity p fl live) : fl.length + live.length = capacity := by
  have := h.2.1.length_eq
  rw [pool_cells_length, List.length_append] at this
  exact this

theorem PoolInv_setup (s : pool) (mem data_bytes capacity : Nat) :
    PoolInv mem data_bytes capacity (internal_pool_setup s mem data_bytes capacity)
      (pool_cells mem data_bytes capacity).reverse [] := by
  obtain ⟨h1, h2, h3, h4, h5⟩ := setup_spec s mem data_bytes capacity
  refine ⟨h1, ?_, ?_, h2, h3, h4⟩
  · simp
  · rw [h5]; simp [pool_cells_length]

theorem PoolInv_alloc {mem data_bytes capacity : Nat} {p : pool} {a : Nat} {t live : List Nat}
    (h : PoolInv mem data_bytes capacity p (a :: t) live) :
    pool_alloc p = ({ p with root := p.link a, freeable := p.freeable - 1 }, some a, none) ∧
    PoolInv mem data_bytes capacity (pool_alloc p).1 t (a :: live) := by
  obtain ⟨h1, h2, h3, h4, h5, h6⟩ := h
  have hpop : pool_alloc p =
      ({ p with root := p.link a, freeable := p.freeable - 1 }, some a, none) := by
    simp [pool_alloc, internal_pool_pop, h1.1]
  refine ⟨hpop, ?_⟩
  rw [hpop]
  refine ⟨h1.2, ?_, ?_, h4, h5, h6⟩
  · exact (List.perm_middle).trans h2
  · simp [h3]

theorem PoolInv_alloc_nil {mem data_bytes capacity : Nat} {p : pool} {live : List Nat}
    (h : PoolInv mem data_bytes capacity p [] live) :
    pool_alloc p = (p, none, some Errno.ENOMEM) := by
  apply alloc_empty
  have := h.1
  simpa [Seg] using this

theorem PoolInv_free {mem data_bytes capacity : Nat} {p : pool} {a : Nat} {fl live : List Nat}
    (h : PoolInv mem data_bytes capacity p fl live) (ha : a ∈ live) :
    PoolInv mem data_bytes capacity (pool_free p (some a)) (a :: fl) (live.erase a) := by
  have hnd := PoolInv_nodup h
  obtain ⟨h1, h2, h3, h4, h5, h6⟩ := h
  have hafl : a ∉ fl := fun hx => (List.disjoint_of_nodup_append hnd) hx ha
  refine ⟨?_, ?_, ?_, h4, h5, h6⟩
  · refine ⟨rfl, ?_⟩
    simp only [pool_free, internal_pool_push, Function.update_same]
    exact Seg_update _ _ _ _ _ _ hafl h1
  · have h7 : (a :: (fl ++ live.erase a)).Perm (fl ++ live) :=
      (List.perm_middle.symm).trans (List.Perm.append_left fl (List.perm_cons_erase ha).symm)
    exact h7.trans h2
  · simp [pool_free, internal_pool_push, h3]

theorem PoolInv_write {mem data_bytes capacity : Nat} {p : pool} {a : Nat} {fl live : List Nat}
    (h : PoolInv mem data_bytes capacity p fl live) (ha : a ∈ live) (v : Ptr) :
    PoolInv mem data_bytes capacity { p with link := Function.update p.link a v } fl live := by
  have hnd := PoolInv_nodup h
  obtain ⟨h1, h2, h3, h4, h5, h6⟩ := h
  have hafl : a ∉ fl := fun hx => (List.disjoint_of_nodup_append hnd) hx ha
  exact ⟨Seg_update _ _ _ _ _ _ hafl h1, h2, h3, h4, h5, h6⟩

theorem PoolReach_inv {mem data_bytes capacity : Nat} {p : pool} {live : List Nat}
    (h : PoolReach mem data_bytes capacity p live) :
    ∃ fl, PoolInv mem data_bytes capacity p fl live := by
  induction h with
  | init p hp =>
    refine ⟨(pool_cells mem data_bytes capacity).reverse, ?_⟩
    unfold pool_init at hp
    split at hp
    · exact absurd hp (by simp)
    · have := Except.ok.inj hp
      rw [← this]
      exact PoolInv_setup _ _ _ _
  | alloc p live a _ ha ih =>
    obtain ⟨fl, hfl⟩ := ih
    cases fl with
    | nil => rw [PoolInv_alloc_nil hfl] at ha; exact absurd ha (by simp)
    | cons b t =>
      have h2 := PoolInv_alloc hfl
      rw [h2.1] at ha
      have hab : b = a := Option.some.inj ha
      subst hab
      exact ⟨t, h2.2⟩
  | free p live a _ ha ih =>
    obtain ⟨fl, hfl⟩ := ih
    exact ⟨a :: fl, PoolInv_free hfl ha⟩
  | clear p live _ ih =>
    obtain ⟨fl, hfl⟩ := ih
    refine ⟨(pool_cells mem data_bytes capacity).reverse, ?_⟩
    have := PoolInv_setup p mem data_bytes capacity
    simpa [pool_clear, hfl.2.2.2.1, hfl.2.2.2.2.1, hfl.2.2.2.2.2] using this
  | write p live a v _ ha ih =>
    obtain ⟨fl, hfl⟩ := ih
    exact ⟨fl, PoolInv_write hfl ha v⟩

theorem mem_pool_cells (mem data_bytes capacity a : Nat) :
    a ∈ pool_cells mem data_bytes capacity ↔
      ∃ i, i < capacity ∧ a = mem + max data_bytes sizeof_pool_node * i := by
  simp only [pool_cells, List.mem_map, List.mem_range, cell_addr, node_bytes]
  constructor
  · rintro ⟨i, hi, rfl⟩; exact ⟨i, hi, rfl⟩
  · rintro ⟨i, hi, rfl⟩; exact ⟨i, hi, rfl⟩

theorem pool_cells_apart (mem data_bytes capacity a b : Nat)
    (ha : a ∈ pool_cells mem data_bytes capacity) (hb : b ∈ pool_cells mem data_bytes capacity)
    (hab : a ≠ b) :
    a + max data_bytes sizeof_pool_node ≤ b ∨ b + max data_bytes sizeof_pool_node ≤ a := by
  obtain ⟨i, _, rfl⟩ := (mem_pool_cells _ _ _ _).mp ha
  obtain ⟨j, _, rfl⟩ := (mem_pool_cells _ _ _ _).mp hb
  have hij : i ≠ j := by rintro rfl; exact hab rfl
  rcases Nat.lt_or_gt_of_ne hij with h | h
  · left
    have := Nat.mul_le_mul_left (max data_bytes sizeof_pool_node) (Nat.succ_le_of_lt h)
    rw [Nat.mul_succ] at this
    omega
  · right
    have := Nat.mul_le_mul_left (max data_bytes sizeof_pool_node) (Nat.succ_le_of_lt h)
    rw [Nat.mul_succ] at this
    omega


/-! ## Lemmas: insertion into and deletion from a segment -/

theorem Seg_nil_iff (nx : Nat → Ptr) (p q : Ptr) : Seg nx p [] q ↔ p = q := Iff.rfl

theorem Seg_cons_iff (nx : Nat → Ptr) (p q : Ptr) (a : Nat) (t : List Nat) :
    Seg nx p (a :: t) q ↔ p = some a ∧ Seg nx (nx a) t q := Iff.rfl

theorem Seg_mid (nx : Nat → Ptr) (pre post : List Nat) (x : Nat) (p q : Ptr) :
    Seg nx p (pre ++ x :: post) q → Seg nx p pre (some x) ∧ Seg nx (nx x) post q := by
  intro h
  obtain ⟨r, h1, h2⟩ := Seg_split nx pre (x :: post) p q h
  obtain ⟨h3, h4⟩ := h2
  subst h3
  exact ⟨h1, h4⟩

theorem Seg_none_nil (nx : Nat → Ptr) (xs : List Nat) : Seg nx none xs none → xs = [] := by
  intro h
  cases xs with
  | nil => rfl
  | cons a t => exact absurd h.1 (by simp)

theorem Seg_some_cons (nx : Nat → Ptr) (xs : List Nat) (a : Nat) :
    Seg nx (some a) xs none → ∃ t, xs = a :: t := by
  intro h
  cases xs with
  | nil => exact absurd h (by simp [Seg])
  | cons b t =>
    have : a = b := Option.some.inj h.1
    subst this
    exact ⟨t, rfl⟩

/-- The head pointer of a null terminated segment. -/
theorem Seg_head (nx : Nat → Ptr) (xs : List Nat) (p : Ptr) :
    Seg nx p xs none → p = xs.head? := by
  intro h
  cases xs with
  | nil => exact h
  | cons b t => exact h.1

/-- A new cell in front of a segment. -/
theorem Seg_insert_front (nx nx2 : Nat → Ptr) (post : List Nat) (a : Nat) (p q : Ptr)
    (h : Seg nx p post q) (h1 : nx2 a = p) (h2 : ∀ y ∈ post, nx2 y = nx y) :
    Seg nx2 (some a) (a :: post) q :=
  ⟨rfl, by rw [h1]; exact Seg_congr nx nx2 post p q h2 h⟩

/-- A new cell right after the cell `x` of a segment. -/
theorem Seg_insert_after (nx nx2 : Nat → Ptr) (pre post : List Nat) (x a : Nat) (p q : Ptr)
    (h : Seg nx p (pre ++ x :: post) q) (h1 : nx2 x = some a) (h2 : nx2 a = nx x)
    (h3 : ∀ y ∈ pre ++ post, nx2 y = nx y) :
    Seg nx2 p (pre ++ x :: a :: post) q := by
  obtain ⟨ha, hb⟩ := Seg_mid nx pre post x p q h
  apply Seg_append nx2 pre (x :: a :: post) p (some x) q
  · exact Seg_congr nx nx2 pre p (some x)
      (fun y hy => h3 y (List.mem_append_left post hy)) ha
  · refine ⟨rfl, ?_⟩
    rw [h1]
    refine ⟨rfl, ?_⟩
    rw [h2]
    exact Seg_congr nx nx2 post (nx x) q (fun y hy => h3 y (List.mem_append_right pre hy)) hb

/-- The cell right after the cell `x` of a segment is unlinked. -/
theorem Seg_delete_after (nx nx2 : Nat → Ptr) (pre post : List Nat) (x a : Nat) (p q : Ptr)
    (h : Seg nx p (pre ++ x :: a :: post) q) (h1 : nx2 x = nx a)
    (h3 : ∀ y ∈ pre ++ post, nx2 y = nx y) :
    Seg nx2 p (pre ++ x :: post) q := by
  obtain ⟨ha, hb⟩ := Seg_mid nx pre (a :: post) x p q h
  apply Seg_append nx2 pre (x :: post) p (some x) q
  · exact Seg_congr nx nx2 pre p (some x)
      (fun y hy => h3 y (List.mem_append_left post hy)) ha
  · refine ⟨rfl, ?_⟩
    rw [h1]
    exact Seg_congr nx nx2 post (nx a) q
      (fun y hy => h3 y (List.mem_append_right pre hy)) hb.2

/-- The pointer reached after `k` links of a null terminated segment. -/
theorem list_insert_walk_seg (nx : Nat → Ptr) (xs : List Nat) (p : Ptr) (k : Nat)
    (h : Seg nx p xs none) :
    list_insert_walk nx k p = if k ≤ xs.length then some (xs.get? k) else none := by
  induction k generalizing xs p with
  | zero =>
    simp only [list_insert_walk, Nat.zero_le, if_true]
    cases xs with
    | nil => rw [h]; rfl
    | cons a t => rw [h.1]; rfl
  | succ k ih =>
    cases xs with
    | nil =>
      simp only [Seg] at h
      subst h
      simp [list_insert_walk]
    | cons a t =>
      rw [h.1]
      simp only [list_insert_walk, List.length_cons, Nat.add_le_add_iff_right, List.get?_cons_succ]
      exact ih t (nx a) h.2

theorem list_get_walk_seg (nx : Nat → Ptr) (xs : List Nat) (p : Ptr) (k : Nat)
    (h : Seg nx p xs none) : list_get_walk nx k p = xs.get? k := by
  induction k generalizing xs p with
  | zero =>
    simp only [list_get_walk]
    cases xs with
    | nil => rw [h]; rfl
    | cons a t => rw [h.1]; rfl
  | succ k ih =>
    cases xs with
    | nil =>
      simp only [Seg] at h
      subst h
      simp [list_get_walk]
    | cons a t =>
      rw [h.1]
      simp only [list_get_walk, List.get?_cons_succ]
      exact ih t (nx a) h.2


/-! ## Lemmas: list operations -/

section ListLemmas
variable {D : Type}

@[simp] theorem list.set_next_next (s : list D) (x : Nat) (v : Ptr) :
    (s.set_next x v).next = Function.update s.next x v := rfl
@[simp] theorem list.set_next_pool (s : list D) (x : Nat) (v : Ptr) :
    (s.set_next x v).pool = s.pool := rfl
@[simp] theorem list.set_next_root (s : list D) (x : Nat) (v : Ptr) :
    (s.set_next x v).root = s.root := rfl
@[simp] theorem list.set_next_last (s : list D) (x : Nat) (v : Ptr) :
    (s.set_next x v).last = s.last := rfl
@[simp] theorem list.set_next_data (s : list D) (x : Nat) (v : Ptr) :
    (s.set_next x v).data = s.data := rfl
@[simp] theorem list.set_next_data_bytes (s : list D) (x : Nat) (v : Ptr) :
    (s.set_next x v).data_bytes = s.data_bytes := rfl
@[simp] theorem list.set_prev_next (s : list D) (x : Nat) (v : Ptr) :
    (s.set_prev x v).next = s.next := rfl
@[simp] theorem list.set_prev_link (s : list D) (x : Nat) (v : Ptr) :
    (s.set_prev x v).pool.link = Function.update s.pool.link x v := rfl
@[simp] theorem list.set_prev_pool_root (s : list D) (x : Nat) (v : Ptr) :
    (s.set_prev x v).pool.root = s.pool.root := rfl
@[simp] theorem list.set_prev_freeable (s : list D) (x : Nat) (v : Ptr) :
    (s.set_prev x v).pool.freeable = s.pool.freeable := rfl
@[simp] theorem list.set_prev_capacity (s : list D) (x : Nat) (v : Ptr) :
    (s.set_prev x v).pool.capacity = s.pool.capacity := rfl
@[simp] theorem list.set_prev_mem (s : list D) (x : Nat) (v : Ptr) :
    (s.set_prev x v).pool.mem = s.pool.mem := rfl
@[simp] theorem list.set_prev_pool_data_bytes (s : list D) (x : Nat) (v : Ptr) :
    (s.set_prev x v).pool.data_bytes = s.pool.data_bytes := rfl
@[simp] theorem list.set_prev_root (s : list D) (x : Nat) (v : Ptr) :
    (s.set_prev x v).root = s.root := rfl
@[simp] theorem list.set_prev_last (s : list D) (x : Nat) (v : Ptr) :
    (s.set_prev x v).last = s.last := rfl
@[simp] theorem list.set_prev_data (s : list D) (x : Nat) (v : Ptr) :
    (s.set_prev x v).data = s.data := rfl
@[simp] theorem list.set_prev_data_bytes (s : list D) (x : Nat) (v : Ptr) :
    (s.set_prev x v).data_bytes = s.data_bytes := rfl
@[simp] theorem list.prev_eq (s : list D) (x : Nat) : s.prev x = s.pool.link x := rfl
@[simp] theorem list.set_data_next (s : list D) (x : Nat) (d : D) :
    (s.set_data x d).next = s.next := rfl
@[simp] theorem list.set_data_pool (s : list D) (x : Nat) (d : D) :
    (s.set_data x d).pool = s.pool := rfl
@[simp] theorem list.set_data_root (s : list D) (x : Nat) (d : D) :
    (s.set_data x d).root = s.root := rfl
@[simp] theorem list.set_data_last (s : list D) (x : Nat) (d : D) :
    (s.set_data x d).last = s.last := rfl
@[simp] theorem list.set_data_data (s : list D) (x : Nat) (d : D) :
    (s.set_data x d).data = Function.update s.data x d := rfl
@[simp] theorem list.set_data_data_bytes (s : list D) (x : Nat) (d : D) :
    (s.set_data x d).data_bytes = s.data_bytes := rfl

theorem list.same_frame_refl (l : list D) : l.same_frame l := ⟨rfl, rfl, rfl, rfl⟩

theorem list.same_frame_trans {l l2 l3 : list D} (h1 : l.same_frame l2)
    (h2 : l2.same_frame l3) : l.same_frame l3 :=
  ⟨h2.1.trans h1.1, h2.2.1.trans h1.2.1, h2.2.2.1.trans h1.2.2.1, h2.2.2.2.trans h1.2.2.2⟩

/-- The state of `list_insert` after the allocation and the initialisation of the node. -/
theorem list_alloc_fresh (l : list D) (ns t : List Nat) (a : Nat) (d : D)
    (h : ListInv l ns (a :: t)) :
    ∃ p, pool_alloc l.pool = (p, some a, none) ∧
      p.capacity = l.pool.capacity ∧ p.mem = l.pool.mem ∧ p.data_bytes = l.pool.data_bytes ∧
      ListFresh ((({ l with pool := p }.set_prev a none).set_next a none).set_data a d)
        ns t a := by
  obtain ⟨h1, h2, h3, h4, h5⟩ := h
  have hnd := List.nodup_append.mp h4
  have hant : a ∉ t := (List.nodup_cons.mp hnd.2.1).1
  have hans : a ∉ ns := fun hx => hnd.2.2 hx (List.mem_cons_self a t)
  refine ⟨{ l.pool with root := l.pool.link a, freeable := l.pool.freeable - 1 },
    by simp [pool_alloc, internal_pool_pop, h3.1], rfl, rfl, rfl,
    ⟨?_, ?_, ?_, ?_, ?_⟩, hans, hant, ?_, ?_⟩
  · exact Seg_update _ _ _ _ _ _ hans h1
  · exact Seg_update _ _ _ _ _ _ (by simpa using hans) h2
  · exact Seg_update _ _ _ _ _ _ hant h3.2
  · exact List.Nodup.sublist
      (List.Sublist.append (List.Sublist.refl ns) (List.sublist_cons_self a t)) h4
  · simp [h5]
  · simp
  · simp

theorem ListInv_root_nil {l : list D} {fl : List Nat} (h : ListInv l [] fl) :
    l.root = none ∧ l.last = none := ⟨h.1, h.2.1⟩

theorem ListInv_root_cons {l : list D} {a : Nat} {t fl : List Nat}
    (h : ListInv l (a :: t) fl) : l.root = some a := h.1.1

theorem ListInv_last_snoc {l : list D} {a : Nat} {t fl : List Nat}
    (h : ListInv l (t ++ [a]) fl) : l.last = some a := by
  have := h.2.1
  rw [List.reverse_append] at this
  exact this.1

end ListLemmas


/-! ## Lemmas: one half of a doubly linked insertion or deletion -/

theorem getLast?_concat_eq (pre : List Nat) (x : Nat) : (pre ++ [x]).getLast? = some x := by
  simp

/-- The cell `a` is linked between `pre` and `post`. -/
theorem Seg_insert (nx nx2 : Nat → Ptr) (pre post : List Nat) (a : Nat) (p p2 : Ptr)
    (h : Seg nx p (pre ++ post) none) (hnd : (pre ++ post).Nodup)
    (h1 : nx2 a = post.head?)
    (h2 : ∀ x, pre.getLast? = some x → nx2 x = some a)
    (h3 : ∀ y ∈ pre ++ post, pre.getLast? ≠ some y → nx2 y = nx y)
    (h4 : p2 = if pre = [] then some a else p) :
    Seg nx2 p2 (pre ++ a :: post) none := by
  rcases List.eq_nil_or_concat pre with hp | ⟨pre2, x, hp⟩
  all_goals try rw [List.concat_eq_append] at hp
  · subst hp
    simp only [if_true] at h4
    rw [h4]
    simp only [List.nil_append] at h ⊢
    apply Seg_insert_front nx nx2 post a p none h
    · rw [h1]; exact (Seg_head nx post p h).symm
    · intro y hy
      exact h3 y (by simpa using hy) (by simp)
  · subst hp
    have hne : pre2 ++ [x] ≠ [] := by simp
    rw [if_neg hne] at h4
    rw [h4]
    have h5 : Seg nx p (pre2 ++ x :: post) none := by simpa using h
    have h6 : Seg nx2 p (pre2 ++ x :: a :: post) none := by
      apply Seg_insert_after nx nx2 pre2 post x a p none h5
      · exact h2 x (by simp)
      · rw [h1]; exact (Seg_head nx post _ (Seg_mid nx pre2 post x p none h5).2).symm
      · intro y hy
        apply h3 y
        · simp only [List.mem_append, List.mem_singleton] at hy ⊢
          rcases hy with hy | hy
          · exact Or.inl (Or.inl hy)
          · exact Or.inr hy
        · rw [getLast?_concat_eq]
          intro hxy
          have hxy2 : x = y := Option.some.inj hxy
          subst hxy2
          have hnd2 : (pre2 ++ x :: post).Nodup := by simpa using hnd
          have := List.nodup_middle.mp hnd2
          exact (List.nodup_cons.mp this).1 hy
    simpa using h6

/-- The cell `a` between `pre` and `post` is unlinked. -/
theorem Seg_delete (nx nx2 : Nat → Ptr) (pre post : List Nat) (a : Nat) (p p2 : Ptr)
    (h : Seg nx p (pre ++ a :: post) none) (hnd : (pre ++ a :: post).Nodup)
    (h2 : ∀ x, pre.getLast? = some x → nx2 x = nx a)
    (h3 : ∀ y ∈ pre ++ post, pre.getLast? ≠ some y → nx2 y = nx y)
    (h4 : p2 = if pre = [] then nx a else p) :
    Seg nx2 p2 (pre ++ post) none := by
  rcases List.eq_nil_or_concat pre with hp | ⟨pre2, x, hp⟩
  all_goals try rw [List.concat_eq_append] at hp
  · subst hp
    simp only [if_true] at h4
    rw [h4]
    simp only [List.nil_append] at h ⊢
    apply Seg_congr nx nx2 post (nx a) none _ h.2
    intro y hy
    exact h3 y (by simpa using hy) (by simp)
  · subst hp
    have hne : pre2 ++ [x] ≠ [] := by simp
    rw [if_neg hne] at h4
    rw [h4]
    have h5 : Seg nx p (pre2 ++ x :: a :: post) none := by simpa using h
    have h6 : Seg nx2 p (pre2 ++ x :: post) none := by
      apply Seg_delete_after nx nx2 pre2 post x a p none h5
      · exact h2 x (by simp)
      · intro y hy
        apply h3 y
        · simp only [List.mem_append, List.mem_singleton] at hy ⊢
          rcases hy with hy | hy
          · exact Or.inl (Or.inl hy)
          · exact Or.inr hy
        · rw [getLast?_concat_eq]
          intro hxy
          have hxy2 : x = y := Option.some.inj hxy
          subst hxy2
          have hnd2 : (pre2 ++ x :: a :: post).Nodup := by simpa using hnd
          have h7 := List.nodup_middle.mp hnd2
          have h8 := (List.nodup_cons.mp h7).1
          apply h8
          simp only [List.mem_append, List.mem_cons] at hy ⊢
          rcases hy with hy | hy
          · exact Or.inl hy
          · exact Or.inr (Or.inr hy)
    simpa using h6

/-- The link of the cell `a` of a null terminated segment is the head of what follows. -/
theorem Seg_next_of_mid (nx : Nat → Ptr) (pre post : List Nat) (a : Nat) (p : Ptr)
    (h : Seg nx p (pre ++ a :: post) none) : nx a = post.head? :=
  Seg_head nx post _ (Seg_mid nx pre post a p none h).2


section ListMaster
variable {D : Type}

/-- Linking the fresh node `a` between `pre` and `post`: what the new state has to satisfy. -/
theorem ListInv_insert (s s2 : list D) (pre post fl : List Nat) (a : Nat)
    (hf : ListFresh s (pre ++ post) fl a)
    (hn1 : s2.next a = post.head?)
    (hn2 : ∀ x, pre.getLast? = some x → s2.next x = some a)
    (hn3 : ∀ y ∈ pre ++ post, pre.getLast? ≠ some y → s2.next y = s.next y)
    (hr : s2.root = if pre = [] then some a else s.root)
    (hp1 : s2.pool.link a = pre.getLast?)
    (hp2 : ∀ y, post.head? = some y → s2.pool.link y = some a)
    (hp3 : ∀ y ∈ pre ++ post, post.head? ≠ some y → s2.pool.link y = s.pool.link y)
    (hl : s2.last = if post = [] then some a else s.last)
    (hfl : ∀ y ∈ fl, s2.pool.link y = s.pool.link y)
    (hroot : s2.pool.root = s.pool.root) (hfree : s2.pool.freeable = s.pool.freeable) :
    ListInv s2 (pre ++ a :: post) fl := by
  obtain ⟨⟨h1, h2, h3, h4, h5⟩, hans, hafl, _, _⟩ := hf
  have hnd := List.nodup_append.mp h4
  refine ⟨?_, ?_, ?_, ?_, ?_⟩
  · exact Seg_insert s.next s2.next pre post a s.root s2.root h1 hnd.1 hn1 hn2 hn3 hr
  · have hrev : (pre ++ a :: post).reverse = post.reverse ++ a :: pre.reverse := by simp
    rw [hrev]
    apply Seg_insert s.pool.link s2.pool.link post.reverse pre.reverse a s.last s2.last
    · simpa using h2
    · have := List.nodup_reverse.mpr hnd.1
      simpa using this
    · rw [hp1, List.head?_reverse]
    · intro x hx
      rw [List.getLast?_reverse] at hx
      exact hp2 x hx
    · intro y hy hne
      rw [List.getLast?_reverse] at hne
      apply hp3 y _ hne
      simp only [List.mem_append, List.mem_reverse] at hy ⊢
      exact hy.symm
    · rw [hl]
      simp
  · rw [hroot]
    exact Seg_congr _ _ _ _ _ hfl h3
  · have h6 : (a :: (pre ++ post) ++ fl).Nodup := by
      simp only [List.cons_append, List.nodup_cons]
      refine ⟨?_, h4⟩
      simp only [List.mem_append, not_or] at hans ⊢
      exact ⟨⟨hans.1, hans.2⟩, hafl⟩
    have hperm : (pre ++ a :: post ++ fl).Perm (a :: (pre ++ post) ++ fl) := by
      apply List.Perm.append_right
      exact List.perm_middle
    exact hperm.nodup_iff.mpr h6
  · rw [hfree, h5]

/-- Unlinking the node `a` between `pre` and `post` and releasing it: what the new
state has to satisfy. -/
theorem ListInv_delete (s s2 : list D) (pre post fl : List Nat) (a : Nat)
    (h : ListInv s (pre ++ a :: post) fl)
    (hn2 : ∀ x, pre.getLast? = some x → s2.next x = post.head?)
    (hn3 : ∀ y ∈ pre ++ post, pre.getLast? ≠ some y → s2.next y = s.next y)
    (hr : s2.root = if pre = [] then post.head? else s.root)
    (hp2 : ∀ y, post.head? = some y → s2.pool.link y = pre.getLast?)
    (hp3 : ∀ y ∈ pre ++ post, post.head? ≠ some y → s2.pool.link y = s.pool.link y)
    (hl : s2.last = if post = [] then pre.getLast? else s.last)
    (hfl : ∀ y ∈ fl, s2.pool.link y = s.pool.link y)
    (hroot : s2.pool.root = some a) (hlink : s2.pool.link a = s.pool.root)
    (hfree : s2.pool.freeable = s.pool.freeable + 1) :
    ListInv s2 (pre ++ post) (a :: fl) := by
  obtain ⟨h1, h2, h3, h4, h5⟩ := h
  have hnd := List.nodup_append.mp h4
  have hna : s.next a = post.head? := Seg_next_of_mid s.next pre post a s.root h1
  have hrev : (pre ++ a :: post).reverse = post.reverse ++ a :: pre.reverse := by simp
  rw [hrev] at h2
  have hpa : s.pool.link a = pre.getLast? := by
    rw [Seg_next_of_mid s.pool.link post.reverse pre.reverse a s.last h2, List.head?_reverse]
  refine ⟨?_, ?_, ?_, ?_, ?_⟩
  · apply Seg_delete s.next s2.next pre post a s.root s2.root h1 hnd.1
    · intro x hx; rw [hn2 x hx, hna]
    · exact hn3
    · rw [hr, hna]
  · have hrev2 : (pre ++ post).reverse = post.reverse ++ pre.reverse := by simp
    rw [hrev2]
    apply Seg_delete s.pool.link s2.pool.link post.reverse pre.reverse a s.last s2.last h2
    · have := List.nodup_reverse.mpr hnd.1
      simpa using this
    · intro x hx
      rw [List.getLast?_reverse] at hx
      rw [hp2 x hx, hpa]
    · intro y hy hne
      rw [List.getLast?_reverse] at hne
      apply hp3 y _ hne
      simp only [List.mem_append, List.mem_reverse] at hy ⊢
      exact hy.symm
    · rw [hl, hpa]
      simp
  · refine ⟨hroot, ?_⟩
    rw [hlink]
    exact Seg_congr _ _ _ _ _ hfl h3
  · have hperm : (pre ++ post ++ a :: fl).Perm (pre ++ a :: post ++ fl) := by
      have e1 : pre ++ post ++ a :: fl = pre ++ (post ++ a :: fl) := by simp
      have e2 : pre ++ a :: post ++ fl = pre ++ (a :: (post ++ fl)) := by simp
      rw [e1, e2]
      exact List.Perm.append_left pre List.perm_middle
    exact hperm.nodup_iff.mpr h4
  · rw [hfree, h5]; simp

end ListMaster


section ListInsert
variable {D : Type}

theorem list_insert_head_fresh (s : list D) (ns fl : List Nat) (a : Nat)
    (hf : ListFresh s ns fl a) :
    ListInv (list_insert_head s a) (a :: ns) fl ∧ (list_insert_head s a).data = s.data ∧
      s.same_frame (list_insert_head s a) := by
  have hroot : s.root = ns.head? := Seg_head _ _ _ hf.1.1
  have hnd := List.nodup_append.mp hf.1.2.2.2.1
  cases ns with
  | nil =>
    simp only [List.head?_nil] at hroot
    refine ⟨?_, by simp [list_insert_head, hroot],
      by simp [list.same_frame, list_insert_head, hroot]⟩
    simp only [list_insert_head, hroot]
    apply ListInv_insert s _ [] [] fl a hf <;> simp [hf.2.2.2.1, hf.2.2.2.2]
  | cons r rest =>
    simp only [List.head?_cons] at hroot
    refine ⟨?_, by simp [list_insert_head, hroot],
      by simp [list.same_frame, list_insert_head, hroot]⟩
    simp only [list_insert_head, hroot]
    have har : a ≠ r := fun e => hf.2.1 (e ▸ List.mem_cons_self r rest)
    apply ListInv_insert s _ [] (r :: rest) fl a hf
    · simp
    · simp
    · intro y hy _
      have hya : y ≠ a := fun e => hf.2.1 (e ▸ hy)
      simp [Function.update_noteq hya]
    · simp
    · simp [Function.update_noteq har, hf.2.2.2.2]
    · intro y hy
      simp only [List.head?_cons, Option.some.injEq] at hy
      subst hy
      simp
    · intro y _ hy
      simp only [List.head?_cons, ne_eq, Option.some.injEq] at hy
      simp [Function.update_noteq (Ne.symm hy)]
    · simp
    · intro y hy
      have hyr : y ≠ r := fun e => hnd.2.2 (List.mem_cons_self r rest) (e ▸ hy)
      simp [Function.update_noteq hyr]
    · simp
    · simp

end ListInsert

section ListInsert2
variable {D : Type}

theorem ListInv_last {l : list D} {ns fl : List Nat} (h : ListInv l ns fl) :
    l.last = ns.getLast? := by
  rw [← List.head?_reverse]
  exact Seg_head _ _ _ h.2.1

theorem ListInv_prev_mid {l : list D} {pre post fl : List Nat} {b : Nat}
    (h : ListInv l (pre ++ b :: post) fl) : l.pool.link b = pre.getLast? := by
  have h2 := h.2.1
  have hrev : (pre ++ b :: post).reverse = post.reverse ++ b :: pre.reverse := by simp
  rw [hrev] at h2
  rw [Seg_next_of_mid l.pool.link post.reverse pre.reverse b l.last h2, List.head?_reverse]

theorem ListInv_next_mid {l : list D} {pre post fl : List Nat} {b : Nat}
    (h : ListInv l (pre ++ b :: post) fl) : l.next b = post.head? :=
  Seg_next_of_mid l.next pre post b l.root h.1

theorem list_insert_tail_fresh (s : list D) (ns fl : List Nat) (a : Nat)
    (hf : ListFresh s ns fl a) :
    ListInv (list_insert_tail s a) (ns ++ [a]) fl ∧ (list_insert_tail s a).data = s.data ∧
      s.same_frame (list_insert_tail s a) := by
  have hlast : s.last = ns.getLast? := ListInv_last hf.1
  have hnd := List.nodup_append.mp hf.1.2.2.2.1
  rcases List.eq_nil_or_concat ns with hp | ⟨pre2, l, hp⟩
  · subst hp
    simp only [List.getLast?_nil] at hlast
    refine ⟨?_, by simp [list_insert_tail, hlast],
      by simp [list.same_frame, list_insert_tail, hlast]⟩
    simp only [list_insert_tail, hlast]
    apply ListInv_insert s _ [] [] fl a hf <;> simp [hf.2.2.2.1, hf.2.2.2.2]
  · rw [List.concat_eq_append] at hp
    subst hp
    rw [getLast?_concat_eq] at hlast
    refine ⟨?_, by simp [list_insert_tail, hlast],
      by simp [list.same_frame, list_insert_tail, hlast]⟩
    simp only [list_insert_tail, hlast]
    have hal : a ≠ l := fun e => hf.2.1 (by simp [e])
    have hf2 : ListFresh s (pre2 ++ [l] ++ []) fl a := by rw [List.append_nil]; exact hf
    apply ListInv_insert s _ (pre2 ++ [l]) [] fl a hf2
    · simp [Function.update_noteq hal, hf.2.2.2.1]
    · intro x hx
      rw [getLast?_concat_eq] at hx
      have := Option.some.inj hx
      subst this
      simp
    · intro y _ hy
      rw [getLast?_concat_eq] at hy
      have hyl : y ≠ l := fun e => hy (by rw [e])
      simp [Function.update_noteq hyl]
    · simp
    · simp
    · simp
    · intro y hy _
      have hya : y ≠ a := fun e => hf.2.1 (e ▸ (by simpa using hy))
      simp [Function.update_noteq hya]
    · simp
    · intro y hy
      have hya : y ≠ a := fun e => hf.2.2.1 (e ▸ hy)
      simp [Function.update_noteq hya]
    · simp
    · simp

/-- The branch of `list_insert` that links the node before the node `b` found by the loop. -/
theorem list_insert_mid_fresh (s : list D) (pre2 post fl : List Nat) (x b a : Nat)
    (hf : ListFresh s (pre2 ++ [x] ++ b :: post) fl a) :
    ListInv ((((s.set_next a (some b)).set_prev a (s.prev b)).set_next x (some a)).set_prev b
      (some a)) (pre2 ++ [x] ++ a :: b :: post) fl := by
  have hnd := List.nodup_append.mp hf.1.2.2.2.1
  have hpb : s.pool.link b = some x := by
    rw [ListInv_prev_mid hf.1, getLast?_concat_eq]
  have hax : a ≠ x := fun e => hf.2.1 (by simp [e])
  have hab : a ≠ b := fun e => hf.2.1 (by simp [e])
  have hxb : x ≠ b := by
    intro e
    have h1 : (pre2 ++ x :: b :: post).Nodup := by simpa using hnd.1
    have h2 := List.nodup_middle.mp h1
    exact (List.nodup_cons.mp h2).1 (by simp [e])
  apply ListInv_insert s _ (pre2 ++ [x]) (b :: post) fl a hf
  · simp [Function.update_noteq hax]
  · intro y hy
    rw [getLast?_concat_eq] at hy
    have := Option.some.inj hy
    subst this
    simp
  · intro y hy hne
    rw [getLast?_concat_eq] at hne
    have hyx : y ≠ x := fun e => hne (by rw [e])
    have hya : y ≠ a := fun e => hf.2.1 (e ▸ hy)
    simp [Function.update_noteq hyx, Function.update_noteq hya]
  · simp
  · simp [Function.update_noteq hab, hpb]
  · intro y hy
    simp only [List.head?_cons, Option.some.injEq] at hy
    subst hy
    simp
  · intro y hy hne
    simp only [List.head?_cons, ne_eq, Option.some.injEq] at hne
    have hya : y ≠ a := fun e => hf.2.1 (e ▸ hy)
    simp [Function.update_noteq (Ne.symm hne), Function.update_noteq hya]
  · simp
  · intro y hy
    have hya : y ≠ a := fun e => hf.2.2.1 (e ▸ hy)
    have hyb : y ≠ b := fun e => hnd.2.2 (by simp) (e ▸ hy)
    simp [Function.update_noteq hya, Function.update_noteq hyb]
  · simp
  · simp

end ListInsert2
section ListInsert3
variable {D : Type}

theorem get?_append_length (pre post : List Nat) :
    (pre ++ post).get? pre.length = post.head? := by
  induction pre with
  | nil => cases post <;> simp
  | cons a t ih => simpa using ih

/-- `list_insert` at the position `pre.length` of a list with a free cell. -/
theorem list_insert_at (l : list D) (pre post t : List Nat) (a : Nat) (d : D) (index : Int)
    (h : ListInv l (pre ++ post) (a :: t)) (hidx : index = (pre.length : Int)) :
    ∃ l2, list_insert l index d = some (l2, some a, none) ∧
      ListInv l2 (pre ++ a :: post) t ∧
      l2.data = Function.update l.data a d ∧ l.same_frame l2 := by
  obtain ⟨p, hpop, hc, hm, hdb, hf⟩ := list_alloc_fresh l (pre ++ post) t a d h
  have hfr : l.same_frame
      ((({ l with pool := p }.set_prev a none).set_next a none).set_data a d) :=
    ⟨rfl, hc, hm, hdb⟩
  have hsd : ((({ l with pool := p }.set_prev a none).set_next a none).set_data a d).data
      = Function.update l.data a d := rfl
  unfold list_insert
  rw [hpop]
  simp only []
  obtain ⟨s, hs⟩ : ∃ s, s = ((({ l with pool := p }.set_prev a none).set_next a none).set_data
      a d) := ⟨_, rfl⟩
  rw [← hs] at hf hfr hsd ⊢
  by_cases h0 : index = 0
  · rw [if_pos h0]
    have hpre : pre = [] := by
      rw [h0] at hidx
      exact List.length_eq_zero.mp (by exact_mod_cast hidx.symm)
    subst hpre
    obtain ⟨h1, h2, h3⟩ := list_insert_head_fresh _ _ _ _ hf
    exact ⟨_, rfl, h1, by rw [h2]; exact hsd, list.same_frame_trans hfr h3⟩
  · rw [if_neg h0]
    have hpos : index > 0 := by
      rw [hidx] at h0 ⊢
      have : pre.length ≠ 0 := fun e => h0 (by simp [e])
      exact_mod_cast Nat.pos_of_ne_zero this
    rw [if_pos hpos]
    have hnat : index.toNat = pre.length := by rw [hidx]; simp
    rw [list_insert_walk_seg _ (pre ++ post) _ _ hf.1.1, hnat, if_pos (by simp),
      get?_append_length]
    have hprene : pre ≠ [] := by
      intro e
      rw [e] at hidx
      exact h0 (by simpa using hidx)
    rcases List.eq_nil_or_concat pre with hp | ⟨pre2, x, hp⟩
    · exact absurd hp hprene
    rw [List.concat_eq_append] at hp
    subst hp
    cases post with
    | nil =>
      have hf2 : ListFresh s (pre2 ++ [x]) t a := by rw [List.append_nil] at hf; exact hf
      have hlast := ListInv_last hf2.1
      rw [getLast?_concat_eq] at hlast
      obtain ⟨h1, h2, h3⟩ := list_insert_tail_fresh _ _ _ _ hf2
      simp only [list_insert_tail, hlast] at h1 h2 h3
      simp only [List.head?_nil, hlast]
      exact ⟨_, rfl, h1, by rw [h2]; exact hsd, list.same_frame_trans hfr h3⟩
    | cons b post2 =>
      have hpb := ListInv_prev_mid hf.1
      rw [getLast?_concat_eq] at hpb
      have h1 := list_insert_mid_fresh _ pre2 post2 t x b a hf
      simp only [List.head?_cons]
      have hpa : ((s.set_next a (some b)).set_prev a (s.prev b)).prev a = some x := by
        simp only [list.prev_eq, list.set_prev_link, Function.update_same]
        exact hpb
      rw [hpa]
      exact ⟨_, rfl, h1, hsd, hfr⟩

end ListInsert3
section ListInsert4
variable {D : Type}

/-- `list_insert` with a negative index appends. -/
theorem list_insert_neg (l : list D) (ns t : List Nat) (a : Nat) (d : D) (index : Int)
    (h : ListInv l ns (a :: t)) (hidx : index < 0) :
    ∃ l2, list_insert l index d = some (l2, some a, none) ∧
      ListInv l2 (ns ++ [a]) t ∧
      l2.data = Function.update l.data a d ∧ l.same_frame l2 := by
  obtain ⟨p, hpop, hc, hm, hdb, hf⟩ := list_alloc_fresh l ns t a d h
  have hfr : l.same_frame
      ((({ l with pool := p }.set_prev a none).set_next a none).set_data a d) :=
    ⟨rfl, hc, hm, hdb⟩
  unfold list_insert
  rw [hpop]
  simp only []
  rw [if_neg (by omega), if_neg (by omega)]
  obtain ⟨h1, h2, h3⟩ := list_insert_tail_fresh _ _ _ _ hf
  exact ⟨_, rfl, h1, by rw [h2]; rfl, list.same_frame_trans hfr h3⟩

/-- `list_insert` with an index beyond the length: `ERANGE`, and the cell taken from the
pool is neither linked nor given back. -/
theorem list_insert_range (l : list D) (ns t : List Nat) (a : Nat) (d : D) (index : Int)
    (h : ListInv l ns (a :: t)) (hidx : (ns.length : Int) < index) :
    ∃ l2, list_insert l index d = some (l2, none, some Errno.ERANGE) ∧
      ListInv l2 ns t ∧ l2.data = Function.update l.data a d ∧ l.same_frame l2 := by
  obtain ⟨p, hpop, hc, hm, hdb, hf⟩ := list_alloc_fresh l ns t a d h
  have hfr : l.same_frame
      ((({ l with pool := p }.set_prev a none).set_next a none).set_data a d) :=
    ⟨rfl, hc, hm, hdb⟩
  unfold list_insert
  rw [hpop]
  simp only []
  have hpos : index > 0 := by omega
  rw [if_neg (by omega), if_pos hpos]
  have hnat : ¬ index.toNat ≤ ns.length := by omega
  rw [list_insert_walk_seg _ ns _ _ hf.1.1, if_neg hnat]
  exact ⟨_, rfl, hf.1, rfl, hfr⟩

/-- `list_insert` on a list without a free cell: `ENOMEM`, nothing changes. -/
theorem list_insert_full (l : list D) (ns : List Nat) (d : D) (index : Int)
    (h : ListInv l ns []) :
    list_insert l index d = some (l, none, some Errno.ENOMEM) := by
  have hroot : l.pool.root = none := h.2.2.1
  unfold list_insert
  rw [alloc_empty _ hroot]

theorem head?_append_cons_eq (pre post : List Nat) (a : Nat) (hnd : (pre ++ a :: post).Nodup) :
    (pre ++ a :: post).head? = some a ↔ pre = [] := by
  cases pre with
  | nil => simp
  | cons x t =>
    simp only [List.cons_append, List.head?_cons, Option.some.injEq, reduceCtorEq, iff_false]
    intro e
    subst e
    exact (List.nodup_cons.mp hnd).1 (by simp)

theorem getLast?_append_cons_eq (pre post : List Nat) (a : Nat)
    (hnd : (pre ++ a :: post).Nodup) :
    (pre ++ a :: post).getLast? = some a ↔ post = [] := by
  have h1 : (pre ++ a :: post).getLast? = (post.reverse ++ a :: pre.reverse).head? := by
    rw [← List.head?_reverse]; simp
  rw [h1, head?_append_cons_eq post.reverse pre.reverse a]
  · simp
  · have := List.nodup_reverse.mpr hnd
    simpa using this

theorem getLast?_ne_of_nodup (pre post : List Nat) (a x : Nat)
    (hnd : (pre ++ a :: post).Nodup) (hx : pre.getLast? = some x) : x ≠ a := by
  intro e
  subst e
  have hm : x ∈ pre := List.mem_of_getLast?_eq_some hx
  have := List.nodup_middle.mp hnd
  exact (List.nodup_cons.mp this).1 (by simp [hm])

theorem head?_ne_of_nodup (pre post : List Nat) (a y : Nat)
    (hnd : (pre ++ a :: post).Nodup) (hy : post.head? = some y) : y ≠ a := by
  intro e
  subst e
  have hm : y ∈ post := List.mem_of_mem_head? hy
  have := List.nodup_middle.mp hnd
  exact (List.nodup_cons.mp this).1 (by simp [hm])

theorem getLast?_ne_head?_of_nodup (pre post : List Nat) (a x y : Nat)
    (hnd : (pre ++ a :: post).Nodup) (hx : pre.getLast? = some x) (hy : post.head? = some y) :
    x ≠ y := by
  intro e
  subst e
  have hm : x ∈ pre := List.mem_of_getLast?_eq_some hx
  have hm2 : x ∈ post := List.mem_of_mem_head? hy
  have h1 := (List.nodup_append.mp hnd).2.2
  exact h1 hm (by simp [hm2])

/-- `list_remove` of the node `a`. -/
theorem list_remove_node (l : list D) (pre post fl : List Nat) (a : Nat) (it : ITER)
    (h : ListInv l (pre ++ a :: post) fl) (hit : it.object = some (iter_object.addr a)) :
    ∃ l2, list_remove l it = some (l2, 0, none) ∧ ListInv l2 (pre ++ post) (a :: fl) ∧
      l2.data = l.data ∧ l.same_frame l2 ∧ l2.pool.freeable = l.pool.freeable + 1 := by
  have hnd := List.nodup_append.mp h.2.2.2.1
  have hroot : l.root = (pre ++ a :: post).head? := Seg_head _ _ _ h.1
  have hlast : l.last = (pre ++ a :: post).getLast? := ListInv_last h
  have hpa := ListInv_prev_mid h
  have hna := ListInv_next_mid h
  have hr := head?_append_cons_eq pre post a hnd.1
  have hl := getLast?_append_cons_eq pre post a hnd.1
  rw [← hroot] at hr
  rw [← hlast] at hl
  have hafl : a ∉ fl := fun hx => hnd.2.2 (by simp) hx
  have hflne : ∀ y ∈ fl, y ≠ a := fun y hy e => hafl (e ▸ hy)
  have hfl2 : ∀ y ∈ fl, ∀ z ∈ post, y ≠ z := fun y hy z hz e =>
    hnd.2.2 (by simp [hz]) (e ▸ hy)
  have hprea : ∀ z ∈ pre, z ≠ a := fun z hz e =>
    (List.nodup_cons.mp (List.nodup_middle.mp hnd.1)).1 (by simp [← e, hz])
  have hposta : ∀ z ∈ post, z ≠ a := fun z hz e =>
    (List.nodup_cons.mp (List.nodup_middle.mp hnd.1)).1 (by simp [← e, hz])
  have hflpre : ∀ z ∈ fl, ∀ x, pre.getLast? = some x → z ≠ x := fun z hz x hx e =>
    hnd.2.2 (by simp [List.mem_of_getLast?_eq_some hx]) (e ▸ hz)
  have hflpost : ∀ z ∈ fl, ∀ x, post.head? = some x → z ≠ x := fun z hz x hx e =>
    hnd.2.2 (by simp [List.mem_of_mem_head? hx]) (e ▸ hz)
  have hne1 := getLast?_ne_of_nodup pre post a
  have hne2 := head?_ne_of_nodup pre post a
  have hne3 := getLast?_ne_head?_of_nodup pre post a
  unfold list_remove
  simp only [iter_is_end, hit, Option.isNone_some, Bool.false_eq_true, if_false]
  cases hpg : pre.getLast? with
  | none =>
    have hp : pre = [] := List.getLast?_eq_none_iff.mp hpg
    have hr1 : l.root = some a := hr.mpr hp
    rw [hpg] at hpa
    cases hph : post.head? with
    | none =>
      have hq : post = [] := List.head?_eq_none_iff.mp hph
      have hl1 : l.last = some a := hl.mpr hq
      rw [hph] at hna
      simp only [hr1, hl1, hpa, hna, if_true, list.prev_eq]
      refine ⟨_, rfl, ?_, rfl, ⟨rfl, rfl, rfl, rfl⟩, rfl⟩
      subst hp hq
      apply ListInv_delete l _ [] [] fl a h <;>
        simp +contextual [hna, pool_free, internal_pool_push, hflne]
    | some y =>
      have hl1 : l.last ≠ some a := fun e => by
        have := hl.mp e
        rw [this] at hph
        simp at hph
      have hya := hne2 y hnd.1 hph
      rw [hph] at hna
      simp only [hr1, hl1, hpa, hna, if_true, if_false, list.prev_eq]
      refine ⟨_, rfl, ?_, rfl, ⟨rfl, rfl, rfl, rfl⟩, rfl⟩
      have hq : post ≠ [] := fun e => by rw [e] at hph; simp at hph
      have hfly := fun z hz => hflpost z hz y hph
      subst hp
      apply ListInv_delete l _ [] post fl a h <;>
        simp +contextual [hna, hph, pool_free, internal_pool_push, hflne, hya, hq, hfly,
          hposta, Function.update_apply]
      intro z _ h1 h2
      exact absurd h2.symm h1
  | some x =>
    have hp : pre ≠ [] := fun e => by rw [e] at hpg; simp at hpg
    have hr1 : l.root ≠ some a := fun e => hp (hr.mp e)
    have hxa := hne1 x hnd.1 hpg
    rw [hpg] at hpa
    cases hph : post.head? with
    | none =>
      have hq : post = [] := List.head?_eq_none_iff.mp hph
      have hl1 : l.last = some a := hl.mpr hq
      rw [hph] at hna
      simp only [hr1, hl1, hpa, hna, if_true, if_false, list.prev_eq, list.set_next_pool,
        list.set_next_next, Function.update_noteq hxa.symm]
      refine ⟨_, rfl, ?_, rfl, ⟨rfl, rfl, rfl, rfl⟩, rfl⟩
      have hflx := fun z hz => hflpre z hz x hpg
      subst hq
      apply ListInv_delete l _ pre [] fl a h <;>
        simp +contextual [hna, hpg, hph, pool_free, internal_pool_push, hflne, hxa, hp, hflx,
          hprea, Function.update_apply]
      intro z _ h1 h2
      exact absurd h2.symm h1
    | some y =>
      have hl1 : l.last ≠ some a := fun e => by
        have := hl.mp e
        rw [this] at hph
        simp at hph
      have hya := hne2 y hnd.1 hph
      have hxy := hne3 x y hnd.1 hpg hph
      rw [hph] at hna
      simp only [hr1, hl1, hpa, hna, if_true, if_false, list.prev_eq, list.set_next_pool,
        list.set_next_next, Function.update_noteq hxa.symm]
      refine ⟨_, rfl, ?_, rfl, ⟨rfl, rfl, rfl, rfl⟩, rfl⟩
      have hq : post ≠ [] := fun e => by rw [e] at hph; simp at hph
      have hfly := fun z hz => hflpost z hz y hph
      have hflx := fun z hz => hflpre z hz x hpg
      apply ListInv_delete l _ pre post fl a h <;>
        simp +contextual [hna, hpg, hph, pool_free, internal_pool_push, hflne, hxa, hya, hxy,
          hp, hq, hflx, hfly, hprea, hposta, Function.update_apply]
      · intro z _ h1 h2
        exact absurd h2.symm h1
      · intro z hz h1
        have hza : z ≠ a := hz.elim (hprea z) (hposta z)
        simp [hza, Ne.symm h1]

end ListInsert4
section ListPop
variable {D : Type}

/-- `list_pop` on a non-empty list. -/
theorem list_pop_last (l : list D) (pre fl : List Nat) (a : Nat)
    (h : ListInv l (pre ++ [a]) fl) :
    ∃ l2, list_pop l = (l2, list_count l2, some (l.data a)) ∧ ListInv l2 pre (a :: fl) ∧
      l2.data = l.data ∧ l.same_frame l2 ∧ l2.pool.freeable = l.pool.freeable + 1 := by
  have hnd := List.nodup_append.mp h.2.2.2.1
  have hlast : l.last = some a := ListInv_last_snoc h
  have hroot : l.root = (pre ++ [a]).head? := Seg_head _ _ _ h.1
  have hpa := ListInv_prev_mid h
  have hr := head?_append_cons_eq pre [] a hnd.1
  rw [← hroot] at hr
  have hafl : a ∉ fl := fun hx => hnd.2.2 (by simp) hx
  have hflne : ∀ y ∈ fl, y ≠ a := fun y hy e => hafl (e ▸ hy)
  have hprea : ∀ z ∈ pre, z ≠ a := fun z hz e =>
    (List.nodup_cons.mp (List.nodup_middle.mp hnd.1)).1 (by simp [← e, hz])
  have hflpre : ∀ z ∈ fl, ∀ x, pre.getLast? = some x → z ≠ x := fun z hz x hx e =>
    hnd.2.2 (by simp [List.mem_of_getLast?_eq_some hx]) (e ▸ hz)
  unfold list_pop
  simp only [hlast]
  have hpre : pre = pre ++ [] := by simp
  cases hpg : pre.getLast? with
  | none =>
    have hp : pre = [] := List.getLast?_eq_none_iff.mp hpg
    have hr1 : l.root = some a := hr.mpr hp
    rw [hpg] at hpa
    simp only [hr1, hpa, if_true, list.prev_eq]
    refine ⟨_, rfl, ?_, rfl, ⟨rfl, rfl, rfl, rfl⟩, rfl⟩
    subst hp
    apply ListInv_delete l _ [] [] fl a h <;>
      simp +contextual [pool_free, internal_pool_push, hflne]
  | some x =>
    have hp : pre ≠ [] := fun e => by rw [e] at hpg; simp at hpg
    have hr1 : l.root ≠ some a := fun e => hp (hr.mp e)
    have hxa := getLast?_ne_of_nodup pre [] a x hnd.1 hpg
    have hflx := fun z hz => hflpre z hz x hpg
    rw [hpg] at hpa
    simp only [hr1, hpa, if_false, list.prev_eq]
    refine ⟨_, rfl, ?_, rfl, ⟨rfl, rfl, rfl, rfl⟩, rfl⟩
    rw [hpre]
    apply ListInv_delete l _ pre [] fl a h <;>
      simp +contextual [hpg, pool_free, internal_pool_push, hflne, hxa, hp, hflx,
        hprea, Function.update_apply]
    intro z _ h1 h2
    exact absurd h2.symm h1

/-- `list_pop` on an empty list. -/
theorem list_pop_empty (l : list D) (fl : List Nat) (h : ListInv l [] fl) :
    list_pop l = (l, -1, none) := by
  have hlast : l.last = none := h.2.1
  simp [list_pop, hlast]

/-- `list_shift` on a non-empty list. -/
theorem list_shift_first (l : list D) (post fl : List Nat) (a : Nat)
    (h : ListInv l (a :: post) fl) :
    ∃ l2, list_shift l = (l2, list_count l2, some (l.data a)) ∧ ListInv l2 post (a :: fl) ∧
      l2.data = l.data ∧ l.same_frame l2 ∧ l2.pool.freeable = l.pool.freeable + 1 := by
  have h0 : ListInv l ([] ++ a :: post) fl := h
  have hnd := List.nodup_append.mp h.2.2.2.1
  have hroot : l.root = some a := ListInv_root_cons h
  have hlast : l.last = ([] ++ a :: post).getLast? := ListInv_last h
  have hna := ListInv_next_mid h0
  have hl := getLast?_append_cons_eq [] post a hnd.1
  rw [← hlast] at hl
  have hafl : a ∉ fl := fun hx => hnd.2.2 (by simp) hx
  have hflne : ∀ y ∈ fl, y ≠ a := fun y hy e => hafl (e ▸ hy)
  have hposta : ∀ z ∈ post, z ≠ a := fun z hz e =>
    (List.nodup_cons.mp hnd.1).1 (by simp [← e, hz])
  have hflpost : ∀ z ∈ fl, ∀ x, post.head? = some x → z ≠ x := fun z hz x hx e =>
    hnd.2.2 (by simp [List.mem_of_mem_head? hx]) (e ▸ hz)
  unfold list_shift
  simp only [hroot]
  cases hph : post.head? with
  | none =>
    have hq : post = [] := List.head?_eq_none_iff.mp hph
    have hl1 : l.last = some a := hl.mpr hq
    rw [hph] at hna
    simp only [hl1, hna, if_true]
    refine ⟨_, rfl, ?_, rfl, ⟨rfl, rfl, rfl, rfl⟩, rfl⟩
    subst hq
    apply ListInv_delete l _ [] [] fl a h0 <;>
      simp +contextual [hna, pool_free, internal_pool_push, hflne]
  | some y =>
    have hq : post ≠ [] := fun e => by rw [e] at hph; simp at hph
    have hl1 : l.last ≠ some a := fun e => hq (hl.mp e)
    have hya := head?_ne_of_nodup [] post a y hnd.1 hph
    have hfly := fun z hz => hflpost z hz y hph
    rw [hph] at hna
    simp only [hl1, hna, if_false]
    refine ⟨_, rfl, ?_, rfl, ⟨rfl, rfl, rfl, rfl⟩, rfl⟩
    apply ListInv_delete l _ [] post fl a h0 <;>
      simp +contextual [hna, hph, pool_free, internal_pool_push, hflne, hya, hq, hfly,
        hposta, Function.update_apply]
    intro z _ h1 h2
    exact absurd h2.symm h1

/-- `list_shift` on an empty list. -/
theorem list_shift_empty (l : list D) (fl : List Nat) (h : ListInv l [] fl) :
    list_shift l = (l, -1, none) := by
  have hroot : l.root = none := h.1
  simp [list_shift, hroot]

/-- `list_get` in terms of the nodes of the list. -/
theorem list_get_node (l : list D) (ns fl : List Nat) (index : Int) (h : ListInv l ns fl) :
    list_get l index =
      match (if index ≥ 0 then ns.get? index.toNat else ns.getLast?) with
      | none => (-1, none, some Errno.ERANGE)
      | some a => (0, some (l.data a), none) := by
  unfold list_get
  rw [list_get_walk_seg l.next ns l.root index.toNat h.1, ListInv_last h]
  rfl

end ListPop

section ListMore
variable {D : Type}

theorem map_update_of_not_mem (f : Nat → D) (a : Nat) (d : D) (ns : List Nat) (h : a ∉ ns) :
    ns.map (Function.update f a d) = ns.map f := by
  apply List.map_congr_left
  intro x hx
  rw [Function.update_noteq]
  rintro rfl
  exact h hx

theorem ListInv_not_mem_of_free {l : list D} {ns t : List Nat} {a : Nat}
    (h : ListInv l ns (a :: t)) : a ∉ ns := fun hx =>
  (List.nodup_append.mp h.2.2.2.1).2.2 hx (List.mem_cons_self a t)

/-- What `list_init` returns when it succeeds: no node, every cell on the free list.  The
cells have the size that `list_init` computed. -/
theorem list_init_ok_inv (mem : Nat) (zero : D) (data_bytes capacity : Nat) (l : list D)
    (h : list_init mem zero data_bytes capacity = Except.ok l) :
    0 < data_bytes ∧ 0 < capacity ∧
      ListInv l [] (pool_cells mem ((sizeof_list_node + data_bytes) % 2 ^ 64) capacity).reverse ∧
      l.pool.capacity = capacity ∧ l.data_bytes = data_bytes ∧ l.pool.mem = mem ∧
      l.pool.data_bytes = (sizeof_list_node + data_bytes) % 2 ^ 64 := by
  have hd : 0 < data_bytes ∧ 0 < capacity := by
    by_contra hc
    have : data_bytes = 0 ∨ capacity = 0 := by omega
    simp [list_init, this] at h
  generalize hnb : (sizeof_list_node + data_bytes) % 2 ^ 64 = nb
  unfold list_init at h
  rw [if_neg (by omega), hnb] at h
  unfold pool_init at h
  by_cases hz : nb = 0 ∨ capacity = 0
  · rw [if_pos hz] at h
    exact absurd h (by simp)
  rw [if_neg hz] at h
  simp only [Except.ok.injEq] at h
  subst h
  obtain ⟨h1, h2, h3, h4, h5⟩ := setup_spec
    (POOL_INITIALIZER mem nb capacity (fun _ => none)) mem nb capacity
  refine ⟨hd.1, hd.2, ⟨rfl, rfl, h1, ?_, ?_⟩, h4, rfl, h2, h3⟩
  · simpa using pool_cells_nodup mem nb capacity
  · simp only [LIST_INITIALIZER]
    rw [h5]
    simp [pool_cells_length]

/-- The function `list_init` succeeds on non-zero arguments when the size of a node does not
wrap. -/
theorem list_init_succeeds (mem : Nat) (zero : D) (data_bytes capacity : Nat)
    (hd : 0 < data_bytes) (hc : 0 < capacity) (hb : sizeof_list_node + data_bytes < 2 ^ 64) :
    ∃ l : list D, list_init mem zero data_bytes capacity = Except.ok l := by
  unfold list_init pool_init
  rw [if_neg (by omega), Nat.mod_eq_of_lt hb, if_neg (by omega)]
  exact ⟨_, rfl⟩

/-- A list right after `list_init`: no node, every cell on the free list. -/
theorem list_init_inv (mem : Nat) (zero : D) (data_bytes capacity : Nat)
    (hd : 0 < data_bytes) (hc : 0 < capacity) (hb : sizeof_list_node + data_bytes < 2 ^ 64) :
    ∃ l : list D, list_init mem zero data_bytes capacity = Except.ok l ∧
      ListInv l [] (pool_cells mem (sizeof_list_node + data_bytes) capacity).reverse ∧
      l.pool.capacity = capacity ∧ l.data_bytes = data_bytes := by
  obtain ⟨l, h⟩ := list_init_succeeds mem zero data_bytes capacity hd hc hb
  obtain ⟨_, _, h1, h2, h3, _⟩ := list_init_ok_inv mem zero data_bytes capacity l h
  rw [Nat.mod_eq_of_lt hb] at h1
  exact ⟨l, h, h1, h2, h3⟩

theorem list_count_eq {l : list D} {ns fl : List Nat} (h : ListInv l ns fl)
    (hc : l.pool.capacity = ns.length + fl.length) : list_count l = (ns.length : Nat) := by
  simp only [list_count, pool_capacity, pool_freeable, h.2.2.2.2, hc]
  push_cast
  omega

end ListMore

theorem get?_split {α : Type} (ns : List α) (i : Nat) (a : α) (h : ns.get? i = some a) :
    ns = ns.take i ++ a :: ns.drop (i + 1) := by
  induction ns generalizing i with
  | nil => simp at h
  | cons x t ih =>
    cases i with
    | zero =>
      simp only [List.get?_cons_zero, Option.some.injEq] at h
      simp [h]
    | succ j =>
      simp only [List.get?_cons_succ] at h
      simp only [List.take_succ_cons, List.drop_succ_cons, List.cons_append, List.cons.injEq,
        true_and]
      exact ih j h

theorem lt_length_of_get? {α : Type} (ns : List α) (i : Nat) (a : α)
    (h : ns.get? i = some a) : i < ns.length := by
  by_contra hc
  rw [List.get?_eq_none.mpr (by omega)] at h
  exact absurd h (by simp)


section ListWFLemmas
variable {D : Type}

theorem ListWF_count {l : list D} {ns fl : List Nat} {xs : List D} (h : ListWF l ns fl xs) :
    list_count l = (xs.length : Nat) := by
  rw [list_count_eq h.1.1 h.2, ← h.1.2]
  simp

theorem ListWF_length {l : list D} {ns fl : List Nat} {xs : List D} (h : ListWF l ns fl xs) :
    xs.length = ns.length := by
  rw [← h.1.2]; simp

/-- A list right after `list_init` holds nothing and has `capacity` free cells. -/
theorem list_init_wf (mem : Nat) (zero : D) (data_bytes capacity : Nat)
    (hd : 0 < data_bytes) (hc : 0 < capacity) (hb : sizeof_list_node + data_bytes < 2 ^ 64) :
    ∃ (l : list D) (fl : List Nat), list_init mem zero data_bytes capacity = Except.ok l ∧
      ListWF l [] fl [] ∧ l.pool.capacity = capacity := by
  obtain ⟨l, h1, h2, h3, _⟩ := list_init_inv mem zero data_bytes capacity hd hc hb
  refine ⟨l, _, h1, ⟨⟨h2, rfl⟩, ?_⟩, h3⟩
  rw [h3]
  simp [pool_cells_length]

/-- A list that `list_init` returned holds nothing and has `capacity` free cells. -/
theorem list_init_ok_wf (mem : Nat) (zero : D) (data_bytes capacity : Nat) (l : list D)
    (h : list_init mem zero data_bytes capacity = Except.ok l) :
    ∃ fl : List Nat, ListWF l [] fl [] ∧ l.pool.capacity = capacity := by
  obtain ⟨_, _, h2, h3, _⟩ := list_init_ok_inv mem zero data_bytes capacity l h
  refine ⟨_, ⟨⟨h2, rfl⟩, ?_⟩, h3⟩
  rw [h3]
  simp [pool_cells_length]

/-- `list_push` on a list that is not full. -/
theorem ListWF_push (l : list D) (ns fl : List Nat) (xs : List D) (d : D)
    (h : ListWF l ns fl xs) (hroom : xs.length < l.pool.capacity) :
    ∃ l2 a t, fl = a :: t ∧ list_push l d = some (l2, some a, none) ∧
      ListWF l2 (ns ++ [a]) t (xs ++ [d]) ∧ l2.pool.capacity = l.pool.capacity ∧
      l2.data a = d := by
  have hlen := ListWF_length h
  obtain ⟨⟨hinv, hxs⟩, hcap⟩ := h
  cases fl with
  | nil => simp only [List.length_nil] at hcap; omega
  | cons a t =>
    obtain ⟨l2, h2, h3, h4, h5⟩ := list_insert_neg l ns t a d (-1) hinv (by decide)
    have han := ListInv_not_mem_of_free hinv
    refine ⟨l2, a, t, rfl, h2, ⟨⟨h3, ?_⟩, ?_⟩, h5.2.1, by rw [h4]; simp⟩
    · rw [h4, List.map_append, List.map_cons, List.map_nil, Function.update_same,
        map_update_of_not_mem _ _ _ _ han, hxs]
    · rw [h5.2.1, hcap]
      simp only [List.length_append, List.length_cons, List.length_nil]
      omega

/-- `list_unshift` on a list that is not full. -/
theorem ListWF_unshift (l : list D) (ns fl : List Nat) (xs : List D) (d : D)
    (h : ListWF l ns fl xs) (hroom : xs.length < l.pool.capacity) :
    ∃ l2 a t, fl = a :: t ∧ list_unshift l d = some (l2, some a, none) ∧
      ListWF l2 (a :: ns) t (d :: xs) ∧ l2.pool.capacity = l.pool.capacity ∧
      l2.data a = d := by
  have hlen := ListWF_length h
  obtain ⟨⟨hinv, hxs⟩, hcap⟩ := h
  cases fl with
  | nil => simp only [List.length_nil] at hcap; omega
  | cons a t =>
    obtain ⟨l2, h2, h3, h4, h5⟩ := list_insert_at l [] ns t a d 0 hinv rfl
    have han := ListInv_not_mem_of_free hinv
    refine ⟨l2, a, t, rfl, h2, ⟨⟨h3, ?_⟩, ?_⟩, h5.2.1, by rw [h4]; simp⟩
    · rw [h4]
      simp only [List.nil_append, List.map_cons, Function.update_same]
      rw [map_update_of_not_mem _ _ _ _ han, hxs]
    · rw [h5.2.1, hcap]
      simp only [List.nil_append, List.length_cons]
      omega

/-- `list_pop` on a non-empty list. -/
theorem ListWF_pop (l : list D) (pre fl : List Nat) (a : Nat) (xs : List D)
    (h : ListWF l (pre ++ [a]) fl xs) :
    ∃ l2, list_pop l = (l2, ((xs.dropLast.length : Nat) : Int), some (l.data a)) ∧
      ListWF l2 pre (a :: fl) xs.dropLast ∧ l2.pool.capacity = l.pool.capacity ∧
      xs.getLast? = some (l.data a) := by
  obtain ⟨⟨hinv, hxs⟩, hcap⟩ := h
  obtain ⟨l2, h1, h2, h3, h4, _⟩ := list_pop_last l pre fl a hinv
  have hx2 : pre.map l2.data = xs.dropLast := by
    rw [h3, ← hxs]; simp
  have hwf : ListWF l2 pre (a :: fl) xs.dropLast := by
    refine ⟨⟨h2, hx2⟩, ?_⟩
    rw [h4.2.1, hcap]
    simp only [List.length_append, List.length_cons, List.length_nil]
    omega
  refine ⟨l2, ?_, hwf, h4.2.1, ?_⟩
  · rw [h1, ListWF_count hwf]
  · rw [← hxs]; simp

/-- `list_shift` on a non-empty list. -/
theorem ListWF_shift (l : list D) (post fl : List Nat) (a : Nat) (xs : List D)
    (h : ListWF l (a :: post) fl xs) :
    ∃ l2, list_shift l = (l2, ((xs.tail.length : Nat) : Int), some (l.data a)) ∧
      ListWF l2 post (a :: fl) xs.tail ∧ l2.pool.capacity = l.pool.capacity ∧
      xs.head? = some (l.data a) := by
  obtain ⟨⟨hinv, hxs⟩, hcap⟩ := h
  obtain ⟨l2, h1, h2, h3, h4, _⟩ := list_shift_first l post fl a hinv
  have hx2 : post.map l2.data = xs.tail := by
    rw [h3, ← hxs]; simp
  have hwf : ListWF l2 post (a :: fl) xs.tail := by
    refine ⟨⟨h2, hx2⟩, ?_⟩
    rw [h4.2.1, hcap]
    simp only [List.length_cons]
    omega
  refine ⟨l2, ?_, hwf, h4.2.1, ?_⟩
  · rw [h1, ListWF_count hwf]
  · rw [← hxs]; simp

theorem ListWF_nil_of_nil {l : list D} {ns fl : List Nat} (h : ListWF l ns fl []) : ns = [] :=
  List.length_eq_zero.mp (by rw [← ListWF_length h]; rfl)

end ListWFLemmas

section ListRun
variable {D : Type}

theorem deque_within_length (c : Nat) (xs : List D) (ops : List (ListOp D))
    (h : deque_within c xs ops) : xs.length ≤ c := by
  cases ops with
  | nil => exact h
  | cons op ops => exact h.1

theorem fifo_within_length (c : Nat) (xs : List D) (ops : List (QueueOp D))
    (h : fifo_within c xs ops) : xs.length ≤ c := by
  cases ops with
  | nil => exact h
  | cons op ops => exact h.1

/-- One call on the list does what the abstract sequence does. -/
theorem list_step_refines (l : list D) (ns fl : List Nat) (xs : List D) (op : ListOp D)
    (h : ListWF l ns fl xs) (hroom : (deque_step xs op).1.length ≤ l.pool.capacity) :
    ∃ l2 ns2 fl2, list_step l op = some (l2, (deque_step xs op).2) ∧
      ListWF l2 ns2 fl2 (deque_step xs op).1 ∧ l2.pool.capacity = l.pool.capacity := by
  cases op with
  | push d =>
    simp only [deque_step, List.length_append, List.length_cons, List.length_nil] at hroom ⊢
    obtain ⟨l2, a, t, _, h2, h3, h4, _⟩ := ListWF_push l ns fl xs d h (by omega)
    exact ⟨l2, _, t, by simp [list_step, h2], h3, h4⟩
  | unshift d =>
    simp only [deque_step, List.length_cons] at hroom ⊢
    obtain ⟨l2, a, t, _, h2, h3, h4, _⟩ := ListWF_unshift l ns fl xs d h (by omega)
    exact ⟨l2, _, t, by simp [list_step, h2], h3, h4⟩
  | pop =>
    rcases List.eq_nil_or_concat ns with hp | ⟨pre, a, hp⟩
    · subst hp
      have hx : xs = [] := by rw [← h.1.2]; rfl
      subst hx
      refine ⟨l, [], fl, ?_, h, rfl⟩
      simp [list_step, deque_step, list_pop_empty l fl h.1.1]
    · rw [List.concat_eq_append] at hp
      subst hp
      obtain ⟨l2, h1, h2, h3, h4⟩ := ListWF_pop l pre fl a xs h
      refine ⟨l2, pre, a :: fl, ?_, ?_, h3⟩
      · simp [list_step, deque_step, h1, h4]
      · simpa [deque_step, h4] using h2
  | shift =>
    cases ns with
    | nil =>
      have hx : xs = [] := by rw [← h.1.2]; rfl
      subst hx
      refine ⟨l, [], fl, ?_, h, rfl⟩
      simp [list_step, deque_step, list_shift_empty l fl h.1.1]
    | cons a post =>
      obtain ⟨l2, h1, h2, h3, h4⟩ := ListWF_shift l post fl a xs h
      cases xs with
      | nil => simp at h4
      | cons x t =>
        simp only [List.head?_cons, Option.some.injEq] at h4
        refine ⟨l2, post, a :: fl, ?_, ?_, h3⟩
        · simp [list_step, deque_step, h1, h4]
        · simpa [deque_step] using h2

/-- A sequence of calls on the list does what the abstract sequence does. -/
theorem list_run_refines (l : list D) (ns fl : List Nat) (xs : List D) (ops : List (ListOp D))
    (h : ListWF l ns fl xs) (hw : deque_within l.pool.capacity xs ops) :
    ∃ l2 ns2 fl2, list_run l ops = some (l2, (deque_run xs ops).2) ∧
      ListWF l2 ns2 fl2 (deque_run xs ops).1 ∧ l2.pool.capacity = l.pool.capacity := by
  induction ops generalizing l ns fl xs with
  | nil => exact ⟨l, ns, fl, rfl, h, rfl⟩
  | cons op ops ih =>
    have hroom := deque_within_length _ _ _ hw.2
    obtain ⟨l2, ns2, fl2, h1, h2, h3⟩ := list_step_refines l ns fl xs op h hroom
    have hw2 : deque_within l2.pool.capacity (deque_step xs op).1 ops := by
      rw [h3]; exact hw.2
    obtain ⟨l3, ns3, fl3, h4, h5, h6⟩ := ih l2 ns2 fl2 _ h2 hw2
    refine ⟨l3, ns3, fl3, ?_, h5, h6.trans h3⟩
    simp [list_run, h1, h4, deque_run]

theorem deque_run_append (xs : List D) (o1 o2 : List (ListOp D)) :
    deque_run xs (o1 ++ o2) =
      ((deque_run (deque_run xs o1).1 o2).1,
        (deque_run xs o1).2 ++ (deque_run (deque_run xs o1).1 o2).2) := by
  induction o1 generalizing xs with
  | nil => simp [deque_run]
  | cons op o1 ih => simp [deque_run, ih]

theorem deque_within_append (c : Nat) (xs : List D) (o1 o2 : List (ListOp D))
    (h1 : deque_within c xs o1) (h2 : deque_within c (deque_run xs o1).1 o2) :
    deque_within c xs (o1 ++ o2) := by
  induction o1 generalizing xs with
  | nil => simpa [deque_run] using h2
  | cons op o1 ih =>
    exact ⟨h1.1, ih _ h1.2 (by simpa [deque_run] using h2)⟩

theorem deque_run_push (xs ys : List D) :
    deque_run xs (ys.map ListOp.push) = (xs ++ ys, ys.map (fun _ => ListObs.stored true)) := by
  induction ys generalizing xs with
  | nil => simp [deque_run]
  | cons y t ih => simp [deque_run, deque_step, ih]

theorem deque_within_push (c : Nat) (xs ys : List D) (h : xs.length + ys.length ≤ c) :
    deque_within c xs (ys.map ListOp.push) := by
  induction ys generalizing xs with
  | nil => simpa [deque_within] using h
  | cons y t ih =>
    simp only [List.length_cons] at h
    refine ⟨by omega, ?_⟩
    apply ih
    simp [deque_step]
    omega

theorem deque_run_unshift (xs ys : List D) :
    deque_run xs (ys.map ListOp.unshift)
      = (ys.reverse ++ xs, ys.map (fun _ => ListObs.stored true)) := by
  induction ys generalizing xs with
  | nil => simp [deque_run]
  | cons y t ih => simp [deque_run, deque_step, ih]

theorem deque_within_unshift (c : Nat) (xs ys : List D) (h : xs.length + ys.length ≤ c) :
    deque_within c xs (ys.map ListOp.unshift) := by
  induction ys generalizing xs with
  | nil => simpa [deque_within] using h
  | cons y t ih =>
    simp only [List.length_cons] at h
    refine ⟨by omega, ?_⟩
    apply ih
    simp [deque_step]
    omega

theorem deque_run_shift (xs : List D) :
    deque_run xs (List.replicate xs.length ListOp.shift) = ([], drain_obs xs) := by
  induction xs with
  | nil => simp [deque_run, drain_obs, drain_results]
  | cons x t ih =>
    simp only [List.length_cons, List.replicate_succ, deque_run, deque_step, ih]
    simp [drain_obs, drain_results]

theorem deque_within_shift (c : Nat) (xs : List D) (h : xs.length ≤ c) :
    deque_within c xs (List.replicate xs.length ListOp.shift) := by
  induction xs with
  | nil => simp [deque_within]
  | cons x t ih =>
    simp only [List.length_cons] at h
    exact ⟨by simp; omega, ih (by omega)⟩

theorem getLast?_concat_eq_gen (t : List D) (y : D) : (t ++ [y]).getLast? = some y := by
  simp

theorem deque_step_pop_concat (t : List D) (y : D) :
    deque_step (t ++ [y]) ListOp.pop = (t, ListObs.removed ((t.length : Nat) : Int) (some y)) := by
  simp [deque_step]

theorem deque_run_pop (ys : List D) :
    deque_run ys.reverse (List.replicate ys.length ListOp.pop) = ([], drain_obs ys) := by
  induction ys with
  | nil => simp [deque_run, drain_obs, drain_results]
  | cons y t ih =>
    simp only [List.length_cons, List.replicate_succ, deque_run, List.reverse_cons,
      deque_step_pop_concat, ih]
    simp [drain_obs, drain_results]

theorem deque_within_pop (c : Nat) (ys : List D) (h : ys.length ≤ c) :
    deque_within c ys.reverse (List.replicate ys.length ListOp.pop) := by
  induction ys with
  | nil => simp [deque_within]
  | cons y t ih =>
    simp only [List.length_cons] at h
    refine ⟨by simpa using h, ?_⟩
    simp only [List.reverse_cons, deque_step_pop_concat]
    exact ih (by omega)

/-- One call on the queue does what the abstract FIFO does. -/
theorem queue_step_refines (q : list D) (ns fl : List Nat) (xs : List D) (op : QueueOp D)
    (h : ListWF q ns fl xs) (hroom : (fifo_step xs op).1.length ≤ q.pool.capacity) :
    ∃ q2 ns2 fl2, queue_step q op = some (q2, (fifo_step xs op).2) ∧
      ListWF q2 ns2 fl2 (fifo_step xs op).1 ∧ q2.pool.capacity = q.pool.capacity := by
  cases op with
  | enq d =>
    simp only [fifo_step, List.length_append, List.length_cons, List.length_nil] at hroom ⊢
    obtain ⟨q2, a, t, _, h2, h3, h4, _⟩ := ListWF_push q ns fl xs d h (by omega)
    refine ⟨q2, _, t, ?_, h3, h4⟩
    have hc := ListWF_count h3
    simp only [List.length_append, List.length_cons, List.length_nil] at hc
    simp [queue_step, queue_enq, queue_count, h2, hc]
  | deq =>
    cases ns with
    | nil =>
      have hx : xs = [] := by rw [← h.1.2]; rfl
      subst hx
      refine ⟨q, [], fl, ?_, h, rfl⟩
      have hc := ListWF_count h
      simp only [List.length_nil] at hc
      simp [queue_step, queue_deq, queue_count, fifo_step, list_shift_empty q fl h.1.1, hc]
    | cons a post =>
      obtain ⟨q2, h1, h2, h3, h4⟩ := ListWF_shift q post fl a xs h
      cases xs with
      | nil => simp at h4
      | cons x t =>
        simp only [List.head?_cons, Option.some.injEq] at h4
        have hc := ListWF_count h2
        simp only [List.tail_cons] at hc h1 h2
        refine ⟨q2, post, a :: fl, ?_, ?_, h3⟩
        · simp [queue_step, queue_deq, queue_count, fifo_step, h1, h4, hc]
        · simpa [fifo_step] using h2

/-- A sequence of calls on the queue does what the abstract FIFO does. -/
theorem queue_run_refines (q : list D) (ns fl : List Nat) (xs : List D)
    (ops : List (QueueOp D)) (h : ListWF q ns fl xs)
    (hw : fifo_within q.pool.capacity xs ops) :
    ∃ q2 ns2 fl2, queue_run q ops = some (q2, (fifo_run xs ops).2) ∧
      ListWF q2 ns2 fl2 (fifo_run xs ops).1 ∧ q2.pool.capacity = q.pool.capacity := by
  induction ops generalizing q ns fl xs with
  | nil => exact ⟨q, ns, fl, rfl, h, rfl⟩
  | cons op ops ih =>
    have hroom := fifo_within_length _ _ _ hw.2
    obtain ⟨q2, ns2, fl2, h1, h2, h3⟩ := queue_step_refines q ns fl xs op h hroom
    have hw2 : fifo_within q2.pool.capacity (fifo_step xs op).1 ops := by
      rw [h3]; exact hw.2
    obtain ⟨q3, ns3, fl3, h4, h5, h6⟩ := ih q2 ns2 fl2 _ h2 hw2
    refine ⟨q3, ns3, fl3, ?_, h5, h6.trans h3⟩
    simp [queue_run, h1, h4, fifo_run]

/-- Pushing `ys` on a stack that has room for them. -/
theorem stack_push_all_wf (s : list D) (ns fl : List Nat) (xs ys : List D)
    (h : ListWF s ns fl xs) (hroom : xs.length + ys.length ≤ s.pool.capacity) :
    ∃ s2 ns2 fl2, stack_push_all s ys = some s2 ∧ ListWF s2 ns2 fl2 (xs ++ ys) ∧
      s2.pool.capacity = s.pool.capacity := by
  induction ys generalizing s ns fl xs with
  | nil => exact ⟨s, ns, fl, rfl, by simpa using h, rfl⟩
  | cons y t ih =>
    simp only [List.length_cons] at hroom
    obtain ⟨s2, a, fl2, _, h2, h3, h4, _⟩ := ListWF_push s ns fl xs y h (by omega)
    obtain ⟨s3, ns3, fl3, h5, h6, h7⟩ := ih s2 _ fl2 (xs ++ [y]) h3 (by
      rw [h4]; simp only [List.length_append, List.length_cons, List.length_nil]; omega)
    refine ⟨s3, ns3, fl3, ?_, by simpa using h6, h7.trans h4⟩
    simp [stack_push_all, stack_push, h2, h5]

/-- Popping everything off a stack that holds the reverse of `ys`. -/
theorem stack_pop_n_wf (s : list D) (ns fl : List Nat) (ys : List D)
    (h : ListWF s ns fl ys.reverse) :
    (stack_pop_n ys.length s).2 = drain_results ys ∧
      ∃ fl2, ListWF (stack_pop_n ys.length s).1 [] fl2 [] := by
  induction ys generalizing s ns fl with
  | nil =>
    have hn := ListWF_nil_of_nil h
    subst hn
    exact ⟨rfl, fl, h⟩
  | cons y t ih =>
    rcases List.eq_nil_or_concat ns with hp | ⟨pre, a, hp⟩
    · subst hp
      have := ListWF_length h
      simp at this
    · rw [List.concat_eq_append] at hp
      subst hp
      obtain ⟨s2, h1, h2, h3, h4⟩ := ListWF_pop s pre fl a _ h
      simp only [List.reverse_cons, List.dropLast_concat, getLast?_concat_eq_gen,
        Option.some.injEq] at h1 h2 h4
      obtain ⟨h5, fl2, h6⟩ := ih s2 pre (a :: fl) h2
      refine ⟨?_, ?_⟩
      · simp only [List.length_cons, stack_pop_n, stack_pop, h1, List.length_reverse, h5,
          drain_results, ← h4]
      · simp only [List.length_cons, stack_pop_n, stack_pop, h1]
        exact ⟨fl2, h6⟩

end ListRun

section SetIter
variable {D : Type}

theorem list_iter_eq (l : list D) : (list_iter l).1 = list_iter_at l l.root := by
  unfold list_iter list_iter_at
  cases l.root <;> rfl

theorem iter_next_list_iter_at (l : list D) (a : Nat) :
    iter_next (list_iter_at l (some a)) = some (list_iter_at l (l.next a), none) := by
  unfold iter_next list_iter_at
  simp only [list_iter_next]
  cases l.next a <;> rfl

/-- A set right after `set_clear`. -/
theorem list_clear_wf (s : list D) :
    ListWF (list_clear s).1 []
      (pool_cells s.pool.mem s.pool.data_bytes s.pool.capacity).reverse [] := by
  obtain ⟨h1, _, _, h4, h5⟩ := setup_spec s.pool s.pool.mem s.pool.data_bytes s.pool.capacity
  refine ⟨⟨⟨rfl, rfl, h1, ?_, ?_⟩, rfl⟩, ?_⟩
  · simpa using pool_cells_nodup _ _ _
  · simp only [list_clear, pool_clear]
    rw [h5]
    simp [pool_cells_length]
  · simp only [list_clear, pool_clear]
    rw [h4]
    simp [pool_cells_length]

end SetIter

section SetLemmas
variable {D : Type} [DecidableEq D]

/-- The loop of `set_add` finds the first node whose payload equals `data`. -/
theorem set_add_loop_seg (l : list D) (d : D) (ns : List Nat) (p : Ptr) (fuel : Nat)
    (h : Seg l.next p ns none) (hfuel : ns.length < fuel) :
    set_add_loop l d fuel (list_iter_at l p)
      = some (ns.find? (fun a => decide (d = l.data a))) := by
  induction ns generalizing p fuel with
  | nil =>
    simp only [Seg] at h
    subst h
    cases fuel with
    | zero => omega
    | succ k => simp [set_add_loop, list_iter_at, iter_is_end, NULL_ITER]
  | cons a t ih =>
    obtain ⟨h1, h2⟩ := h
    subst h1
    cases fuel with
    | zero => omega
    | succ k =>
      simp only [List.length_cons, Nat.add_lt_add_iff_right] at hfuel
      have hne : iter_is_end (list_iter_at l (some a)) = false := rfl
      have hdata : iter_data (list_iter_at l (some a)) = some (some a, none) := rfl
      rw [set_add_loop]
      simp only [hne, hdata, Bool.false_eq_true, if_false, iter_next_list_iter_at]
      by_cases hd : d = l.data a
      · simp [hd]
      · simp only [hd, if_false, List.find?_cons, decide_False]
        exact ih _ k h2 hfuel

/-- Whatever the budget, a result of the loop of `set_add` is the first node whose payload
equals `data`. -/
theorem set_add_loop_sound (l : list D) (d : D) (ns : List Nat) (p : Ptr) (fuel : Nat)
    (r : Option Nat) (h : Seg l.next p ns none)
    (hr : set_add_loop l d fuel (list_iter_at l p) = some r) :
    r = ns.find? (fun a => decide (d = l.data a)) := by
  induction fuel generalizing ns p with
  | zero => simp [set_add_loop] at hr
  | succ k ih =>
    cases ns with
    | nil =>
      simp only [Seg] at h
      subst h
      simp [set_add_loop, list_iter_at, iter_is_end, NULL_ITER] at hr
      simp [← hr]
    | cons a t =>
      obtain ⟨h1, h2⟩ := h
      subst h1
      have hne : iter_is_end (list_iter_at l (some a)) = false := rfl
      have hdata : iter_data (list_iter_at l (some a)) = some (some a, none) := rfl
      rw [set_add_loop] at hr
      simp only [hne, hdata, Bool.false_eq_true, if_false, iter_next_list_iter_at] at hr
      by_cases hd : d = l.data a
      · simp only [hd, if_true, Option.some.injEq] at hr
        simp [hd, ← hr]
      · simp only [hd, if_false] at hr
        simp only [List.find?_cons, hd, decide_False]
        exact ih t _ h2 hr

theorem find?_data_none (l : list D) (d : D) (ns : List Nat) (h : d ∉ ns.map l.data) :
    ns.find? (fun a => decide (d = l.data a)) = none := by
  rw [List.find?_eq_none]
  intro a ha
  simp only [decide_eq_true_eq]
  intro e
  exact h (by rw [e]; exact List.mem_map_of_mem _ ha)

theorem find?_data_some (l : list D) (d : D) (ns : List Nat) (h : d ∈ ns.map l.data) :
    ∃ a, ns.find? (fun a => decide (d = l.data a)) = some a ∧ l.data a = d ∧ a ∈ ns := by
  cases hf : ns.find? (fun a => decide (d = l.data a)) with
  | none =>
    rw [List.find?_eq_none] at hf
    obtain ⟨a, ha, hda⟩ := List.mem_map.mp h
    exact absurd (by simp [hda]) (hf a ha)
  | some a =>
    have h1 := List.find?_some hf
    have h2 := List.mem_of_find?_eq_some hf
    simp only [decide_eq_true_eq] at h1
    exact ⟨a, rfl, h1.symm, h2⟩

/-- `set_add` of a payload that is stored: nothing changes. -/
theorem set_add_found (s : list D) (ns fl : List Nat) (d : D) (fuel : Nat) (a : Nat)
    (h : ListInv s ns fl) (hfuel : ns.length < fuel)
    (ha : ns.find? (fun a => decide (d = s.data a)) = some a) :
    set_add fuel s d = some (s, some a, none) := by
  have hroot : s.root ≠ none := by
    intro e
    have h1 := h.1
    rw [e] at h1
    rw [Seg_none_nil _ _ h1] at ha
    simp at ha
  unfold set_add
  rw [list_iter_eq, set_add_loop_seg s d ns s.root fuel h.1 hfuel, ha]
  obtain ⟨r, hr⟩ := Option.ne_none_iff_exists.mp hroot
  simp [list_iter, ← hr]

/-- `set_add` of a payload that is not stored is `list_insert` at the tail. -/
theorem set_add_fresh (s : list D) (ns fl : List Nat) (d : D) (fuel : Nat)
    (h : ListInv s ns fl) (hfuel : ns.length < fuel)
    (ha : ns.find? (fun a => decide (d = s.data a)) = none) :
    set_add fuel s d = (list_insert s (-1) d).map
      (fun r => (r.1, r.2.1, if r.2.2.isSome then r.2.2 else (list_iter s).2)) := by
  unfold set_add
  rw [list_iter_eq, set_add_loop_seg s d ns s.root fuel h.1 hfuel, ha]
  cases list_insert s (-1) d with
  | none => rfl
  | some r => rfl

end SetLemmas

/-! ## Lemmas: abstract forests and their representation -/

theorem BT.mem_pre_self (x : Nat) (c s : BT) : x ∈ (BT.node x c s).pre := by
  simp [BT.pre]

theorem BT.mem_pre_of_child {y : Nat} (x : Nat) {c : BT} (s : BT) (h : y ∈ c.pre) :
    y ∈ (BT.node x c s).pre := by
  simp only [BT.pre, List.mem_cons, List.mem_append]
  exact Or.inr (Or.inl h)

theorem BT.mem_pre_of_sib {y : Nat} (x : Nat) (c : BT) {s : BT} (h : y ∈ s.pre) :
    y ∈ (BT.node x c s).pre := by
  simp only [BT.pre, List.mem_cons, List.mem_append]
  exact Or.inr (Or.inr h)

theorem BT.sibs_subset_pre (b : BT) : ∀ x ∈ b.sibs, x ∈ b.pre := by
  induction b with
  | nil => simp [BT.sibs]
  | node a c s _ ihs =>
    intro x hx
    simp only [BT.sibs, List.mem_cons] at hx
    simp only [BT.pre, List.mem_cons, List.mem_append]
    rcases hx with hx | hx
    · exact Or.inl hx
    · exact Or.inr (Or.inr (ihs x hx))

theorem BT.pre_append_sib (b : BT) (a : Nat) : (b.append_sib a).pre = b.pre ++ [a] := by
  induction b with
  | nil => simp [BT.append_sib, BT.pre]
  | node x c s _ ihs => simp [BT.append_sib, BT.pre, ihs]

theorem BT.sibs_append_sib (b : BT) (a : Nat) : (b.append_sib a).sibs = b.sibs ++ [a] := by
  induction b with
  | nil => simp [BT.append_sib, BT.sibs]
  | node x c s _ ihs => simp [BT.append_sib, BT.sibs, ihs]

theorem BT.add_child_of_not_mem (b : BT) (p a : Nat) (h : p ∉ b.pre) :
    b.add_child p a = b := by
  induction b with
  | nil => rfl
  | node x c s ihc ihs =>
    simp only [BT.pre, List.mem_cons, List.mem_append, not_or] at h
    simp only [BT.add_child, if_neg (Ne.symm h.1), ihc h.2.1, ihs h.2.2]

theorem BT.children_of_not_mem (b : BT) (p : Nat) (h : p ∉ b.pre) : b.children p = [] := by
  induction b with
  | nil => rfl
  | node x c s ihc ihs =>
    simp only [BT.pre, List.mem_cons, List.mem_append, not_or] at h
    simp only [BT.children, if_neg (Ne.symm h.1), ihc h.2.1, ihs h.2.2, List.append_nil]

theorem BT.children_subset_pre (b : BT) (p : Nat) : ∀ x ∈ b.children p, x ∈ b.pre := by
  induction b with
  | nil => simp [BT.children]
  | node a c s ihc ihs =>
    intro x hx
    simp only [BT.pre, List.mem_cons, List.mem_append]
    by_cases ha : a = p
    · simp only [BT.children, if_pos ha] at hx
      exact Or.inr (Or.inl (BT.sibs_subset_pre c x hx))
    · simp only [BT.children, if_neg ha, List.mem_append] at hx
      rcases hx with hx | hx
      · exact Or.inr (Or.inl (ihc x hx))
      · exact Or.inr (Or.inr (ihs x hx))

theorem BT.pre_nodup_node {a : Nat} {c s : BT} (h : (BT.node a c s).pre.Nodup) :
    a ∉ c.pre ∧ a ∉ s.pre ∧ c.pre.Nodup ∧ s.pre.Nodup ∧ ∀ x ∈ c.pre, x ∉ s.pre := by
  simp only [BT.pre, List.nodup_cons, List.mem_append, not_or, List.nodup_append] at h
  exact ⟨h.1.1, h.1.2, h.2.1, h.2.2.1, fun x hx hx2 => h.2.2.2 hx hx2⟩

theorem BT.pre_add_child_perm (b : BT) (p a : Nat) (hp : p ∈ b.pre) (hnd : b.pre.Nodup) :
    (b.add_child p a).pre.Perm (a :: b.pre) := by
  induction b with
  | nil => simp [BT.pre] at hp
  | node x c s ihc ihs =>
    obtain ⟨h1, h2, h3, h4, h5⟩ := BT.pre_nodup_node hnd
    by_cases hx : x = p
    · simp only [BT.add_child, if_pos hx, BT.pre, BT.pre_append_sib]
      have e : x :: (c.pre ++ [a] ++ s.pre) = x :: (c.pre ++ a :: s.pre) := by simp
      rw [e]
      exact (List.Perm.cons x List.perm_middle).trans (List.Perm.swap a x _)
    · simp only [BT.add_child, if_neg hx, BT.pre]
      simp only [BT.pre, List.mem_cons, List.mem_append] at hp
      rcases hp with hp | hp | hp
      · exact absurd hp.symm hx
      · have hps : p ∉ s.pre := h5 p hp
        rw [BT.add_child_of_not_mem s p a hps]
        have := ihc hp h3
        exact (List.Perm.cons x (List.Perm.append_right s.pre this)).trans
          (List.Perm.swap a x _)
      · have hpc : p ∉ c.pre := fun hx2 => h5 p hx2 hp
        rw [BT.add_child_of_not_mem c p a hpc]
        have := ihs hp h4
        exact (List.Perm.cons x ((List.Perm.append_left c.pre this).trans
          List.perm_middle)).trans (List.Perm.swap a x _)

theorem BT.children_add_child (b : BT) (p a : Nat) (hp : p ∈ b.pre) (hnd : b.pre.Nodup) :
    (b.add_child p a).children p = b.children p ++ [a] := by
  induction b with
  | nil => simp [BT.pre] at hp
  | node x c s ihc ihs =>
    obtain ⟨h1, h2, h3, h4, h5⟩ := BT.pre_nodup_node hnd
    by_cases hx : x = p
    · simp only [BT.add_child, if_pos hx, BT.children, if_true, BT.sibs_append_sib]
    · simp only [BT.add_child, if_neg hx, BT.children]
      simp only [BT.pre, List.mem_cons, List.mem_append] at hp
      rcases hp with hp | hp | hp
      · exact absurd hp.symm hx
      · have hps : p ∉ s.pre := h5 p hp
        rw [BT.add_child_of_not_mem s p a hps, BT.children_of_not_mem s p hps, ihc hp h3]
        simp
      · have hpc : p ∉ c.pre := fun hx2 => h5 p hx2 hp
        rw [BT.add_child_of_not_mem c p a hpc, BT.children_of_not_mem c p hpc, ihs hp h4]
        simp

section TRepLemmas
variable {D : Type}

theorem TRep_ptr (t : ntree D) (par p : Ptr) (b : BT) (h : TRep t par p b) : p = b.ptr := by
  cases b with
  | nil => exact h
  | node a c s => exact h.1

/-- The representation depends only on the links and the parents of the nodes. -/
theorem TRep_congr (t t2 : ntree D) (par p : Ptr) (b : BT)
    (h : ∀ a ∈ b.pre, t2.pool.link a = t.pool.link a ∧
      t2.next_sibling a = t.next_sibling a ∧ t2.parent a = t.parent a) :
    TRep t par p b → TRep t2 par p b := by
  induction b generalizing par p with
  | nil => intro h1; exact h1
  | node a c s ihc ihs =>
    intro h1
    obtain ⟨h2, h3, h4, h5⟩ := h1
    obtain ⟨e1, e2, e3⟩ := h a (by simp [BT.pre])
    refine ⟨h2, by rw [e3]; exact h3, ?_, ?_⟩
    · rw [e1]
      exact ihc _ _ (fun y hy => h y (BT.mem_pre_of_child a s hy)) h4
    · rw [e2]
      exact ihs _ _ (fun y hy => h y (BT.mem_pre_of_sib a c hy)) h5

theorem TRep_sibs (t : ntree D) (par p : Ptr) (b : BT) (h : TRep t par p b) :
    Seg t.next_sibling p b.sibs none := by
  induction b generalizing p with
  | nil => exact h
  | node a c s _ ihs => exact ⟨h.1, ihs _ h.2.2.2⟩

theorem TRep_sibs_parent (t : ntree D) (par p : Ptr) (b : BT) (h : TRep t par p b) :
    ∀ x ∈ b.sibs, t.parent x = par := by
  induction b generalizing p with
  | nil => simp [BT.sibs]
  | node a c s _ ihs =>
    intro x hx
    simp only [BT.sibs, List.mem_cons] at hx
    rcases hx with hx | hx
    · rw [hx]; exact h.2.1
    · exact ihs _ h.2.2.2 x hx

/-- The sibling chain of the children of a node. -/
theorem TRep_children (t : ntree D) (par p : Ptr) (b : BT) (q : Nat) (h : TRep t par p b)
    (hq : q ∈ b.pre) (hnd : b.pre.Nodup) :
    Seg t.next_sibling (t.pool.link q) (b.children q) none := by
  induction b generalizing par p with
  | nil => simp [BT.pre] at hq
  | node x c s ihc ihs =>
    obtain ⟨h1, h2, h3, h4, h5⟩ := BT.pre_nodup_node hnd
    by_cases hx : x = q
    · subst hx
      simp only [BT.children, if_true]
      exact TRep_sibs t _ _ c h.2.2.1
    · simp only [BT.children, if_neg hx]
      simp only [BT.pre, List.mem_cons, List.mem_append] at hq
      rcases hq with hq | hq | hq
      · exact absurd hq.symm hx
      · rw [BT.children_of_not_mem s q (h5 q hq), List.append_nil]
        exact ihc _ _ h.2.2.1 hq h3
      · rw [BT.children_of_not_mem c q (fun hx2 => h5 q hx2 hq), List.nil_append]
        exact ihs _ _ h.2.2.2 hq h4

/-- The loop to the last sibling, on a null terminated chain. -/
theorem ntree_last_sibling_seg (nx : Nat → Ptr) (a : Nat) (rest : List Nat) (fuel : Nat)
    (h : Seg nx (some a) (a :: rest) none) (hfuel : rest.length < fuel) :
    ntree_last_sibling nx fuel a = (a :: rest).getLast? := by
  induction rest generalizing a fuel with
  | nil =>
    cases fuel with
    | zero => omega
    | succ k =>
      have h1 : nx a = none := h.2
      simp [ntree_last_sibling, h1]
  | cons b t ih =>
    cases fuel with
    | zero => omega
    | succ k =>
      have h1 : nx a = some b := h.2.1
      simp only [List.length_cons, Nat.add_lt_add_iff_right] at hfuel
      simp only [ntree_last_sibling, h1]
      rw [ih b k ⟨rfl, h.2.2⟩ hfuel]
      simp [List.getLast?_cons_cons]

end TRepLemmas

theorem BT.sibs_length_le (b : BT) : b.sibs.length ≤ b.pre.length := by
  induction b with
  | nil => simp [BT.sibs]
  | node a c s _ ihs =>
    simp only [BT.sibs, BT.pre, List.length_cons, List.length_append]
    omega

theorem BT.children_length_lt (b : BT) (p : Nat) : (b.children p).length ≤ b.pre.length := by
  induction b with
  | nil => simp [BT.children]
  | node a c s ihc ihs =>
    by_cases ha : a = p
    · simp only [BT.children, if_pos ha, BT.pre, List.length_cons, List.length_append]
      have := BT.sibs_length_le c
      omega
    · simp only [BT.children, if_neg ha, BT.pre, List.length_cons, List.length_append]
      omega
section TRepInsert
variable {D : Type}

theorem BT.sibs_getLast_mem (b : BT) (l : Nat) (h : b.sibs.getLast? = some l) : l ∈ b.pre :=
  BT.sibs_subset_pre b l (List.mem_of_getLast?_eq_some h)

/-- A new node at the end of the first sibling chain of a forest. -/
theorem TRep_append_sib (t t2 : ntree D) (par p : Ptr) (b : BT) (a : Nat)
    (h : TRep t par p b) (hnd : b.pre.Nodup)
    (ha : t2.pool.link a = none ∧ t2.next_sibling a = none ∧ t2.parent a = par)
    (hlink : ∀ y ∈ b.pre, t2.pool.link y = t.pool.link y ∧ t2.parent y = t.parent y)
    (hns : ∀ y ∈ b.pre, b.sibs.getLast? ≠ some y → t2.next_sibling y = t.next_sibling y)
    (hnsl : ∀ l, b.sibs.getLast? = some l → t2.next_sibling l = some a) :
    TRep t2 par (if b = BT.nil then some a else p) (b.append_sib a) := by
  induction b generalizing p with
  | nil => exact ⟨rfl, ha.2.2, ha.1, ha.2.1⟩
  | node x c s _ ihs =>
    obtain ⟨h1, h2, h3, h4, h5⟩ := BT.pre_nodup_node hnd
    obtain ⟨hp, hpar, hc, hs⟩ := h
    simp only [reduceCtorEq, if_false, BT.append_sib]
    have hxm : x ∈ (BT.node x c s).pre := BT.mem_pre_self x c s
    refine ⟨hp, by rw [(hlink x hxm).2]; exact hpar, ?_, ?_⟩
    · rw [(hlink x hxm).1]
      apply TRep_congr t t2 _ _ c _ hc
      intro y hy
      have hym : y ∈ (BT.node x c s).pre := BT.mem_pre_of_child x s hy
      refine ⟨(hlink y hym).1, hns y hym ?_, (hlink y hym).2⟩
      intro hl
      have hl2 := List.mem_of_getLast?_eq_some hl
      simp only [BT.sibs, List.mem_cons] at hl2
      rcases hl2 with hl2 | hl2
      · exact h1 (hl2 ▸ hy)
      · exact h5 y hy (BT.sibs_subset_pre s y hl2)
    · cases s with
      | nil =>
        have hl : (BT.node x c BT.nil).sibs.getLast? = some x := by simp [BT.sibs]
        rw [hnsl x hl]
        exact ⟨rfl, ha.2.2, ha.1, ha.2.1⟩
      | node y c2 s2 =>
        have hlast : (BT.node x c (BT.node y c2 s2)).sibs.getLast?
            = (BT.node y c2 s2).sibs.getLast? := by
          simp [BT.sibs, List.getLast?_cons_cons]
        have hxl : (BT.node x c (BT.node y c2 s2)).sibs.getLast? ≠ some x := by
          rw [hlast]
          intro e
          exact h2 (BT.sibs_getLast_mem _ x e)
        rw [hns x hxm hxl]
        have := ihs (t.next_sibling x) hs h4
          (fun z hz => hlink z (BT.mem_pre_of_sib x c hz))
          (fun z hz hne => hns z (BT.mem_pre_of_sib x c hz) (by rw [hlast]; exact hne))
          (fun l hl => hnsl l (by rw [hlast]; exact hl))
        simpa using this

/-- A new node as last child of the node `q`. -/
theorem TRep_add_child (t t2 : ntree D) (par p : Ptr) (b : BT) (q a : Nat)
    (h : TRep t par p b) (hnd : b.pre.Nodup) (hq : q ∈ b.pre)
    (ha : t2.pool.link a = none ∧ t2.next_sibling a = none ∧ t2.parent a = some q)
    (hpar : ∀ y ∈ b.pre, t2.parent y = t.parent y)
    (hlink : ∀ y ∈ b.pre, y ≠ q → t2.pool.link y = t.pool.link y)
    (hlinkq : t2.pool.link q = if b.children q = [] then some a else t.pool.link q)
    (hns : ∀ y ∈ b.pre, (b.children q).getLast? ≠ some y →
      t2.next_sibling y = t.next_sibling y)
    (hnsl : ∀ l, (b.children q).getLast? = some l → t2.next_sibling l = some a) :
    TRep t2 par p (b.add_child q a) := by
  induction b generalizing par p with
  | nil => simp [BT.pre] at hq
  | node x c s ihc ihs =>
    obtain ⟨h1, h2, h3, h4, h5⟩ := BT.pre_nodup_node hnd
    obtain ⟨hp, hpx, hc, hs⟩ := h
    have hxm : x ∈ (BT.node x c s).pre := BT.mem_pre_self x c s
    by_cases hx : x = q
    · subst hx
      simp only [BT.children, if_true] at hlinkq hns hnsl
      simp only [BT.add_child, if_true]
      refine ⟨hp, by rw [hpar x hxm]; exact hpx, ?_, ?_⟩
      · have := TRep_append_sib t t2 (some x) (t.pool.link x) c a hc h3 ha
          (fun y hy => ⟨hlink y (BT.mem_pre_of_child x s hy) (fun e => h1 (e ▸ hy)),
            hpar y (BT.mem_pre_of_child x s hy)⟩)
          (fun y hy hne => hns y (BT.mem_pre_of_child x s hy) hne) hnsl
        rw [hlinkq]
        cases c with
        | nil => simpa [BT.sibs] using this
        | node y c2 s2 => simpa [BT.sibs] using this
      · have hx2 : (c.sibs).getLast? ≠ some x := fun e => h1 (BT.sibs_getLast_mem c x e)
        rw [hns x hxm hx2]
        apply TRep_congr t t2 _ _ s _ hs
        intro y hy
        have hym : y ∈ (BT.node x c s).pre := BT.mem_pre_of_sib x c hy
        refine ⟨hlink y hym (fun e => h2 (e ▸ hy)), hns y hym ?_, hpar y hym⟩
        intro e
        exact h5 y (BT.sibs_getLast_mem c y e) hy
    · simp only [BT.children, if_neg hx] at hlinkq hns hnsl
      simp only [BT.add_child, if_neg hx]
      simp only [BT.pre, List.mem_cons, List.mem_append] at hq
      have hq2 : q ∈ c.pre ∨ q ∈ s.pre := by
        rcases hq with hq | hq | hq
        · exact absurd hq.symm hx
        · exact Or.inl hq
        · exact Or.inr hq
      refine ⟨hp, by rw [hpar x hxm]; exact hpx, ?_, ?_⟩
      · rw [hlink x hxm hx]
        rcases hq2 with hqc | hqs
        · have hqs : q ∉ s.pre := h5 q hqc
          rw [BT.children_of_not_mem s q hqs, List.append_nil] at hlinkq hns hnsl
          exact ihc _ _ hc h3 hqc (fun y hy => hpar y (BT.mem_pre_of_child x s hy))
            (fun y hy => hlink y (BT.mem_pre_of_child x s hy)) hlinkq
            (fun y hy => hns y (BT.mem_pre_of_child x s hy)) hnsl
        · have hqc : q ∉ c.pre := fun hx2 => h5 q hx2 hqs
          rw [BT.add_child_of_not_mem c q a hqc]
          rw [BT.children_of_not_mem c q hqc, List.nil_append] at hns
          apply TRep_congr t t2 _ _ c _ hc
          intro y hy
          have hym : y ∈ (BT.node x c s).pre := BT.mem_pre_of_child x s hy
          refine ⟨hlink y hym (fun e => hqc (e ▸ hy)), hns y hym ?_, hpar y hym⟩
          intro e
          exact h5 y hy (BT.children_subset_pre s q y (List.mem_of_getLast?_eq_some e))
      · have hxl : (c.children q ++ s.children q).getLast? ≠ some x := by
          intro e
          have hm := List.mem_of_getLast?_eq_some e
          simp only [List.mem_append] at hm
          rcases hm with hm | hm
          · exact h1 (BT.children_subset_pre c q x hm)
          · exact h2 (BT.children_subset_pre s q x hm)
        rw [hns x hxm hxl]
        rcases hq2 with hqc | hqs
        · have hqs : q ∉ s.pre := h5 q hqc
          rw [BT.add_child_of_not_mem s q a hqs]
          rw [BT.children_of_not_mem s q hqs, List.append_nil] at hns
          apply TRep_congr t t2 _ _ s _ hs
          intro y hy
          have hym : y ∈ (BT.node x c s).pre := BT.mem_pre_of_sib x c hy
          refine ⟨hlink y hym (fun e => hqs (e ▸ hy)), hns y hym ?_, hpar y hym⟩
          intro e
          exact h5 y (BT.children_subset_pre c q y (List.mem_of_getLast?_eq_some e)) hy
        · have hqc : q ∉ c.pre := fun hx2 => h5 q hx2 hqs
          rw [BT.children_of_not_mem c q hqc, List.nil_append] at hlinkq hns hnsl
          exact ihs _ _ hs h4 hqs (fun y hy => hpar y (BT.mem_pre_of_sib x c hy))
            (fun y hy => hlink y (BT.mem_pre_of_sib x c hy)) hlinkq
            (fun y hy => hns y (BT.mem_pre_of_sib x c hy)) hnsl

end TRepInsert
section NtreeInsert
variable {D : Type}

/-- The fields of the state after `ntree_fill`. -/
theorem ntree_fill_fields (s : ntree D) (a : Nat) (par : Ptr) (age : Int) (d : D) :
    (ntree_fill s a par age d).pool.link = Function.update s.pool.link a none ∧
    (ntree_fill s a par age d).next_sibling = Function.update s.next_sibling a none ∧
    (ntree_fill s a par age d).parent a = par ∧
    (∀ y, y ≠ a → (ntree_fill s a par age d).parent y = s.parent y) ∧
    (ntree_fill s a par age d).action
      = Function.update s.action a ntree_trav_action.ACT_INACTIVE ∧
    (ntree_fill s a par age d).age = Function.update s.age a age ∧
    (ntree_fill s a par age d).data = Function.update s.data a d ∧
    (ntree_fill s a par age d).root = s.root ∧
    (ntree_fill s a par age d).pool.root = s.pool.root ∧
    (ntree_fill s a par age d).pool.freeable = s.pool.freeable ∧
    (ntree_fill s a par age d).pool.capacity = s.pool.capacity ∧
    (ntree_fill s a par age d).pool.mem = s.pool.mem ∧
    (ntree_fill s a par age d).pool.data_bytes = s.pool.data_bytes ∧
    (ntree_fill s a par age d).data_bytes = s.data_bytes := by
  refine ⟨rfl, rfl, ?_, ?_, rfl, ?_, rfl, rfl, rfl, rfl, rfl, rfl, rfl, rfl⟩
  · simp [ntree_fill, NTREE_NODE_INITIALIZER, ntree.set_parent, ntree.set_age, ntree.set_data,
      ntree.set_action, ntree.set_next_sibling, ntree.set_first_child]
  · intro y hy
    simp [ntree_fill, NTREE_NODE_INITIALIZER, ntree.set_parent, ntree.set_age, ntree.set_data,
      ntree.set_action, ntree.set_next_sibling, ntree.set_first_child, Function.update_noteq hy]
  · simp [ntree_fill, NTREE_NODE_INITIALIZER, ntree.set_parent, ntree.set_age, ntree.set_data,
      ntree.set_action, ntree.set_next_sibling, ntree.set_first_child]

theorem TreeInv_alloc (t : ntree D) (b : BT) (a : Nat) (fl : List Nat)
    (h : TreeInv t b (a :: fl)) :
    pool_alloc t.pool
      = ({ t.pool with root := t.pool.link a, freeable := t.pool.freeable - 1 }, some a, none) ∧
    a ∉ b.pre ∧ a ∉ fl ∧ (∀ y ∈ fl, y ∉ b.pre) ∧ b.pre.Nodup ∧ fl.Nodup ∧
    Seg t.pool.link (t.pool.link a) fl none := by
  obtain ⟨_, h2, h3, _, _⟩ := h
  have hnd := List.nodup_append.mp h3
  refine ⟨by simp [pool_alloc, internal_pool_pop, h2.1], ?_, (List.nodup_cons.mp hnd.2.1).1,
    ?_, hnd.1, (List.nodup_cons.mp hnd.2.1).2, h2.2⟩
  · exact fun hx => hnd.2.2 hx (List.mem_cons_self a fl)
  · exact fun y hy hx => hnd.2.2 hx (List.mem_cons_of_mem a hy)

end NtreeInsert
section NtreeInsert2
variable {D : Type}

/-- The invariant after a new node has been linked and filled. -/
theorem TreeInv_fill (t s : ntree D) (b b2 : BT) (a : Nat) (fl : List Nat) (par : Ptr)
    (age : Int) (d : D) (h : TreeInv t b (a :: fl))
    (hrep : TRep (ntree_fill s a par age d) none (ntree_fill s a par age d).root b2)
    (hperm : b2.pre.Perm (a :: b.pre))
    (hroot : s.pool.root = t.pool.link a) (hfree : s.pool.freeable = t.pool.freeable - 1)
    (hlink : ∀ y ∈ fl, s.pool.link y = t.pool.link y) (hact : s.action = t.action) :
    TreeInv (ntree_fill s a par age d) b2 fl := by
  obtain ⟨_, ha1, ha2, ha3, ha4, ha5, ha6⟩ := TreeInv_alloc t b a fl h
  obtain ⟨f1, _, _, _, f5, _, _, _, f9, f10, _⟩ := ntree_fill_fields s a par age d
  refine ⟨hrep, ?_, ?_, ?_, ?_⟩
  · rw [f9, hroot, f1]
    apply Seg_update _ _ _ _ _ _ ha2
    exact Seg_congr _ _ _ _ _ hlink ha6
  · have h3 : (b.pre ++ a :: fl).Nodup := h.2.2.1
    have hmid : (b.pre ++ a :: fl).Perm (a :: (b.pre ++ fl)) := List.perm_middle
    have hp : (b2.pre ++ fl).Perm (b.pre ++ a :: fl) :=
      (List.Perm.append_right fl hperm).trans (by simpa using hmid.symm)
    exact hp.nodup_iff.mpr h3
  · rw [f10, hfree, h.2.2.2.1]
    simp
  · intro y hy
    rw [f5, hact]
    have hy2 := hperm.mem_iff.mp hy
    simp only [List.mem_cons] at hy2
    by_cases hya : y = a
    · rw [hya, Function.update_same]
    · rw [Function.update_noteq hya]
      exact h.2.2.2.2 y (hy2.resolve_left hya)

end NtreeInsert2
section NtreeInsert3
variable {D : Type}

theorem TreeInv_root_ne_none (t : ntree D) (b : BT) (fl : List Nat) (q : Nat)
    (h : TreeInv t b fl) (hq : q ∈ b.pre) : ∃ r, t.root = some r ∧ b.ptr = some r := by
  cases b with
  | nil => simp [BT.pre] at hq
  | node x c s => exact ⟨x, h.1.1, rfl⟩

/-- The state after the new node `a` has been linked as last child of `q` and filled. -/
theorem TreeInv_add_child (t s : ntree D) (b : BT) (a : Nat) (fl : List Nat) (q : Nat)
    (age : Int) (d : D) (h : TreeInv t b (a :: fl)) (hq : q ∈ b.pre)
    (hroot : s.root = t.root) (hpar : s.parent = t.parent) (hact : s.action = t.action)
    (hproot : s.pool.root = t.pool.link a) (hfree : s.pool.freeable = t.pool.freeable - 1)
    (hlinks : (b.children q = [] ∧ s.pool.link = Function.update t.pool.link q (some a) ∧
        s.next_sibling = t.next_sibling) ∨
      (∃ l, (b.children q).getLast? = some l ∧ s.pool.link = t.pool.link ∧
        s.next_sibling = Function.update t.next_sibling l (some a))) :
    TreeInv (ntree_fill s a (some q) age d) (b.add_child q a) fl := by
  obtain ⟨_, ha1, ha2, ha3, ha4, ha5, ha6⟩ := TreeInv_alloc t b a fl h
  obtain ⟨f1, f2, f3, f4, _, _, _, f8, _⟩ := ntree_fill_fields s a (some q) age d
  have hqa : q ≠ a := fun e => ha1 (e ▸ hq)
  have hya : ∀ y ∈ b.pre, y ≠ a := fun y hy e => ha1 (e ▸ hy)
  have hchm := BT.children_subset_pre b q
  apply TreeInv_fill t s b _ a fl _ _ d h _ (BT.pre_add_child_perm b q a hq ha4) hproot hfree
  · intro y hy
    have hyq : y ≠ q := fun e => ha3 y hy (e ▸ hq)
    rcases hlinks with ⟨_, hl, _⟩ | ⟨l, _, hl, _⟩
    · rw [hl, Function.update_noteq hyq]
    · rw [hl]
  · exact hact
  · rw [f8, hroot]
    apply TRep_add_child t _ none t.root b q a h.1 ha4 hq
    · refine ⟨by rw [f1, Function.update_same], by rw [f2, Function.update_same], f3⟩
    · intro y hy
      rw [f4 y (hya y hy), hpar]
    · intro y hy hyq
      rw [f1, Function.update_noteq (hya y hy)]
      rcases hlinks with ⟨_, hl, _⟩ | ⟨l, _, hl, _⟩
      · rw [hl, Function.update_noteq hyq]
      · rw [hl]
    · rw [f1, Function.update_noteq hqa]
      rcases hlinks with ⟨hc, hl, _⟩ | ⟨l, hc, hl, _⟩
      · rw [hl, Function.update_same, if_pos hc]
      · have hne : b.children q ≠ [] := fun e => by rw [e] at hc; simp at hc
        rw [hl, if_neg hne]
    · intro y hy hne
      rw [f2, Function.update_noteq (hya y hy)]
      rcases hlinks with ⟨_, _, hn⟩ | ⟨l, hc, _, hn⟩
      · rw [hn]
      · rw [hn, Function.update_noteq]
        intro e
        exact hne (by rw [hc, e])
    · intro l hl
      have hla : l ≠ a := hya l (hchm l (List.mem_of_getLast?_eq_some hl))
      rw [f2, Function.update_noteq hla]
      rcases hlinks with ⟨hc, _, _⟩ | ⟨l2, hc, _, hn⟩
      · rw [hc] at hl; simp at hl
      · rw [hc] at hl
        have := Option.some.inj hl
        subst this
        rw [hn, Function.update_same]

/-- The state after the new node `a` has been linked as last root-level sibling (or as
root of the empty tree) and filled. -/
theorem TreeInv_append_sib (t s : ntree D) (b : BT) (a : Nat) (fl : List Nat)
    (age : Int) (d : D) (h : TreeInv t b (a :: fl))
    (hpar : s.parent = t.parent) (hact : s.action = t.action)
    (hproot : s.pool.root = t.pool.link a) (hfree : s.pool.freeable = t.pool.freeable - 1)
    (hlink : s.pool.link = t.pool.link)
    (hlinks : (b = BT.nil ∧ s.root = some a ∧ s.next_sibling = t.next_sibling) ∨
      (∃ l, b.sibs.getLast? = some l ∧ s.root = t.root ∧
        s.next_sibling = Function.update t.next_sibling l (some a))) :
    TreeInv (ntree_fill s a none age d) (b.append_sib a) fl := by
  obtain ⟨_, ha1, ha2, ha3, ha4, ha5, ha6⟩ := TreeInv_alloc t b a fl h
  obtain ⟨f1, f2, f3, f4, _, _, _, f8, _⟩ := ntree_fill_fields s a none age d
  have hya : ∀ y ∈ b.pre, y ≠ a := fun y hy e => ha1 (e ▸ hy)
  have hperm : (b.append_sib a).pre.Perm (a :: b.pre) := by
    rw [BT.pre_append_sib]
    exact List.perm_append_singleton a b.pre
  apply TreeInv_fill t s b _ a fl _ _ d h _ hperm hproot hfree
  · intro y _
    rw [hlink]
  · exact hact
  · have hr : (ntree_fill s a none age d).root = if b = BT.nil then some a else t.root := by
      rw [f8]
      rcases hlinks with ⟨hb, hr, _⟩ | ⟨l, hl, hr, _⟩
      · rw [hr, if_pos hb]
      · have hb : b ≠ BT.nil := fun e => by rw [e] at hl; simp [BT.sibs] at hl
        rw [hr, if_neg hb]
    rw [hr]
    apply TRep_append_sib t _ none t.root b a h.1 ha4
    · refine ⟨by rw [f1, Function.update_same], by rw [f2, Function.update_same], f3⟩
    · intro y hy
      rw [f1, Function.update_noteq (hya y hy), hlink, f4 y (hya y hy), hpar]
      exact ⟨rfl, rfl⟩
    · intro y hy hne
      rw [f2, Function.update_noteq (hya y hy)]
      rcases hlinks with ⟨_, _, hn⟩ | ⟨l, hc, _, hn⟩
      · rw [hn]
      · rw [hn, Function.update_noteq]
        intro e
        exact hne (by rw [hc, e])
    · intro l hl
      have hla : l ≠ a := hya l (BT.sibs_getLast_mem b l hl)
      rw [f2, Function.update_noteq hla]
      rcases hlinks with ⟨hb, _, _⟩ | ⟨l2, hc, _, hn⟩
      · rw [hb] at hl; simp [BT.sibs] at hl
      · rw [hc] at hl
        have := Option.some.inj hl
        subst this
        rw [hn, Function.update_same]

end NtreeInsert3
section NtreeInsert4
variable {D : Type}

/-- `ntree_insert_at` with a parent of the tree. -/
theorem ntree_insert_at_child (t : ntree D) (b : BT) (a : Nat) (fl : List Nat) (q : Nat)
    (d : D) (fuel : Nat) (h : TreeInv t b (a :: fl)) (hq : q ∈ b.pre)
    (hfuel : b.pre.length < fuel) :
    ∃ t2, ntree_insert_at fuel t (some q) d = some (t2, some a, none) ∧
      TreeInv t2 (b.add_child q a) fl ∧ t2.data = Function.update t.data a d ∧
      t2.age = Function.update t.age a (t.age q + 1) ∧ t2.parent a = some q ∧
      t2.pool.link a = none ∧ t2.pool.capacity = t.pool.capacity := by
  obtain ⟨halloc, ha1, ha2, ha3, ha4, ha5, ha6⟩ := TreeInv_alloc t b a fl h
  obtain ⟨r, hr, _⟩ := TreeInv_root_ne_none t b _ q h hq
  have hch := TRep_children t none t.root b q h.1 hq ha4
  unfold ntree_insert_at
  simp only [halloc, hr, ntree.first_child]
  cases hc : b.children q with
  | nil =>
    rw [hc] at hch
    have hl : t.pool.link q = none := hch
    simp only [hl]
    refine ⟨_, rfl, ?_, rfl, ?_, ?_, ?_, rfl⟩
    · exact TreeInv_add_child t _ b a fl q _ d h hq hr.symm rfl rfl rfl rfl
        (Or.inl ⟨hc, rfl, rfl⟩)
    · exact (ntree_fill_fields _ a (some q) _ d).2.2.2.2.2.1
    · exact (ntree_fill_fields _ a (some q) _ d).2.2.1
    · rw [(ntree_fill_fields _ a (some q) _ d).1, Function.update_same]
  | cons first rest =>
    rw [hc] at hch
    have hl : t.pool.link q = some first := hch.1
    have hlen := BT.children_length_lt b q
    rw [hc] at hlen
    simp only [List.length_cons] at hlen
    have hlast := ntree_last_sibling_seg t.next_sibling first rest fuel ⟨rfl, hch.2⟩ (by omega)
    obtain ⟨l, hl2⟩ : ∃ l, (first :: rest).getLast? = some l :=
      Option.ne_none_iff_exists'.mp (by simp)
    rw [hl2] at hlast
    simp only [hl, hlast]
    refine ⟨_, rfl, ?_, rfl, ?_, ?_, ?_, rfl⟩
    · exact TreeInv_add_child t _ b a fl q _ d h hq hr.symm rfl rfl rfl rfl
        (Or.inr ⟨l, by rw [hc]; exact hl2, rfl, rfl⟩)
    · exact (ntree_fill_fields _ a (some q) _ d).2.2.2.2.2.1
    · exact (ntree_fill_fields _ a (some q) _ d).2.2.1
    · rw [(ntree_fill_fields _ a (some q) _ d).1, Function.update_same]

/-- `ntree_insert_at` with a null parent. -/
theorem ntree_insert_at_root (t : ntree D) (b : BT) (a : Nat) (fl : List Nat)
    (d : D) (fuel : Nat) (h : TreeInv t b (a :: fl)) (hfuel : b.pre.length < fuel) :
    ∃ t2, ntree_insert_at fuel t none d = some (t2, some a, none) ∧
      TreeInv t2 (b.append_sib a) fl ∧ t2.data = Function.update t.data a d ∧
      t2.age = Function.update t.age a 1 ∧ t2.parent a = none ∧
      t2.pool.link a = none ∧ t2.pool.capacity = t.pool.capacity := by
  obtain ⟨halloc, ha1, ha2, ha3, ha4, ha5, ha6⟩ := TreeInv_alloc t b a fl h
  have hsib := TRep_sibs t none t.root b h.1
  unfold ntree_insert_at
  simp only [halloc]
  cases hc : b.sibs with
  | nil =>
    rw [hc] at hsib
    have hr : t.root = none := hsib
    have hb : b = BT.nil := by
      cases b with
      | nil => rfl
      | node x c s => simp [BT.sibs] at hc
    simp only [hr]
    refine ⟨_, rfl, ?_, rfl, ?_, ?_, ?_, rfl⟩
    · exact TreeInv_append_sib t _ b a fl _ d h rfl rfl rfl rfl rfl (Or.inl ⟨hb, rfl, rfl⟩)
    · exact (ntree_fill_fields _ a none _ d).2.2.2.2.2.1
    · exact (ntree_fill_fields _ a none _ d).2.2.1
    · rw [(ntree_fill_fields _ a none _ d).1, Function.update_same]
  | cons first rest =>
    rw [hc] at hsib
    have hr : t.root = some first := hsib.1
    have hlen := BT.sibs_length_le b
    rw [hc] at hlen
    simp only [List.length_cons] at hlen
    have hlast := ntree_last_sibling_seg t.next_sibling first rest fuel ⟨rfl, hsib.2⟩ (by omega)
    obtain ⟨l, hl2⟩ : ∃ l, (first :: rest).getLast? = some l :=
      Option.ne_none_iff_exists'.mp (by simp)
    rw [hl2] at hlast
    simp only [hr, hlast]
    refine ⟨_, rfl, ?_, rfl, ?_, ?_, ?_, rfl⟩
    · exact TreeInv_append_sib t _ b a fl _ d h rfl rfl rfl rfl rfl
        (Or.inr ⟨l, by rw [hc]; exact hl2, hr.symm, rfl⟩)
    · exact (ntree_fill_fields _ a none _ d).2.2.2.2.2.1
    · exact (ntree_fill_fields _ a none _ d).2.2.1
    · rw [(ntree_fill_fields _ a none _ d).1, Function.update_same]

/-- `ntree_insert_at` on an empty tree, whatever the parent argument. -/
theorem ntree_insert_at_empty (t : ntree D) (a : Nat) (fl : List Nat) (parent : Ptr)
    (d : D) (fuel : Nat) (h : TreeInv t BT.nil (a :: fl)) :
    ∃ t2, ntree_insert_at fuel t parent d = some (t2, some a, none) ∧
      t2.root = some a ∧ t2.data = Function.update t.data a d ∧
      t2.age = Function.update t.age a 1 ∧ t2.parent a = parent ∧
      t2.pool.link a = none ∧ t2.next_sibling a = none ∧
      t2.pool.capacity = t.pool.capacity ∧ t2.pool.freeable = fl.length := by
  obtain ⟨halloc, ha1, ha2, ha3, ha4, ha5, ha6⟩ := TreeInv_alloc t BT.nil a fl h
  have hr : t.root = none := h.1
  unfold ntree_insert_at
  simp only [halloc, hr]
  refine ⟨_, rfl, rfl, rfl, ?_, ?_, ?_, ?_, rfl, ?_⟩
  · exact (ntree_fill_fields _ a parent _ d).2.2.2.2.2.1
  · exact (ntree_fill_fields _ a parent _ d).2.2.1
  · rw [(ntree_fill_fields _ a parent _ d).1, Function.update_same]
  · rw [(ntree_fill_fields _ a parent _ d).2.1, Function.update_same]
  · rw [(ntree_fill_fields _ a parent _ d).2.2.2.2.2.2.2.2.2.1]
    simp [h.2.2.2.1]

theorem ntree.set_next_sibling_self (t : ntree D) (x : Nat) (v : Ptr)
    (h : t.next_sibling x = v) : t.set_next_sibling x v = t := by
  subst h
  cases t
  simp [ntree.set_next_sibling]

theorem ntree.set_first_child_self (t : ntree D) (x : Nat) (v : Ptr)
    (h : t.pool.link x = v) : t.set_first_child x v = t := by
  subst h
  cases t
  simp [ntree.set_first_child]

theorem Seg_getLast_none (nx : Nat → Ptr) (p : Ptr) (xs : List Nat) (l : Nat)
    (h : Seg nx p xs none) (hl : xs.getLast? = some l) : nx l = none := by
  rcases List.eq_nil_or_concat xs with hx | ⟨pre, y, hx⟩
  · rw [hx] at hl; simp at hl
  · rw [List.concat_eq_append] at hx
    subst hx
    rw [getLast?_concat_eq] at hl
    have := Option.some.inj hl
    subst this
    exact (Seg_mid nx pre [] y p none h).2

/-- `ntree_insert_at` on a tree without a free cell: `ENOMEM`, nothing changes. -/
theorem ntree_insert_at_full (t : ntree D) (b : BT) (parent : Ptr) (d : D) (fuel : Nat)
    (h : TreeInv t b []) (hp : ∀ q, parent = some q → q ∈ b.pre)
    (hfuel : b.pre.length < fuel) :
    ntree_insert_at fuel t parent d = some (t, none, some Errno.ENOMEM) := by
  have hnd : b.pre.Nodup := (List.nodup_append.mp h.2.2.1).1
  have hroot : t.pool.root = none := h.2.1
  have halloc := alloc_empty t.pool hroot
  have hsib := TRep_sibs t none t.root b h.1
  unfold ntree_insert_at
  simp only [halloc]
  cases hc : b.sibs with
  | nil =>
    rw [hc] at hsib
    have hr : t.root = none := hsib
    simp only [hr]
    congr 2
    cases t
    simp_all
  | cons first rest =>
    rw [hc] at hsib
    have hr : t.root = some first := hsib.1
    simp only [hr]
    cases parent with
    | none =>
      have hlen := BT.sibs_length_le b
      rw [hc] at hlen
      simp only [List.length_cons] at hlen
      have hlast := ntree_last_sibling_seg t.next_sibling first rest fuel ⟨rfl, hsib.2⟩
        (by omega)
      obtain ⟨l, hl2⟩ : ∃ l, (first :: rest).getLast? = some l :=
        Option.ne_none_iff_exists'.mp (by simp)
      rw [hl2] at hlast
      simp only [hlast]
      have hn : t.next_sibling l = none :=
        Seg_getLast_none t.next_sibling (some first) (first :: rest) l ⟨rfl, hsib.2⟩ hl2
      congr 2
      rw [← hr]
      exact ntree.set_next_sibling_self t l none hn
    | some q =>
      have hq := hp q rfl
      have hch := TRep_children t none t.root b q h.1 hq hnd
      simp only [ntree.first_child]
      cases hcq : b.children q with
      | nil =>
        rw [hcq] at hch
        have hl : t.pool.link q = none := hch
        simp only [hl]
        congr 2
        rw [← hr]
        exact ntree.set_first_child_self t q none hl
      | cons f2 rest2 =>
        rw [hcq] at hch
        have hl : t.pool.link q = some f2 := hch.1
        have hlen := BT.children_length_lt b q
        rw [hcq] at hlen
        simp only [List.length_cons] at hlen
        have hlast := ntree_last_sibling_seg t.next_sibling f2 rest2 fuel ⟨rfl, hch.2⟩
          (by omega)
        obtain ⟨l, hl2⟩ : ∃ l, (f2 :: rest2).getLast? = some l :=
          Option.ne_none_iff_exists'.mp (by simp)
        rw [hl2] at hlast
        simp only [hl, hlast]
        have hn : t.next_sibling l = none :=
          Seg_getLast_none t.next_sibling (some f2) (f2 :: rest2) l ⟨rfl, hch.2⟩ hl2
        congr 2
        rw [← hr]
        exact ntree.set_next_sibling_self t l none hn

end NtreeInsert4

section NtreeInit
variable {D : Type}

/-- A tree that `ntree_init` returned: no node, every cell on the free list. -/
theorem ntree_init_ok_inv (mem : Nat) (zero : D) (data_bytes capacity : Nat) (t : ntree D)
    (h : ntree_init mem zero data_bytes capacity = Except.ok t) :
    ∃ fl : List Nat, TreeWF t BT.nil fl ∧ t.pool.capacity = capacity ∧
      fl.length = capacity := by
  have hd : 0 < data_bytes ∧ 0 < capacity := by
    by_contra hc
    have : data_bytes = 0 ∨ capacity = 0 := by omega
    simp [ntree_init, this] at h
  generalize hnb : (sizeof_ntree_node + data_bytes) % 2 ^ 64 = nb
  unfold ntree_init at h
  rw [if_neg (by omega), hnb] at h
  unfold pool_init at h
  by_cases hz : nb = 0 ∨ capacity = 0
  · rw [if_pos hz] at h
    exact absurd h (by simp)
  rw [if_neg hz] at h
  simp only [Except.ok.injEq] at h
  subst h
  obtain ⟨h1, _, _, h4, h5⟩ := setup_spec
    (POOL_INITIALIZER mem nb capacity (fun _ => none)) mem nb capacity
  have hlen : (pool_cells mem nb capacity).reverse.length = capacity := by
    simp [pool_cells_length]
  refine ⟨(pool_cells mem nb capacity).reverse, ⟨⟨?_, h1, ?_, ?_, ?_⟩, ?_⟩, h4, hlen⟩
  · exact rfl
  · simpa [BT.pre] using pool_cells_nodup mem nb capacity
  · rw [hlen]; exact h5
  · intro a ha
    simp [BT.pre] at ha
  · rw [hlen]
    simpa [BT.pre] using h4

/-- The function `ntree_init` succeeds on non-zero arguments when the size of a node does
not wrap. -/
theorem ntree_init_succeeds (mem : Nat) (zero : D) (data_bytes capacity : Nat)
    (hd : 0 < data_bytes) (hc : 0 < capacity) (hb : sizeof_ntree_node + data_bytes < 2 ^ 64) :
    ∃ t : ntree D, ntree_init mem zero data_bytes capacity = Except.ok t := by
  unfold ntree_init pool_init
  rw [if_neg (by omega), Nat.mod_eq_of_lt hb, if_neg (by omega)]
  exact ⟨_, rfl⟩

/-- A tree right after `ntree_init`: no node, every cell on the free list. -/
theorem ntree_init_wf (mem : Nat) (zero : D) (data_bytes capacity : Nat)
    (hd : 0 < data_bytes) (hc : 0 < capacity) (hb : sizeof_ntree_node + data_bytes < 2 ^ 64) :
    ∃ (t : ntree D) (fl : List Nat), ntree_init mem zero data_bytes capacity = Except.ok t ∧
      TreeWF t BT.nil fl ∧ t.pool.capacity = capacity ∧ fl.length = capacity := by
  obtain ⟨t, h⟩ := ntree_init_succeeds mem zero data_bytes capacity hd hc hb
  obtain ⟨fl, h1, h2, h3⟩ := ntree_init_ok_inv mem zero data_bytes capacity t h
  exact ⟨t, fl, h, h1, h2, h3⟩

theorem TreeWF_count {t : ntree D} {b : BT} {fl : List Nat} (h : TreeWF t b fl) :
    ntree_count t = ((b.pre.length : Nat) : Int) := by
  simp only [ntree_count, pool_capacity, pool_freeable, h.1.2.2.2.1, h.2]
  push_cast
  omega

theorem TreeWF_free_cons {t : ntree D} {b : BT} {fl : List Nat} (h : TreeWF t b fl)
    (hfree : 0 < pool_freeable t.pool) : ∃ a rest, fl = a :: rest := by
  cases fl with
  | nil =>
    simp only [pool_freeable, h.1.2.2.2.1, List.length_nil] at hfree
    exact absurd hfree (by decide)
  | cons a rest => exact ⟨a, rest, rfl⟩

end NtreeInit
/-! ## Lemmas: insertion by payload -/

theorem BT.find_by_eq_none (m : Nat → Bool) (b : BT) (h : b.find_by m = none) :
    ∀ y ∈ b.pre, m y = false := by
  induction b with
  | nil => simp [BT.pre]
  | node x c s ihc ihs =>
    simp only [BT.find_by] at h
    cases hm : m x with
    | true => simp [hm] at h
    | false =>
      simp only [hm, Bool.false_eq_true, if_false] at h
      cases hs : s.find_by m with
      | some y => simp [hs] at h
      | none =>
        simp only [hs] at h
        intro y hy
        simp only [BT.pre, List.mem_cons, List.mem_append] at hy
        rcases hy with hy | hy | hy
        · rw [hy]; exact hm
        · exact ihc h y hy
        · exact ihs hs y hy

theorem BT.find_by_mem (m : Nat → Bool) (b : BT) (y : Nat) (h : b.find_by m = some y) :
    y ∈ b.pre ∧ m y = true := by
  induction b with
  | nil => simp [BT.find_by] at h
  | node x c s ihc ihs =>
    simp only [BT.find_by] at h
    cases hm : m x with
    | true =>
      simp only [hm, if_true] at h
      have := Option.some.inj h
      subst this
      exact ⟨BT.mem_pre_self x c s, hm⟩
    | false =>
      simp only [hm, Bool.false_eq_true, if_false] at h
      cases hs : s.find_by m with
      | some y2 =>
        simp only [hs] at h
        have := Option.some.inj h
        subst this
        exact ⟨BT.mem_pre_of_sib x c (ihs hs).1, (ihs hs).2⟩
      | none =>
        simp only [hs] at h
        exact ⟨BT.mem_pre_of_child x s (ihc h).1, (ihc h).2⟩

/-- The parent of a node of the represented forest is the parent of the chain or a node of
the forest that has the node among its children. -/
theorem TRep_parent {D : Type} (t : ntree D) (par p : Ptr) (b : BT) (x : Nat) (h : TRep t par p b)
    (hnd : b.pre.Nodup) (hx : x ∈ b.pre) :
    (x ∈ b.sibs ∧ t.parent x = par) ∨
      (∃ q ∈ b.pre, t.parent x = some q ∧ x ∈ b.children q) := by
  induction b generalizing par p with
  | nil => simp [BT.pre] at hx
  | node y c s ihc ihs =>
    obtain ⟨n1, n2, n3, n4, n5⟩ := BT.pre_nodup_node hnd
    obtain ⟨h1, h2, h3, h4⟩ := h
    simp only [BT.pre, List.mem_cons, List.mem_append] at hx
    rcases hx with hx | hx | hx
    · left
      rw [hx]
      exact ⟨by simp [BT.sibs], h2⟩
    · right
      rcases ihc _ _ h3 n3 hx with ⟨g1, g2⟩ | ⟨q, g1, g2, g3⟩
      · exact ⟨y, BT.mem_pre_self y c s, g2, by simp [BT.children, g1]⟩
      · have hyq : y ≠ q := fun e => n1 (e ▸ g1)
        refine ⟨q, BT.mem_pre_of_child y s g1, g2, ?_⟩
        simp only [BT.children, if_neg hyq, List.mem_append]
        exact Or.inl g3
    · rcases ihs _ _ h4 n4 hx with ⟨g1, g2⟩ | ⟨q, g1, g2, g3⟩
      · left
        exact ⟨by simp [BT.sibs, g1], g2⟩
      · right
        have hyq : y ≠ q := fun e => n2 (e ▸ g1)
        refine ⟨q, BT.mem_pre_of_sib y c g1, g2, ?_⟩
        simp only [BT.children, if_neg hyq, List.mem_append]
        exact Or.inr g3


section ByData
variable {D : Type} [DecidableEq D]

/-- The search of `internal_ntree_insert` through a forest none of whose nodes passes the
test returns `NULL` and changes nothing. -/
theorem internal_ntree_insert_none (t : ntree D) (pd d : D) (b : BT) (par : Ptr) (x : Nat)
    (fuel : Nat) (h : TRep t par (some x) b)
    (hm : ∀ y ∈ b.pre, ntree_parent_matches t pd y = false) (hfuel : b.pre.length < fuel) :
    internal_ntree_insert fuel t x pd d = some (t, none, none) := by
  induction b generalizing par x fuel with
  | nil => exact absurd h (by simp [TRep])
  | node y c s ihc ihs =>
    obtain ⟨h1, h2, h3, h4⟩ := h
    have hxy : x = y := Option.some.inj h1
    subst hxy
    cases fuel with
    | zero => omega
    | succ k =>
      simp only [BT.pre, List.length_cons, List.length_append] at hfuel
      have hmx := hm x (BT.mem_pre_self x c s)
      simp only [ntree_parent_matches] at hmx
      rw [internal_ntree_insert]
      simp only [hmx, Bool.false_eq_true, if_false]
      have hsib : t.next_sibling x = none ∨
          ∃ nxt, t.next_sibling x = some nxt ∧
            internal_ntree_insert k t nxt pd d = some (t, none, none) := by
        cases hs : t.next_sibling x with
        | none => exact Or.inl rfl
        | some nxt =>
          rw [hs] at h4
          exact Or.inr ⟨nxt, rfl, ihs par nxt k h4
            (fun z hz => hm z (BT.mem_pre_of_sib x c hz)) (by omega)⟩
      have hch : t.pool.link x = none ∨
          ∃ ch, t.pool.link x = some ch ∧
            internal_ntree_insert k t ch pd d = some (t, none, none) := by
        cases hc : t.pool.link x with
        | none => exact Or.inl rfl
        | some ch =>
          rw [hc] at h3
          exact Or.inr ⟨ch, rfl, ihc (some x) ch k h3
            (fun z hz => hm z (BT.mem_pre_of_child x s hz)) (by omega)⟩
      rcases hsib with e1 | ⟨nxt, e1, e2⟩ <;> rcases hch with f1 | ⟨ch, f1, f2⟩ <;>
        simp [e1, f1, ntree.first_child, *]

/-- The branch of `internal_ntree_insert` taken at a node whose parent has the payload
searched for has the effect of `ntree_insert_at` with that parent. -/
theorem internal_ntree_insert_match (t : ntree D) (b : BT) (a : Nat) (fl : List Nat)
    (x q : Nat) (pd d : D) (k big : Nat) (post : List Nat)
    (h : TreeInv t b (a :: fl)) (hx : x ∈ b.pre) (hp : t.parent x = some q)
    (hd : pd = t.data q) (hseg : Seg t.next_sibling (some x) (x :: post) none)
    (hk : post.length < k) (hbig : b.pre.length < big) :
    q ∈ b.pre ∧ x ∈ b.children q ∧
      internal_ntree_insert (k + 1) t x pd d = ntree_insert_at big t (some q) d := by
  obtain ⟨halloc, ha1, ha2, ha3, ha4, ha5, ha6⟩ := TreeInv_alloc t b a fl h
  obtain ⟨r, hr, _⟩ := TreeInv_root_ne_none t b _ x h hx
  have hxa : x ≠ a := fun e => ha1 (e ▸ hx)
  rcases TRep_parent t none t.root b x h.1 ha4 hx with ⟨_, g⟩ | ⟨q2, g1, g2, g3⟩
  · rw [hp] at g; exact absurd g (by simp)
  rw [hp] at g2
  have hq2 : q = q2 := Option.some.inj g2
  subst hq2
  have hqa : q ≠ a := fun e => ha1 (e ▸ g1)
  refine ⟨g1, g3, ?_⟩
  have hch := TRep_children t none t.root b q h.1 g1 ha4
  obtain ⟨pre2, post2, hsplit⟩ := List.append_of_mem g3
  rw [hsplit] at hch
  have hpost : post2 = post :=
    Seg_unique t.next_sibling post2 post _ (Seg_mid _ _ _ _ _ _ hch).2 hseg.2
  subst hpost
  have hlen := BT.children_length_lt b q
  rw [hsplit] at hlen
  have hlast1 := ntree_last_sibling_seg t.next_sibling x post2 k hseg hk
  obtain ⟨l, hl⟩ : ∃ l, (x :: post2).getLast? = some l :=
    Option.ne_none_iff_exists'.mp (by simp)
  have hl3 : (pre2 ++ x :: post2).getLast? = some l := by
    rw [List.getLast?_append, hl]; rfl
  obtain ⟨first, rest, hfr⟩ : ∃ first rest, pre2 ++ x :: post2 = first :: rest := by
    cases pre2 with
    | nil => exact ⟨x, post2, rfl⟩
    | cons y ys => exact ⟨y, ys ++ x :: post2, rfl⟩
  rw [hfr] at hch hlen hl3
  simp only [List.length_cons] at hlen
  have hlink : t.pool.link q = some first := hch.1
  have hlast2 := ntree_last_sibling_seg t.next_sibling first rest big ⟨rfl, hch.2⟩ (by omega)
  rw [hl3] at hlast2
  rw [hl] at hlast1
  unfold internal_ntree_insert ntree_insert_at
  simp only [halloc, hr, ntree.first_child, hp, hlink, hlast1, hlast2, hd, decide_True,
    if_true]
  simp [ntree_fill, NTREE_NODE_INITIALIZER, ntree.set_parent, ntree.set_age, ntree.set_data,
    ntree.set_next_sibling, ntree.set_first_child, ntree.set_action, Function.update, hxa, hqa,
    hp]


/-- The search of `internal_ntree_insert` through a forest with a node that passes the test:
the effect is that of `ntree_insert_at` with the parent of the first such node in the
search order `BT.find_by`. -/
theorem internal_ntree_insert_found (t : ntree D) (b : BT) (a : Nat) (fl : List Nat)
    (pd d : D) (big : Nat) (h : TreeInv t b (a :: fl)) (hbig : b.pre.length < big)
    (b2 : BT) (par : Ptr) (x : Nat) (fuel : Nat) (y : Nat)
    (hrep : TRep t par (some x) b2) (hsub : ∀ z ∈ b2.pre, z ∈ b.pre)
    (hfuel : b2.pre.length < fuel)
    (hfind : b2.find_by (ntree_parent_matches t pd) = some y) :
    ∃ q, t.parent y = some q ∧ pd = t.data q ∧ q ∈ b.pre ∧ y ∈ b.children q ∧
      internal_ntree_insert fuel t x pd d = ntree_insert_at big t (some q) d := by
  induction b2 generalizing par x fuel with
  | nil => simp [BT.find_by] at hfind
  | node z c s ihc ihs =>
    obtain ⟨h1, h2, h3, h4⟩ := hrep
    have hxz : x = z := Option.some.inj h1
    subst hxz
    cases fuel with
    | zero => omega
    | succ k =>
      simp only [BT.pre, List.length_cons, List.length_append] at hfuel
      simp only [BT.find_by] at hfind
      by_cases hm : ntree_parent_matches t pd x = true
      · simp only [hm, if_true] at hfind
        have hxy : x = y := Option.some.inj hfind
        subst hxy
        have hm2 := hm
        simp only [ntree_parent_matches] at hm2
        cases hp : t.parent x with
        | none => rw [hp] at hm2; exact absurd hm2 (by simp)
        | some q =>
          rw [hp] at hm2
          have hd : pd = t.data q := of_decide_eq_true hm2
          have hseg : Seg t.next_sibling (some x) (x :: s.sibs) none :=
            ⟨rfl, TRep_sibs t _ _ s h4⟩
          have hlen := BT.sibs_length_le s
          obtain ⟨g1, g2, g3⟩ := internal_ntree_insert_match t b a fl x q pd d k big s.sibs h
            (hsub x (BT.mem_pre_self x c s)) hp hd hseg (by omega) hbig
          exact ⟨q, rfl, hd, g1, g2, g3⟩
      · have hm2 : ntree_parent_matches t pd x = false := by
          cases hv : ntree_parent_matches t pd x with
          | true => exact absurd hv hm
          | false => rfl
        simp only [hm2, Bool.false_eq_true, if_false] at hfind
        have hmx := hm2
        simp only [ntree_parent_matches] at hmx
        cases hfs : s.find_by (ntree_parent_matches t pd) with
        | some y2 =>
          rw [hfs] at hfind
          have hyy : y2 = y := Option.some.inj hfind
          subst hyy
          cases hns : t.next_sibling x with
          | none =>
            rw [hns] at h4
            cases s with
            | nil => simp [BT.find_by] at hfs
            | node u v w => exact absurd h4.1 (by simp)
          | some nxt =>
            rw [hns] at h4
            obtain ⟨q, g1, g2, g3, g4, g5⟩ := ihs par nxt k h4
              (fun z hz => hsub z (BT.mem_pre_of_sib x c hz)) (by omega) hfs
            obtain ⟨t2, e1, _⟩ := ntree_insert_at_child t b a fl q d big h g3 hbig
            refine ⟨q, g1, g2, g3, g4, ?_⟩
            rw [internal_ntree_insert]
            simp only [hmx, Bool.false_eq_true, if_false, hns, g5, e1]
        | none =>
          rw [hfs] at hfind
          simp only at hfind
          have hsib : t.next_sibling x = none ∨
              ∃ nxt, t.next_sibling x = some nxt ∧
                internal_ntree_insert k t nxt pd d = some (t, none, none) := by
            cases hns : t.next_sibling x with
            | none => exact Or.inl rfl
            | some nxt =>
              rw [hns] at h4
              exact Or.inr ⟨nxt, rfl, internal_ntree_insert_none t pd d s par nxt k h4
                (BT.find_by_eq_none _ s hfs) (by omega)⟩
          cases hc : t.pool.link x with
          | none =>
            rw [hc] at h3
            cases c with
            | nil => simp [BT.find_by] at hfind
            | node u v w => exact absurd h3.1 (by simp)
          | some ch =>
            rw [hc] at h3
            obtain ⟨q, g1, g2, g3, g4, g5⟩ := ihc (some x) ch k h3
              (fun z hz => hsub z (BT.mem_pre_of_child x s hz)) (by omega) hfind
            obtain ⟨t2, e1, _⟩ := ntree_insert_at_child t b a fl q d big h g3 hbig
            refine ⟨q, g1, g2, g3, g4, ?_⟩
            rw [internal_ntree_insert]
            rw [e1] at g5
            rcases hsib with f1 | ⟨nxt, f1, f2⟩
            · simp only [hmx, Bool.false_eq_true, if_false, f1, ntree.first_child, hc, g5, e1]
              rfl
            · simp only [hmx, Bool.false_eq_true, if_false, f1, f2, ntree.first_child, hc, g5,
                e1]
              rfl

end ByData
/-! ## Lemmas: well-formed example trees -/

section Examples
variable {D : Type}

/-- Insertion at the root level keeps the tree well formed. -/
theorem TreeWF_insert_at_root (t : ntree D) (b : BT) (a : Nat) (fl : List Nat) (d : D)
    (fuel : Nat) (h : TreeWF t b (a :: fl)) (hfuel : b.pre.length < fuel) :
    ∃ t2, ntree_insert_at fuel t none d = some (t2, some a, none) ∧
      TreeWF t2 (b.append_sib a) fl ∧ t2.data = Function.update t.data a d ∧
      t2.age = Function.update t.age a 1 ∧ t2.parent a = none := by
  obtain ⟨t2, h1, h2, h3, h4, h5, h6, h7⟩ := ntree_insert_at_root t b a fl d fuel h.1 hfuel
  refine ⟨t2, h1, ⟨h2, ?_⟩, h3, h4, h5⟩
  rw [h7, h.2, BT.pre_append_sib]
  simp only [List.length_cons, List.length_append, List.length_nil]
  omega

/-- Insertion under a node of the tree keeps the tree well formed. -/
theorem TreeWF_insert_at_child (t : ntree D) (b : BT) (a : Nat) (fl : List Nat) (q : Nat)
    (d : D) (fuel : Nat) (h : TreeWF t b (a :: fl)) (hq : q ∈ b.pre)
    (hfuel : b.pre.length < fuel) :
    ∃ t2, ntree_insert_at fuel t (some q) d = some (t2, some a, none) ∧
      TreeWF t2 (b.add_child q a) fl ∧ t2.data = Function.update t.data a d ∧
      t2.age = Function.update t.age a (t.age q + 1) ∧ t2.parent a = some q := by
  have hnd : b.pre.Nodup := (List.nodup_append.mp h.1.2.2.1).1
  obtain ⟨t2, h1, h2, h3, h4, h5, h6, h7⟩ := ntree_insert_at_child t b a fl q d fuel h.1 hq hfuel
  refine ⟨t2, h1, ⟨h2, ?_⟩, h3, h4, h5⟩
  rw [h7, h.2, (BT.pre_add_child_perm b q a hq hnd).length_eq]
  simp only [List.length_cons]
  omega

/-- A fresh tree of `n + 1` cells after one insertion: a single root with payload `d`. -/
theorem ntree_example_one (n d : Nat) :
    ∃ (t : ntree Nat) (a : Nat) (fl : List Nat),
      TreeWF t (BT.node a BT.nil BT.nil) fl ∧ t.data a = d ∧ t.age a = 1 ∧ fl.length = n ∧
      t.pool.capacity = n + 1 ∧ t.root = some a := by
  obtain ⟨t0, fl0, _, h2, h3, h4⟩ :=
    ntree_init_wf 4096 (0 : Nat) 4 (n + 1) (by decide) (by omega) (by decide)
  cases fl0 with
  | nil => simp at h4
  | cons a fl =>
    obtain ⟨t, g1, g2, g3, g4, _⟩ := TreeWF_insert_at_root t0 BT.nil a fl d 1 h2 (by simp [BT.pre])
    refine ⟨t, a, fl, g2, by rw [g3, Function.update_same], by rw [g4, Function.update_same],
      by simpa using h4, ?_, g2.1.1.1⟩
    rw [g2.2]
    simp only [BT.append_sib, BT.pre, List.length_cons, List.length_append, List.length_nil]
    simp only [List.length_cons] at h4
    omega

/-- A tree of `n + 2` cells with a root of payload `d` and one child of payload `e`. -/
theorem ntree_example_two (n d e : Nat) :
    ∃ (t : ntree Nat) (a c : Nat) (fl : List Nat),
      TreeWF t (BT.node a (BT.node c BT.nil BT.nil) BT.nil) fl ∧ t.data a = d ∧
      t.data c = e ∧ t.age a = 1 ∧ t.age c = 2 ∧ t.parent a = none ∧ t.parent c = some a ∧
      fl.length = n ∧ a ≠ c := by
  obtain ⟨t0, a, fl0, h1, h2, h3, h4, h5, h6⟩ := ntree_example_one (n + 1) d
  cases fl0 with
  | nil => simp at h4
  | cons c fl =>
    have hac : a ≠ c := by
      have := h1.1.2.2.1
      simp only [BT.pre, List.append_nil, List.singleton_append, List.nodup_cons,
        List.mem_cons] at this
      exact fun e => this.1 (Or.inl e)
    obtain ⟨t, g1, g2, g3, g4, g5⟩ := TreeWF_insert_at_child t0 _ c fl a e 2 h1
      (BT.mem_pre_self _ _ _) (by simp [BT.pre])
    have hb : (BT.node a BT.nil BT.nil).add_child a c
        = BT.node a (BT.node c BT.nil BT.nil) BT.nil := by
      simp [BT.add_child, BT.append_sib]
    rw [hb] at g2
    refine ⟨t, a, c, fl, g2, ?_, ?_, ?_, ?_, g2.1.1.2.1, g5, by simpa using h4, hac⟩
    · rw [g3, Function.update_noteq hac, h2]
    · rw [g3, Function.update_same]
    · rw [g4, Function.update_noteq hac, h3]
    · rw [g4, Function.update_same, h3]; rfl

end Examples
/-! ## Lemmas: reset of a pool -/

theorem pool_eq_of_fields (p q : pool) (h1 : p.mem = q.mem) (h2 : p.data_bytes = q.data_bytes)
    (h3 : p.capacity = q.capacity) (h4 : p.freeable = q.freeable) (h5 : p.root = q.root)
    (h6 : p.link = q.link) : p = q := by
  cases p
  cases q
  simp only at h1 h2 h3 h4 h5 h6
  subst h1 h2 h3 h4 h5 h6
  rfl

theorem pool_free_all_cons (p : pool) (a : Nat) (t : List Nat) :
    pool_free_all p (a :: t) = pool_free_all (pool_free p (some a)) t := by
  simp [pool_free_all]

/-- Pushing the same cells onto two pools with the same root and counter gives the same
root, counter and links of the pushed cells. -/
theorem push_all_agree (p1 p2 : pool) (xs : List Nat) (hr : p1.root = p2.root)
    (hf : p1.freeable = p2.freeable) :
    (pool_free_all p1 xs).root = (pool_free_all p2 xs).root ∧
    (pool_free_all p1 xs).freeable = (pool_free_all p2 xs).freeable ∧
    ∀ a ∈ xs, (pool_free_all p1 xs).link a = (pool_free_all p2 xs).link a := by
  induction xs generalizing p1 p2 with
  | nil => exact ⟨hr, hf, by simp⟩
  | cons a t ih =>
    rw [pool_free_all_cons, pool_free_all_cons]
    have h := ih (pool_free p1 (some a)) (pool_free p2 (some a))
      (by simp [pool_free, internal_pool_push]) (by simp [pool_free, internal_pool_push, hf])
    refine ⟨h.1, h.2.1, ?_⟩
    intro b hb
    by_cases hbt : b ∈ t
    · exact h.2.2 b hbt
    · have hba : b = a := by
        rcases List.mem_cons.mp hb with e | e
        · exact e
        · exact absurd e hbt
      subst hba
      rw [(push_all_fields (pool_free p1 (some b)) t).2.2.2.2 b hbt,
        (push_all_fields (pool_free p2 (some b)) t).2.2.2.2 b hbt]
      simp [pool_free, internal_pool_push, hr]

/-- Two runs of `internal_pool_setup` over the same region give the same structure and
the same links of the cells; the other words keep their content. -/
theorem setup_agree (s1 s2 : pool) (mem data_bytes capacity : Nat) :
    (internal_pool_setup s1 mem data_bytes capacity).root
      = (internal_pool_setup s2 mem data_bytes capacity).root ∧
    (∀ a ∈ pool_cells mem data_bytes capacity,
      (internal_pool_setup s1 mem data_bytes capacity).link a
        = (internal_pool_setup s2 mem data_bytes capacity).link a) ∧
    (∀ a, a ∉ pool_cells mem data_bytes capacity →
      (internal_pool_setup s1 mem data_bytes capacity).link a = s1.link a) := by
  rw [setup_eq_free_all s1, setup_eq_free_all s2]
  have h := push_all_agree (POOL_INITIALIZER mem data_bytes capacity s1.link)
    (POOL_INITIALIZER mem data_bytes capacity s2.link) (pool_cells mem data_bytes capacity)
    rfl rfl
  exact ⟨h.1, h.2.2, fun a ha => (push_all_fields _ _).2.2.2.2 a ha⟩

/-- The function `pool_clear` is idempotent. -/
theorem pool_clear_idem (p : pool) : (pool_clear (pool_clear p).1).1 = (pool_clear p).1 := by
  simp only [pool_clear]
  obtain ⟨_, h2, h3, h4, h5⟩ := setup_spec p p.mem p.data_bytes p.capacity
  rw [h2, h3, h4]
  obtain ⟨g1, g2, g3, g4, g5⟩ := setup_spec (internal_pool_setup p p.mem p.data_bytes p.capacity)
    p.mem p.data_bytes p.capacity
  obtain ⟨a1, a2, a3⟩ := setup_agree (internal_pool_setup p p.mem p.data_bytes p.capacity) p
    p.mem p.data_bytes p.capacity
  refine pool_eq_of_fields _ _ (g2.trans h2.symm) (g3.trans h3.symm) (g4.trans h4.symm)
    (g5.trans h5.symm) a1 ?_
  funext a
  by_cases ha : a ∈ pool_cells p.mem p.data_bytes p.capacity
  · exact a2 a ha
  · exact a3 a ha

/-- After `internal_pool_setup` exactly `capacity` allocations succeed. -/
theorem setup_alloc_n (s : pool) (mem data_bytes capacity : Nat) :
    (pool_alloc_n capacity (internal_pool_setup s mem data_bytes capacity)).2
      = (pool_cells mem data_bytes capacity).reverse.map some ∧
    (pool_alloc (pool_alloc_n capacity
      (internal_pool_setup s mem data_bytes capacity)).1).2.1 = none := by
  obtain ⟨h1, _⟩ := setup_spec s mem data_bytes capacity
  have hall := alloc_n_seg _ _ _ h1
  rw [List.length_reverse, pool_cells_length] at hall
  rw [hall]
  exact ⟨rfl, by simp [pool_alloc, internal_pool_pop]⟩

theorem pool_init_ok (mem data_bytes capacity : Nat) (hd : 0 < data_bytes)
    (hc : 0 < capacity) :
    pool_init mem data_bytes capacity = Except.ok (internal_pool_setup
      (POOL_INITIALIZER mem data_bytes capacity (fun _ => none)) mem data_bytes capacity) := by
  unfold pool_init
  rw [if_neg]
  omega

theorem pool_init_ok_inv (mem data_bytes capacity : Nat) (p : pool)
    (h : pool_init mem data_bytes capacity = Except.ok p) :
    0 < data_bytes ∧ 0 < capacity ∧ p = internal_pool_setup
      (POOL_INITIALIZER mem data_bytes capacity (fun _ => none)) mem data_bytes capacity := by
  unfold pool_init at h
  by_cases hz : data_bytes = 0 ∨ capacity = 0
  · rw [if_pos hz] at h
    exact absurd h (by simp)
  · rw [if_neg hz] at h
    refine ⟨by omega, by omega, ?_⟩
    exact (Except.ok.inj h).symm
/-! ## Lemmas: generic iterators over lists -/

section IterList
variable {D : Type}

theorem iter_is_end_list_iter_at (l : list D) (p : Ptr) :
    iter_is_end (list_iter_at l p) = p.isNone := by
  cases p <;> rfl

theorem iter_data_list_iter_at (l : list D) (a : Nat) :
    iter_data (list_iter_at l (some a)) = some (some a, none) := rfl

/-- On a null terminated chain `ns` from `p`, `k` steps of `iter_next` lead to the `k`-th
node, and to the end marker for `k = ns.length`. -/
theorem iter_next_n_list (l : list D) (ns : List Nat) (p : Ptr) (k : Nat)
    (h : Seg l.next p ns none) (hk : k ≤ ns.length) :
    iter_next_n k (list_iter_at l p) = some (list_iter_at l (ns.get? k)) := by
  induction k generalizing p ns with
  | zero =>
    cases ns with
    | nil => simp only [Seg] at h; subst h; rfl
    | cons a t => rw [h.1]; rfl
  | succ k ih =>
    cases ns with
    | nil => simp at hk
    | cons a t =>
      rw [h.1]
      simp only [iter_next_n, iter_next_list_iter_at]
      rw [ih t (l.next a) h.2 (by simpa using hk)]
      rfl

/-- The client loop over a null terminated chain visits its nodes in order. -/
theorem iter_walk_list (l : list D) (ns : List Nat) (p : Ptr) (fuel : Nat)
    (h : Seg l.next p ns none) (hfuel : ns.length < fuel) :
    iter_walk fuel (list_iter_at l p) = some ns := by
  induction ns generalizing p fuel with
  | nil =>
    simp only [Seg] at h
    subst h
    cases fuel with
    | zero => simp at hfuel
    | succ k => rfl
  | cons a t ih =>
    cases fuel with
    | zero => simp at hfuel
    | succ k =>
      rw [h.1]
      simp only [iter_walk, iter_is_end_list_iter_at, Option.isNone_some, Bool.false_eq_true,
        if_false, iter_data_list_iter_at, iter_next_list_iter_at]
      rw [ih (l.next a) k h.2 (by simpa using hfuel)]
      rfl

end IterList

section IterChildren
variable {D : Type}

theorem ntree_children_iter_eq (t : ntree D) (a : Nat) :
    (ntree_children_iter t (some a)).1 = ntree_children_iter_at t (t.first_child a) := by
  cases h : t.first_child a <;> simp [ntree_children_iter, ntree_children_iter_at, h]

theorem iter_next_children_iter_at (t : ntree D) (a : Nat) :
    iter_next (ntree_children_iter_at t (some a))
      = some (ntree_children_iter_at t (t.next_sibling a), none) := by
  unfold iter_next ntree_children_iter_at
  simp only [ntree_children_iter_next]
  cases t.next_sibling a <;> rfl

theorem iter_is_end_children_iter_at (t : ntree D) (p : Ptr) :
    iter_is_end (ntree_children_iter_at t p) = p.isNone := by
  cases p <;> rfl

theorem iter_data_children_iter_at (t : ntree D) (a : Nat) :
    iter_data (ntree_children_iter_at t (some a)) = some (some a, none) := rfl

theorem iter_next_n_children (t : ntree D) (ns : List Nat) (p : Ptr) (k : Nat)
    (h : Seg t.next_sibling p ns none) (hk : k ≤ ns.length) :
    iter_next_n k (ntree_children_iter_at t p)
      = some (ntree_children_iter_at t (ns.get? k)) := by
  induction k generalizing p ns with
  | zero =>
    cases ns with
    | nil => simp only [Seg] at h; subst h; rfl
    | cons a r => rw [h.1]; rfl
  | succ k ih =>
    cases ns with
    | nil => simp at hk
    | cons a r =>
      rw [h.1]
      simp only [iter_next_n, iter_next_children_iter_at]
      rw [ih r (t.next_sibling a) h.2 (by simpa using hk)]
      rfl

theorem iter_walk_children (t : ntree D) (ns : List Nat) (p : Ptr) (fuel : Nat)
    (h : Seg t.next_sibling p ns none) (hfuel : ns.length < fuel) :
    iter_walk fuel (ntree_children_iter_at t p) = some ns := by
  induction ns generalizing p fuel with
  | nil =>
    simp only [Seg] at h
    subst h
    cases fuel with
    | zero => simp at hfuel
    | succ k => rfl
  | cons a r ih =>
    cases fuel with
    | zero => simp at hfuel
    | succ k =>
      rw [h.1]
      simp only [iter_walk, iter_is_end_children_iter_at, Option.isNone_some,
        Bool.false_eq_true, if_false, iter_data_children_iter_at, iter_next_children_iter_at]
      rw [ih (t.next_sibling a) k h.2 (by simpa using hfuel)]
      rfl

end IterChildren
/-! ## Lemmas: the depth-first iterator -/

section StackLemmas
variable {D : Type}

theorem StackHolds_count {f : list D} {xs : List D} (h : StackHolds f xs) :
    stack_count f = ((xs.length : Nat) : Int) := by
  obtain ⟨ns, fl, h⟩ := h
  exact ListWF_count h

theorem StackHolds_push (f : list D) (xs : List D) (d : D) (h : StackHolds f xs)
    (hroom : xs.length < f.pool.capacity) :
    ∃ f2 a, stack_push f d = some (f2, some a, none) ∧ StackHolds f2 (xs ++ [d]) ∧
      f2.pool.capacity = f.pool.capacity := by
  obtain ⟨ns, fl, h⟩ := h
  obtain ⟨f2, a, t, _, h2, h3, h4, _⟩ := ListWF_push f ns fl xs d h hroom
  exact ⟨f2, a, h2, ⟨_, _, h3⟩, h4⟩

theorem StackHolds_pop (f : list D) (xs : List D) (d : D) (h : StackHolds f (xs ++ [d])) :
    ∃ f2, stack_pop f = (f2, ((xs.length : Nat) : Int), some d) ∧ StackHolds f2 xs ∧
      f2.pool.capacity = f.pool.capacity := by
  obtain ⟨ns, fl, h⟩ := h
  have hlen := ListWF_length h
  rcases List.eq_nil_or_concat ns with hp | ⟨pre, a, hp⟩
  · subst hp; simp at hlen
  · rw [List.concat_eq_append] at hp
    subst hp
    obtain ⟨f2, h1, h2, h3, h4⟩ := ListWF_pop f pre fl a _ h
    rw [getLast?_concat_eq_gen] at h4
    simp only [List.dropLast_concat] at h1 h2
    have hd : f.data a = d := (Option.some.inj h4).symm
    rw [hd] at h1
    exact ⟨f2, h1, ⟨_, _, h2⟩, h3⟩

end StackLemmas

section Fringe
variable {D : Type}

theorem BT.roots_length_le (pend : List BT) : (BT.roots pend).length ≤ (BT.pres pend).length := by
  induction pend with
  | nil => simp [BT.roots, BT.pres]
  | cons b r ih =>
    cases b with
    | nil => simpa [BT.roots, BT.pres, BT.pre] using ih
    | node a c s =>
      simp only [BT.roots, BT.pres, BT.pre, List.length_cons, List.length_append]
      omega

theorem BT.pres_push_nonnil (b : BT) (l : List BT) :
    BT.pres (BT.push_nonnil b l) = b.pre ++ BT.pres l := by
  cases b <;> simp [BT.push_nonnil, BT.pres, BT.pre]

theorem BT.roots_push_nonnil (b : BT) (l : List BT) :
    (BT.roots (BT.push_nonnil b l)).reverse
      = (BT.roots l).reverse ++ (match b.ptr with | none => [] | some x => [x]) := by
  cases b <;> simp [BT.push_nonnil, BT.roots, BT.ptr]

/-- Pushing the first node of a non-empty forest linked in `t` keeps the invariant of the
fringe. -/
theorem FringeInv_push (t : ntree D) (f : list Nat) (pend : List BT) (x : Nat) (c s : BT)
    (par : Ptr) (h : FringeInv t f pend) (hb : TRep t par (some x) (BT.node x c s))
    (hroom : (BT.pres (BT.node x c s :: pend)).length ≤ f.pool.capacity) :
    ∃ f2 a, stack_push f x = some (f2, some a, none) ∧
      FringeInv t f2 (BT.node x c s :: pend) ∧ f2.pool.capacity = f.pool.capacity := by
  obtain ⟨h1, h2, h3⟩ := h
  have hlen := BT.roots_length_le pend
  simp only [BT.pres, BT.pre, List.length_append, List.length_cons] at hroom
  obtain ⟨f2, a, g1, g2, g3⟩ := StackHolds_push f _ x h1
    (by rw [List.length_reverse]; omega)
  refine ⟨f2, a, g1, ⟨?_, ?_, ?_⟩, g3⟩
  · simpa [BT.roots] using g2
  · intro b hb2
    rcases List.mem_cons.mp hb2 with e1 | e1
    · subst e1
      exact ⟨by simp, par, hb⟩
    · exact h2 b e1
  · rw [g3]
    simp only [BT.pres, BT.pre, List.length_append, List.length_cons]
    omega

/-- One call of `ntree_iter_next`: the node on top of the fringe becomes the current node,
its next sibling and then its first child are pushed. -/
theorem ntree_iter_next_step (t : ntree D) (it : struct_ntree_iter) (a : Nat) (c s : BT)
    (rest : List BT) (h : FringeInv t it.fringe (BT.node a c s :: rest)) :
    ∃ f2, ntree_iter_next t it
        = some (some { fringe := f2, age := t.age a, node := some a }, none) ∧
      FringeInv t f2 (BT.push_nonnil c (BT.push_nonnil s rest)) ∧
      f2.pool.capacity = it.fringe.pool.capacity := by
  obtain ⟨h1, h2, h3⟩ := h
  have hcount := StackHolds_count h1
  simp only [BT.roots, List.reverse_cons] at h1 hcount
  obtain ⟨f1, p1, p2, p3⟩ := StackHolds_pop it.fringe _ a h1
  obtain ⟨_, par, hrep⟩ := h2 _ (List.mem_cons_self _ _)
  obtain ⟨_, _, hc, hs⟩ := hrep
  simp only [BT.pres, BT.pre, List.length_append, List.length_cons] at h3
  have hinv1 : FringeInv t f1 rest :=
    ⟨p2, fun b hb => h2 b (List.mem_cons_of_mem _ hb), by rw [p3]; omega⟩
  have hne : ¬ (stack_count it.fringe = 0) := by
    rw [hcount]
    simp only [List.length_append, List.length_singleton]
    omega
  have hret : ¬ (((BT.roots rest).reverse.length : Nat) : Int) = -1 := by omega
  -- the push of the next sibling
  obtain ⟨fa, q1, q2, q3⟩ : ∃ fa, FringeInv t fa (BT.push_nonnil s rest) ∧
      fa.pool.capacity = it.fringe.pool.capacity ∧
      ((t.next_sibling a = none ∧ fa = f1) ∨
        ∃ x w, t.next_sibling a = some x ∧ stack_push f1 x = some (fa, some w, none)) := by
    cases s with
    | nil =>
      have e : t.next_sibling a = none := hs
      exact ⟨f1, hinv1, p3, Or.inl ⟨e, rfl⟩⟩
    | node x sc ss =>
      have e : t.next_sibling a = some x := hs.1
      rw [e] at hs
      obtain ⟨fa, w, g1, g2, g3⟩ := FringeInv_push t f1 rest x sc ss _ hinv1 hs (by
        rw [p3]
        simp only [BT.pres, BT.pre, List.length_append, List.length_cons] at h3 ⊢
        omega)
      exact ⟨fa, g2, g3.trans p3, Or.inr ⟨x, w, e, g1⟩⟩
  have hpres := BT.pres_push_nonnil s rest
  obtain ⟨fb, r1, r2, r3⟩ : ∃ fb, FringeInv t fb (BT.push_nonnil c (BT.push_nonnil s rest)) ∧
      fb.pool.capacity = it.fringe.pool.capacity ∧
      ((t.first_child a = none ∧ fb = fa) ∨
        ∃ x w, t.first_child a = some x ∧ stack_push fa x = some (fb, some w, none)) := by
    cases c with
    | nil =>
      have e : t.first_child a = none := hc
      exact ⟨fa, q1, q2, Or.inl ⟨e, rfl⟩⟩
    | node x cc cs =>
      have e : t.first_child a = some x := hc.1
      have hc2 : TRep t (some a) (some x) (BT.node x cc cs) := by
        have := hc
        rw [show t.pool.link a = some x from hc.1] at this
        exact this
      obtain ⟨fb, w, g1, g2, g3⟩ := FringeInv_push t fa _ x cc cs _ q1 hc2 (by
        rw [q2]
        simp only [BT.pres, hpres, BT.pre, List.length_append, List.length_cons] at h3 ⊢
        omega)
      exact ⟨fb, g2, g3.trans q2, Or.inr ⟨x, w, e, g1⟩⟩
  refine ⟨fb, ?_, r1, r2⟩
  unfold ntree_iter_next
  simp only [if_neg hne, p1, if_neg hret]
  rcases q3 with ⟨e1, e2⟩ | ⟨x, w, e1, e2⟩ <;> rcases r3 with ⟨e3, e4⟩ | ⟨y, v, e3, e4⟩
  · subst e2 e4
    simp only [e1, e3]
  · subst e2
    simp [e1, e3, e4]
  · subst e4
    simp [e1, e2, e3]
  · simp [e1, e2, e3, e4]

/-- With nothing left to visit `ntree_iter_next` returns `NULL`. -/
theorem ntree_iter_next_empty (t : ntree D) (it : struct_ntree_iter)
    (h : FringeInv t it.fringe []) :
    ntree_iter_next t it = some (none, some Errno.ENOENT) := by
  have hcount := StackHolds_count h.1
  unfold ntree_iter_next
  rw [if_pos]
  simpa [BT.roots] using hcount

/-- A step of `iter_next` on a depth-first iterator with something left to visit. -/
theorem iter_next_dfs_step (t : ntree D) (it : struct_ntree_iter) (a : Nat) (c s : BT)
    (rest : List BT) (h : FringeInv t it.fringe (BT.node a c s :: rest)) :
    ∃ f2, iter_next (ntree_iter_at t it)
        = some (ntree_iter_at t { fringe := f2, age := t.age a, node := some a }, none) ∧
      FringeInv t f2 (BT.push_nonnil c (BT.push_nonnil s rest)) := by
  obtain ⟨f2, h1, h2, _⟩ := ntree_iter_next_step t it a c s rest h
  refine ⟨f2, ?_, h2⟩
  simp only [iter_next, ntree_iter_at, ntree_iter_next_handler, h1, Option.map_some']

/-- A step of `iter_next` on a depth-first iterator on the last node. -/
theorem iter_next_dfs_end (t : ntree D) (it : struct_ntree_iter)
    (h : FringeInv t it.fringe []) :
    iter_next (ntree_iter_at t it) = some (NULL_ITER, some Errno.ENOENT) := by
  simp only [iter_next, ntree_iter_at, ntree_iter_next_handler, ntree_iter_next_empty t it h,
    Option.map_some', Option.map_none']

theorem FringeInv_cons_node (t : ntree D) (f : list Nat) (b : BT) (rest : List BT)
    (h : FringeInv t f (b :: rest)) : ∃ a c s, b = BT.node a c s := by
  cases b with
  | nil => exact absurd rfl (h.2.1 _ (List.mem_cons_self _ _)).1
  | node a c s => exact ⟨a, c, s, rfl⟩

theorem ntree_walk_end (t : ntree D) (fuel : Nat) :
    ntree_walk t (fuel + 1) NULL_ITER = some [] := rfl

theorem ntree_walk_succ (t : ntree D) (it : struct_ntree_iter) (a : Nat) (fuel : Nat)
    (it2 : ITER) (e : Option Errno) (hnode : it.node = some a)
    (hnext : iter_next (ntree_iter_at t it) = some (it2, e)) :
    ntree_walk t (fuel + 1) (ntree_iter_at t it)
      = (ntree_walk t fuel it2).map (fun rest => (t.data a, it.age) :: rest) := by
  have h1 : iter_is_end (ntree_iter_at t it) = false := rfl
  have h2 : iter_data (ntree_iter_at t it) = some (some a, none) := by
    simp [iter_data, ntree_iter_at, ntree_iter_data, hnode]
  have h3 : ntree_iter_age t.next_sibling (ntree_iter_at t it) = some (it.age, none) := rfl
  rw [ntree_walk]
  simp only [h1, h2, h3, hnext, Bool.false_eq_true, if_false]

/-- The client loop over a depth-first iterator visits the current node and then the
pending forests in pre-order, and reads the payload and the age of each node. -/
theorem ntree_walk_dfs (t : ntree D) (n : Nat) :
    ∀ (pend : List BT) (it : struct_ntree_iter) (a : Nat) (fuel : Nat),
      (BT.pres pend).length = n → FringeInv t it.fringe pend → it.node = some a →
      it.age = t.age a → n + 1 < fuel →
      ntree_walk t fuel (ntree_iter_at t it)
        = some ((a :: BT.pres pend).map (fun x => (t.data x, t.age x))) := by
  induction n with
  | zero =>
    intro pend it a fuel hn h hnode hage hfuel
    obtain ⟨k, hk⟩ : ∃ k, fuel = k + 2 := ⟨fuel - 2, by omega⟩
    subst hk
    have hp : pend = [] := by
      cases pend with
      | nil => rfl
      | cons b rest =>
        obtain ⟨x, c, s, e⟩ := FringeInv_cons_node t _ b rest h
        subst e
        simp [BT.pres, BT.pre] at hn
    subst hp
    have hnext := iter_next_dfs_end t it h
    rw [ntree_walk_succ t it a (k + 1) _ _ hnode hnext, ntree_walk_end, hage]
    rfl
  | succ n ih =>
    intro pend it a fuel hn h hnode hage hfuel
    obtain ⟨k, hk⟩ : ∃ k, fuel = k + 1 := ⟨fuel - 1, by omega⟩
    subst hk
    cases pend with
    | nil => simp [BT.pres] at hn
    | cons b rest =>
      obtain ⟨x, c, s, e⟩ := FringeInv_cons_node t _ b rest h
      subst e
      obtain ⟨f2, h1, h2⟩ := iter_next_dfs_step t it x c s rest h
      have hpres : BT.pres (BT.push_nonnil c (BT.push_nonnil s rest))
          = c.pre ++ (s.pre ++ BT.pres rest) := by
        rw [BT.pres_push_nonnil, BT.pres_push_nonnil]
      have hlen : (BT.pres (BT.push_nonnil c (BT.push_nonnil s rest))).length = n := by
        rw [hpres]
        simp only [BT.pres, BT.pre, List.length_append, List.length_cons] at hn ⊢
        omega
      have hrec := ih _ { fringe := f2, age := t.age x, node := some x } x k hlen h2 rfl rfl
        (by omega)
      rw [ntree_walk_succ t it a k _ _ hnode h1, hrec, hage, hpres]
      simp [BT.pres, BT.pre]

/-- The position of a depth-first iterator after `k` steps of `iter_next`. -/
theorem iter_next_n_dfs (t : ntree D) (k : Nat) :
    ∀ (pend : List BT) (it : struct_ntree_iter) (a : Nat),
      FringeInv t it.fringe pend → it.node = some a → it.age = t.age a →
      k ≤ (BT.pres pend).length →
      ∃ (it2 : struct_ntree_iter) (pend2 : List BT) (x : Nat),
        iter_next_n k (ntree_iter_at t it) = some (ntree_iter_at t it2) ∧
        FringeInv t it2.fringe pend2 ∧ (a :: BT.pres pend).get? k = some x ∧
        it2.node = some x ∧ it2.age = t.age x ∧
        BT.pres pend2 = (BT.pres pend).drop k := by
  induction k with
  | zero =>
    intro pend it a h hnode hage _
    exact ⟨it, pend, a, rfl, h, rfl, hnode, hage, rfl⟩
  | succ k ih =>
    intro pend it a h hnode hage hk
    cases pend with
    | nil => simp [BT.pres] at hk
    | cons b rest =>
      obtain ⟨x, c, s, e⟩ := FringeInv_cons_node t _ b rest h
      subst e
      obtain ⟨f2, h1, h2⟩ := iter_next_dfs_step t it x c s rest h
      have hpres : BT.pres (BT.push_nonnil c (BT.push_nonnil s rest))
          = c.pre ++ (s.pre ++ BT.pres rest) := by
        rw [BT.pres_push_nonnil, BT.pres_push_nonnil]
      have hk2 : k ≤ (BT.pres (BT.push_nonnil c (BT.push_nonnil s rest))).length := by
        rw [hpres]
        simp only [BT.pres, BT.pre, List.length_append, List.length_cons] at hk ⊢
        omega
      obtain ⟨it2, pend2, y, g1, g2, g3, g4, g5, g6⟩ :=
        ih _ { fringe := f2, age := t.age x, node := some x } x h2 rfl rfl hk2
      refine ⟨it2, pend2, y, ?_, g2, ?_, g4, g5, ?_⟩
      · simp only [iter_next_n, h1, g1]
      · rw [hpres] at g3
        simpa [BT.pres, BT.pre] using g3
      · rw [g6, hpres]
        simp [BT.pres, BT.pre]

/-- The function `ntree_iter` on a non-empty tree: the iterator is on the root. -/
theorem ntree_iter_start (t : ntree D) (a : Nat) (c s : BT) (fl : List Nat) (fmem : Nat)
    (h : TreeWF t (BT.node a c s) fl) :
    ∃ f, ntree_iter fmem t
        = some (ntree_iter_at t { fringe := f, age := t.age a, node := some a }, none) ∧
      FringeInv t f (BT.push_nonnil c (BT.push_nonnil s [])) := by
  have hcap : 0 < t.pool.capacity := by
    rw [h.2]
    simp [BT.pre]
  obtain ⟨l, fl0, h1, h2, h3⟩ := list_init_wf fmem (0 : Nat) sizeof_ntree_node_ptr
    t.pool.capacity (by decide) hcap (by decide)
  have hr : t.root = some a := h.1.1.1
  have hrep : TRep t none (some a) (BT.node a c s) := hr ▸ h.1.1
  have hinv0 : FringeInv t l [] := ⟨⟨_, _, h2⟩, by simp, by simp [BT.pres]⟩
  obtain ⟨f1, w, g1, g2, g3⟩ := FringeInv_push t l [] a c s none hinv0 hrep (by
    rw [h3, h.2]
    simp [BT.pres])
  obtain ⟨f2, k1, k2, _⟩ := ntree_iter_next_step t (NTREE_ITER_INITIALIZER f1) a c s [] g2
  refine ⟨f2, ?_, k2⟩
  simp only [ntree_iter, internal_ntree_iter, stack_init, h1, hr, g1, k1, ntree_iter_at]

/-- The function `ntree_iter` on an empty tree returns the end marker. -/
theorem ntree_iter_empty (t : ntree D) (fl : List Nat) (fmem : Nat)
    (h : TreeWF t BT.nil fl) : ∃ e, ntree_iter fmem t = some (NULL_ITER, e) := by
  have hr : t.root = none := h.1.1
  by_cases hcap : t.pool.capacity = 0
  · refine ⟨none, ?_⟩
    simp [ntree_iter, internal_ntree_iter, stack_init, list_init, hcap]
  · obtain ⟨l, fl0, h1, h2, h3⟩ := list_init_wf fmem (0 : Nat) sizeof_ntree_node_ptr
      t.pool.capacity (by decide) (by omega) (by decide)
    have hinv0 : FringeInv t (NTREE_ITER_INITIALIZER l).fringe [] :=
      ⟨⟨_, _, h2⟩, by simp, by simp [BT.pres]⟩
    refine ⟨some Errno.ENOENT, ?_⟩
    simp only [ntree_iter, internal_ntree_iter, stack_init, h1, hr,
      ntree_iter_next_empty t _ hinv0]

end Fringe
/-! ## Lemmas: positions of iterators -/

theorem iter_next_n_succ_last (k : Nat) (it it2 it3 : ITER) (e : Option Errno)
    (h1 : iter_next_n k it = some it2) (h2 : iter_next it2 = some (it3, e)) :
    iter_next_n (k + 1) it = some it3 := by
  induction k generalizing it with
  | zero =>
    simp only [iter_next_n] at h1
    have := Option.some.inj h1
    subst this
    simp [iter_next_n, h2]
  | succ k ih =>
    rw [iter_next_n] at h1 ⊢
    cases hn : iter_next it with
    | none => rw [hn] at h1; exact absurd h1 (by simp)
    | some r =>
      rw [hn] at h1
      exact ih r.1 h1

theorem iter_end_of_object_none (it : ITER) (h : it.object = none) :
    iter_is_end it = true ∧ iter_data it = some (none, some Errno.EINVAL) ∧
      iter_next it = some (NULL_ITER, some Errno.EINVAL) := by
  simp [iter_is_end, iter_data, iter_next, h]

section DfsPos
variable {D : Type}

theorem FringeInv_pres_nil (t : ntree D) (f : list Nat) (pend : List BT)
    (h : FringeInv t f pend) (hp : BT.pres pend = []) : pend = [] := by
  cases pend with
  | nil => rfl
  | cons b rest =>
    obtain ⟨x, c, s, e⟩ := FringeInv_cons_node t f b rest h
    subst e
    simp [BT.pres, BT.pre] at hp

/-- The positions of the depth-first iterator of a well-formed tree: after `k` steps it
is on the `k`-th node of the pre-order sequence, and it ends after the last node. -/
theorem ntree_iter_positions (t : ntree D) (b : BT) (fl : List Nat) (fmem : Nat)
    (h : TreeWF t b fl) (hne : b ≠ BT.nil) :
    ∃ it0, ntree_iter fmem t = some (it0, none) ∧
      (∀ k x, b.pre.get? k = some x → ∃ itk : struct_ntree_iter,
        iter_next_n k it0 = some (ntree_iter_at t itk) ∧ itk.node = some x ∧
        itk.age = t.age x ∧
        (k + 1 = b.pre.length →
          iter_next (ntree_iter_at t itk) = some (NULL_ITER, some Errno.ENOENT))) ∧
      iter_next_n b.pre.length it0 = some NULL_ITER := by
  cases b with
  | nil => exact absurd rfl hne
  | node a c s =>
    obtain ⟨f, h1, h2⟩ := ntree_iter_start t a c s fl fmem h
    have hpres : BT.pres (BT.push_nonnil c (BT.push_nonnil s [])) = c.pre ++ s.pre := by
      rw [BT.pres_push_nonnil, BT.pres_push_nonnil]
      simp [BT.pres]
    have hpre : (BT.node a c s).pre = a :: BT.pres (BT.push_nonnil c (BT.push_nonnil s [])) := by
      rw [hpres]; rfl
    have key : ∀ k x, (BT.node a c s).pre.get? k = some x → ∃ itk : struct_ntree_iter,
        iter_next_n k (ntree_iter_at t { fringe := f, age := t.age a, node := some a })
          = some (ntree_iter_at t itk) ∧ itk.node = some x ∧ itk.age = t.age x ∧
        (k + 1 = (BT.node a c s).pre.length →
          iter_next (ntree_iter_at t itk) = some (NULL_ITER, some Errno.ENOENT)) := by
      intro k x hk
      have hlt : k < (BT.node a c s).pre.length := lt_length_of_get? _ _ _ hk
      rw [hpre] at hk hlt
      simp only [List.length_cons] at hlt
      obtain ⟨itk, pend2, y, g1, g2, g3, g4, g5, g6⟩ := iter_next_n_dfs t k _
        { fringe := f, age := t.age a, node := some a } a h2 rfl rfl (by omega)
      rw [hk] at g3
      have hxy : x = y := Option.some.inj g3
      subst hxy
      refine ⟨itk, g1, g4, g5, ?_⟩
      intro hlast
      rw [hpre] at hlast
      simp only [List.length_cons] at hlast
      have hnil : BT.pres pend2 = [] := by
        rw [g6]
        exact List.drop_eq_nil_of_le (by omega)
      have := FringeInv_pres_nil t _ _ g2 hnil
      subst this
      exact iter_next_dfs_end t itk g2
    refine ⟨_, h1, key, ?_⟩
    obtain ⟨x, hx⟩ : ∃ x, (BT.node a c s).pre.get? ((BT.node a c s).pre.length - 1) = some x := by
      have : (BT.node a c s).pre.length - 1 < (BT.node a c s).pre.length := by
        simp [BT.pre]
      exact ⟨_, List.get?_eq_get this⟩
    obtain ⟨itk, g1, _, _, g4⟩ := key _ x hx
    have hlen : (BT.node a c s).pre.length - 1 + 1 = (BT.node a c s).pre.length := by
      simp [BT.pre]
    have := iter_next_n_succ_last _ _ _ _ _ g1 (g4 hlen)
    rw [hlen] at this
    exact this

end DfsPos

section ChildrenParent
variable {D : Type}

/-- The children of a node have this node as parent. -/
theorem TRep_children_parent (t : ntree D) (par p : Ptr) (b : BT) (q : Nat)
    (h : TRep t par p b) (hnd : b.pre.Nodup) :
    ∀ x ∈ b.children q, t.parent x = some q := by
  induction b generalizing par p with
  | nil => simp [BT.children]
  | node y c s ihc ihs =>
    obtain ⟨n1, n2, n3, n4, n5⟩ := BT.pre_nodup_node hnd
    obtain ⟨h1, h2, h3, h4⟩ := h
    intro x hx
    by_cases hy : y = q
    · subst hy
      simp only [BT.children, if_true] at hx
      exact TRep_sibs_parent t _ _ c h3 x hx
    · simp only [BT.children, if_neg hy, List.mem_append] at hx
      rcases hx with hx | hx
      · exact ihc _ _ h3 n3 x hx
      · exact ihs _ _ h4 n4 x hx

end ChildrenParent
/-! ## Lemmas: the children of a node are distinct -/

theorem BT.sibs_sublist_pre (b : BT) : b.sibs.Sublist b.pre := by
  induction b with
  | nil => exact List.Sublist.refl _
  | node a c s _ ihs =>
    simp only [BT.sibs, BT.pre]
    exact List.Sublist.cons₂ a (ihs.trans (List.sublist_append_right c.pre s.pre))

theorem BT.children_nodup (b : BT) (p : Nat) (hnd : b.pre.Nodup) : (b.children p).Nodup := by
  induction b with
  | nil => simp [BT.children]
  | node x c s ihc ihs =>
    obtain ⟨n1, n2, n3, n4, n5⟩ := BT.pre_nodup_node hnd
    by_cases hx : x = p
    · simp only [BT.children, if_pos hx]
      exact List.Nodup.sublist (BT.sibs_sublist_pre c) n3
    · simp only [BT.children, if_neg hx]
      refine List.nodup_append.mpr ⟨ihc n3, ihs n4, ?_⟩
      intro y hy1 hy2
      exact n5 y (BT.children_subset_pre c p y hy1) (BT.children_subset_pre s p y hy2)
/-! ## Lemmas: `string_match` -/

theorem toupper_eq_iff_fold (c d : Nat) : toupper c = toupper d ↔ fold_case c = fold_case d := by
  unfold toupper fold_case
  split_ifs <;> omega

theorem toupper_pos (c : Nat) (h : 1 ≤ c) : toupper c ≠ 0 := by
  unfold toupper
  split_ifs <;> omega

theorem toupper_eq_special (c k : Nat) (hk : k < 65 ∨ (90 < k ∧ k < 97) ∨ 122 < k) : toupper c = k ↔ c = k := by
  unfold toupper
  split_ifs <;> omega

theorem pat_escaped_consts : (42 ||| PAT_ESCAPED) = 298 ∧ (43 ||| PAT_ESCAPED) = 299 := by
  decide

theorem glob_match_star (p s : List Nat) :
    glob_match (42 :: p) s = s.tails.any (fun rest => glob_match p rest) := by
  simp [glob_match]

theorem glob_match_star_cons (p : List Nat) (d : Nat) (rest : List Nat) :
    glob_match (42 :: p) (d :: rest) = (glob_match p (d :: rest) || glob_match (42 :: p) rest) := by
  rw [glob_match_star, glob_match_star]
  simp [List.tails]

theorem glob_match_star_nil (p : List Nat) :
    glob_match (42 :: p) [] = glob_match p [] := by
  rw [glob_match_star]
  simp [List.tails]

/-- One call of `internal_string_match` outside an escape. -/
theorem internal_string_match_glob (fuel : Nat) :
    ∀ (pat str : List Nat),
      (∀ c ∈ pat, is_ascii c ∧ c ≠ 43 ∧ c ≠ 92 ∧ isupper c = false) →
      (∀ c ∈ str, is_ascii c ∧ c ≠ 92) → pat.length + str.length < fuel →
      internal_string_match fuel pat str false false false = some (glob_match pat str) := by
  induction fuel with
  | zero => intro pat str _ _ h; omega
  | succ fuel ih =>
    intro pat str hp hs hfuel
    have hstr_c : toupper (str.headD 0) = 0 ↔ str = [] := by
      cases str with
      | nil => simp [toupper]
      | cons d rest =>
        have := toupper_pos d (hs d (List.mem_cons_self _ _)).1.1
        simp [this]
    have hesc : decide (str.headD 0 = 92) = false := by
      cases str with
      | nil => simp
      | cons d rest =>
        have := (hs d (List.mem_cons_self _ _)).2
        simp [this]
    rw [internal_string_match]
    simp only [Bool.false_eq_true, if_false, Nat.or_zero, hesc, pat_escaped_consts.1,
      pat_escaped_consts.2]
    cases pat with
    | nil =>
      have h0 : toupper 0 = 0 := by simp [toupper]
      simp only [List.headD_nil, h0, if_true, glob_match]
      cases str with
      | nil => simp [toupper]
      | cons d rest =>
        have := toupper_pos d (hs d (List.mem_cons_self _ _)).1.1
        simp [this]
    | cons c p =>
      obtain ⟨hc1, hc2, hc3, hc4⟩ := hp c (List.mem_cons_self _ _)
      have hp2 : ∀ x ∈ p, is_ascii x ∧ x ≠ 43 ∧ x ≠ 92 ∧ isupper x = false :=
        fun x hx => hp x (List.mem_cons_of_mem _ hx)
      have hcpos := toupper_pos c hc1.1
      have hu298 : toupper c ≠ 298 := by
        have := hc1.2
        unfold toupper
        split_ifs <;> omega
      have hu299 : toupper c ≠ 299 := by
        have := hc1.2
        unfold toupper
        split_ifs <;> omega
      have hu43 : toupper c ≠ 43 := fun e => hc2 ((toupper_eq_special c 43 (by omega)).mp e)
      have hu92 : toupper c ≠ 92 := fun e => hc3 ((toupper_eq_special c 92 (by omega)).mp e)
      simp only [List.headD_cons, List.tail_cons, hcpos, hu298, hu299, hu43, hu92, if_false,
        toupper_eq_special c 42 (by omega), toupper_eq_special c 63 (by omega)]
      simp only [List.length_cons] at hfuel
      by_cases h42 : c = 42
      · subst h42
        simp only [if_true]
        rw [ih p str hp2 hs (by omega)]
        cases str with
        | nil =>
          have h0 : toupper 0 = 0 := by simp [toupper]
          rw [glob_match_star_nil]
          cases glob_match p [] <;> simp [h0]
        | cons d rest =>
          have hd := toupper_pos d (hs d (List.mem_cons_self _ _)).1.1
          have hs2 : ∀ x ∈ rest, is_ascii x ∧ x ≠ 92 :=
            fun x hx => hs x (List.mem_cons_of_mem _ hx)
          simp only [List.length_cons] at hfuel
          rw [glob_match_star_cons]
          cases hg : glob_match p (d :: rest)
          · simp only [List.headD_cons, hd, ne_eq, not_false_eq_true, if_true, List.tail_cons,
              Bool.false_or]
            exact ih (42 :: p) rest hp hs2 (by simp only [List.length_cons]; omega)
          · simp
      · simp only [if_neg h42]
        by_cases h63 : c = 63
        · subst h63
          simp only [if_true]
          cases str with
          | nil =>
            have h0 : toupper 0 = 0 := by simp [toupper]
            simp [h0, glob_match]
          | cons d rest =>
            have hd := toupper_pos d (hs d (List.mem_cons_self _ _)).1.1
            have hs2 : ∀ x ∈ rest, is_ascii x ∧ x ≠ 92 :=
              fun x hx => hs x (List.mem_cons_of_mem _ hx)
            simp only [List.length_cons] at hfuel
            simp only [List.headD_cons, hd, ne_eq, not_false_eq_true, if_true, List.tail_cons]
            rw [ih p rest hp2 hs2 (by omega)]
            simp [glob_match]
        · simp only [if_neg h63]
          cases str with
          | nil =>
            have h0 : toupper 0 = 0 := by simp [toupper]
            simp [h0, glob_match, h42, Ne.symm hcpos]
          | cons d rest =>
            have hs2 : ∀ x ∈ rest, is_ascii x ∧ x ≠ 92 :=
              fun x hx => hs x (List.mem_cons_of_mem _ hx)
            simp only [List.length_cons] at hfuel
            simp only [List.headD_cons, and_true, next_chars]
            rw [glob_match]
            simp only [if_neg h42, if_neg h63]
            by_cases he : toupper d = toupper c
            · have hf : fold_case c = fold_case d := (toupper_eq_iff_fold c d).mp he.symm
              simp only [he, if_true, hf, decide_True, Bool.true_and]
              exact ih p rest hp2 hs2 (by omega)
            · have hf : ¬ fold_case c = fold_case d :=
                fun e => he ((toupper_eq_iff_fold c d).mpr e).symm
              simp [he, hf]

theorem any_isupper_false (pat : List Nat) (h : ∀ c ∈ pat, isupper c = false) :
    pat.any isupper = false := by
  rw [List.any_eq_false]
  intro c hc
  simp [h c hc]

/-- The comparison of `internal_string_match` on letters and digits: character by
character, after `toupper` unless the match is case sensitive. -/
theorem internal_string_match_alnum (cs : Bool) (fuel : Nat) :
    ∀ (pat str : List Nat), (∀ c ∈ pat, is_alnum c) → (∀ c ∈ str, is_alnum c) →
      pat.length + str.length < fuel →
      internal_string_match fuel pat str false false cs
        = some (decide (pat.map (fun c => if cs then c else toupper c)
            = str.map (fun c => if cs then c else toupper c))) := by
  induction fuel with
  | zero => intro pat str _ _ h; omega
  | succ fuel ih =>
    intro pat str hp hs hfuel
    have hval : ∀ c, is_alnum c → ∀ v, v = (if cs = true then c else toupper c) →
        v ≠ 0 ∧ v ≠ 42 ∧ v ≠ 298 ∧ v ≠ 43 ∧ v ≠ 299 ∧ v ≠ 63 ∧ v ≠ 92 := by
      intro c hc v hv
      unfold is_alnum at hc
      cases cs
      · simp only [Bool.false_eq_true, if_false] at hv
        unfold toupper at hv
        split_ifs at hv <;> omega
      · simp only [if_true] at hv
        omega
    have hesc : decide (str.headD 0 = 92) = false := by
      cases str with
      | nil => simp
      | cons d rest =>
        have := hs d (List.mem_cons_self _ _)
        unfold is_alnum at this
        have h92 : d ≠ 92 := by omega
        simp [h92]
    have h0 : (if cs = true then (0 : Nat) else toupper 0) = 0 := by
      cases cs <;> simp [toupper]
    rw [internal_string_match]
    simp only [Bool.false_eq_true, if_false, Nat.or_zero, hesc, pat_escaped_consts.1,
      pat_escaped_consts.2]
    cases pat with
    | nil =>
      simp only [List.headD_nil, h0, if_true, List.map_nil]
      cases str with
      | nil => simp [h0]
      | cons d rest =>
        have := (hval d (hs d (List.mem_cons_self _ _)) _ rfl).1
        simp [this]
    | cons c p =>
      obtain ⟨v1, v2, v3, v4, v5, v6, v7⟩ := hval c (hp c (List.mem_cons_self _ _)) _ rfl
      have hp2 : ∀ x ∈ p, is_alnum x := fun x hx => hp x (List.mem_cons_of_mem _ hx)
      simp only [List.headD_cons, v1, v2, v3, v4, v5, v6, v7, if_false, and_true]
      simp only [List.length_cons] at hfuel
      cases str with
      | nil =>
        simp only [List.headD_nil, h0, List.map_nil, List.map_cons]
        simp [Ne.symm v1]
      | cons d rest =>
        have hs2 : ∀ x ∈ rest, is_alnum x := fun x hx => hs x (List.mem_cons_of_mem _ hx)
        simp only [List.length_cons] at hfuel
        simp only [List.headD_cons, next_chars, List.map_cons, List.cons.injEq]
        by_cases he : (if cs = true then d else toupper d) = (if cs = true then c else toupper c)
        · rw [if_pos he, ih p rest hp2 hs2 (by omega)]
          simp [he]
        · rw [if_neg he]
          have he2 : ¬ (if cs = true then c else toupper c) = (if cs = true then d else toupper d) :=
            fun e => he e.symm
          simp [he2]

theorem map_eq_map_iff_of_rel {f g : Nat → Nat} (hfg : ∀ c d, f c = f d ↔ g c = g d)
    (p s : List Nat) : p.map f = s.map f ↔ p.map g = s.map g := by
  induction p generalizing s with
  | nil => cases s <;> simp
  | cons c p ih =>
    cases s with
    | nil => simp
    | cons d s => simp [hfg c d, ih s]
/-! ## Lemmas: removal in the abstract forest -/

theorem BT.remove_of_not_mem (b : BT) (n : Nat) (h : n ∉ b.pre) : b.remove n = b := by
  induction b with
  | nil => rfl
  | node x c s ihc ihs =>
    simp only [BT.pre, List.mem_cons, List.mem_append, not_or] at h
    have hx : ¬ x = n := fun e => h.1 e.symm
    simp only [BT.remove, if_neg hx, ihc h.2.1, ihs h.2.2]

theorem BT.post_perm_pre (b : BT) : b.post.Perm b.pre := by
  induction b with
  | nil => exact List.Perm.refl _
  | node x c s ihc ihs =>
    simp only [BT.post, BT.pre]
    have h1 : (c.post ++ s.post ++ [x]).Perm (x :: (c.post ++ s.post)) :=
      List.perm_append_singleton x (c.post ++ s.post)
    exact h1.trans (List.Perm.cons x (List.Perm.append ihc ihs))

/-- The pre-order sequence of `b.remove n` is that of `b` without the block of `n` and its
descendants. -/
theorem BT.remove_pre (b : BT) (n : Nat) (hn : n ∈ b.pre) (hnd : b.pre.Nodup) :
    ∃ l1 l2, b.pre = l1 ++ (n :: (b.child_of n).pre) ++ l2 ∧ (b.remove n).pre = l1 ++ l2 := by
  induction b with
  | nil => simp [BT.pre] at hn
  | node x c s ihc ihs =>
    obtain ⟨n1, n2, n3, n4, n5⟩ := BT.pre_nodup_node hnd
    by_cases hx : x = n
    · subst hx
      exact ⟨[], s.pre, by simp [BT.pre, BT.child_of], by simp [BT.remove]⟩
    · simp only [BT.pre, List.mem_cons, List.mem_append] at hn
      by_cases hc : n ∈ c.pre
      · obtain ⟨l1, l2, e1, e2⟩ := ihc hc n3
        have hs : n ∉ s.pre := n5 n hc
        refine ⟨x :: l1, l2 ++ s.pre, ?_, ?_⟩
        · simp only [BT.pre, BT.child_of, if_neg hx, if_pos hc]
          rw [e1]
          simp
        · simp only [BT.remove, if_neg hx, BT.pre, e2, BT.remove_of_not_mem s n hs]
          simp
      · have hs : n ∈ s.pre := by
          rcases hn with e | e | e
          · exact absurd e.symm hx
          · exact absurd e hc
          · exact e
        obtain ⟨l1, l2, e1, e2⟩ := ihs hs n4
        refine ⟨x :: (c.pre ++ l1), l2, ?_, ?_⟩
        · simp only [BT.pre, BT.child_of, if_neg hx, if_neg hc]
          rw [e1]
          simp
        · simp only [BT.remove, if_neg hx, BT.pre, e2, BT.remove_of_not_mem c n hc]
          simp

section TRepRemove
variable {D : Type}

/-- The children of a node of the represented forest are linked from its first child. -/
theorem TRep_child_of (t : ntree D) (par p : Ptr) (b : BT) (n : Nat) (h : TRep t par p b)
    (hn : n ∈ b.pre) (hnd : b.pre.Nodup) :
    TRep t (some n) (t.pool.link n) (b.child_of n) := by
  induction b generalizing par p with
  | nil => simp [BT.pre] at hn
  | node x c s ihc ihs =>
    obtain ⟨n1, n2, n3, n4, n5⟩ := BT.pre_nodup_node hnd
    obtain ⟨h1, h2, h3, h4⟩ := h
    by_cases hx : x = n
    · subst hx
      simpa [BT.child_of] using h3
    · simp only [BT.pre, List.mem_cons, List.mem_append] at hn
      by_cases hc : n ∈ c.pre
      · simp only [BT.child_of, if_neg hx, if_pos hc]
        exact ihc _ _ h3 hc n3
      · have hs : n ∈ s.pre := by
          rcases hn with e | e | e
          · exact absurd e.symm hx
          · exact absurd e hc
          · exact e
        simp only [BT.child_of, if_neg hx, if_neg hc]
        exact ihs _ _ h4 hs n4

/-- The pointer to a represented forest is `NULL` or one of its nodes. -/
theorem TRep_ptr_mem (t : ntree D) (par p : Ptr) (b : BT) (z : Nat) (h : TRep t par p b)
    (hp : p = some z) : z ∈ b.pre := by
  cases b with
  | nil => rw [hp] at h; exact absurd h (by simp [TRep])
  | node x c s =>
    have := h.1
    rw [hp] at this
    rw [Option.some.inj this]
    exact BT.mem_pre_self x c s

/-- The links of the nodes of a represented forest point into the forest. -/
theorem TRep_link_mem (t : ntree D) (par p : Ptr) (b : BT) (h : TRep t par p b) :
    ∀ y ∈ b.pre, ∀ z, (t.pool.link y = some z ∨ t.next_sibling y = some z) → z ∈ b.pre := by
  induction b generalizing par p with
  | nil => simp [BT.pre]
  | node x c s ihc ihs =>
    obtain ⟨h1, h2, h3, h4⟩ := h
    intro y hy z hz
    simp only [BT.pre, List.mem_cons, List.mem_append] at hy
    rcases hy with e | e | e
    · subst e
      rcases hz with hz | hz
      · exact BT.mem_pre_of_child y s (TRep_ptr_mem t _ _ c z h3 hz)
      · exact BT.mem_pre_of_sib y c (TRep_ptr_mem t _ _ s z h4 hz)
    · exact BT.mem_pre_of_child x s (ihc _ _ h3 y e z hz)
    · exact BT.mem_pre_of_sib x c (ihs _ _ h4 y e z hz)

/-- Redirecting every pointer to `n` to the next sibling of `n` represents the forest
without `n` and its descendants. -/
theorem TRep_redirect (t t2 : ntree D) (n : Nat) (b : BT) (par p : Ptr)
    (h : TRep t par p b) (hnd : b.pre.Nodup)
    (h1 : ∀ y ∈ b.pre, y ≠ n → t2.parent y = t.parent y)
    (h2 : ∀ y ∈ b.pre, y ≠ n → t2.pool.link y
      = if t.pool.link y = some n then t.next_sibling n else t.pool.link y)
    (h3 : ∀ y ∈ b.pre, y ≠ n → t2.next_sibling y
      = if t.next_sibling y = some n then t.next_sibling n else t.next_sibling y) :
    TRep t2 par (if p = some n then t.next_sibling n else p) (b.remove n) := by
  induction b generalizing par p with
  | nil =>
    have hp : p = none := h
    subst hp
    simp [BT.remove, TRep]
  | node x c s ihc ihs =>
    obtain ⟨n1, n2, n3, n4, n5⟩ := BT.pre_nodup_node hnd
    obtain ⟨g1, g2, g3, g4⟩ := h
    subst g1
    have hc1 : ∀ y ∈ c.pre, y ≠ n → t2.parent y = t.parent y :=
      fun y hy => h1 y (BT.mem_pre_of_child x s hy)
    have hc2 := fun y (hy : y ∈ c.pre) => h2 y (BT.mem_pre_of_child x s hy)
    have hc3 := fun y (hy : y ∈ c.pre) => h3 y (BT.mem_pre_of_child x s hy)
    have hs1 : ∀ y ∈ s.pre, y ≠ n → t2.parent y = t.parent y :=
      fun y hy => h1 y (BT.mem_pre_of_sib x c hy)
    have hs2 := fun y (hy : y ∈ s.pre) => h2 y (BT.mem_pre_of_sib x c hy)
    have hs3 := fun y (hy : y ∈ s.pre) => h3 y (BT.mem_pre_of_sib x c hy)
    by_cases hx : x = n
    · subst hx
      simp only [if_true, BT.remove]
      have hs := ihs _ _ g4 n4 hs1 hs2 hs3
      rw [BT.remove_of_not_mem s x n2] at hs
      have hne : ¬ t.next_sibling x = some x := fun e => n2 (TRep_ptr_mem t _ _ s x g4 e)
      rw [if_neg hne] at hs
      exact hs
    · have hpx : ¬ (some x = some n) := fun e => hx (Option.some.inj e)
      simp only [if_neg hpx, BT.remove, if_neg hx]
      refine ⟨rfl, ?_, ?_, ?_⟩
      · rw [h1 x (BT.mem_pre_self x c s) hx]; exact g2
      · rw [h2 x (BT.mem_pre_self x c s) hx]
        exact ihc _ _ g3 n3 hc1 hc2 hc3
      · rw [h3 x (BT.mem_pre_self x c s) hx]
        exact ihs _ _ g4 n4 hs1 hs2 hs3

end TRepRemove
/-! ## Lemmas: the pointer to a node of the forest -/

section Incoming
variable {D : Type}

theorem NoLinkTo_of_not_mem (t : ntree D) (par p : Ptr) (b : BT) (n : Nat) (el es : Option Nat)
    (h : TRep t par p b) (hn : n ∉ b.pre) : NoLinkTo t b.pre n el es := by
  intro y hy
  exact ⟨fun _ e => hn (TRep_link_mem t par p b h y hy n (Or.inl e)),
    fun _ e => hn (TRep_link_mem t par p b h y hy n (Or.inr e))⟩

theorem NoLinkTo_node (t : ntree D) (x : Nat) (c s : BT) (n : Nat) (el es : Option Nat)
    (hx : (some x ≠ el → t.pool.link x ≠ some n) ∧ (some x ≠ es → t.next_sibling x ≠ some n))
    (hc : NoLinkTo t c.pre n el es) (hs : NoLinkTo t s.pre n el es) :
    NoLinkTo t (BT.node x c s).pre n el es := by
  intro y hy
  simp only [BT.pre, List.mem_cons, List.mem_append] at hy
  rcases hy with e | e | e
  · rw [e]; exact hx
  · exact hc y e
  · exact hs y e

theorem NoLinkTo_weaken (t : ntree D) (l : List Nat) (n : Nat) (el es : Option Nat)
    (h : NoLinkTo t l n none none) : NoLinkTo t l n el es :=
  fun y hy => ⟨fun _ => (h y hy).1 (by simp), fun _ => (h y hy).2 (by simp)⟩

/-- Every node of a represented forest has exactly one pointer to it: the pointer to the
forest, the `first_child` of its parent, or the `next_sibling` of its elder sibling, which
the walk from the first node of its sibling chain reaches. -/
theorem TRep_incoming (t : ntree D) (n : Nat) (b : BT) (par p : Ptr) (h : TRep t par p b)
    (hnd : b.pre.Nodup) (hn : n ∈ b.pre) :
    (p = some n ∧ NoLinkTo t b.pre n none none) ∨
    (p ≠ some n ∧ ∃ q ∈ b.pre, q ≠ n ∧ t.parent n = some q ∧ t.pool.link q = some n ∧
      NoLinkTo t b.pre n (some q) none) ∨
    (p ≠ some n ∧ ∃ o ∈ b.pre, o ≠ n ∧ t.next_sibling o = some n ∧
      NoLinkTo t b.pre n none (some o) ∧
      ∃ cp pre2 post, Seg t.next_sibling cp (pre2 ++ o :: n :: post) none ∧
        (∀ y ∈ pre2, t.next_sibling y ≠ some n) ∧ pre2.length + 1 < b.pre.length ∧
        ((n ∈ b.sibs ∧ cp = p) ∨ ∃ q, t.parent n = some q ∧ cp = t.pool.link q)) := by
  induction b generalizing par p with
  | nil => simp [BT.pre] at hn
  | node x c s ihc ihs =>
    obtain ⟨n1, n2, n3, n4, n5⟩ := BT.pre_nodup_node hnd
    obtain ⟨g1, g2, g3, g4⟩ := h
    subst g1
    by_cases hx : x = n
    · subst hx
      left
      refine ⟨rfl, NoLinkTo_node t x c s x none none ⟨?_, ?_⟩
        (NoLinkTo_of_not_mem t _ _ c x none none g3 n1)
        (NoLinkTo_of_not_mem t _ _ s x none none g4 n2)⟩
      · exact fun _ e => n1 (TRep_ptr_mem t _ _ c x g3 e)
      · exact fun _ e => n2 (TRep_ptr_mem t _ _ s x g4 e)
    · have hpx : some x ≠ some n := fun e => hx (Option.some.inj e)
      simp only [BT.pre, List.mem_cons, List.mem_append] at hn
      by_cases hc : n ∈ c.pre
      · have hns : n ∉ s.pre := n5 n hc
        have hsfree : ∀ el es, NoLinkTo t s.pre n el es :=
          fun el es => NoLinkTo_of_not_mem t _ _ s n el es g4 hns
        have hxs : t.next_sibling x ≠ some n := fun e => hns (TRep_ptr_mem t _ _ s n g4 e)
        rcases ihc _ _ g3 n3 hc with ⟨a1, a2⟩ | ⟨a1, q, a2, a3, a4, a5, a6⟩ |
          ⟨a1, o, a2, a3, a4, a5, cp, pre2, post, a6, a7, al, a8⟩
        · right; left
          have hpar : t.parent n = some x :=
            TRep_sibs_parent t _ _ c g3 n (by
              cases c with
              | nil => simp [BT.pre] at hc
              | node y cc cs =>
                have := g3.1
                rw [a1] at this
                rw [Option.some.inj this]
                simp [BT.sibs])
          refine ⟨hpx, x, BT.mem_pre_self x c s, hx, hpar, a1, ?_⟩
          exact NoLinkTo_node t x c s n _ _ ⟨fun e => absurd rfl e, fun _ => hxs⟩
            (NoLinkTo_weaken t _ n _ _ a2) (hsfree _ _)
        · right; left
          refine ⟨hpx, q, BT.mem_pre_of_child x s a2, a3, a4, a5, ?_⟩
          exact NoLinkTo_node t x c s n _ _ ⟨fun _ => a1, fun _ => hxs⟩ a6 (hsfree _ _)
        · right; right
          refine ⟨hpx, o, BT.mem_pre_of_child x s a2, a3, a4, ?_, cp, pre2, post, a6, a7, ?_, ?_⟩
          · exact NoLinkTo_node t x c s n _ _ ⟨fun _ => a1, fun _ => hxs⟩ a5 (hsfree _ _)
          · simp only [BT.pre, List.length_cons, List.length_append]
            omega
          · rcases a8 with ⟨b1, b2⟩ | ⟨q, b1, b2⟩
            · exact Or.inr ⟨x, TRep_sibs_parent t _ _ c g3 n b1, b2⟩
            · exact Or.inr ⟨q, b1, b2⟩
      · have hs : n ∈ s.pre := by
          rcases hn with e | e | e
          · exact absurd e.symm hx
          · exact absurd e hc
          · exact e
        have hcfree : ∀ el es, NoLinkTo t c.pre n el es :=
          fun el es => NoLinkTo_of_not_mem t _ _ c n el es g3 hc
        have hxc : t.pool.link x ≠ some n := fun e => hc (TRep_ptr_mem t _ _ c n g3 e)
        rcases ihs _ _ g4 n4 hs with ⟨a1, a2⟩ | ⟨a1, q, a2, a3, a4, a5, a6⟩ |
          ⟨a1, o, a2, a3, a4, a5, cp, pre2, post, a6, a7, al, a8⟩
        · right; right
          have hsibs := TRep_sibs t _ _ s g4
          rw [a1] at hsibs
          obtain ⟨rest, hrest⟩ := Seg_some_cons _ _ _ hsibs
          refine ⟨hpx, x, BT.mem_pre_self x c s, hx, a1, ?_, some x, [], rest, ?_, by simp, ?_,
            ?_⟩
          · exact NoLinkTo_node t x c s n _ _ ⟨fun _ => hxc, fun e => absurd rfl e⟩
              (hcfree _ _) (NoLinkTo_weaken t _ n _ _ a2)
          · rw [hrest] at hsibs
            exact ⟨rfl, by rw [a1]; exact hsibs⟩
          · have : 0 < s.pre.length := List.length_pos_of_mem hs
            simp only [BT.pre, List.length_cons, List.length_append, List.length_nil]
            omega
          · left
            exact ⟨by simp [BT.sibs, hrest], rfl⟩
        · right; left
          refine ⟨hpx, q, BT.mem_pre_of_sib x c a2, a3, a4, a5, ?_⟩
          exact NoLinkTo_node t x c s n _ _ ⟨fun _ => hxc, fun _ => a1⟩ (hcfree _ _) a6
        · right; right
          rcases a8 with ⟨b1, b2⟩ | ⟨q, b1, b2⟩
          · refine ⟨hpx, o, BT.mem_pre_of_sib x c a2, a3, a4, ?_, some x, x :: pre2, post, ?_, ?_,
              ?_, ?_⟩
            · exact NoLinkTo_node t x c s n _ _ ⟨fun _ => hxc, fun _ => a1⟩ (hcfree _ _) a5
            · rw [b2] at a6
              exact ⟨rfl, a6⟩
            · intro y hy
              rcases List.mem_cons.mp hy with e | e
              · rw [e]; exact a1
              · exact a7 y e
            · simp only [BT.pre, List.length_cons, List.length_append]
              omega
            · left
              exact ⟨by simp [BT.sibs, b1], rfl⟩
          · refine ⟨hpx, o, BT.mem_pre_of_sib x c a2, a3, a4, ?_, cp, pre2, post, a6, a7, ?_,
              Or.inr ⟨q, b1, b2⟩⟩
            · exact NoLinkTo_node t x c s n _ _ ⟨fun _ => hxc, fun _ => a1⟩ (hcfree _ _) a5
            · simp only [BT.pre, List.length_cons, List.length_append]
              omega

/-- The loop that looks for the elder sibling of `n`. -/
theorem ntree_find_prev_seg (nx : Nat → Ptr) (n o : Nat) (pre2 post : List Nat) (cp : Ptr)
    (fuel : Nat) (h : Seg nx cp (pre2 ++ o :: n :: post) none)
    (hpre : ∀ y ∈ pre2, nx y ≠ some n) (hfuel : pre2.length < fuel) :
    ntree_find_prev nx n fuel cp = some o := by
  induction pre2 generalizing cp fuel with
  | nil =>
    cases fuel with
    | zero => simp at hfuel
    | succ k =>
      have h1 : cp = some o := h.1
      have h2 : nx o = some n := h.2.1
      subst h1
      simp [ntree_find_prev, h2]
  | cons y r ih =>
    cases fuel with
    | zero => simp at hfuel
    | succ k =>
      have h1 : cp = some y := h.1
      subst h1
      have hy := hpre y (List.mem_cons_self _ _)
      simp only [ntree_find_prev, if_neg hy]
      exact ih (nx y) k h.2 (fun z hz => hpre z (List.mem_cons_of_mem _ hz))
        (by simpa using hfuel)

end Incoming
section Unlink
variable {D : Type}

/-- The first part of `ntree_remove`: the one pointer to `n` is redirected to the next
sibling of `n`, and `n` is cut from its parent and its siblings. -/
theorem ntree_unlink_spec (t : ntree D) (b : BT) (fl : List Nat) (n fuel : Nat)
    (h : TreeInv t b fl) (hn : n ∈ b.pre) (hfuel : b.pre.length < fuel) :
    ∃ t2, ntree_unlink fuel t n = some t2 ∧
      t2.root = (if t.root = some n then t.next_sibling n else t.root) ∧
      (∀ y ∈ b.pre, y ≠ n → t2.parent y = t.parent y) ∧
      (∀ y ∈ b.pre, y ≠ n → t2.pool.link y
        = if t.pool.link y = some n then t.next_sibling n else t.pool.link y) ∧
      (∀ y ∈ b.pre, y ≠ n → t2.next_sibling y
        = if t.next_sibling y = some n then t.next_sibling n else t.next_sibling y) ∧
      t2.pool.link n = t.pool.link n ∧ t2.next_sibling n = none ∧ t2.parent n = none ∧
      (∀ y, y ∉ b.pre → t2.pool.link y = t.pool.link y) ∧
      t2.action = t.action ∧ t2.data = t.data ∧ t2.age = t.age ∧
      t2.pool.root = t.pool.root ∧ t2.pool.freeable = t.pool.freeable ∧
      t2.pool.capacity = t.pool.capacity := by
  have hnd : b.pre.Nodup := (List.nodup_append.mp h.2.2.1).1
  have hrep := h.1
  rcases TRep_incoming t n b none t.root hrep hnd hn with ⟨a1, a2⟩ |
    ⟨a1, q, a2, a3, a4, a5, a6⟩ | ⟨a1, o, a2, a3, a4, a5, cp, pre2, post, a6, a7, al, a8⟩
  · have hcode : ntree_unlink fuel t n
        = some (({ t with root := t.next_sibling n }.set_next_sibling n none).set_parent
            n none) := by
      simp only [ntree_unlink, if_pos a1]
    refine ⟨_, hcode, ?_, ?_, ?_, ?_, ?_, ?_, ?_, ?_, rfl, rfl, rfl, rfl, rfl, rfl⟩
    · rw [if_pos a1]; rfl
    · intro y _ hy
      simp [ntree.set_next_sibling, ntree.set_parent, Function.update, hy]
    · intro y hy _
      rw [if_neg ((a2 y hy).1 (by simp))]
      rfl
    · intro y hy hyn
      rw [if_neg ((a2 y hy).2 (by simp))]
      simp [ntree.set_next_sibling, ntree.set_parent, Function.update, hyn]
    · rfl
    · simp [ntree.set_next_sibling, ntree.set_parent]
    · simp [ntree.set_next_sibling, ntree.set_parent]
    · intro y _; rfl
  · have hcode : ntree_unlink fuel t n
        = some (((t.set_first_child q (t.next_sibling n)).set_next_sibling n none).set_parent
            n none) := by
      simp only [ntree_unlink, if_neg a1, a4, ntree.first_child, a5, if_true]
    have hnq : n ≠ q := fun e => a3 e.symm
    refine ⟨_, hcode, ?_, ?_, ?_, ?_, ?_, ?_, ?_, ?_, rfl, rfl, rfl, rfl, rfl, rfl⟩
    · rw [if_neg a1]; rfl
    · intro y _ hy
      simp [ntree.set_next_sibling, ntree.set_parent, ntree.set_first_child, Function.update, hy]
    · intro y hy _
      by_cases hyq : y = q
      · subst hyq
        rw [if_pos a5]
        simp [ntree.set_next_sibling, ntree.set_parent, ntree.set_first_child]
      · rw [if_neg ((a6 y hy).1 (fun e => hyq (Option.some.inj e)))]
        simp [ntree.set_next_sibling, ntree.set_parent, ntree.set_first_child, Function.update,
          hyq]
    · intro y hy hyn
      rw [if_neg ((a6 y hy).2 (by simp))]
      simp [ntree.set_next_sibling, ntree.set_parent, ntree.set_first_child, Function.update,
        hyn]
    · simp [ntree.set_next_sibling, ntree.set_parent, ntree.set_first_child, Function.update,
        hnq]
    · simp [ntree.set_next_sibling, ntree.set_parent, ntree.set_first_child]
    · simp [ntree.set_next_sibling, ntree.set_parent, ntree.set_first_child]
    · intro y hy
      have hyq : y ≠ q := fun e => hy (e ▸ a2)
      simp [ntree.set_next_sibling, ntree.set_parent, ntree.set_first_child, Function.update,
        hyq]
  · have hfind : ntree_find_prev t.next_sibling n fuel cp = some o :=
      ntree_find_prev_seg t.next_sibling n o pre2 post cp fuel a6 a7 (by omega)
    have hno : n ≠ o := fun e => a3 e.symm
    have hcode : ntree_unlink fuel t n
        = some (((t.set_next_sibling o (t.next_sibling n)).set_next_sibling n none).set_parent
            n none) := by
      cases hp : t.parent n with
      | none =>
        have hcp : cp = t.root := by
          rcases a8 with ⟨_, e⟩ | ⟨q, e, _⟩
          · exact e
          · rw [hp] at e; exact absurd e (by simp)
        rw [hcp] at hfind
        simp only [ntree_unlink, if_neg a1, hp, hfind]
      | some q =>
        have hq : q ∈ b.pre := by
          rcases TRep_parent t none t.root b n hrep hnd hn with ⟨_, g⟩ | ⟨q2, g1, g2, _⟩
          · rw [hp] at g; exact absurd g (by simp)
          · rw [hp] at g2
            rw [Option.some.inj g2]
            exact g1
        have hcp : cp = t.pool.link q := by
          rcases a8 with ⟨e1, _⟩ | ⟨q2, e, e2⟩
          · have := TRep_sibs_parent t none t.root b hrep n e1
            rw [hp] at this
            exact absurd this (by simp)
          · rw [hp] at e
            rw [Option.some.inj e]
            exact e2
        rw [hcp] at hfind
        have hlq : ¬ t.pool.link q = some n := (a5 q hq).1 (by simp)
        simp only [ntree_unlink, if_neg a1, hp, ntree.first_child, if_neg hlq, hfind]
    refine ⟨_, hcode, ?_, ?_, ?_, ?_, ?_, ?_, ?_, ?_, rfl, rfl, rfl, rfl, rfl, rfl⟩
    · rw [if_neg a1]; rfl
    · intro y _ hy
      simp [ntree.set_next_sibling, ntree.set_parent, Function.update, hy]
    · intro y hy _
      rw [if_neg ((a5 y hy).1 (by simp))]
      rfl
    · intro y hy hyn
      by_cases hyo : y = o
      · subst hyo
        rw [if_pos a4]
        simp [ntree.set_next_sibling, ntree.set_parent, Function.update, hyn]
      · rw [if_neg ((a5 y hy).2 (fun e => hyo (Option.some.inj e)))]
        simp [ntree.set_next_sibling, ntree.set_parent, Function.update, hyn, hyo]
    · rfl
    · simp [ntree.set_next_sibling, ntree.set_parent]
    · simp [ntree.set_next_sibling, ntree.set_parent]
    · intro y _; rfl

end Unlink
/-! ## Lemmas: the loop of `ntree_remove` -/

section RemoveSteps
variable {D : Type}

open ntree_trav_action

@[simp] theorem ntree.with_walk_with_walk (t : ntree D) (l1 n1 : Nat → Ptr)
    (a1 : Nat → ntree_trav_action) (p1 : Ptr) (f1 : Nat) (l2 n2 : Nat → Ptr)
    (a2 : Nat → ntree_trav_action) (p2 : Ptr) (f2 : Nat) :
    (t.with_walk l1 n1 a1 p1 f1).with_walk l2 n2 a2 p2 f2 = t.with_walk l2 n2 a2 p2 f2 := rfl

theorem ntree.with_walk_self (t : ntree D) :
    t.with_walk t.pool.link t.next_sibling t.action t.pool.root t.pool.freeable = t := rfl

/-- An iteration on an inactive node with a first child: the loop goes down to the child. -/
theorem remove_step_down_left (H : ntree D) (x cx : Nat) (older : Ptr) (freed : List Nat)
    (f : Nat) (ha : H.action x = ACT_INACTIVE) (hl : H.pool.link x = some cx) :
    ntree_remove_loop (f + 1) H (some x) older freed
      = ntree_remove_loop f (H.with_walk (Function.update H.pool.link x older) H.next_sibling
          (Function.update H.action x ACT_GOING_LEFT) H.pool.root H.pool.freeable)
          (some cx) (some x) freed := by
  rw [ntree_remove_loop]
  simp [ha, hl, ntree.first_child, save_returning_node, ntree.set_action, ntree.set_first_child,
    ntree.with_walk]

/-- An iteration on an inactive node without child and with a next sibling. -/
theorem remove_step_down_right (H : ntree D) (x sx : Nat) (older : Ptr) (freed : List Nat)
    (f : Nat) (ha : H.action x = ACT_INACTIVE) (hl : H.pool.link x = none)
    (hs : H.next_sibling x = some sx) :
    ntree_remove_loop (f + 1) H (some x) older freed
      = ntree_remove_loop f (H.with_walk H.pool.link (Function.update H.next_sibling x older)
          (Function.update H.action x ACT_GOING_RIGHT) H.pool.root H.pool.freeable)
          (some sx) (some x) freed := by
  rw [ntree_remove_loop]
  simp [ha, hl, hs, ntree.first_child, save_returning_node, ntree.set_action,
    ntree.set_next_sibling, ntree.with_walk]

/-- An iteration on an inactive node without child and next sibling: the node is freed. -/
theorem remove_step_leaf (H : ntree D) (x : Nat) (older : Ptr) (freed : List Nat)
    (f : Nat) (ha : H.action x = ACT_INACTIVE) (hl : H.pool.link x = none)
    (hs : H.next_sibling x = none) :
    ntree_remove_loop (f + 1) H (some x) older freed
      = ntree_remove_loop f (H.with_walk (Function.update H.pool.link x H.pool.root)
          H.next_sibling (Function.update H.action x ACT_INACTIVE) (some x)
          (H.pool.freeable + 1)) older older (freed ++ [x]) := by
  rw [ntree_remove_loop]
  simp [ha, hl, hs, ntree.first_child, ntree.set_action, pool_free, internal_pool_push,
    ntree.with_walk]

/-- An iteration on a node the loop comes back to from its children, with a next sibling. -/
theorem remove_step_back_right (H : ntree D) (x sx : Nat) (older : Ptr) (freed : List Nat)
    (f : Nat) (ha : H.action x = ACT_GOING_LEFT) (hs : H.next_sibling x = some sx) :
    ntree_remove_loop (f + 1) H (some x) older freed
      = ntree_remove_loop f (H.with_walk (Function.update H.pool.link x none)
          (Function.update H.next_sibling x (H.pool.link x))
          (Function.update H.action x ACT_GOING_RIGHT) H.pool.root H.pool.freeable)
          (some sx) (some x) freed := by
  rw [ntree_remove_loop]
  simp [ha, hs, ntree.first_child, save_returning_node, restore_returning_node,
    ntree.set_action, ntree.set_next_sibling, ntree.set_first_child, ntree.with_walk]

/-- An iteration on a node the loop comes back to from its children, without next sibling:
the node is freed. -/
theorem remove_step_back_free (H : ntree D) (x : Nat) (older : Ptr) (freed : List Nat)
    (f : Nat) (ha : H.action x = ACT_GOING_LEFT) (hs : H.next_sibling x = none) :
    ntree_remove_loop (f + 1) H (some x) older freed
      = ntree_remove_loop f (H.with_walk (Function.update H.pool.link x H.pool.root)
          H.next_sibling (Function.update H.action x ACT_INACTIVE) (some x)
          (H.pool.freeable + 1)) (H.pool.link x) (H.pool.link x) (freed ++ [x]) := by
  rw [ntree_remove_loop]
  simp [ha, hs, ntree.first_child, restore_returning_node, ntree.set_action,
    ntree.set_first_child, pool_free, internal_pool_push, ntree.with_walk]

/-- An iteration on a node the loop comes back to from its next sibling: the node is
freed. -/
theorem remove_step_right_free (H : ntree D) (x : Nat) (older : Ptr) (freed : List Nat)
    (f : Nat) (ha : H.action x = ACT_GOING_RIGHT) :
    ntree_remove_loop (f + 1) H (some x) older freed
      = ntree_remove_loop f (H.with_walk (Function.update H.pool.link x H.pool.root)
          (Function.update H.next_sibling x none) (Function.update H.action x ACT_INACTIVE)
          (some x) (H.pool.freeable + 1)) (H.next_sibling x) (H.next_sibling x)
          (freed ++ [x]) := by
  rw [ntree_remove_loop]
  simp [ha, ntree.first_child, restore_returning_node, ntree.set_action,
    ntree.set_next_sibling, pool_free, internal_pool_push, ntree.with_walk]

end RemoveSteps
section RemoveWalkLemmas
variable {D : Type}

open ntree_trav_action

theorem BT.mem_post_iff (b : BT) (y : Nat) : y ∈ b.post ↔ y ∈ b.pre :=
  (BT.post_perm_pre b).mem_iff

/-- The second half of the visit of a node `x`: the loop is at `x` after its children (if
any) are done, goes through the forest `s` of its next sibling and frees `x`. -/
theorem remove_walk_tail (H : ntree D) (x : Nat) (s : BT) (par : Ptr)
    (ihs : RemoveWalk D s) (hrep : TRep H par (H.next_sibling x) s)
    (hact : ∀ y ∈ s.pre, H.action y = ACT_INACTIVE)
    (lm nm : Nat → Ptr) (am : Nat → ntree_trav_action) (pm : Ptr) (frm : Nat)
    (flm : List Nat) (o1 oldv : Ptr) (fr0 : List Nat) (k : Nat)
    (hcase : (am x = ACT_INACTIVE ∧ lm x = none ∧ oldv = o1) ∨
      (am x = ACT_GOING_LEFT ∧ lm x = o1))
    (hnx : nm x = H.next_sibling x)
    (hsame : ∀ y ∈ s.pre, lm y = H.pool.link y ∧ nm y = H.next_sibling y ∧ am y = H.action y)
    (hseg : Seg lm pm flm none) (hnd : (x :: s.pre ++ flm).Nodup) :
    ∃ (link ns : Nat → Ptr) (act : Nat → ntree_trav_action) (proot : Ptr),
      ntree_remove_loop (k + 2 * s.pre.length + 1) (H.with_walk lm nm am pm frm) (some x) oldv fr0
        = ntree_remove_loop k (H.with_walk link ns act proot (frm + s.pre.length + 1)) o1 o1
            (fr0 ++ s.post ++ [x]) ∧
      Seg link proot (x :: s.post.reverse ++ flm) none ∧
      ∀ y, y ≠ x → y ∉ s.pre → link y = lm y ∧ ns y = nm y ∧ act y = am y := by
  have hx1 : x ∉ s.pre ++ flm := (List.nodup_cons.mp hnd).1
  have hnd2 : (s.pre ++ flm).Nodup := (List.nodup_cons.mp hnd).2
  have hxs : x ∉ s.pre := fun e => hx1 (List.mem_append_left _ e)
  have hxf : x ∉ flm := fun e => hx1 (List.mem_append_right _ e)
  cases s with
  | nil =>
    have hns : H.next_sibling x = none := hrep
    have hnm : nm x = none := hnx.trans hns
    refine ⟨Function.update lm x pm, nm, Function.update am x ACT_INACTIVE, some x, ?_, ?_, ?_⟩
    · simp only [BT.pre, List.length_nil, Nat.mul_zero, Nat.add_zero, BT.post,
        List.append_nil]
      rcases hcase with ⟨c1, c2, c3⟩ | ⟨c1, c2⟩
      · rw [remove_step_leaf _ x oldv fr0 k c1 c2 hnm, c3]
        rfl
      · rw [remove_step_back_free _ x oldv fr0 k c1 hnm]
        simp only [ntree.with_walk_with_walk]
        have : (H.with_walk lm nm am pm frm).pool.link x = o1 := c2
        rw [this]
        rfl
    · simp only [BT.post, List.reverse_nil, List.append_nil, List.cons_append, List.nil_append]
      exact ⟨rfl, by rw [Function.update_same]; exact Seg_update lm flm pm none x pm hxf hseg⟩
    · intro y hy _
      exact ⟨Function.update_noteq hy _ _, rfl, Function.update_noteq hy _ _⟩
  | node sx sc ss =>
    have hns : H.next_sibling x = some sx := hrep.1
    have hnm : nm x = some sx := hnx.trans hns
    obtain ⟨l1, n1, a1, e1, e2, e3, e4⟩ : ∃ (l1 n1 : Nat → Ptr) (a1 : Nat → ntree_trav_action),
        (∀ f, ntree_remove_loop (f + 1) (H.with_walk lm nm am pm frm) (some x) oldv fr0
          = ntree_remove_loop f (H.with_walk l1 n1 a1 pm frm) (some sx) (some x) fr0) ∧
        n1 x = o1 ∧ a1 x = ACT_GOING_RIGHT ∧
        ∀ y, y ≠ x → l1 y = lm y ∧ n1 y = nm y ∧ a1 y = am y := by
      rcases hcase with ⟨c1, c2, c3⟩ | ⟨c1, c2⟩
      · refine ⟨lm, Function.update nm x oldv, Function.update am x ACT_GOING_RIGHT, ?_, ?_, ?_,
          ?_⟩
        · intro f
          rw [remove_step_down_right _ x sx oldv fr0 f c1 c2 hnm]
          rfl
        · rw [Function.update_same, c3]
        · rw [Function.update_same]
        · intro y hy
          exact ⟨rfl, Function.update_noteq hy _ _, Function.update_noteq hy _ _⟩
      · refine ⟨Function.update lm x none, Function.update nm x (lm x),
          Function.update am x ACT_GOING_RIGHT, ?_, ?_, ?_, ?_⟩
        · intro f
          rw [remove_step_back_right _ x sx oldv fr0 f c1 hnm]
          rfl
        · rw [Function.update_same, c2]
        · rw [Function.update_same]
        · intro y hy
          exact ⟨Function.update_noteq hy _ _, Function.update_noteq hy _ _,
            Function.update_noteq hy _ _⟩
    have hne : ∀ y ∈ (BT.node sx sc ss).pre, y ≠ x := fun y hy e => hxs (e ▸ hy)
    have hrep1 : TRep (H.with_walk l1 n1 a1 pm frm) par (some sx) (BT.node sx sc ss) := by
      rw [hns] at hrep
      refine TRep_congr H _ par (some sx) _ ?_ hrep
      intro y hy
      obtain ⟨f1, f2, _⟩ := e4 y (hne y hy)
      obtain ⟨g1, g2, _⟩ := hsame y hy
      exact ⟨f1.trans g1, f2.trans g2, rfl⟩
    have hact1 : ∀ y ∈ (BT.node sx sc ss).pre,
        (H.with_walk l1 n1 a1 pm frm).action y = ACT_INACTIVE := by
      intro y hy
      exact ((e4 y (hne y hy)).2.2.trans (hsame y hy).2.2).trans (hact y hy)
    have hseg1 : Seg (H.with_walk l1 n1 a1 pm frm).pool.link
        (H.with_walk l1 n1 a1 pm frm).pool.root flm none := by
      refine Seg_congr lm l1 flm pm none ?_ hseg
      intro y hy
      exact (e4 y (fun e => hxf (e ▸ hy))).1
    obtain ⟨link2, ns2, act2, proot2, w1, w2, w3⟩ :=
      ihs (H.with_walk l1 n1 a1 pm frm) sx par (some x) flm fr0 (k + 1) hrep1 hact1 hseg1 hnd2
    have hx2 := w3 x hxs
    refine ⟨Function.update link2 x proot2, Function.update ns2 x none,
      Function.update act2 x ACT_INACTIVE, some x, ?_, ?_, ?_⟩
    · have hfuel : k + 2 * (BT.node sx sc ss).pre.length + 1
          = (k + 1 + (2 * (BT.node sx sc ss).pre.length - 1)) + 1 := by
        have : 0 < (BT.node sx sc ss).pre.length := by simp [BT.pre]
        omega
      rw [hfuel, e1, w1]
      simp only [ntree.with_walk_with_walk]
      have ha2 : (H.with_walk link2 ns2 act2 proot2
          ((H.with_walk l1 n1 a1 pm frm).pool.freeable + (BT.node sx sc ss).pre.length)).action x
          = ACT_GOING_RIGHT := hx2.2.2.trans e3
      rw [remove_step_right_free _ x (some x) _ k ha2]
      simp only [ntree.with_walk_with_walk]
      have hn2 : (H.with_walk link2 ns2 act2 proot2
          ((H.with_walk l1 n1 a1 pm frm).pool.freeable
            + (BT.node sx sc ss).pre.length)).next_sibling x = o1 := hx2.2.1.trans e2
      rw [hn2]
      rfl
    · refine ⟨rfl, ?_⟩
      rw [Function.update_same]
      refine Seg_update link2 _ proot2 none x proot2 ?_ w2
      intro hm
      rcases List.mem_append.mp hm with hm | hm
      · exact hxs ((BT.mem_post_iff _ x).mp (List.mem_reverse.mp hm))
      · exact hxf hm
    · intro y hy hys
      obtain ⟨f1, f2, f3⟩ := w3 y hys
      obtain ⟨g1, g2, g3⟩ := e4 y hy
      exact ⟨(Function.update_noteq hy _ _).trans (f1.trans g1),
        (Function.update_noteq hy _ _).trans (f2.trans g2),
        (Function.update_noteq hy _ _).trans (f3.trans g3)⟩

end RemoveWalkLemmas
section RemoveWalkMain
variable {D : Type}

open ntree_trav_action

/-- The loop of `ntree_remove` destroys a forest in the order `BT.post`. -/
theorem ntree_remove_loop_walk (b : BT) : RemoveWalk D b := by
  induction b with
  | nil =>
    intro H x par older fl freed k hrep
    exact absurd hrep (by simp [TRep])
  | node x0 c s ihc ihs =>
    intro H x par older fl freed k hrep hact hseg hnd
    obtain ⟨g1, g2, g3, g4⟩ := hrep
    have hxx : x = x0 := Option.some.inj g1
    subst hxx
    have hnd1 : (BT.node x c s).pre.Nodup := (List.nodup_append.mp hnd).1
    obtain ⟨n1, n2, n3, n4, n5⟩ := BT.pre_nodup_node hnd1
    have hfl : fl.Nodup := (List.nodup_append.mp hnd).2.1
    have hdisj : ∀ y ∈ (BT.node x c s).pre, y ∉ fl :=
      fun y hy hf => (List.nodup_append.mp hnd).2.2 hy hf
    have hxf : x ∉ fl := hdisj x (BT.mem_pre_self x c s)
    have hcf : ∀ y ∈ c.pre, y ∉ fl := fun y hy => hdisj y (BT.mem_pre_of_child x s hy)
    have hsf : ∀ y ∈ s.pre, y ∉ fl := fun y hy => hdisj y (BT.mem_pre_of_sib x c hy)
    have hacts : ∀ y ∈ s.pre, H.action y = ACT_INACTIVE :=
      fun y hy => hact y (BT.mem_pre_of_sib x c hy)
    have hax : H.action x = ACT_INACTIVE := hact x (BT.mem_pre_self x c s)
    cases c with
    | nil =>
      have hlx : H.pool.link x = none := g3
      have hnd3 : (x :: s.pre ++ fl).Nodup := by
        simpa [BT.pre] using hnd
      obtain ⟨link, ns, act, proot, t1, t2, t3⟩ := remove_walk_tail H x s par ihs g4 hacts
        H.pool.link H.next_sibling H.action H.pool.root H.pool.freeable fl older older freed k
        (Or.inl ⟨hax, hlx, rfl⟩) rfl (fun y _ => ⟨rfl, rfl, rfl⟩) hseg hnd3
      refine ⟨link, ns, act, proot, ?_, ?_, ?_⟩
      · have hfuel : k + (2 * (BT.node x BT.nil s).pre.length - 1) = k + 2 * s.pre.length + 1 := by
          simp only [BT.pre, List.nil_append, List.length_cons]
          omega
        rw [hfuel]
        rw [ntree.with_walk_self] at t1
        rw [t1]
        simp only [BT.pre, BT.post, List.nil_append, List.length_cons, List.append_assoc]
        rw [show H.pool.freeable + s.pre.length + 1 = H.pool.freeable + (s.pre.length + 1) from
          by omega]
      · simpa [BT.post] using t2
      · intro y hy
        simp only [BT.pre, List.nil_append, List.mem_cons, not_or] at hy
        exact t3 y hy.1 hy.2
    | node cx cc cs =>
      have hlx : H.pool.link x = some cx := g3.1
      have hne : ∀ y ∈ (BT.node cx cc cs).pre, y ≠ x := fun y hy e => n1 (e ▸ hy)
      have hrep1 : TRep (H.with_walk (Function.update H.pool.link x older) H.next_sibling
          (Function.update H.action x ACT_GOING_LEFT) H.pool.root H.pool.freeable) (some x)
          (some cx) (BT.node cx cc cs) := by
        rw [hlx] at g3
        refine TRep_congr H _ (some x) (some cx) _ ?_ g3
        intro y hy
        exact ⟨Function.update_noteq (hne y hy) _ _, rfl, rfl⟩
      have hact1 : ∀ y ∈ (BT.node cx cc cs).pre,
          (H.with_walk (Function.update H.pool.link x older) H.next_sibling
            (Function.update H.action x ACT_GOING_LEFT) H.pool.root H.pool.freeable).action y
            = ACT_INACTIVE := by
        intro y hy
        exact (Function.update_noteq (hne y hy) _ _).trans
          (hact y (BT.mem_pre_of_child x s hy))
      have hseg1 : Seg (Function.update H.pool.link x older) H.pool.root fl none :=
        Seg_update H.pool.link fl H.pool.root none x older hxf hseg
      have hnd4 : ((BT.node cx cc cs).pre ++ fl).Nodup :=
        List.nodup_append.mpr ⟨n3, hfl, fun y hy hf => hcf y hy hf⟩
      obtain ⟨link1, ns1, act1, proot1, w1, w2, w3⟩ := ihc _ cx (some x) (some x) fl freed
        (k + 2 * s.pre.length + 1) hrep1 hact1 hseg1 hnd4
      obtain ⟨wx1, wx2, wx3⟩ := w3 x n1
      have hnd5 : (x :: s.pre ++ ((BT.node cx cc cs).post.reverse ++ fl)).Nodup := by
        have hpost : (BT.node cx cc cs).post.reverse.Nodup :=
          List.nodup_reverse.mpr ((BT.post_perm_pre _).nodup_iff.mpr n3)
        have hmem : ∀ y, y ∈ (BT.node cx cc cs).post.reverse ↔ y ∈ (BT.node cx cc cs).pre :=
          fun y => List.mem_reverse.trans (BT.mem_post_iff _ y)
        refine List.nodup_cons.mpr ⟨?_, List.nodup_append.mpr ⟨n4,
          List.nodup_append.mpr ⟨hpost, hfl, fun y hy hf => hcf y ((hmem y).mp hy) hf⟩, ?_⟩⟩
        · intro hm
          rcases List.mem_append.mp hm with hm | hm
          · exact n2 hm
          · rcases List.mem_append.mp hm with hm | hm
            · exact n1 ((hmem x).mp hm)
            · exact hxf hm
        · intro y hy hm
          rcases List.mem_append.mp hm with hm | hm
          · exact n5 y ((hmem y).mp hm) hy
          · exact hsf y hy hm
      obtain ⟨link, ns, act, proot, t1, t2, t3⟩ := remove_walk_tail H x s par ihs g4 hacts
        link1 ns1 act1 proot1 (H.pool.freeable + (BT.node cx cc cs).pre.length)
        ((BT.node cx cc cs).post.reverse ++ fl) older (some x)
        (freed ++ (BT.node cx cc cs).post) k
        (Or.inr ⟨wx3.trans (Function.update_same _ _ _), wx1.trans (Function.update_same _ _ _)⟩)
        wx2
        (fun y hy => by
          have hyc : y ∉ (BT.node cx cc cs).pre := fun e => n5 y e hy
          have hyx : y ≠ x := fun e => n2 (e ▸ hy)
          obtain ⟨f1, f2, f3⟩ := w3 y hyc
          exact ⟨f1.trans (Function.update_noteq hyx _ _), f2,
            f3.trans (Function.update_noteq hyx _ _)⟩)
        w2 hnd5
      refine ⟨link, ns, act, proot, ?_, ?_, ?_⟩
      · have hfuel : k + (2 * (BT.node x (BT.node cx cc cs) s).pre.length - 1)
            = (k + 2 * s.pre.length + 1 + (2 * (BT.node cx cc cs).pre.length - 1)) + 1 := by
          have : 0 < (BT.node cx cc cs).pre.length := by simp [BT.pre]
          simp only [BT.pre, List.length_cons, List.length_append] at this ⊢
          omega
        rw [hfuel, remove_step_down_left H x cx older freed _ hax hlx, w1]
        simp only [ntree.with_walk_with_walk]
        have hfr : (H.with_walk (Function.update H.pool.link x older) H.next_sibling
            (Function.update H.action x ACT_GOING_LEFT) H.pool.root H.pool.freeable).pool.freeable
            = H.pool.freeable := rfl
        rw [hfr, t1]
        have hlen : H.pool.freeable + (BT.node cx cc cs).pre.length + s.pre.length + 1
            = H.pool.freeable + (BT.node x (BT.node cx cc cs) s).pre.length := by
          simp only [BT.pre, List.length_cons, List.length_append]
          omega
        rw [hlen]
        simp only [BT.post, List.append_assoc]
      · have : (BT.node x (BT.node cx cc cs) s).post.reverse ++ fl
            = x :: s.post.reverse ++ ((BT.node cx cc cs).post.reverse ++ fl) := by
          simp [BT.post]
        rw [this]
        exact t2
      · intro y hy
        simp only [BT.pre, List.mem_cons, List.mem_append, not_or] at hy
        have hyc : y ∉ (BT.node cx cc cs).pre := by
          simp only [BT.pre, List.mem_cons, List.mem_append, not_or]
          exact hy.2.1
        obtain ⟨f1, f2, f3⟩ := t3 y hy.1 hy.2.2
        obtain ⟨e1, e2, e3⟩ := w3 y hyc
        exact ⟨f1.trans (e1.trans (Function.update_noteq hy.1 _ _)), f2.trans e2,
          f3.trans (e3.trans (Function.update_noteq hy.1 _ _))⟩

end RemoveWalkMain
/-! ## Lemmas: `ntree_remove` on a well-formed tree -/

theorem BT.child_of_sibs (b : BT) (n : Nat) (hnd : b.pre.Nodup) :
    (b.child_of n).sibs = b.children n := by
  induction b with
  | nil => rfl
  | node x c s ihc ihs =>
    obtain ⟨n1, n2, n3, n4, n5⟩ := BT.pre_nodup_node hnd
    by_cases hx : x = n
    · simp [BT.child_of, BT.children, hx]
    · simp only [BT.child_of, BT.children, if_neg hx]
      by_cases hc : n ∈ c.pre
      · rw [if_pos hc, ihc n3, BT.children_of_not_mem s n (n5 n hc), List.append_nil]
      · rw [if_neg hc, ihs n4, BT.children_of_not_mem c n hc, List.nil_append]

section RemoveFinal
variable {D : Type}

theorem ntree_remove_loop_done (k : Nat) (s : ntree D) (older : Ptr) (freed : List Nat) :
    ntree_remove_loop k s none older freed = some (s, freed) := by
  cases k <;> rfl

/-- The function `ntree_remove` on a node of a well-formed tree: the node and its
descendants are given back to the pool and the rest of the forest is as before. -/
theorem ntree_remove_wf (t : ntree D) (b : BT) (fl : List Nat) (n fuel : Nat)
    (h : TreeWF t b fl) (hn : n ∈ b.pre) (hfuel : 2 * b.pre.length ≤ fuel) :
    ∃ t2, ntree_remove fuel t (some n) = some (t2, 0, none) ∧
      TreeWF t2 (b.remove n) ((BT.node n (b.child_of n) BT.nil).post.reverse ++ fl) ∧
      t2.data = t.data ∧ t2.age = t.age := by
  have hnd : b.pre.Nodup := (List.nodup_append.mp h.1.2.2.1).1
  have hndfl : fl.Nodup := (List.nodup_append.mp h.1.2.2.1).2.1
  have hdisj : ∀ y ∈ b.pre, y ∉ fl := fun y hy hf => (List.nodup_append.mp h.1.2.2.1).2.2 hy hf
  have hpos : 0 < b.pre.length := List.length_pos_of_mem hn
  obtain ⟨r, hr, _⟩ := TreeInv_root_ne_none t b fl n h.1 hn
  obtain ⟨l1, l2, hpre, hrem⟩ := BT.remove_pre b n hn hnd
  have hnd' := hnd
  rw [hpre] at hnd'
  -- the block of the subtree inside the pre-order sequence
  have hblk : (n :: (b.child_of n).pre).Nodup :=
    (List.nodup_append.mp (List.nodup_append.mp hnd').1).2.1
  have hncn : n ∉ (b.child_of n).pre := (List.nodup_cons.mp hblk).1
  have hsub : ∀ y ∈ n :: (b.child_of n).pre, y ∈ b.pre := by
    intro y hy
    rw [hpre]
    exact List.mem_append_left _ (List.mem_append_right _ hy)
  have hout : ∀ y ∈ (b.remove n).pre, y ∉ n :: (b.child_of n).pre ∧ y ∈ b.pre := by
    intro y hy
    rw [hrem] at hy
    rw [hpre]
    rcases List.mem_append.mp hy with e | e
    · exact ⟨fun hb => (List.nodup_append.mp (List.nodup_append.mp hnd').1).2.2 e hb,
        List.mem_append_left _ (List.mem_append_left _ e)⟩
    · exact ⟨fun hb => (List.nodup_append.mp hnd').2.2 (List.mem_append_right _ hb) e,
        List.mem_append_right _ e⟩
  obtain ⟨t1, u1, u2, u3, u4, u5, u6, u7, u8, u9, u10, u11, u12, u13, u14, u15⟩ :=
    ntree_unlink_spec t b fl n fuel h.1 hn (by omega)
  -- the rest of the forest after the unlinking
  have hrest : TRep t1 none t1.root (b.remove n) := by
    rw [u2]
    exact TRep_redirect t t1 n b none t.root h.1.1 hnd u3 u4 u5
  -- the subtree of `n` after the unlinking
  have hcn := TRep_child_of t none t.root b n h.1.1 hn hnd
  have hsubrep : TRep t1 none (some n) (BT.node n (b.child_of n) BT.nil) := by
    refine ⟨rfl, u8, ?_, u7⟩
    rw [u6]
    refine TRep_congr t t1 (some n) _ _ ?_ hcn
    intro y hy
    have hyb : y ∈ b.pre := hsub y (List.mem_cons_of_mem _ hy)
    have hyn : y ≠ n := fun e => hncn (e ▸ hy)
    have hl : ¬ t.pool.link y = some n :=
      fun e => hncn (TRep_link_mem t _ _ _ hcn y hy n (Or.inl e))
    have hs : ¬ t.next_sibling y = some n :=
      fun e => hncn (TRep_link_mem t _ _ _ hcn y hy n (Or.inr e))
    refine ⟨?_, ?_, u3 y hyb hyn⟩
    · rw [u4 y hyb hyn, if_neg hl]
    · rw [u5 y hyb hyn, if_neg hs]
  have hact1 : ∀ y ∈ (BT.node n (b.child_of n) BT.nil).pre,
      t1.action y = ntree_trav_action.ACT_INACTIVE := by
    intro y hy
    rw [u10]
    exact h.1.2.2.2.2 y (hsub y (by simpa [BT.pre] using hy))
  have hseg1 : Seg t1.pool.link t1.pool.root fl none := by
    rw [u13]
    refine Seg_congr t.pool.link t1.pool.link fl _ none ?_ h.1.2.1
    intro y hy
    exact u9 y (fun e => hdisj y e hy)
  have hnd1 : ((BT.node n (b.child_of n) BT.nil).pre ++ fl).Nodup := by
    refine List.nodup_append.mpr ⟨by simpa [BT.pre] using hblk, hndfl, ?_⟩
    intro y hy hf
    exact hdisj y (hsub y (by simpa [BT.pre] using hy)) hf
  have hsteps : 2 * (BT.node n (b.child_of n) BT.nil).pre.length - 1 ≤ fuel := by
    have : (BT.node n (b.child_of n) BT.nil).pre.length ≤ b.pre.length := by
      rw [hpre]
      simp only [BT.pre, List.append_nil, List.length_append, List.length_cons]
      omega
    omega
  obtain ⟨link, ns, act, proot, w1, w2, w3⟩ := ntree_remove_loop_walk
    (BT.node n (b.child_of n) BT.nil) t1 n none none fl []
    (fuel - (2 * (BT.node n (b.child_of n) BT.nil).pre.length - 1)) hsubrep hact1 hseg1 hnd1
  rw [Nat.sub_add_cancel hsteps, ntree_remove_loop_done, List.nil_append] at w1
  refine ⟨t1.with_walk link ns act proot
    (t1.pool.freeable + (BT.node n (b.child_of n) BT.nil).pre.length), ?_,
    ⟨⟨?_, w2, ?_, ?_, ?_⟩, ?_⟩, u11, u12⟩
  · simp only [ntree_remove, hr, reduceCtorEq, if_false, u1, w1]
  · refine TRep_congr t1 _ none t1.root _ ?_ hrest
    intro y hy
    have hyo : y ∉ (BT.node n (b.child_of n) BT.nil).pre := by
      simpa [BT.pre] using (hout y hy).1
    obtain ⟨f1, f2, _⟩ := w3 y hyo
    exact ⟨f1, f2, rfl⟩
  · have hperm : ((b.remove n).pre ++ ((BT.node n (b.child_of n) BT.nil).post.reverse ++ fl)).Perm
        (b.pre ++ fl) := by
      rw [hrem, hpre]
      have h1 : (BT.node n (b.child_of n) BT.nil).post.reverse.Perm (n :: (b.child_of n).pre) := by
        refine (List.reverse_perm _).trans ?_
        have := BT.post_perm_pre (BT.node n (b.child_of n) BT.nil)
        simpa [BT.pre] using this
      have h2 : (l1 ++ l2 ++ ((BT.node n (b.child_of n) BT.nil).post.reverse ++ fl)).Perm
          (l1 ++ l2 ++ ((n :: (b.child_of n).pre) ++ fl)) :=
        List.Perm.append_left _ (List.Perm.append_right _ h1)
      refine h2.trans ?_
      have h3 : (l1 ++ l2 ++ ((n :: (b.child_of n).pre) ++ fl)).Perm
          (l1 ++ (n :: (b.child_of n).pre) ++ l2 ++ fl) := by
        simp only [List.append_assoc]
        exact List.Perm.append_left l1 (List.perm_append_comm_assoc _ _ _)
      exact h3
    exact hperm.nodup_iff.mpr h.1.2.2.1
  · show t1.pool.freeable + _ = _
    rw [u14, h.1.2.2.2.1]
    have := (BT.post_perm_pre (BT.node n (b.child_of n) BT.nil)).length_eq
    simp only [List.length_append, List.length_reverse, this]
    omega
  · intro y hy
    have hyo : y ∉ (BT.node n (b.child_of n) BT.nil).pre := by
      simpa [BT.pre] using (hout y hy).1
    show act y = _
    rw [(w3 y hyo).2.2, u10]
    exact h.1.2.2.2.2 y (hout y hy).2
  · show t1.pool.capacity = _
    rw [u15, h.2, hrem]
    have := (BT.post_perm_pre (BT.node n (b.child_of n) BT.nil)).length_eq
    have hl : b.pre.length = (l1 ++ (n :: (b.child_of n).pre) ++ l2).length := by rw [← hpre]
    simp only [List.length_append, List.length_reverse, this, BT.pre, List.append_nil,
      List.length_cons] at hl ⊢
    omega

end RemoveFinal

section PreorderWF
variable {D : Type}

/-- The client loop over `ntree_iter` reads a well-formed tree in pre-order. -/
theorem ntree_preorder_wf (t : ntree D) (b : BT) (fl : List Nat) (fmem fuel : Nat)
    (h : TreeWF t b fl) (hfuel : b.pre.length + 1 < fuel) :
    ntree_preorder fmem fuel t = some (b.pre.map (fun x => (t.data x, t.age x))) := by
  cases b with
  | nil =>
    obtain ⟨e, he⟩ := ntree_iter_empty t fl fmem h
    obtain ⟨k, hk⟩ : ∃ k, fuel = k + 1 := ⟨fuel - 1, by omega⟩
    subst hk
    simp only [ntree_preorder, he, ntree_walk_end]
    rfl
  | node a c s =>
    obtain ⟨f, h1, h2⟩ := ntree_iter_start t a c s fl fmem h
    have hpres : BT.pres (BT.push_nonnil c (BT.push_nonnil s [])) = c.pre ++ s.pre := by
      rw [BT.pres_push_nonnil, BT.pres_push_nonnil]
      simp [BT.pres]
    have hw := ntree_walk_dfs t _ _ { fringe := f, age := t.age a, node := some a } a fuel
      rfl h2 rfl rfl (by
        rw [hpres]
        simp only [BT.pre, List.length_cons, List.length_append] at hfuel ⊢
        omega)
    simp only [ntree_preorder, h1, hw, hpres]
    rfl

end PreorderWF
/-! ## Lemmas: `string_match`, budget and checked reads -/

theorem internal_string_match_mono (fuel : Nat) :
    ∀ (pat str : List Nat) (pe se cs b : Bool),
      internal_string_match fuel pat str pe se cs = some b →
      internal_string_match (fuel + 1) pat str pe se cs = some b := by
  induction fuel with
  | zero => intro pat str pe se cs b h; simp [internal_string_match] at h
  | succ fuel ih =>
    intro pat str pe se cs b h
    rw [internal_string_match] at h ⊢
    generalize hk : ((if cs = true then pat.headD 0 else toupper (pat.headD 0)) |||
      (if pe = true then PAT_ESCAPED else 0)) = key at h ⊢
    generalize hsc : (if cs = true then str.headD 0 else toupper (str.headD 0)) = str_c at h ⊢
    generalize hpc : (if cs = true then pat.headD 0 else toupper (pat.headD 0)) = pat_c at h ⊢
    by_cases k0 : key = 0
    · rw [if_pos k0] at h ⊢; exact h
    rw [if_neg k0] at h ⊢
    by_cases k1 : key = 42
    · rw [if_pos k1] at h ⊢
      cases hx : internal_string_match fuel pat.tail str false se cs with
      | none => rw [hx] at h; simp at h
      | some v =>
        rw [hx] at h; rw [ih _ _ _ _ _ _ hx]
        cases v
        · simp only [] at h ⊢
          by_cases c1 : str_c ≠ 0
          · rw [if_pos c1] at h ⊢; exact ih _ _ _ _ _ _ h
          · rw [if_neg c1] at h ⊢; exact h
        · exact h
    rw [if_neg k1] at h ⊢
    by_cases k2 : key = 42 ||| PAT_ESCAPED
    · rw [if_pos k2] at h ⊢
      by_cases c1 : str_c = pat_c
      · rw [if_pos c1] at h ⊢; exact ih _ _ _ _ _ _ h
      · rw [if_neg c1] at h ⊢; exact h
    rw [if_neg k2] at h ⊢
    by_cases k3 : key = 43
    · rw [if_pos k3] at h ⊢
      cases hx : internal_string_match fuel pat.tail str false se cs with
      | none => rw [hx] at h; simp at h
      | some v =>
        rw [hx] at h; rw [ih _ _ _ _ _ _ hx]
        cases v
        · simp only [] at h ⊢
          by_cases c1 : str_c ≠ 0 ∧ (pat.tail.headD 0 ≠ str_c ∨ se = true)
          · rw [if_pos c1] at h ⊢; exact ih _ _ _ _ _ _ h
          · rw [if_neg c1] at h ⊢; exact h
        · exact h
    rw [if_neg k3] at h ⊢
    by_cases k4 : key = 43 ||| PAT_ESCAPED
    · rw [if_pos k4] at h ⊢
      by_cases c1 : str_c = pat_c
      · rw [if_pos c1] at h ⊢; exact ih _ _ _ _ _ _ h
      · rw [if_neg c1] at h ⊢; exact h
    rw [if_neg k4] at h ⊢
    by_cases k5 : key = 63
    · rw [if_pos k5] at h ⊢
      by_cases c1 : str_c ≠ 0
      · rw [if_pos c1] at h ⊢; exact ih _ _ _ _ _ _ h
      · rw [if_neg c1] at h ⊢; exact h
    rw [if_neg k5] at h ⊢
    by_cases k6 : key = 92
    · rw [if_pos k6] at h ⊢
      exact ih _ _ _ _ _ _ h
    rw [if_neg k6] at h ⊢
    by_cases c1 : str_c = pat_c ∧ se = pe
    · rw [if_pos c1] at h ⊢
      cases hn : next_chars pat str with
      | none => rw [hn] at h; simp at h
      | some ps =>
        rw [hn] at h
        exact ih _ _ _ _ _ _ h
    · rw [if_neg c1] at h ⊢; exact h

theorem internal_string_match_mono_le (fuel fuel2 : Nat) (pat str : List Nat)
    (pe se cs b : Bool) (h : internal_string_match fuel pat str pe se cs = some b)
    (hle : fuel ≤ fuel2) : internal_string_match fuel2 pat str pe se cs = some b := by
  induction fuel2 with
  | zero =>
    have : fuel = 0 := by omega
    subst this
    exact h
  | succ n ih =>
    by_cases e : fuel = n + 1
    · subst e; exact h
    · exact internal_string_match_mono n _ _ _ _ _ _ (ih (by omega))

theorem toupper_zero : toupper 0 = 0 := by simp [toupper]

theorem toupper_eq_zero (c : Nat) : toupper c = 0 ↔ c = 0 := by
  unfold toupper
  split_ifs <;> omega

/-- What the key of the `switch` tells about the pattern. -/
theorem sm_key_facts (pat : List Nat) (pe cs : Bool) (key pat_c : Nat)
    (hpc : (if cs = true then pat.headD 0 else toupper (pat.headD 0)) = pat_c)
    (hk : (pat_c ||| (if pe = true then PAT_ESCAPED else 0)) = key) :
    (pat_c ≠ 0 → ∃ c t, pat = c :: t) ∧ (pat_c = 0 → key ≠ 0 → pe = true ∧ key = 256) ∧
    (key = 42 ∨ key = 298 ∨ key = 43 ∨ key = 299 ∨ key = 63 ∨ key = 92 → pat_c ≠ 0) := by
  have h1 : pat_c ≠ 0 → ∃ c t, pat = c :: t := by
    intro h
    cases pat with
    | nil => exfalso; apply h; rw [← hpc]; cases cs <;> simp [toupper_zero]
    | cons c t => exact ⟨c, t, rfl⟩
  have h2 : pat_c = 0 → key ≠ 0 → pe = true ∧ key = 256 := by
    intro h0 hk0
    subst h0
    cases pe
    · simp at hk; exact absurd hk.symm hk0
    · simp [PAT_ESCAPED] at hk; exact ⟨rfl, hk.symm⟩
  refine ⟨h1, h2, ?_⟩
  intro hkey h0
  by_cases hk0 : key = 0
  · omega
  · have := (h2 h0 hk0).2
    omega

theorem sm_str_facts (str : List Nat) (cs : Bool) (str_c : Nat)
    (hsc : (if cs = true then str.headD 0 else toupper (str.headD 0)) = str_c) :
    (str_c ≠ 0 → ∃ d s, str = d :: s) ∧ (str.headD 0 = 92 → str_c = 92) := by
  constructor
  · intro h
    cases str with
    | nil => exfalso; apply h; rw [← hsc]; cases cs <;> simp [toupper_zero]
    | cons d s => exact ⟨d, s, rfl⟩
  · intro h
    rw [← hsc, h]
    cases cs <;> simp [toupper]

/-- The checked and the unchecked function agree, and the checked one never reads behind
a terminator. -/
theorem internal_string_match_checked_agrees (fuel : Nat) :
    ∀ (pat str : List Nat) (pe se cs : Bool),
      (pe = true → se = decide (str.headD 0 = 92)) →
      (internal_string_match_checked fuel (some pat) (some str) pe se cs
          = sm_outcome.out_of_fuel ∧ internal_string_match fuel pat str pe se cs = none) ∨
      ∃ b, internal_string_match_checked fuel (some pat) (some str) pe se cs
          = sm_outcome.value b ∧ internal_string_match fuel pat str pe se cs = some b := by
  induction fuel with
  | zero =>
    intro pat str pe se cs _
    left
    simp [internal_string_match_checked, internal_string_match]
  | succ fuel ih =>
    intro pat str pe se cs hinv
    rw [internal_string_match_checked, internal_string_match]
    generalize hpc : (if cs = true then pat.headD 0 else toupper (pat.headD 0)) = pat_c
    generalize hk : (pat_c ||| (if pe = true then PAT_ESCAPED else 0)) = key
    generalize hsc : (if cs = true then str.headD 0 else toupper (str.headD 0)) = str_c
    obtain ⟨hp1, hp2, hp3⟩ := sm_key_facts pat pe cs key pat_c hpc hk
    obtain ⟨hs1, hs2⟩ := sm_str_facts str cs str_c hsc
    have c298 : (42 ||| PAT_ESCAPED) = 298 := by decide
    have c299 : (43 ||| PAT_ESCAPED) = 299 := by decide
    rw [c298, c299]
    by_cases k0 : key = 0
    · rw [if_pos k0, if_pos k0]; exact Or.inr ⟨_, rfl, rfl⟩
    rw [if_neg k0, if_neg k0]
    by_cases k1 : key = 42
    · rw [if_pos k1, if_pos k1]
      obtain ⟨c, t, rfl⟩ := hp1 (hp3 (by omega))
      simp only [str_succ, List.tail_cons]
      rcases ih t str false se cs (by simp) with ⟨e1, e2⟩ | ⟨b, e1, e2⟩
      · rw [e1, e2]; exact Or.inl ⟨rfl, rfl⟩
      · rw [e1, e2]
        cases b
        · simp only []
          by_cases c1 : str_c ≠ 0
          · rw [if_pos c1, if_pos c1]
            obtain ⟨d, s, rfl⟩ := hs1 c1
            simp only [str_succ, List.tail_cons]
            exact ih (c :: t) s false _ cs (by simp)
          · rw [if_neg c1, if_neg c1]; exact Or.inr ⟨_, rfl, rfl⟩
        · exact Or.inr ⟨_, rfl, rfl⟩
    rw [if_neg k1, if_neg k1]
    by_cases k2 : key = 298
    · rw [if_pos k2, if_pos k2]
      by_cases c1 : str_c = pat_c
      · rw [if_pos c1, if_pos c1]
        obtain ⟨c, t, rfl⟩ := hp1 (hp3 (by omega))
        obtain ⟨d, s, rfl⟩ := hs1 (by rw [c1]; exact hp3 (by omega))
        simp only [str_succ, List.tail_cons]
        exact ih t s false _ cs (by simp)
      · rw [if_neg c1, if_neg c1]; exact Or.inr ⟨_, rfl, rfl⟩
    rw [if_neg k2, if_neg k2]
    by_cases k3 : key = 43
    · rw [if_pos k3, if_pos k3]
      obtain ⟨c, t, rfl⟩ := hp1 (hp3 (by omega))
      simp only [str_succ, List.tail_cons]
      rcases ih t str false se cs (by simp) with ⟨e1, e2⟩ | ⟨b, e1, e2⟩
      · rw [e1, e2]; exact Or.inl ⟨rfl, rfl⟩
      · rw [e1, e2]
        cases b
        · simp only []
          by_cases c1 : str_c ≠ 0
          · rw [if_pos c1]
            obtain ⟨d, s, rfl⟩ := hs1 c1
            by_cases c2 : t.headD 0 ≠ str_c ∨ se = true
            · rw [if_pos c2, if_pos ⟨c1, c2⟩]
              simp only [str_succ, List.tail_cons]
              exact ih (c :: t) s false _ cs (by simp)
            · rw [if_neg c2, if_neg (fun hh => c2 hh.2)]; exact Or.inr ⟨_, rfl, rfl⟩
          · rw [if_neg c1, if_neg (fun hh => c1 hh.1)]; exact Or.inr ⟨_, rfl, rfl⟩
        · exact Or.inr ⟨_, rfl, rfl⟩
    rw [if_neg k3, if_neg k3]
    by_cases k4 : key = 299
    · rw [if_pos k4, if_pos k4]
      by_cases c1 : str_c = pat_c
      · rw [if_pos c1, if_pos c1]
        obtain ⟨c, t, rfl⟩ := hp1 (hp3 (by omega))
        obtain ⟨d, s, rfl⟩ := hs1 (by rw [c1]; exact hp3 (by omega))
        simp only [str_succ, List.tail_cons]
        exact ih t s false _ cs (by simp)
      · rw [if_neg c1, if_neg c1]; exact Or.inr ⟨_, rfl, rfl⟩
    rw [if_neg k4, if_neg k4]
    by_cases k5 : key = 63
    · rw [if_pos k5, if_pos k5]
      by_cases c1 : str_c ≠ 0
      · rw [if_pos c1, if_pos c1]
        obtain ⟨c, t, rfl⟩ := hp1 (hp3 (by omega))
        obtain ⟨d, s, rfl⟩ := hs1 c1
        simp only [str_succ, List.tail_cons]
        exact ih t s false _ cs (by simp)
      · rw [if_neg c1, if_neg c1]; exact Or.inr ⟨_, rfl, rfl⟩
    rw [if_neg k5, if_neg k5]
    by_cases k6 : key = 92
    · rw [if_pos k6, if_pos k6]
      obtain ⟨c, t, rfl⟩ := hp1 (hp3 (by omega))
      simp only [str_succ, List.tail_cons]
      exact ih t str true _ cs (by simp)
    rw [if_neg k6, if_neg k6]
    by_cases c1 : str_c = pat_c ∧ se = pe
    · rw [if_pos c1, if_pos c1]
      have hpc0 : pat_c ≠ 0 := by
        intro h0
        obtain ⟨hpe, _⟩ := hp2 h0 k0
        have hse := hinv hpe
        rw [c1.2, hpe] at hse
        have h92 : str.headD 0 = 92 := by simpa using hse.symm
        have := hs2 h92
        omega
      obtain ⟨c, t, rfl⟩ := hp1 hpc0
      obtain ⟨d, s, rfl⟩ := hs1 (by rw [c1.1]; exact hpc0)
      simp only [str_succ, next_chars]
      exact ih t s false _ cs (by simp)
    · rw [if_neg c1, if_neg c1]; exact Or.inr ⟨_, rfl, rfl⟩

theorem le_or_256 (x : Nat) : 256 ≤ x ||| 256 := by
  have h : (x ||| 256).testBit 8 = true := by
    rw [Nat.testBit_or]
    have : (256 : Nat).testBit 8 = true := by decide
    simp [this]
  have := Nat.testBit_implies_ge h
  simpa using this

/-- A budget above the two lengths is enough for `internal_string_match` to return. -/
theorem internal_string_match_returns (fuel : Nat) :
    ∀ (pat str : List Nat) (pe se cs : Bool),
      (pe = true → se = decide (str.headD 0 = 92)) → pat.length + str.length < fuel →
      ∃ b, internal_string_match fuel pat str pe se cs = some b := by
  induction fuel with
  | zero => intro pat str pe se cs _ h; omega
  | succ fuel ih =>
    intro pat str pe se cs hinv hfuel
    rw [internal_string_match]
    generalize hpc : (if cs = true then pat.headD 0 else toupper (pat.headD 0)) = pat_c
    generalize hk : (pat_c ||| (if pe = true then PAT_ESCAPED else 0)) = key
    generalize hsc : (if cs = true then str.headD 0 else toupper (str.headD 0)) = str_c
    obtain ⟨hp1, hp2, hp3⟩ := sm_key_facts pat pe cs key pat_c hpc hk
    obtain ⟨hs1, hs2⟩ := sm_str_facts str cs str_c hsc
    have c298 : (42 ||| PAT_ESCAPED) = 298 := by decide
    have c299 : (43 ||| PAT_ESCAPED) = 299 := by decide
    rw [c298, c299]
    by_cases k0 : key = 0
    · rw [if_pos k0]; exact ⟨_, rfl⟩
    rw [if_neg k0]
    by_cases k1 : key = 42
    · rw [if_pos k1]
      obtain ⟨c, t, rfl⟩ := hp1 (hp3 (by omega))
      simp only [List.length_cons] at hfuel
      simp only [List.tail_cons]
      obtain ⟨b, e1⟩ := ih t str false se cs (by simp) (by omega)
      rw [e1]
      cases b
      · simp only []
        by_cases c1 : str_c ≠ 0
        · rw [if_pos c1]
          obtain ⟨d, s, rfl⟩ := hs1 c1
          simp only [List.length_cons] at hfuel
          simp only [List.tail_cons]
          exact ih (c :: t) s false _ cs (by simp) (by simp only [List.length_cons]; omega)
        · rw [if_neg c1]; exact ⟨_, rfl⟩
      · exact ⟨_, rfl⟩
    rw [if_neg k1]
    by_cases k2 : key = 298
    · rw [if_pos k2]
      by_cases c1 : str_c = pat_c
      · rw [if_pos c1]
        obtain ⟨c, t, rfl⟩ := hp1 (hp3 (by omega))
        obtain ⟨d, s, rfl⟩ := hs1 (by rw [c1]; exact hp3 (by omega))
        simp only [List.length_cons] at hfuel
        simp only [List.tail_cons]
        exact ih t s false _ cs (by simp) (by omega)
      · rw [if_neg c1]; exact ⟨_, rfl⟩
    rw [if_neg k2]
    by_cases k3 : key = 43
    · rw [if_pos k3]
      obtain ⟨c, t, rfl⟩ := hp1 (hp3 (by omega))
      simp only [List.length_cons] at hfuel
      simp only [List.tail_cons]
      obtain ⟨b, e1⟩ := ih t str false se cs (by simp) (by omega)
      rw [e1]
      cases b
      · simp only []
        by_cases c1 : str_c ≠ 0 ∧ (t.headD 0 ≠ str_c ∨ se = true)
        · rw [if_pos c1]
          obtain ⟨d, s, rfl⟩ := hs1 c1.1
          simp only [List.length_cons] at hfuel
          simp only [List.tail_cons]
          exact ih (c :: t) s false _ cs (by simp) (by simp only [List.length_cons]; omega)
        · rw [if_neg c1]; exact ⟨_, rfl⟩
      · exact ⟨_, rfl⟩
    rw [if_neg k3]
    by_cases k4 : key = 299
    · rw [if_pos k4]
      by_cases c1 : str_c = pat_c
      · rw [if_pos c1]
        obtain ⟨c, t, rfl⟩ := hp1 (hp3 (by omega))
        obtain ⟨d, s, rfl⟩ := hs1 (by rw [c1]; exact hp3 (by omega))
        simp only [List.length_cons] at hfuel
        simp only [List.tail_cons]
        exact ih t s false _ cs (by simp) (by omega)
      · rw [if_neg c1]; exact ⟨_, rfl⟩
    rw [if_neg k4]
    by_cases k5 : key = 63
    · rw [if_pos k5]
      by_cases c1 : str_c ≠ 0
      · rw [if_pos c1]
        obtain ⟨c, t, rfl⟩ := hp1 (hp3 (by omega))
        obtain ⟨d, s, rfl⟩ := hs1 c1
        simp only [List.length_cons] at hfuel
        simp only [List.tail_cons]
        exact ih t s false _ cs (by simp) (by omega)
      · rw [if_neg c1]; exact ⟨_, rfl⟩
    rw [if_neg k5]
    by_cases k6 : key = 92
    · rw [if_pos k6]
      obtain ⟨c, t, rfl⟩ := hp1 (hp3 (by omega))
      simp only [List.length_cons] at hfuel
      simp only [List.tail_cons]
      exact ih t str true _ cs (by simp) (by omega)
    rw [if_neg k6]
    by_cases c1 : str_c = pat_c ∧ se = pe
    · rw [if_pos c1]
      have hpc0 : pat_c ≠ 0 := by
        intro h0
        obtain ⟨hpe, _⟩ := hp2 h0 k0
        have hse := hinv hpe
        rw [c1.2, hpe] at hse
        have h92 : str.headD 0 = 92 := by simpa using hse.symm
        have := hs2 h92
        omega
      obtain ⟨c, t, rfl⟩ := hp1 hpc0
      obtain ⟨d, s, rfl⟩ := hs1 (by rw [c1.1]; exact hpc0)
      simp only [List.length_cons] at hfuel
      simp only [next_chars]
      exact ih t s false _ cs (by simp) (by omega)
    · rw [if_neg c1]; exact ⟨_, rfl⟩

/-- A pattern that ends in a lone backslash matches nothing. -/
theorem internal_string_match_lone (fuel : Nat) :
    ∀ (pat str : List Nat) (pe se cs : Bool), (∀ c ∈ pat, c ≠ 0) →
      (lone_backslash pe pat = true ∨ (pe = true ∧ pat = [])) →
      (pe = true → se = decide (str.headD 0 = 92)) →
      internal_string_match fuel pat str pe se cs ≠ some true := by
  induction fuel with
  | zero => intro pat str pe se cs _ _ _; simp [internal_string_match]
  | succ fuel ih =>
    intro pat str pe se cs hnz hlone hinv
    rw [internal_string_match]
    generalize hpc : (if cs = true then pat.headD 0 else toupper (pat.headD 0)) = pat_c
    generalize hk : (pat_c ||| (if pe = true then PAT_ESCAPED else 0)) = key
    generalize hsc : (if cs = true then str.headD 0 else toupper (str.headD 0)) = str_c
    obtain ⟨hp1, hp2, hp3⟩ := sm_key_facts pat pe cs key pat_c hpc hk
    obtain ⟨hs1, hs2⟩ := sm_str_facts str cs str_c hsc
    have c298 : (42 ||| PAT_ESCAPED) = 298 := by decide
    have c299 : (43 ||| PAT_ESCAPED) = 299 := by decide
    rw [c298, c299]
    -- the state after the first character of the pattern, when it is not a backslash
    -- that starts an escape
    have hnext : ∀ c t, pat = c :: t → (pe = false → c ≠ 92) →
        (∀ x ∈ t, x ≠ 0) ∧ (lone_backslash false t = true ∨ (false = true ∧ t = [])) := by
      intro c t e hc
      subst e
      refine ⟨fun x hx => hnz x (List.mem_cons_of_mem _ hx), Or.inl ?_⟩
      rcases hlone with h | h
      · cases pe
        · simpa [lone_backslash, hc rfl] using h
        · simpa [lone_backslash] using h
      · exact absurd h.2 (by simp)
    have hpat_c : ∀ c t, pat = c :: t → (pat_c = 92 ↔ c = 92) := by
      intro c t e
      subst e
      rw [← hpc]
      cases cs
      · simpa using toupper_eq_special c 92 (by omega)
      · simp
    have hkey_pe : pe = false → key = pat_c := by
      intro e; rw [← hk, e]; simp
    by_cases k0 : key = 0
    · exfalso
      have hpe : pe = false := by
        cases pe
        · rfl
        · exfalso
          rw [← hk] at k0
          simp only [if_true, PAT_ESCAPED] at k0
          have := le_or_256 pat_c
          omega
      have hp0 : pat_c = 0 := by rw [← hkey_pe hpe]; exact k0
      cases pat with
      | nil =>
        rcases hlone with h | h
        · simp [lone_backslash] at h
        · rw [hpe] at h; exact absurd h.1 (by simp)
      | cons c t =>
        have hc := hnz c (List.mem_cons_self _ _)
        rw [← hpc] at hp0
        cases cs
        · simp only [Bool.false_eq_true, if_false, List.headD_cons] at hp0
          exact hc ((toupper_eq_zero c).mp hp0)
        · simp only [if_true, List.headD_cons] at hp0
          exact hc hp0
    rw [if_neg k0]
    have hne92 : key ≠ 92 → ∀ c t, pat = c :: t → pe = false → c ≠ 92 := by
      intro hk92 c t e hpe h92
      apply hk92
      rw [hkey_pe hpe]
      exact (hpat_c c t e).mpr h92
    by_cases k1 : key = 42
    · rw [if_pos k1]
      obtain ⟨c, t, rfl⟩ := hp1 (hp3 (by omega))
      obtain ⟨n1, n2⟩ := hnext c t rfl (hne92 (by omega) c t rfl)
      have hpe : pe = false := by
        cases pe
        · rfl
        · exfalso
          rw [← hk] at k1
          simp only [if_true, PAT_ESCAPED] at k1
          have := le_or_256 pat_c
          omega
      simp only [List.tail_cons]
      have r1 := ih t str false se cs n1 n2 (by simp)
      cases hx : internal_string_match fuel t str false se cs with
      | none => simp
      | some b =>
        cases b
        · simp only []
          by_cases c1 : str_c ≠ 0
          · rw [if_pos c1]
            exact ih (c :: t) str.tail false _ cs hnz (by rw [hpe] at hlone; exact hlone) (by simp)
          · rw [if_neg c1]; simp
        · exact absurd hx r1
    rw [if_neg k1]
    by_cases k2 : key = 298
    · rw [if_pos k2]
      by_cases c1 : str_c = pat_c
      · rw [if_pos c1]
        obtain ⟨c, t, rfl⟩ := hp1 (hp3 (by omega))
        obtain ⟨n1, n2⟩ := hnext c t rfl (hne92 (by omega) c t rfl)
        simp only [List.tail_cons]
        exact ih t _ false _ cs n1 n2 (by simp)
      · rw [if_neg c1]; simp
    rw [if_neg k2]
    by_cases k3 : key = 43
    · rw [if_pos k3]
      obtain ⟨c, t, rfl⟩ := hp1 (hp3 (by omega))
      obtain ⟨n1, n2⟩ := hnext c t rfl (hne92 (by omega) c t rfl)
      have hpe : pe = false := by
        cases pe
        · rfl
        · exfalso
          rw [← hk] at k3
          simp only [if_true, PAT_ESCAPED] at k3
          have := le_or_256 pat_c
          omega
      simp only [List.tail_cons]
      have r1 := ih t str false se cs n1 n2 (by simp)
      cases hx : internal_string_match fuel t str false se cs with
      | none => simp
      | some b =>
        cases b
        · simp only []
          by_cases c1 : str_c ≠ 0 ∧ (t.headD 0 ≠ str_c ∨ se = true)
          · rw [if_pos c1]
            exact ih (c :: t) str.tail false _ cs hnz (by rw [hpe] at hlone; exact hlone) (by simp)
          · rw [if_neg c1]; simp
        · exact absurd hx r1
    rw [if_neg k3]
    by_cases k4 : key = 299
    · rw [if_pos k4]
      by_cases c1 : str_c = pat_c
      · rw [if_pos c1]
        obtain ⟨c, t, rfl⟩ := hp1 (hp3 (by omega))
        obtain ⟨n1, n2⟩ := hnext c t rfl (hne92 (by omega) c t rfl)
        simp only [List.tail_cons]
        exact ih t _ false _ cs n1 n2 (by simp)
      · rw [if_neg c1]; simp
    rw [if_neg k4]
    by_cases k5 : key = 63
    · rw [if_pos k5]
      by_cases c1 : str_c ≠ 0
      · rw [if_pos c1]
        obtain ⟨c, t, rfl⟩ := hp1 (hp3 (by omega))
        obtain ⟨n1, n2⟩ := hnext c t rfl (hne92 (by omega) c t rfl)
        simp only [List.tail_cons]
        exact ih t _ false _ cs n1 n2 (by simp)
      · rw [if_neg c1]; simp
    rw [if_neg k5]
    by_cases k6 : key = 92
    · rw [if_pos k6]
      obtain ⟨c, t, rfl⟩ := hp1 (hp3 (by omega))
      have hpe : pe = false := by
        cases pe
        · rfl
        · exfalso
          rw [← hk] at k6
          simp only [if_true, PAT_ESCAPED] at k6
          have := le_or_256 pat_c
          omega
      have hc92 : c = 92 := (hpat_c c t rfl).mp (by rw [← hkey_pe hpe]; exact k6)
      simp only [List.tail_cons]
      refine ih t str true _ cs (fun x hx => hnz x (List.mem_cons_of_mem _ hx)) ?_ (by simp)
      rcases hlone with h | h
      · rw [hpe, hc92] at h
        by_cases ht : t = []
        · exact Or.inr ⟨rfl, ht⟩
        · left
          simpa [lone_backslash, ht] using h
      · exact absurd h.2 (by simp)
    rw [if_neg k6]
    by_cases c1 : str_c = pat_c ∧ se = pe
    · rw [if_pos c1]
      have hpc0 : pat_c ≠ 0 := by
        intro h0
        obtain ⟨hpe, _⟩ := hp2 h0 k0
        have hse := hinv hpe
        rw [c1.2, hpe] at hse
        have h92 : str.headD 0 = 92 := by simpa using hse.symm
        have := hs2 h92
        omega
      obtain ⟨c, t, rfl⟩ := hp1 hpc0
      obtain ⟨d, s, rfl⟩ := hs1 (by rw [c1.1]; exact hpc0)
      obtain ⟨n1, n2⟩ := hnext c t rfl (hne92 k6 c t rfl)
      simp only [next_chars]
      exact ih t s false _ cs n1 n2 (by simp)
    · rw [if_neg c1]; simp
/-! ## Lemmas: `string_match`, escaped star and delimited run -/

/-- The characters of the literal parts of a pattern: non-zero bytes, no wildcard, no
backslash, no upper case letter. -/
theorem plain_char_key (c : Nat)
    (hc : (c ≠ 0 ∧ c < 256) ∧ c ≠ 42 ∧ c ≠ 43 ∧ c ≠ 63 ∧ c ≠ 92 ∧ isupper c = false) :
    toupper c ≠ 0 ∧ toupper c ≠ 42 ∧ toupper c ≠ 298 ∧ toupper c ≠ 43 ∧ toupper c ≠ 299 ∧
      toupper c ≠ 63 ∧ toupper c ≠ 92 := by
  obtain ⟨⟨h1, h2⟩, h3, h4, h5, h6, _⟩ := hc
  unfold toupper
  split_ifs <;> omega

theorem internal_string_match_plain_nil (fuel : Nat) (c : Nat) (p : List Nat)
    (hc : (c ≠ 0 ∧ c < 256) ∧ c ≠ 42 ∧ c ≠ 43 ∧ c ≠ 63 ∧ c ≠ 92 ∧ isupper c = false) :
    internal_string_match (fuel + 1) (c :: p) [] false false false = some false := by
  obtain ⟨v1, v2, v3, v4, v5, v6, v7⟩ := plain_char_key c hc
  rw [internal_string_match]
  simp only [Bool.false_eq_true, if_false, Nat.or_zero, pat_escaped_consts.1,
    pat_escaped_consts.2, List.headD_cons, v1, v2, v3, v4, v5, v6, v7, List.headD_nil,
    toupper_zero]
  simp [Ne.symm v1]

theorem internal_string_match_plain_cons (fuel : Nat) (c d : Nat) (p s : List Nat)
    (hc : (c ≠ 0 ∧ c < 256) ∧ c ≠ 42 ∧ c ≠ 43 ∧ c ≠ 63 ∧ c ≠ 92 ∧ isupper c = false)
    (hd : d ≠ 92) :
    internal_string_match (fuel + 1) (c :: p) (d :: s) false false false
      = if toupper d = toupper c then internal_string_match fuel p s false false false
        else some false := by
  obtain ⟨v1, v2, v3, v4, v5, v6, v7⟩ := plain_char_key c hc
  rw [internal_string_match]
  simp only [Bool.false_eq_true, if_false, Nat.or_zero, pat_escaped_consts.1,
    pat_escaped_consts.2, List.headD_cons, v1, v2, v3, v4, v5, v6, v7, and_true, next_chars,
    hd, decide_False]

/-- A pattern of literal characters matches the strings equal to it after `toupper`. -/
theorem internal_string_match_plain (b : List Nat) :
    ∀ (s : List Nat) (fuel : Nat),
      (∀ c ∈ b, (c ≠ 0 ∧ c < 256) ∧ c ≠ 42 ∧ c ≠ 43 ∧ c ≠ 63 ∧ c ≠ 92 ∧ isupper c = false) →
      (∀ c ∈ s, c ≠ 0 ∧ c ≠ 92) → b.length + s.length < fuel →
      internal_string_match fuel b s false false false
        = some (decide (b.map toupper = s.map toupper)) := by
  induction b with
  | nil =>
    intro s fuel _ hs hfuel
    obtain ⟨f, rfl⟩ : ∃ f, fuel = f + 1 := ⟨fuel - 1, by omega⟩
    rw [internal_string_match]
    simp only [Bool.false_eq_true, if_false, Nat.or_zero, List.headD_nil, toupper_zero, if_true]
    cases s with
    | nil => simp [toupper_zero]
    | cons d s =>
      have : toupper d ≠ 0 := fun e => (hs d (List.mem_cons_self _ _)).1 ((toupper_eq_zero d).mp e)
      simp [this]
  | cons c b ih =>
    intro s fuel hb hs hfuel
    obtain ⟨f, rfl⟩ : ∃ f, fuel = f + 1 := ⟨fuel - 1, by omega⟩
    have hc := hb c (List.mem_cons_self _ _)
    simp only [List.length_cons] at hfuel
    cases s with
    | nil =>
      rw [internal_string_match_plain_nil f c b hc]
      simp
    | cons d s =>
      simp only [List.length_cons] at hfuel
      rw [internal_string_match_plain_cons f c d b s hc (hs d (List.mem_cons_self _ _)).2,
        ih s f (fun x hx => hb x (List.mem_cons_of_mem _ hx))
          (fun x hx => hs x (List.mem_cons_of_mem _ hx)) (by omega)]
      by_cases e : toupper d = toupper c
      · simp [e]
      · have e2 : ¬ toupper c = toupper d := fun h => e h.symm
        simp [e, e2]

/-- An escaped star at the head of a pattern matches one star. -/
theorem internal_string_match_escaped_star (b s : List Nat) (fuel : Nat)
    (hb : ∀ c ∈ b, (c ≠ 0 ∧ c < 256) ∧ c ≠ 42 ∧ c ≠ 43 ∧ c ≠ 63 ∧ c ≠ 92 ∧ isupper c = false)
    (hs : ∀ c ∈ s, c ≠ 0 ∧ c ≠ 92) (hfuel : b.length + 2 + s.length < fuel) :
    internal_string_match fuel (92 :: 42 :: b) s false false false
      = some (decide ((42 :: b).map toupper = s.map toupper)) := by
  obtain ⟨f, rfl⟩ : ∃ f, fuel = f + 2 := ⟨fuel - 2, by omega⟩
  have h92 : toupper 92 = 92 := by decide
  have h42 : toupper 42 = 42 := by decide
  have hesc : decide (s.headD 0 = 92) = false := by
    cases s with
    | nil => simp
    | cons d rest =>
      have := (hs d (List.mem_cons_self _ _)).2
      simp [this]
  rw [internal_string_match]
  simp only [Bool.false_eq_true, if_false, Nat.or_zero, List.headD_cons, h92, List.tail_cons,
    hesc]
  simp only [show (92 : Nat) ≠ 0 by decide, show (92 : Nat) ≠ 42 by decide,
    show (92 : Nat) ≠ 42 ||| PAT_ESCAPED by decide, show (92 : Nat) ≠ 43 by decide,
    show (92 : Nat) ≠ 43 ||| PAT_ESCAPED by decide, show (92 : Nat) ≠ 63 by decide, if_false,
    if_true]
  rw [internal_string_match]
  simp only [Bool.false_eq_true, if_false, if_true, List.headD_cons, h42, List.tail_cons,
    hesc]
  simp only [show (42 ||| PAT_ESCAPED) ≠ 0 by decide, show (42 ||| PAT_ESCAPED) ≠ 42 by decide,
    if_false, if_true]
  cases s with
  | nil => simp [toupper_zero]
  | cons d s =>
    simp only [List.length_cons] at hfuel
    simp only [List.headD_cons, List.tail_cons, List.map_cons, h42, List.cons.injEq]
    rw [internal_string_match_plain b s f hb (fun x hx => hs x (List.mem_cons_of_mem _ hx))
      (by omega)]
    by_cases e : toupper d = 42
    · simp [e]
    · have e2 : ¬ 42 = toupper d := fun h => e h.symm
      simp [e, e2]

/-- Literal characters, an escaped star, literal characters. -/
theorem internal_string_match_escape (a : List Nat) :
    ∀ (b s : List Nat) (fuel : Nat),
      (∀ c ∈ a, (c ≠ 0 ∧ c < 256) ∧ c ≠ 42 ∧ c ≠ 43 ∧ c ≠ 63 ∧ c ≠ 92 ∧ isupper c = false) →
      (∀ c ∈ b, (c ≠ 0 ∧ c < 256) ∧ c ≠ 42 ∧ c ≠ 43 ∧ c ≠ 63 ∧ c ≠ 92 ∧ isupper c = false) →
      (∀ c ∈ s, c ≠ 0 ∧ c ≠ 92) → a.length + b.length + 2 + s.length < fuel →
      internal_string_match fuel (a ++ 92 :: 42 :: b) s false false false
        = some (decide ((a ++ 42 :: b).map toupper = s.map toupper)) := by
  induction a with
  | nil =>
    intro b s fuel _ hb hs hfuel
    simp only [List.length_nil, Nat.zero_add] at hfuel
    exact internal_string_match_escaped_star b s fuel hb hs hfuel
  | cons c a ih =>
    intro b s fuel ha hb hs hfuel
    obtain ⟨f, rfl⟩ : ∃ f, fuel = f + 1 := ⟨fuel - 1, by omega⟩
    have hc := ha c (List.mem_cons_self _ _)
    simp only [List.length_cons] at hfuel
    simp only [List.cons_append]
    cases s with
    | nil =>
      rw [internal_string_match_plain_nil f c _ hc]
      simp
    | cons d s =>
      simp only [List.length_cons] at hfuel
      rw [internal_string_match_plain_cons f c d _ s hc (hs d (List.mem_cons_self _ _)).2,
        ih b s f (fun x hx => ha x (List.mem_cons_of_mem _ hx)) hb
          (fun x hx => hs x (List.mem_cons_of_mem _ hx)) (by omega)]
      by_cases e : toupper d = toupper c
      · simp [e]
      · have e2 : ¬ toupper c = toupper d := fun h => e h.symm
        simp [e, e2]
theorem delimited_tail_cons (q prev h : Nat) (t : List Nat) :
    delimited_tail q (prev :: h :: t) ↔
      (t = [] ∧ h = q ∧ prev ≠ 92) ∨
      (t ≠ [] ∧ (h = q → prev = 92) ∧ delimited_tail q (h :: t)) := by
  cases t with
  | nil =>
    unfold delimited_tail
    simp only [List.length_cons, List.length_nil, true_and, false_and, or_false, ne_eq,
      not_true_eq_false, and_true]
    constructor
    · rintro ⟨_, h2, h3, _⟩
      simp at h2 h3
      exact ⟨h2, h3⟩
    · rintro ⟨h2, h3⟩
      refine ⟨by omega, by simp [h2], by simpa using h3, ?_⟩
      intro i _ h0 h1
      omega
  | cons u t =>
    unfold delimited_tail
    simp only [List.length_cons, reduceCtorEq, false_and, false_or, ne_eq, not_false_eq_true,
      true_and]
    constructor
    · rintro ⟨_, h2, h3, h4⟩
      refine ⟨?_, by omega, ?_, ?_, ?_⟩
      · intro e
        have := h4 1 (by omega) (by omega) (by omega) (by simp [e])
        simpa using this
      · simpa using h2
      · have e1 : t.length + 1 + 1 + 1 - 2 = t.length + 1 := by omega
        have e2 : t.length + 1 + 1 - 2 = t.length := by omega
        rw [e1, List.getElem?_cons_succ] at h3
        rw [e2]
        exact h3
      · intro i hi h0 h1 hq
        have := h4 (i + 1) (by omega) (by omega) (by omega) (by simpa using hq)
        obtain ⟨j, rfl⟩ : ∃ j, i = j + 1 := ⟨i - 1, by omega⟩
        simpa using this
    · rintro ⟨h1, _, h2, h3, h4⟩
      refine ⟨by omega, by simpa using h2, ?_, ?_⟩
      · have e1 : t.length + 1 + 1 + 1 - 2 = t.length + 1 := by omega
        have e2 : t.length + 1 + 1 - 2 = t.length := by omega
        rw [e2] at h3
        rw [e1, List.getElem?_cons_succ]
        exact h3
      · intro i hi h0 hi1 hq
        obtain ⟨j, rfl⟩ : ∃ j, i = j + 1 := ⟨i - 1, by omega⟩
        cases j with
        | zero =>
          simp at hq
          simp [h1 hq]
        | succ j =>
          have := h4 (j + 1) (by omega) (by omega) (by omega) (by simpa using hq)
          simpa using this

theorem delimited_tail_single (q prev : Nat) : ¬ delimited_tail q [prev] := by
  unfold delimited_tail
  simp

/-- The pattern `+q` against the rest of a string whose previous character is `prev`. -/
theorem internal_string_match_plus (q : Nat) (hq : q = 34 ∨ q = 39) (rest : List Nat) :
    ∀ (prev fuel : Nat), (∀ c ∈ rest, c ≠ 0) → rest.length + 3 ≤ fuel →
      internal_string_match fuel [43, q] rest false (decide (prev = 92)) false
        = some (decide (delimited_tail q (prev :: rest))) := by
  have hq0 : toupper q = q := by rcases hq with rfl | rfl <;> decide
  have hqk : q ≠ 0 ∧ q ≠ 42 ∧ q ≠ 42 ||| PAT_ESCAPED ∧ q ≠ 43 ∧ q ≠ 43 ||| PAT_ESCAPED ∧
      q ≠ 63 ∧ q ≠ 92 := by
    rcases hq with rfl | rfl <;> decide
  obtain ⟨q1, q2, q3, q4, q5, q6, q7⟩ := hqk
  have hqs : q < 65 := by rcases hq with rfl | rfl <;> decide
  have h43 : toupper 43 = 43 := by decide
  induction rest with
  | nil =>
    intro prev fuel _ hfuel
    obtain ⟨f, rfl⟩ : ∃ f, fuel = f + 2 := ⟨fuel - 2, by omega⟩
    rw [internal_string_match]
    simp only [Bool.false_eq_true, if_false, Nat.or_zero, List.headD_cons, h43, List.tail_cons,
      List.headD_nil, toupper_zero]
    simp only [show (43 : Nat) ≠ 0 by decide, show (43 : Nat) ≠ 42 by decide,
      show (43 : Nat) ≠ 42 ||| PAT_ESCAPED by decide, if_false, if_true]
    rw [internal_string_match]
    simp only [Bool.false_eq_true, if_false, Nat.or_zero, List.headD_cons, hq0, List.headD_nil,
      toupper_zero, q1, q2, q3, q4, q5, q6, q7, Ne.symm q1, false_and]
    simp [delimited_tail_single]
  | cons h t ih =>
    intro prev fuel hnz hfuel
    obtain ⟨f, rfl⟩ : ∃ f, fuel = f + 3 := ⟨fuel - 3, by omega⟩
    simp only [List.length_cons] at hfuel
    have hh := hnz h (List.mem_cons_self _ _)
    have hh0 : toupper h ≠ 0 := fun e => hh ((toupper_eq_zero h).mp e)
    have hhq : toupper h = q ↔ h = q := toupper_eq_special h q (Or.inl hqs)
    have ht0 : toupper (t.headD 0) = 0 ↔ t = [] := by
      cases t with
      | nil => simp [toupper_zero]
      | cons u t =>
        have := hnz u (by simp)
        simp [toupper_eq_zero, this]
    rw [internal_string_match]
    simp only [Bool.false_eq_true, if_false, Nat.or_zero, List.headD_cons, h43, List.tail_cons]
    simp only [show (43 : Nat) ≠ 0 by decide, show (43 : Nat) ≠ 42 by decide,
      show (43 : Nat) ≠ 42 ||| PAT_ESCAPED by decide, if_false, if_true]
    have hrec1 : internal_string_match (f + 2) [q] (h :: t) false (decide (prev = 92)) false
        = some (decide (h = q ∧ prev ≠ 92 ∧ t = [])) := by
      rw [internal_string_match]
      simp only [Bool.false_eq_true, if_false, Nat.or_zero, List.headD_cons, hq0,
        q1, q2, q3, q4, q5, q6, q7, next_chars, hhq, decide_eq_false_iff_not]
      by_cases c1 : h = q ∧ ¬ prev = 92
      · rw [if_pos c1, internal_string_match]
        simp only [Bool.false_eq_true, if_false, Nat.or_zero, List.headD_nil, toupper_zero,
          if_true, ht0]
        simp [c1.1, c1.2]
      · rw [if_neg c1]
        have : ¬ (h = q ∧ prev ≠ 92 ∧ t = []) := fun hh => c1 ⟨hh.1, hh.2.1⟩
        simp only [this, decide_False]
    have hdt : decide (delimited_tail q (prev :: h :: t))
        = decide ((t = [] ∧ h = q ∧ prev ≠ 92) ∨
            (t ≠ [] ∧ (h = q → prev = 92) ∧ delimited_tail q (h :: t))) :=
      decide_eq_decide.mpr (delimited_tail_cons q prev h t)
    rw [hrec1, hdt]
    by_cases c1 : h = q ∧ prev ≠ 92 ∧ t = []
    · simp [c1.1, c1.2.1, c1.2.2]
    · simp only [c1, decide_False]
      simp only [hh0, ne_eq, not_false_eq_true, true_and, decide_eq_true_eq]
      by_cases c2 : ¬ q = toupper h ∨ prev = 92
      · rw [if_pos c2, ih h (f + 2) (fun x hx => hnz x (List.mem_cons_of_mem _ hx)) (by omega)]
        have himp : h = q → prev = 92 := by
          intro e
          rcases c2 with c | c
          · exact absurd (hhq.mpr e).symm c
          · exact c
        congr 1
        apply decide_eq_decide.mpr
        constructor
        · intro hd
          by_cases ht : t = []
          · subst ht; exact absurd hd (delimited_tail_single q h)
          · exact Or.inr ⟨ht, himp, hd⟩
        · rintro (⟨a1, a2, a3⟩ | ⟨_, _, a3⟩)
          · exact absurd ⟨a2, a3, a1⟩ c1
          · exact a3
      · rw [if_neg c2]
        have hq2 : h = q := by
          by_contra e
          exact c2 (Or.inl (fun e2 => e (hhq.mp e2.symm)))
        have hp2 : prev ≠ 92 := fun e => c2 (Or.inr e)
        congr 1
        symm
        apply decide_eq_false
        rintro (⟨a1, a2, a3⟩ | ⟨_, a2, _⟩)
        · exact c1 ⟨a2, a3, a1⟩
        · exact hp2 (a2 hq2)

/-- The pattern `q+q` for a quote character `q`. -/
theorem internal_string_match_quoted (q : Nat) (hq : q = 34 ∨ q = 39) (s : List Nat)
    (fuel : Nat) (hs : ∀ c ∈ s, c ≠ 0) (hfuel : s.length + 3 ≤ fuel) :
    internal_string_match fuel [q, 43, q] s false false false
      = some (decide (delimited_run q s)) := by
  have hq0 : toupper q = q := by rcases hq with rfl | rfl <;> decide
  have hqk : q ≠ 0 ∧ q ≠ 42 ∧ q ≠ 42 ||| PAT_ESCAPED ∧ q ≠ 43 ∧ q ≠ 43 ||| PAT_ESCAPED ∧
      q ≠ 63 ∧ q ≠ 92 := by
    rcases hq with rfl | rfl <;> decide
  obtain ⟨q1, q2, q3, q4, q5, q6, q7⟩ := hqk
  have hqs : q < 65 := by rcases hq with rfl | rfl <;> decide
  obtain ⟨f, rfl⟩ : ∃ f, fuel = f + 1 := ⟨fuel - 1, by omega⟩
  rw [internal_string_match]
  simp only [Bool.false_eq_true, if_false, Nat.or_zero, List.headD_cons, hq0,
    q1, q2, q3, q4, q5, q6, q7, and_true]
  cases s with
  | nil =>
    simp only [List.headD_nil, toupper_zero, Ne.symm q1, if_false]
    simp [delimited_run]
  | cons d rest =>
    simp only [List.length_cons] at hfuel
    have hdq : toupper d = q ↔ d = q := toupper_eq_special d q (Or.inl hqs)
    simp only [List.headD_cons, hdq, next_chars]
    by_cases e : d = q
    · subst e
      rw [if_pos rfl, internal_string_match_plus d hq rest d f
        (fun x hx => hs x (List.mem_cons_of_mem _ hx)) (by omega)]
      simp [delimited_run]
    · rw [if_neg e]
      simp [delimited_run, e]

set_option maxRecDepth 100000 in
/-- The pattern `c+c` against the string `ccc`, for every ASCII character. -/
theorem string_match_plus_table : ∀ c ∈ List.range 128, 1 ≤ c → c ≠ 42 → c ≠ 43 → c ≠ 63 →
    c ≠ 92 → string_match 6 [c, 43, c] [c, c, c] = some (decide (97 ≤ c ∧ c ≤ 122)) := by
  decide
/-! ## Lemmas: `list_to_array` -/

section ToArray
variable {D : Type}

/-- The count of a list of which `k` cells are neither linked nor free. -/
theorem list_count_leak {l : list D} {ns fl : List Nat} (k : Nat) (h : ListInv l ns fl)
    (hc : l.pool.capacity = ns.length + fl.length + k) :
    list_count l = ((ns.length + k : Nat) : Int) := by
  simp only [list_count, pool_capacity, pool_freeable, h.2.2.2.2, hc]
  push_cast
  omega

/-- The loop of `list_to_array`: every element is shifted into the buffer, from the index
`buf` on.  When cells of the pool are neither linked nor free, the loop calls `list_shift`
once more, on the empty list. -/
theorem list_to_array_loop_spec (ns : List Nat) :
    ∀ (l : list D) (fl : List Nat) (xs : List D) (array : List (Option D)) (buf fuel k : Nat),
      ListHolds l ns fl xs → l.pool.capacity = ns.length + fl.length + k →
      buf + xs.length ≤ array.length → xs.length < fuel →
      ∃ l2 array2, list_to_array_loop fuel l array buf = some (l2, array2) ∧
        ListHolds l2 [] (ns.reverse ++ fl) [] ∧ l.same_frame l2 ∧
        array2.length = array.length ∧
        ∀ i, array2[i]? = if buf ≤ i ∧ i < buf + xs.length then (xs[i - buf]?).map some
          else array[i]? := by
  induction ns with
  | nil =>
    intro l fl xs array buf fuel k h _ _ hfuel
    have hx : xs = [] := by rw [← h.2]; rfl
    subst hx
    obtain ⟨f, rfl⟩ : ∃ f, fuel = f + 1 := ⟨fuel - 1, by omega⟩
    refine ⟨l, array, ?_, by simpa using h, list.same_frame_refl l, rfl, ?_⟩
    · rw [list_to_array_loop]
      simp [list_shift_empty l fl h.1]
    · intro i
      have : ¬ (buf ≤ i ∧ i < buf + ([] : List D).length) := by
        simp only [List.length_nil]
        omega
      rw [if_neg this]
  | cons a post ih =>
    intro l fl xs array buf fuel k h hcap hbuf hfuel
    obtain ⟨hinv, hxs⟩ := h
    obtain ⟨l1, s1, s2, s3, s4, s5⟩ := list_shift_first l post fl a hinv
    cases xs with
    | nil => simp at hxs
    | cons d xs2 =>
      simp only [List.length_cons] at hbuf hfuel hcap
      simp only [List.map_cons, List.cons.injEq] at hxs
      obtain ⟨f, rfl⟩ : ∃ f, fuel = f + 1 := ⟨fuel - 1, by omega⟩
      have hd : l.data a = d := hxs.1
      have hlt : buf < array.length := by omega
      have hlen : xs2.length = post.length := by rw [← hxs.2]; simp
      have hcap1 : l1.pool.capacity = post.length + (a :: fl).length + k := by
        rw [s4.2.1, hcap]
        simp only [List.length_cons]
        omega
      have hcount : list_count l1 = ((post.length + k : Nat) : Int) :=
        list_count_leak k s2 hcap1
      have hh1 : ListHolds l1 post (a :: fl) xs2 := ⟨s2, by rw [s3]; exact hxs.2⟩
      rw [list_to_array_loop]
      simp only [s1, hlt, if_true]
      by_cases hgt : list_count l1 > 0
      · rw [if_pos hgt]
        obtain ⟨l2, array2, g1, g2, g3, g4, g5⟩ := ih l1 (a :: fl) xs2
          (array.set buf (some (l.data a))) (buf + 1) f k hh1 hcap1
          (by simp only [List.length_set]; omega) (by omega)
        refine ⟨l2, array2, g1, ?_, list.same_frame_trans s4 g3, by rw [g4, List.length_set],
          ?_⟩
        · simpa using g2
        · intro i
          simp only [List.length_cons]
          rw [g5 i, List.getElem?_set]
          by_cases e : buf = i
          · subst e
            have : ¬ (buf + 1 ≤ buf ∧ buf < buf + 1 + xs2.length) := by omega
            simp [this, hlt, hd]
          · by_cases c : buf + 1 ≤ i ∧ i < buf + 1 + xs2.length
            · have c2 : buf ≤ i ∧ i < buf + (xs2.length + 1) := by omega
              obtain ⟨j, rfl⟩ : ∃ j, i = buf + 1 + j := ⟨i - (buf + 1), by omega⟩
              have e1 : buf + 1 + j - (buf + 1) = j := by omega
              have e2 : buf + 1 + j - buf = j + 1 := by omega
              simp only [c, c2, and_self, if_true, e1, e2, List.getElem?_cons_succ]
            · have c2 : ¬ (buf ≤ i ∧ i < buf + (xs2.length + 1)) := by omega
              simp [c, c2, e]
      · rw [if_neg hgt]
        rw [hcount] at hgt
        have hp0 : post.length = 0 := by omega
        have hpost : post = [] := List.length_eq_zero.mp hp0
        subst hpost
        have hx2 : xs2 = [] := List.length_eq_zero.mp (by rw [hlen]; rfl)
        subst hx2
        refine ⟨l1, _, rfl, by simpa using hh1, s4, by simp, ?_⟩
        intro i
        rw [List.getElem?_set]
        by_cases e : buf = i
        · subst e
          simp [hlt, hd]
        · have : ¬ (buf ≤ i ∧ i < buf + 1) := by omega
          simp [e, this]

/-- The function `list_to_array` on a list holding `xs` of which `k` cells are neither
linked nor free: `*count` is the count of the list, `xs.length + k`, and the last `k`
elements of the array are not written. -/
theorem list_to_array_spec (l : list D) (ns fl : List Nat) (xs : List D) (fuel k : Nat)
    (h : ListHolds l ns fl xs) (hcap : l.pool.capacity = ns.length + fl.length + k)
    (hfuel : xs.length < fuel) :
    ∃ l2, list_to_array fuel l
        = some (l2, 0, xs.map some ++ List.replicate k none, ((xs.length + k : Nat) : Int)) ∧
      ListHolds l2 [] (ns.reverse ++ fl) [] ∧ l.same_frame l2 := by
  have hlen : xs.length = ns.length := by rw [← h.2]; simp
  have hcount : list_count l = ((xs.length + k : Nat) : Int) := by
    rw [hlen]; exact list_count_leak k h.1 hcap
  unfold list_to_array
  simp only [hcount, Int.toNat_ofNat]
  rw [if_neg (by omega)]
  obtain ⟨l2, array2, g1, g2, g3, g4, g5⟩ := list_to_array_loop_spec ns l fl xs
    (List.replicate (xs.length + k) none) 0 fuel k h hcap (by simp) hfuel
  refine ⟨l2, ?_, g2, g3⟩
  rw [g1]
  have : array2 = xs.map some ++ List.replicate k none := by
    apply List.ext_getElem?
    intro i
    rw [g5 i]
    by_cases c : i < xs.length
    · simp [c, List.getElem?_append_left]
    · have c2 : xs.length ≤ i := by omega
      rw [if_neg (by omega), List.getElem?_append_right (by simpa using c2)]
      simp only [List.length_map]
      by_cases c3 : i < xs.length + k
      · rw [List.getElem?_replicate, List.getElem?_replicate, if_pos c3, if_pos (by omega)]
      · rw [List.getElem?_replicate, List.getElem?_replicate, if_neg c3, if_neg (by omega)]
  rw [this]

end ToArray
/-! ## Lemmas: the cells of a list -/

section ListLiveLemmas
variable {D : Type}

theorem ListLive_of_frame {l l2 : list D} {ns fl ns2 fl2 : List Nat} (h : ListLive l ns fl)
    (hinv : ListInv l2 ns2 fl2) (hfr : l.same_frame l2)
    (hsub : ∀ x, x ∈ ns2 ++ fl2 → x ∈ ns ++ fl) :
    ListLive l2 ns2 fl2 := by
  refine ⟨hinv, ?_⟩
  rw [hfr.2.2.1, hfr.2.2.2, hfr.2.1]
  exact fun x hx => h.2 x (hsub x hx)

/-- A list right after `list_init`. -/
theorem ListLive_init (mem : Nat) (zero : D) (data_bytes capacity : Nat) (l : list D)
    (h : list_init mem zero data_bytes capacity = Except.ok l) :
    ListLive l []
      (pool_cells mem ((sizeof_list_node + data_bytes) % 2 ^ 64) capacity).reverse := by
  obtain ⟨_, _, h1, h2, _, h4, h5⟩ := list_init_ok_inv mem zero data_bytes capacity l h
  refine ⟨h1, ?_⟩
  rw [h4, h5, h2]
  intro x hx
  simpa using hx

/-- A null terminated segment visits no address twice. -/
theorem Seg_none_nodup (nx : Nat → Ptr) (xs : List Nat) :
    ∀ p, Seg nx p xs none → xs.Nodup := by
  induction xs with
  | nil => intro _ _; exact List.nodup_nil
  | cons a t ih =>
    intro p h
    rw [List.nodup_cons]
    refine ⟨?_, ih _ h.2⟩
    intro ha
    obtain ⟨pre, post, hx⟩ := List.append_of_mem ha
    have h2 := h.2
    rw [hx] at h2
    have h3 := (Seg_mid nx pre post a (nx a) none h2).2
    have h4 := Seg_unique nx post (pre ++ a :: post) (nx a) h3 h2
    have h5 := congrArg List.length h4
    simp at h5
    omega

/-- The invariant gives the doubly-linked well-formedness of the specification. -/
theorem ListLive_wellformed {l : list D} {ns fl : List Nat} (h : ListLive l ns fl) :
    list_wellformed l ns fl := by
  obtain ⟨hinv, hsub⟩ := h
  have hnd := List.nodup_append.mp hinv.2.2.2.1
  have hlast := ListInv_last hinv
  have hroot : l.root = ns.head? := Seg_head _ _ _ hinv.1
  refine ⟨?_, ?_, ?_, ⟨hinv.1, hnd.1, hlast⟩, ?_, hinv.2.2.1, ?_⟩
  · intro x hx
    apply Seg_getLast_none l.pool.link l.last ns.reverse x hinv.2.1
    rw [List.getLast?_reverse, ← hroot, hx]
  · intro t ht
    exact Seg_getLast_none l.next l.root ns t hinv.1 (by rw [← hlast, ht])
  · intro x hx y hy
    obtain ⟨pre, post, rfl⟩ := List.append_of_mem hx
    have hn := ListInv_next_mid hinv
    rw [hy] at hn
    cases post with
    | nil => simp at hn
    | cons z post =>
      simp only [List.head?_cons, Option.some.injEq] at hn
      subst hn
      have hinv2 : ListInv l ((pre ++ [x]) ++ y :: post) fl := by
        simpa using hinv
      have := ListInv_prev_mid hinv2
      simpa [list.prev] using this
  · constructor
    · intro e
      subst e
      exact ListInv_root_nil hinv
    · intro e
      have h1 := hinv.1
      rw [e.1] at h1
      exact Seg_none_nil _ _ h1
  · intro x hx
    exact ⟨hsub x (List.mem_append_left _ hx), fun hf => hnd.2.2 hx hf⟩

/-- The invariant describes the free list of the pool. -/
theorem ListLive_poolfree {l : list D} {ns fl : List Nat} (h : ListLive l ns fl) :
    PoolFree l.pool fl :=
  ⟨h.1.2.2.1, h.1.2.2.2.2, fun x hx => h.2 x (List.mem_append_right _ hx)⟩

/-- In a well-formed list, following `prev` from a linked node visits the nodes before it,
last to first. -/
theorem wellformed_back (l : list D) (ns : List Nat)
    (h1 : ∀ h, l.root = some h → l.prev h = none)
    (h3 : ∀ x ∈ ns, ∀ y, l.next x = some y → l.prev y = some x)
    (hseg : Seg l.next l.root ns none) (pre : List Nat) :
    ∀ (a : Nat) (post : List Nat), ns = pre ++ a :: post →
      Seg l.pool.link (some a) (a :: pre.reverse) none := by
  induction pre using List.reverseRecOn with
  | nil =>
    intro a post hns
    rw [hns] at hseg
    have hr : l.root = some a := hseg.1
    exact ⟨rfl, h1 a hr⟩
  | append_singleton pre2 b ih =>
    intro a post hns
    have hns2 : ns = pre2 ++ b :: (a :: post) := by
      rw [hns]; simp
    have hb := ih b (a :: post) hns2
    have hnext : l.next b = some a := by
      rw [hns2] at hseg
      simpa using Seg_next_of_mid l.next pre2 (a :: post) b l.root hseg
    have hprev : l.prev a = some b := h3 b (by rw [hns2]; simp) a hnext
    rw [List.reverse_append, List.reverse_singleton, List.singleton_append]
    refine ⟨rfl, ?_⟩
    have hl : l.pool.link a = some b := hprev
    rw [hl]
    exact hb

/-- A well-formed list over a pool whose free list is `fl` has the invariant. -/
theorem wellformed_ListLive {l : list D} {ns fl : List Nat} (h : list_wellformed l ns fl)
    (hp : PoolFree l.pool fl) : ListLive l ns fl := by
  obtain ⟨h1, _, h3, ⟨hseg, hnd, hlast⟩, _, ⟨_, hcell⟩⟩ := h
  refine ⟨⟨hseg, ?_, hp.1, ?_, hp.2.1⟩, ?_⟩
  · rcases List.eq_nil_or_concat ns with hx | ⟨pre, a, hx⟩
    · subst hx
      simpa using hlast
    · rw [List.concat_eq_append] at hx
      have hb := wellformed_back l ns h1 h3 hseg pre a [] hx
      subst hx
      rw [hlast]
      simpa using hb
  · rw [List.nodup_append]
    exact ⟨hnd, Seg_none_nodup _ _ _ hp.1, fun x hx hf => (hcell x hx).2 hf⟩
  · intro x hx
    rcases List.mem_append.mp hx with hx | hx
    · exact (hcell x hx).1
    · exact hp.2.2 x hx

/-- Every call of `list_insert` that returns keeps the invariant: an insertion, a failure
for want of a cell, and a failure with `ERANGE`, which keeps a cell. -/
theorem ListLive_insert (l : list D) (ns fl : List Nat) (index : Int) (d : D) (l2 : list D)
    (r : Ptr) (e : Option Errno) (h : ListLive l ns fl)
    (hc : list_insert l index d = some (l2, r, e)) :
    ∃ ns2 fl2, ListLive l2 ns2 fl2 := by
  cases fl with
  | nil =>
    rw [list_insert_full l ns d index h.1] at hc
    simp only [Option.some.injEq, Prod.mk.injEq] at hc
    rw [← hc.1]
    exact ⟨_, _, h⟩
  | cons c t =>
    by_cases hneg : index < 0
    · obtain ⟨l3, g1, g2, _, g4⟩ := list_insert_neg l ns t c d index h.1 hneg
      rw [g1] at hc
      simp only [Option.some.injEq, Prod.mk.injEq] at hc
      rw [← hc.1]
      refine ⟨_, _, ListLive_of_frame h g2 g4 ?_⟩
      intro x hx
      simp only [List.mem_append, List.mem_cons, List.mem_singleton, List.not_mem_nil,
        or_false] at hx ⊢
      tauto
    · by_cases hbig : (ns.length : Int) < index
      · obtain ⟨l3, g1, g2, _, g4⟩ := list_insert_range l ns t c d index h.1 hbig
        rw [g1] at hc
        simp only [Option.some.injEq, Prod.mk.injEq] at hc
        rw [← hc.1]
        refine ⟨_, _, ListLive_of_frame h g2 g4 ?_⟩
        intro x hx
        simp only [List.mem_append, List.mem_cons] at hx ⊢
        tauto
      · have hsplit : ns = ns.take index.toNat ++ ns.drop index.toNat :=
          (List.take_append_drop _ _).symm
        have hinv : ListInv l (ns.take index.toNat ++ ns.drop index.toNat) (c :: t) := by
          rw [← hsplit]; exact h.1
        obtain ⟨l3, g1, g2, _, g4⟩ := list_insert_at l (ns.take index.toNat)
          (ns.drop index.toNat) t c d index hinv (by
            rw [List.length_take]
            omega)
        rw [g1] at hc
        simp only [Option.some.injEq, Prod.mk.injEq] at hc
        rw [← hc.1]
        refine ⟨_, _, ListLive_of_frame h g2 g4 ?_⟩
        intro x hx
        have hmem : x ∈ ns.take index.toNat ∨ x ∈ ns.drop index.toNat → x ∈ ns := by
          intro hx2
          rw [hsplit]
          exact List.mem_append.mpr hx2
        simp only [List.mem_append, List.mem_cons] at hx ⊢
        tauto

/-- Every call of `list_pop` keeps the invariant. -/
theorem ListLive_pop (l : list D) (ns fl : List Nat) (h : ListLive l ns fl) :
    ∃ ns2 fl2, ListLive (list_pop l).1 ns2 fl2 := by
  rcases List.eq_nil_or_concat ns with hx | ⟨pre, a, hx⟩
  · subst hx
    rw [list_pop_empty l fl h.1]
    exact ⟨_, _, h⟩
  · rw [List.concat_eq_append] at hx
    subst hx
    obtain ⟨l3, g1, g2, _, g4, _⟩ := list_pop_last l pre fl a h.1
    rw [g1]
    refine ⟨_, _, ListLive_of_frame h g2 g4 ?_⟩
    intro x hx
    simp only [List.mem_append, List.mem_cons, List.mem_singleton, List.not_mem_nil,
      or_false] at hx ⊢
    tauto

/-- Every call of `list_shift` keeps the invariant. -/
theorem ListLive_shift (l : list D) (ns fl : List Nat) (h : ListLive l ns fl) :
    ∃ ns2 fl2, ListLive (list_shift l).1 ns2 fl2 := by
  cases ns with
  | nil =>
    rw [list_shift_empty l fl h.1]
    exact ⟨_, _, h⟩
  | cons a post =>
    obtain ⟨l3, g1, g2, _, g4, _⟩ := list_shift_first l post fl a h.1
    rw [g1]
    refine ⟨_, _, ListLive_of_frame h g2 g4 ?_⟩
    intro x hx
    simp only [List.mem_append, List.mem_cons] at hx ⊢
    tauto

/-- A call of `list_remove` with the end marker or an iterator on a linked node keeps the
invariant. -/
theorem ListLive_remove (l : list D) (ns fl : List Nat) (it : ITER) (l2 : list D)
    (r : Int) (e : Option Errno) (h : ListLive l ns fl)
    (hit : it.object = none ∨ ∃ a, a ∈ ns ∧ it.object = some (iter_object.addr a))
    (hc : list_remove l it = some (l2, r, e)) :
    ∃ ns2 fl2, ListLive l2 ns2 fl2 := by
  rcases hit with hit | ⟨a, ha, hit⟩
  · have hr : list_remove l it = some (l, -1, some Errno.EINVAL) := by
      simp [list_remove, iter_is_end, hit]
    rw [hr] at hc
    simp only [Option.some.injEq, Prod.mk.injEq] at hc
    rw [← hc.1]
    exact ⟨_, _, h⟩
  · obtain ⟨pre, post, rfl⟩ := List.append_of_mem ha
    obtain ⟨l3, g1, g2, _, g4, _⟩ := list_remove_node l pre post fl a it h.1 hit
    rw [g1] at hc
    simp only [Option.some.injEq, Prod.mk.injEq] at hc
    rw [← hc.1]
    refine ⟨_, _, ListLive_of_frame h g2 g4 ?_⟩
    intro x hx
    simp only [List.mem_append, List.mem_cons] at hx ⊢
    tauto

theorem ListLive_clear (l : list D) :
    ListLive (list_clear l).1 []
      (pool_cells l.pool.mem l.pool.data_bytes l.pool.capacity).reverse := by
  obtain ⟨_, h2, h3, h4, _⟩ := setup_spec l.pool l.pool.mem l.pool.data_bytes l.pool.capacity
  refine ⟨(list_clear_wf l).1.1, ?_⟩
  simp only [list_clear, pool_clear, List.nil_append]
  rw [h2, h3, h4]
  intro x hx
  simpa using hx

theorem iter_next_n_null (k : Nat) : iter_next_n k NULL_ITER = some NULL_ITER := by
  induction k with
  | zero => rfl
  | succ k ih =>
    simp only [iter_next_n]
    exact ih

/-- Whatever the number of steps, `iter_next` from a node of a null terminated chain leads
to a node of the chain or to the end marker. -/
theorem iter_next_n_list_any (l : list D) (ns : List Nat) (k : Nat) :
    ∀ p, Seg l.next p ns none →
      iter_next_n k (list_iter_at l p) = some (list_iter_at l (ns.get? k)) := by
  induction k generalizing ns with
  | zero =>
    intro p h
    cases ns with
    | nil => simp only [Seg] at h; subst h; rfl
    | cons a t => rw [h.1]; rfl
  | succ k ih =>
    intro p h
    cases ns with
    | nil =>
      simp only [Seg] at h
      subst h
      exact iter_next_n_null (k + 1)
    | cons a t =>
      rw [h.1]
      simp only [iter_next_n, iter_next_list_iter_at]
      rw [ih t (l.next a) h.2]
      rfl

/-- The iterators a client gets on a list are the end marker and the iterators on its
linked nodes. -/
theorem list_iter_object (l : list D) (ns fl : List Nat) (k : Nat) (it : ITER)
    (h : ListInv l ns fl) (hk : iter_next_n k (list_iter l).1 = some it) :
    it.object = none ∨ ∃ a, a ∈ ns ∧ it.object = some (iter_object.addr a) := by
  rw [list_iter_eq, iter_next_n_list_any l ns k l.root h.1] at hk
  have hit := (Option.some.inj hk).symm
  subst hit
  cases hg : ns.get? k with
  | none => exact Or.inl rfl
  | some a => exact Or.inr ⟨a, List.get?_mem hg, rfl⟩

/-- Every state a client can bring a list to has the invariant. -/
theorem ListReach_live (mem : Nat) (zero : D) (data_bytes capacity : Nat) (l : list D)
    (h : ListReach mem zero data_bytes capacity l) : ∃ ns fl, ListLive l ns fl := by
  induction h with
  | init l h0 => exact ⟨_, _, ListLive_init mem zero data_bytes capacity l h0⟩
  | insert l l2 index d r e _ hc ih =>
    obtain ⟨ns, fl, hl⟩ := ih
    exact ListLive_insert l ns fl index d l2 r e hl hc
  | pop l _ ih =>
    obtain ⟨ns, fl, hl⟩ := ih
    exact ListLive_pop l ns fl hl
  | shift l _ ih =>
    obtain ⟨ns, fl, hl⟩ := ih
    exact ListLive_shift l ns fl hl
  | remove l l2 k it r e _ hk hc ih =>
    obtain ⟨ns, fl, hl⟩ := ih
    exact ListLive_remove l ns fl it l2 r e hl (list_iter_object l ns fl k it hl.1 hk) hc
  | clear l _ _ => exact ⟨_, _, ListLive_clear l⟩

/-- The count of a list in terms of its free list. -/
theorem ListLive_count {l : list D} {ns fl : List Nat} (h : ListLive l ns fl) :
    list_count l = (l.pool.capacity : Int) - (fl.length : Int) := by
  simp only [list_count, pool_capacity, pool_freeable, h.1.2.2.2.2]

theorem ListLive_length_le {l : list D} {ns fl : List Nat} (h : ListLive l ns fl) :
    ns.length + fl.length ≤ l.pool.capacity := by
  have h1 := (List.Nodup.subperm h.1.2.2.2.1 (fun x hx => h.2 x hx)).length_le
  rw [pool_cells_length, List.length_append] at h1
  exact h1

/-- The count of a list is the number of its elements plus the number of the cells that
are neither linked nor free. -/
theorem ListLive_count_ge {l : list D} {ns fl : List Nat} (h : ListLive l ns fl) :
    ∃ k : Nat, list_count l = ((ns.length + k : Nat) : Int) ∧
      l.pool.capacity = ns.length + fl.length + k := by
  have h1 := ListLive_length_le h
  refine ⟨l.pool.capacity - (ns.length + fl.length), ?_, by omega⟩
  rw [ListLive_count h]
  push_cast
  omega

/-- The count of a list that `list_init` returned is 0. -/
theorem list_init_count (mem : Nat) (zero : D) (data_bytes capacity : Nat) (l : list D)
    (h : list_init mem zero data_bytes capacity = Except.ok l) : list_count l = 0 := by
  obtain ⟨_, _, _, h2, _⟩ := list_init_ok_inv mem zero data_bytes capacity l h
  rw [ListLive_count (ListLive_init mem zero data_bytes capacity l h), h2]
  simp [pool_cells_length]

/-- `list_push` on a list with a free cell. -/
theorem ListLive_push (l : list D) (ns t : List Nat) (a : Nat) (xs : List D) (d : D)
    (h : ListLive l ns (a :: t)) (hx : ns.map l.data = xs) :
    ∃ l2, list_push l d = some (l2, some a, none) ∧ ListLive l2 (ns ++ [a]) t ∧
      (ns ++ [a]).map l2.data = xs ++ [d] ∧ list_count l2 = list_count l + 1 := by
  obtain ⟨l2, g1, g2, g3, g4⟩ := list_insert_neg l ns t a d (-1) h.1 (by decide)
  have hl2 : ListLive l2 (ns ++ [a]) t := ListLive_of_frame h g2 g4 (by
    intro x hx
    simp only [List.mem_append, List.mem_cons, List.mem_singleton, List.not_mem_nil,
      or_false] at hx ⊢
    tauto)
  refine ⟨l2, g1, hl2, ?_, ?_⟩
  · have han := ListInv_not_mem_of_free h.1
    rw [g3, List.map_append, List.map_cons, List.map_nil, Function.update_same,
      map_update_of_not_mem _ _ _ _ han, hx]
  · rw [ListLive_count hl2, ListLive_count h, g4.2.1]
    simp only [List.length_cons]
    push_cast
    omega

/-- `list_insert` behind the end of a list with a free cell: the call fails with `ERANGE`
and the cell it took from the pool is neither linked nor free afterwards. -/
theorem ListLive_range (l : list D) (ns t : List Nat) (a : Nat) (xs : List D) (d : D)
    (index : Int) (h : ListLive l ns (a :: t)) (hx : ns.map l.data = xs)
    (hidx : (ns.length : Int) < index) :
    ∃ l2, list_insert l index d = some (l2, none, some Errno.ERANGE) ∧ ListLive l2 ns t ∧
      ns.map l2.data = xs ∧ list_count l2 = list_count l + 1 := by
  obtain ⟨l2, g1, g2, g3, g4⟩ := list_insert_range l ns t a d index h.1 hidx
  have hl2 : ListLive l2 ns t := ListLive_of_frame h g2 g4 (by
    intro x hx
    simp only [List.mem_append, List.mem_cons] at hx ⊢
    tauto)
  refine ⟨l2, g1, hl2, ?_, ?_⟩
  · have han := ListInv_not_mem_of_free h.1
    rw [g3, map_update_of_not_mem _ _ _ _ han, hx]
  · rw [ListLive_count hl2, ListLive_count h, g4.2.1]
    simp only [List.length_cons]
    push_cast
    omega

/-- The function `list_to_array` on a list holding `xs` whose count is `xs.length + k`. -/
theorem list_to_array_live (l : list D) (ns fl : List Nat) (xs : List D) (fuel k : Nat)
    (hl : ListLive l ns fl) (hxs : ns.map l.data = xs)
    (hk : list_count l = ((xs.length + k : Nat) : Int)) (hfuel : xs.length < fuel) :
    ∃ l2, list_to_array fuel l
        = some (l2, 0, xs.map some ++ List.replicate k none, ((xs.length + k : Nat) : Int)) ∧
      ListLive l2 [] (ns.reverse ++ fl) ∧ list_count l2 = (k : Int) ∧
      list_iter l2 = (NULL_ITER, some Errno.ENOENT) := by
  have hlen : xs.length = ns.length := by rw [← hxs]; simp
  have hcap : l.pool.capacity = ns.length + fl.length + k := by
    rw [ListLive_count hl, hlen] at hk
    push_cast at hk
    omega
  obtain ⟨l2, h1, h2, h3⟩ := list_to_array_spec l ns fl xs fuel k ⟨hl.1, hxs⟩ hcap hfuel
  have hroot : l2.root = none := h2.1.1
  have hl2 : ListLive l2 [] (ns.reverse ++ fl) := ListLive_of_frame hl h2.1 h3 (by
    intro x hx
    simp only [List.nil_append, List.mem_append, List.mem_reverse] at hx ⊢
    exact hx)
  refine ⟨l2, h1, hl2, ?_, by simp [list_iter, hroot]⟩
  rw [ListLive_count hl2, h3.2.1, hcap]
  simp only [List.length_append, List.length_reverse]
  push_cast
  omega

end ListLiveLemmas
/-! ## Lemmas: the capacity of the fringe -/

section FringeCap
variable {D : Type}

theorem BT.roots_sublist_pres (pend : List BT) : (BT.roots pend).Sublist (BT.pres pend) := by
  induction pend with
  | nil => exact List.Sublist.refl _
  | cons b r ih =>
    cases b with
    | nil => simpa [BT.roots, BT.pres, BT.pre] using ih
    | node a c s =>
      simp only [BT.roots, BT.pres, BT.pre, List.cons_append]
      refine List.Sublist.cons₂ a ?_
      exact ih.trans (List.sublist_append_right _ _)

theorem iter_next_dfs_step_cap (t : ntree D) (it : struct_ntree_iter) (a : Nat) (c s : BT)
    (rest : List BT) (h : FringeInv t it.fringe (BT.node a c s :: rest)) :
    ∃ f2, iter_next (ntree_iter_at t it)
        = some (ntree_iter_at t { fringe := f2, age := t.age a, node := some a }, none) ∧
      FringeInv t f2 (BT.push_nonnil c (BT.push_nonnil s rest)) ∧
      f2.pool.capacity = it.fringe.pool.capacity := by
  obtain ⟨f2, h1, h2, h3⟩ := ntree_iter_next_step t it a c s rest h
  refine ⟨f2, ?_, h2, h3⟩
  simp only [iter_next, ntree_iter_at, ntree_iter_next_handler, h1, Option.map_some']

theorem iter_next_n_dfs_cap (t : ntree D) (k : Nat) :
    ∀ (pend : List BT) (it : struct_ntree_iter) (a : Nat),
      FringeInv t it.fringe pend → it.node = some a →
      k ≤ (BT.pres pend).length →
      ∃ (it2 : struct_ntree_iter) (pend2 : List BT) (x : Nat),
        iter_next_n k (ntree_iter_at t it) = some (ntree_iter_at t it2) ∧
        FringeInv t it2.fringe pend2 ∧ (a :: BT.pres pend).get? k = some x ∧
        it2.node = some x ∧ BT.pres pend2 = (BT.pres pend).drop k ∧
        it2.fringe.pool.capacity = it.fringe.pool.capacity := by
  induction k with
  | zero =>
    intro pend it a h hnode _
    exact ⟨it, pend, a, rfl, h, rfl, hnode, rfl, rfl⟩
  | succ k ih =>
    intro pend it a h hnode hk
    cases pend with
    | nil => simp [BT.pres] at hk
    | cons b rest =>
      obtain ⟨x, c, s, e⟩ := FringeInv_cons_node t _ b rest h
      subst e
      obtain ⟨f2, h1, h2, h3⟩ := iter_next_dfs_step_cap t it x c s rest h
      have hpres : BT.pres (BT.push_nonnil c (BT.push_nonnil s rest))
          = c.pre ++ (s.pre ++ BT.pres rest) := by
        rw [BT.pres_push_nonnil, BT.pres_push_nonnil]
      have hk2 : k ≤ (BT.pres (BT.push_nonnil c (BT.push_nonnil s rest))).length := by
        rw [hpres]
        simp only [BT.pres, BT.pre, List.length_append, List.length_cons] at hk ⊢
        omega
      obtain ⟨it2, pend2, y, g1, g2, g3, g4, g6, g7⟩ :=
        ih _ { fringe := f2, age := t.age x, node := some x } x h2 rfl hk2
      refine ⟨it2, pend2, y, ?_, g2, ?_, g4, ?_, by rw [g7, h3]⟩
      · simp only [iter_next_n, h1, g1]
      · rw [hpres] at g3
        simpa [BT.pres, BT.pre] using g3
      · rw [g6, hpres]
        simp [BT.pres, BT.pre]

theorem ntree_iter_start_cap (t : ntree D) (a : Nat) (c s : BT) (fl : List Nat) (fmem : Nat)
    (h : TreeWF t (BT.node a c s) fl) :
    ∃ f, ntree_iter fmem t
        = some (ntree_iter_at t { fringe := f, age := t.age a, node := some a }, none) ∧
      FringeInv t f (BT.push_nonnil c (BT.push_nonnil s [])) ∧
      f.pool.capacity = t.pool.capacity := by
  have hcap : 0 < t.pool.capacity := by
    rw [h.2]
    simp [BT.pre]
  obtain ⟨l, fl0, h1, h2, h3⟩ := list_init_wf fmem (0 : Nat) sizeof_ntree_node_ptr
    t.pool.capacity (by decide) hcap (by decide)
  have hr : t.root = some a := h.1.1.1
  have hrep : TRep t none (some a) (BT.node a c s) := hr ▸ h.1.1
  have hinv0 : FringeInv t l [] := ⟨⟨_, _, h2⟩, by simp, by simp [BT.pres]⟩
  obtain ⟨f1, w, g1, g2, g3⟩ := FringeInv_push t l [] a c s none hinv0 hrep (by
    rw [h3, h.2]
    simp [BT.pres])
  obtain ⟨f2, k1, k2, k3⟩ := ntree_iter_next_step t (NTREE_ITER_INITIALIZER f1) a c s [] g2
  refine ⟨f2, ?_, k2, ?_⟩
  · simp only [ntree_iter, internal_ntree_iter, stack_init, h1, hr, g1, k1, ntree_iter_at]
  · rw [k3]
    show f1.pool.capacity = _
    rw [g3, h3]

/-- The fringe of the depth-first iterator at every position of a traversal. -/
theorem ntree_iter_fringe (t : ntree D) (b : BT) (fl : List Nat) (fmem : Nat)
    (h : TreeWF t b fl) (hne : b ≠ BT.nil) :
    ∃ it0, ntree_iter fmem t = some (it0, none) ∧
      ∀ k x, b.pre.get? k = some x →
        ∃ (itk : struct_ntree_iter) (pend : List BT),
          iter_next_n k it0 = some (ntree_iter_at t itk) ∧ itk.node = some x ∧
          itk.fringe.pool.capacity = t.pool.capacity ∧
          StackHolds itk.fringe (BT.roots pend).reverse ∧
          (BT.roots pend).Sublist (b.pre.drop (k + 1)) ∧
          (k + 1 < b.pre.length →
            ∃ itn, ntree_iter_next t itk = some (some itn, none)) ∧
          (k + 1 = b.pre.length →
            ntree_iter_next t itk = some (none, some Errno.ENOENT)) := by
  cases b with
  | nil => exact absurd rfl hne
  | node a c s =>
    obtain ⟨f, h1, h2, h3⟩ := ntree_iter_start_cap t a c s fl fmem h
    have hpres : BT.pres (BT.push_nonnil c (BT.push_nonnil s [])) = c.pre ++ s.pre := by
      rw [BT.pres_push_nonnil, BT.pres_push_nonnil]
      simp [BT.pres]
    refine ⟨_, h1, ?_⟩
    intro k x hk
    have hklt : k < (BT.node a c s).pre.length := lt_length_of_get? _ _ _ hk
    have hk2 : k ≤ (BT.pres (BT.push_nonnil c (BT.push_nonnil s []))).length := by
      rw [hpres]
      simp only [BT.pre, List.length_cons, List.length_append] at hklt ⊢
      omega
    obtain ⟨itk, pend, y, g1, g2, g3, g4, g6, g7⟩ := iter_next_n_dfs_cap t k _
      { fringe := f, age := t.age a, node := some a } a h2 rfl hk2
    have hxy : y = x := by
      rw [hpres] at g3
      have e : (BT.node a c s).pre = a :: (c.pre ++ s.pre) := by simp [BT.pre]
      rw [e] at hk
      rw [g3] at hk
      exact Option.some.inj hk
    subst hxy
    have hdrop : BT.pres pend = (BT.node a c s).pre.drop (k + 1) := by
      rw [g6, hpres]
      simp [BT.pre]
    refine ⟨itk, pend, g1, g4, by rw [g7]; exact h3, g2.1, ?_, ?_, ?_⟩
    · rw [← hdrop]
      exact BT.roots_sublist_pres pend
    · intro hlt
      cases pend with
      | nil =>
        have : ((BT.node a c s).pre.drop (k + 1)).length = 0 := by rw [← hdrop]; rfl
        rw [List.length_drop] at this
        omega
      | cons b2 rest =>
        obtain ⟨x2, c2, s2, e⟩ := FringeInv_cons_node t _ b2 rest g2
        subst e
        obtain ⟨f2, k1, _⟩ := ntree_iter_next_step t itk x2 c2 s2 rest g2
        exact ⟨_, k1⟩
    · intro heq
      have hnil : BT.pres pend = [] := by
        rw [hdrop]
        exact List.drop_eq_nil_of_le (by omega)
      have := FringeInv_pres_nil t _ pend g2 hnil
      subst this
      exact ntree_iter_next_empty t itk g2

end FringeCap
/-! ## Lemmas: the budget of `ntree_remove` -/

section RemoveMore
variable {D : Type}

theorem ntree_find_prev_mono (nx : Nat → Ptr) (n : Nat) (fuel : Nat) :
    ∀ (p : Ptr) (o : Nat), ntree_find_prev nx n fuel p = some o →
      ntree_find_prev nx n (fuel + 1) p = some o := by
  induction fuel with
  | zero => intro p o h; simp [ntree_find_prev] at h
  | succ f ih =>
    intro p o h
    cases p with
    | none => simp [ntree_find_prev] at h
    | some q =>
      rw [ntree_find_prev] at h ⊢
      by_cases c : nx q = some n
      · rw [if_pos c] at h ⊢; exact h
      · rw [if_neg c] at h ⊢; exact ih _ _ h

theorem ntree_unlink_mono (fuel : Nat) (t s : ntree D) (n : Nat)
    (h : ntree_unlink fuel t n = some s) : ntree_unlink (fuel + 1) t n = some s := by
  unfold ntree_unlink at h ⊢
  by_cases c1 : t.root = some n
  · simp only [c1, if_true] at h ⊢; exact h
  · simp only [c1, if_false] at h ⊢
    cases hp : t.parent n with
    | none =>
      simp only [hp] at h ⊢
      cases hf : ntree_find_prev t.next_sibling n fuel t.root with
      | none => simp [hf] at h
      | some o =>
        rw [ntree_find_prev_mono _ _ _ _ _ hf]
        rw [hf] at h
        exact h
    | some q =>
      simp only [hp] at h ⊢
      by_cases c2 : t.first_child q = some n
      · simp only [c2, if_true] at h ⊢; exact h
      · simp only [c2, if_false] at h ⊢
        cases hf : ntree_find_prev t.next_sibling n fuel (t.first_child q) with
        | none => simp [hf] at h
        | some o =>
          rw [ntree_find_prev_mono _ _ _ _ _ hf]
          rw [hf] at h
          exact h

theorem ntree_unlink_mono_le (fuel fuel2 : Nat) (t s : ntree D) (n : Nat)
    (h : ntree_unlink fuel t n = some s) (hle : fuel ≤ fuel2) :
    ntree_unlink fuel2 t n = some s := by
  induction fuel2 with
  | zero =>
    have : fuel = 0 := by omega
    subst this
    exact h
  | succ k ih =>
    by_cases e : fuel = k + 1
    · subst e; exact h
    · exact ntree_unlink_mono k t s n (ih (by omega))

theorem ntree_remove_loop_mono (fuel : Nat) :
    ∀ (s : ntree D) (current older : Ptr) (freed : List Nat) (r : ntree D × List Nat),
      ntree_remove_loop fuel s current older freed = some r →
      ntree_remove_loop (fuel + 1) s current older freed = some r := by
  induction fuel with
  | zero =>
    intro s current older freed r h
    cases current with
    | none => simpa [ntree_remove_loop] using h
    | some c => simp [ntree_remove_loop] at h
  | succ f ih =>
    intro s current older freed r h
    cases current with
    | none => simpa [ntree_remove_loop] using h
    | some c =>
      rw [ntree_remove_loop] at h ⊢
      simp only [] at h ⊢
      split_ifs at h ⊢ <;> exact ih _ _ _ _ _ h

theorem ntree_remove_loop_mono_le (fuel fuel2 : Nat) (s : ntree D) (current older : Ptr)
    (freed : List Nat) (r : ntree D × List Nat)
    (h : ntree_remove_loop fuel s current older freed = some r) (hle : fuel ≤ fuel2) :
    ntree_remove_loop fuel2 s current older freed = some r := by
  induction fuel2 with
  | zero =>
    have : fuel = 0 := by omega
    subst this
    exact h
  | succ k ih =>
    by_cases e : fuel = k + 1
    · subst e; exact h
    · exact ntree_remove_loop_mono k s current older freed r (ih (by omega))

theorem ntree_remove_mono_le (fuel fuel2 : Nat) (t : ntree D) (node : Ptr)
    (r : ntree D × Int × Option Errno) (h : ntree_remove fuel t node = some r)
    (hle : fuel ≤ fuel2) : ntree_remove fuel2 t node = some r := by
  unfold ntree_remove at h ⊢
  cases node with
  | none => exact h
  | some n =>
    simp only [] at h ⊢
    by_cases c : t.root = none
    · rw [if_pos c] at h ⊢; exact h
    · rw [if_neg c] at h ⊢
      cases hu : ntree_unlink fuel t n with
      | none => simp [hu] at h
      | some s =>
        rw [hu] at h
        rw [ntree_unlink_mono_le fuel fuel2 t s n hu hle]
        simp only [] at h ⊢
        cases hl : ntree_remove_loop fuel s (some n) none [] with
        | none => simp [hl] at h
        | some r2 =>
          rw [hl] at h
          rw [ntree_remove_loop_mono_le fuel fuel2 s _ _ _ r2 hl hle]
          exact h

theorem ntree_remove_freed_mono_le (fuel fuel2 : Nat) (t : ntree D) (n : Nat)
    (freed : List Nat) (h : ntree_remove_freed fuel t n = some freed) (hle : fuel ≤ fuel2) :
    ntree_remove_freed fuel2 t n = some freed := by
  unfold ntree_remove_freed at h ⊢
  cases hu : ntree_unlink fuel t n with
  | none => simp [hu] at h
  | some s =>
    rw [hu] at h
    rw [ntree_unlink_mono_le fuel fuel2 t s n hu hle]
    simp only [] at h ⊢
    cases hl : ntree_remove_loop fuel s (some n) none [] with
    | none => simp [hl] at h
    | some r2 =>
      rw [hl] at h
      rw [ntree_remove_loop_mono_le fuel fuel2 s _ _ _ r2 hl hle]
      exact h

end RemoveMore
/-! ## Lemmas: the stages of `ntree_remove`, recursive destruction -/

section RemoveStages
variable {D : Type}

/-- Two link maps that follow the same list from the same pointer agree on the list. -/
theorem Seg_agree (nx nx2 : Nat → Ptr) (xs : List Nat) (p q : Ptr) :
    Seg nx p xs q → Seg nx2 p xs q → ∀ y ∈ xs, nx y = nx2 y := by
  induction xs generalizing p with
  | nil => intro _ _ y hy; simp at hy
  | cons a t ih =>
    intro h1 h2 y hy
    have ha : nx a = nx2 a := by
      cases t with
      | nil =>
        have e1 : nx a = q := h1.2
        have e2 : nx2 a = q := h2.2
        rw [e1, e2]
      | cons b t2 =>
        have e1 : nx a = some b := h1.2.1
        have e2 : nx2 a = some b := h2.2.1
        rw [e1, e2]
    rcases List.mem_cons.mp hy with e | e
    · rw [e]; exact ha
    · have h2' := h2.2
      rw [← ha] at h2'
      exact ih _ h1.2 h2' y e

/-- In the post-order sequence of a forest every descendant of a node comes before it. -/
theorem BT.post_descendant_before (b : BT) (hnd : b.pre.Nodup) :
    ∀ y z, y ∈ b.pre → z ∈ (b.child_of y).pre →
      ∃ u v w, b.post = u ++ z :: v ++ y :: w := by
  induction b with
  | nil => intro y z hy; simp [BT.pre] at hy
  | node x c s ihc ihs =>
    obtain ⟨n1, n2, n3, n4, n5⟩ := BT.pre_nodup_node hnd
    intro y z hy hz
    by_cases hx : x = y
    · subst hx
      simp only [BT.child_of, if_true] at hz
      have hzp : z ∈ c.post := (BT.mem_post_iff c z).mpr hz
      obtain ⟨u, v, e⟩ := List.append_of_mem hzp
      refine ⟨u, v ++ s.post, [], ?_⟩
      simp only [BT.post, e, List.append_assoc, List.cons_append]
    · simp only [BT.pre, List.mem_cons, List.mem_append] at hy
      rcases hy with e | e | e
      · exact absurd e.symm hx
      · simp only [BT.child_of, if_neg hx, if_pos e] at hz
        obtain ⟨u, v, w, g⟩ := ihc n3 y z e hz
        refine ⟨u, v, w ++ s.post ++ [x], ?_⟩
        simp only [BT.post, g, List.append_assoc, List.cons_append]
      · have hyc : y ∉ c.pre := fun hc => n5 y hc e
        simp only [BT.child_of, if_neg hx, if_neg hyc] at hz
        obtain ⟨u, v, w, g⟩ := ihs n4 y z e hz
        refine ⟨c.post ++ u, v, w ++ [x], ?_⟩
        simp only [BT.post, g, List.append_assoc, List.cons_append]

/-- The recursive destruction of a represented forest: its nodes are given back to the
pool in post-order, and only the links of the pool change. -/
theorem destroy_spec (b : BT) :
    ∀ (H : ntree D) (par p : Ptr) (fl : List Nat) (fuel : Nat),
      TRep H par p b → Seg H.pool.link H.pool.root fl none → (b.pre ++ fl).Nodup →
      b.pre.length < fuel →
      ∃ (link : Nat → Ptr) (proot : Ptr),
        destroy fuel H p
          = some (H.with_walk link H.next_sibling H.action proot
              (H.pool.freeable + b.pre.length), b.post) ∧
        Seg link proot (b.post.reverse ++ fl) none ∧
        ∀ y, y ∉ b.pre → link y = H.pool.link y := by
  induction b with
  | nil =>
    intro H par p fl fuel hrep hseg _ _
    have hp : p = none := hrep
    subst hp
    refine ⟨H.pool.link, H.pool.root, ?_, by simpa [BT.post] using hseg, fun _ _ => rfl⟩
    cases fuel <;> rfl
  | node x c s ihc ihs =>
    intro H par p fl fuel hrep hseg hnd hfuel
    obtain ⟨h1, h2, h3, h4⟩ := hrep
    subst h1
    obtain ⟨f, rfl⟩ : ∃ f, fuel = f + 1 := ⟨fuel - 1, by omega⟩
    have hndl := List.nodup_append.mp hnd
    obtain ⟨n1, n2, n3, n4, n5⟩ := BT.pre_nodup_node hndl.1
    have hxfl : x ∉ fl := fun hf => hndl.2.2 (BT.mem_pre_self x c s) hf
    have hcfl : ∀ y ∈ c.pre, y ∉ fl := fun y hy hf => hndl.2.2 (BT.mem_pre_of_child x s hy) hf
    have hsfl : ∀ y ∈ s.pre, y ∉ fl := fun y hy hf => hndl.2.2 (BT.mem_pre_of_sib x c hy) hf
    simp only [BT.pre, List.length_cons, List.length_append] at hfuel
    -- the children
    obtain ⟨link1, proot1, d1, d2, d3⟩ := ihc H (some x) (H.pool.link x) fl f h3 hseg
      (List.nodup_append.mpr ⟨n3, hndl.2.1, fun y hy hf => hcfl y hy hf⟩) (by omega)
    -- the later siblings
    obtain ⟨H1, hH1⟩ : ∃ H1 : ntree D, H1 = H.with_walk link1 H.next_sibling H.action proot1
        (H.pool.freeable + c.pre.length) := ⟨_, rfl⟩
    have hrep1 : TRep H1 par (H1.next_sibling x) s := by
      subst hH1
      refine TRep_congr H _ par _ s ?_ h4
      intro y hy
      exact ⟨d3 y (fun hc => n5 y hc hy), rfl, rfl⟩
    have hseg1 : Seg H1.pool.link H1.pool.root (c.post.reverse ++ fl) none := by
      subst hH1; exact d2
    have hnd1 : (s.pre ++ (c.post.reverse ++ fl)).Nodup := by
      refine List.nodup_append.mpr ⟨n4, ?_, ?_⟩
      · refine List.nodup_append.mpr ⟨?_, hndl.2.1, ?_⟩
        · exact List.nodup_reverse.mpr ((BT.post_perm_pre c).nodup_iff.mpr n3)
        · intro y hy hf
          exact hcfl y ((BT.mem_post_iff c y).mp (List.mem_reverse.mp hy)) hf
      · intro y hy hm
        rcases List.mem_append.mp hm with e | e
        · exact n5 y ((BT.mem_post_iff c y).mp (List.mem_reverse.mp e)) hy
        · exact hsfl y hy e
    obtain ⟨link2, proot2, e1, e2, e3⟩ := ihs H1 par (H1.next_sibling x) (c.post.reverse ++ fl) f
      hrep1 hseg1 hnd1 (by omega)
    have hxs : x ∉ s.post.reverse ++ (c.post.reverse ++ fl) := by
      intro hm
      rcases List.mem_append.mp hm with e | e
      · exact n2 ((BT.mem_post_iff s x).mp (List.mem_reverse.mp e))
      · rcases List.mem_append.mp e with e | e
        · exact n1 ((BT.mem_post_iff c x).mp (List.mem_reverse.mp e))
        · exact hxfl e
    refine ⟨Function.update link2 x proot2, some x, ?_, ?_, ?_⟩
    · rw [destroy]
      have hfc : H.first_child x = H.pool.link x := rfl
      rw [hfc, d1]
      simp only []
      rw [← hH1, e1]
      subst hH1
      simp only [pool_free, internal_pool_push, ntree.with_walk, BT.post, BT.pre,
        List.length_cons, List.length_append]
      have hfr : H.pool.freeable + c.pre.length + s.pre.length + 1
          = H.pool.freeable + (c.pre.length + s.pre.length + 1) := by omega
      rw [hfr]
    · have hpost : (BT.node x c s).post.reverse ++ fl
          = x :: (s.post.reverse ++ (c.post.reverse ++ fl)) := by
        simp [BT.post]
      rw [hpost]
      refine ⟨rfl, ?_⟩
      rw [Function.update_same]
      exact Seg_update link2 _ _ _ x proot2 hxs e2
    · intro y hy
      simp only [BT.pre, List.mem_cons, List.mem_append, not_or] at hy
      rw [Function.update_noteq hy.1, e3 y hy.2.2]
      subst hH1
      exact d3 y hy.2.1

/-- The stages of `ntree_remove` on a well-formed tree: the unlinking, which succeeds with
every budget above the number of nodes, leaves the subtree of `n` represented from `n`;
the walk, with every budget of at least twice the size of the subtree minus one, gives the
subtree back to the pool in post-order. -/
theorem ntree_remove_stages (t : ntree D) (b : BT) (fl : List Nat) (n : Nat)
    (h : TreeWF t b fl) (hn : n ∈ b.pre) :
    ∃ (t1 : ntree D) (link ns : Nat → Ptr) (act : Nat → ntree_trav_action) (proot : Ptr),
      (∀ fuel, b.pre.length < fuel → ntree_unlink fuel t n = some t1) ∧
      TRep t1 none (some n) (BT.node n (b.child_of n) BT.nil) ∧
      Seg t1.pool.link t1.pool.root fl none ∧
      ((BT.node n (b.child_of n) BT.nil).pre ++ fl).Nodup ∧
      (∀ fuel, 2 * (BT.node n (b.child_of n) BT.nil).pre.length - 1 ≤ fuel →
        ntree_remove_loop fuel t1 (some n) none []
          = some (t1.with_walk link ns act proot
              (t1.pool.freeable + (BT.node n (b.child_of n) BT.nil).pre.length),
            (BT.node n (b.child_of n) BT.nil).post)) ∧
      Seg link proot ((BT.node n (b.child_of n) BT.nil).post.reverse ++ fl) none ∧
      (∀ y, y ∉ (BT.node n (b.child_of n) BT.nil).pre → link y = t1.pool.link y) ∧
      (BT.node n (b.child_of n) BT.nil).pre.length ≤ b.pre.length := by
  have hnd : b.pre.Nodup := (List.nodup_append.mp h.1.2.2.1).1
  have hndfl : fl.Nodup := (List.nodup_append.mp h.1.2.2.1).2.1
  have hdisj : ∀ y ∈ b.pre, y ∉ fl := fun y hy hf => (List.nodup_append.mp h.1.2.2.1).2.2 hy hf
  obtain ⟨l1, l2, hpre, hrem⟩ := BT.remove_pre b n hn hnd
  have hnd' := hnd
  rw [hpre] at hnd'
  have hblk : (n :: (b.child_of n).pre).Nodup :=
    (List.nodup_append.mp (List.nodup_append.mp hnd').1).2.1
  have hncn : n ∉ (b.child_of n).pre := (List.nodup_cons.mp hblk).1
  have hsub : ∀ y ∈ n :: (b.child_of n).pre, y ∈ b.pre := by
    intro y hy
    rw [hpre]
    exact List.mem_append_left _ (List.mem_append_right _ hy)
  obtain ⟨t1, u1, u2, u3, u4, u5, u6, u7, u8, u9, u10, u11, u12, u13, u14, u15⟩ :=
    ntree_unlink_spec t b fl n (b.pre.length + 1) h.1 hn (by omega)
  have hcn := TRep_child_of t none t.root b n h.1.1 hn hnd
  have hsubrep : TRep t1 none (some n) (BT.node n (b.child_of n) BT.nil) := by
    refine ⟨rfl, u8, ?_, u7⟩
    rw [u6]
    refine TRep_congr t t1 (some n) _ _ ?_ hcn
    intro y hy
    have hyb : y ∈ b.pre := hsub y (List.mem_cons_of_mem _ hy)
    have hyn : y ≠ n := fun e => hncn (e ▸ hy)
    have hl : ¬ t.pool.link y = some n :=
      fun e => hncn (TRep_link_mem t _ _ _ hcn y hy n (Or.inl e))
    have hs : ¬ t.next_sibling y = some n :=
      fun e => hncn (TRep_link_mem t _ _ _ hcn y hy n (Or.inr e))
    refine ⟨?_, ?_, u3 y hyb hyn⟩
    · rw [u4 y hyb hyn, if_neg hl]
    · rw [u5 y hyb hyn, if_neg hs]
  have hact1 : ∀ y ∈ (BT.node n (b.child_of n) BT.nil).pre,
      t1.action y = ntree_trav_action.ACT_INACTIVE := by
    intro y hy
    rw [u10]
    exact h.1.2.2.2.2 y (hsub y (by simpa [BT.pre] using hy))
  have hseg1 : Seg t1.pool.link t1.pool.root fl none := by
    rw [u13]
    refine Seg_congr t.pool.link t1.pool.link fl _ none ?_ h.1.2.1
    intro y hy
    exact u9 y (fun e => hdisj y e hy)
  have hnd1 : ((BT.node n (b.child_of n) BT.nil).pre ++ fl).Nodup := by
    refine List.nodup_append.mpr ⟨by simpa [BT.pre] using hblk, hndfl, ?_⟩
    intro y hy hf
    exact hdisj y (hsub y (by simpa [BT.pre] using hy)) hf
  have hsize : (BT.node n (b.child_of n) BT.nil).pre.length ≤ b.pre.length := by
    rw [hpre]
    simp only [BT.pre, List.append_nil, List.length_append, List.length_cons]
    omega
  obtain ⟨link, ns, act, proot, w1, w2, w3⟩ := ntree_remove_loop_walk
    (BT.node n (b.child_of n) BT.nil) t1 n none none fl [] 0 hsubrep hact1 hseg1 hnd1
  rw [ntree_remove_loop_done, List.nil_append, Nat.zero_add] at w1
  refine ⟨t1, link, ns, act, proot, ?_, hsubrep, hseg1, hnd1, ?_, w2,
    fun y hy => (w3 y hy).1, hsize⟩
  · intro fuel hfuel
    exact ntree_unlink_mono_le _ fuel t t1 n u1 (by omega)
  · intro fuel hfuel
    exact ntree_remove_loop_mono_le _ fuel t1 _ _ _ _ w1 hfuel

end RemoveStages

section DestroyMono
variable {D : Type}

theorem destroy_mono (k : Nat) :
    ∀ (H : ntree D) (p : Ptr) (r : ntree D × List Nat),
      destroy k H p = some r → destroy (k + 1) H p = some r := by
  induction k with
  | zero =>
    intro H p r hr
    cases p with
    | none => simpa [destroy] using hr
    | some x => simp [destroy] at hr
  | succ k ih =>
    intro H p r hr
    cases p with
    | none => simpa [destroy] using hr
    | some x =>
      rw [destroy] at hr ⊢
      cases h1 : destroy k H (H.first_child x) with
      | none => simp [h1] at hr
      | some r1 =>
        rw [h1] at hr
        rw [ih _ _ _ h1]
        simp only [] at hr ⊢
        cases h2 : destroy k r1.1 (r1.1.next_sibling x) with
        | none => simp [h2] at hr
        | some r2 =>
          rw [h2] at hr
          rw [ih _ _ _ h2]
          exact hr

theorem destroy_mono_le (k k2 : Nat) (H : ntree D) (p : Ptr) (r : ntree D × List Nat)
    (h : destroy k H p = some r) (hle : k ≤ k2) : destroy k2 H p = some r := by
  induction k2 with
  | zero =>
    have : k = 0 := by omega
    subst this
    exact h
  | succ j ih =>
    by_cases e : k = j + 1
    · subst e; exact h
    · exact destroy_mono j H p r (ih (by omega))

end DestroyMono
/-! ## Lemmas: the budget of the insertions -/

section InsertMono
variable {D : Type}

theorem ntree_last_sibling_mono (nx : Nat → Ptr) (fuel : Nat) :
    ∀ (a r : Nat), ntree_last_sibling nx fuel a = some r →
      ntree_last_sibling nx (fuel + 1) a = some r := by
  induction fuel with
  | zero => intro a r h; simp [ntree_last_sibling] at h
  | succ f ih =>
    intro a r h
    rw [ntree_last_sibling] at h ⊢
    cases hn : nx a with
    | none => rw [hn] at h; exact h
    | some b =>
      rw [hn] at h
      exact ih _ _ h

theorem ntree_insert_at_mono (fuel : Nat) (t : ntree D) (parent : Ptr) (d : D)
    (r : ntree D × Ptr × Option Errno) (h : ntree_insert_at fuel t parent d = some r) :
    ntree_insert_at (fuel + 1) t parent d = some r := by
  unfold ntree_insert_at at h ⊢
  simp only [] at h ⊢
  cases hr : t.root with
  | none => rw [hr] at h; exact h
  | some root =>
    rw [hr] at h
    simp only [] at h ⊢
    cases parent with
    | none =>
      simp only [] at h ⊢
      cases hl : ntree_last_sibling t.next_sibling fuel root with
      | none => rw [hl] at h; simp at h
      | some l =>
        rw [hl] at h
        rw [ntree_last_sibling_mono _ _ _ _ hl]
        exact h
    | some node =>
      simp only [] at h ⊢
      cases hf : t.first_child node with
      | none => rw [hf] at h; exact h
      | some first =>
        rw [hf] at h
        simp only [] at h ⊢
        cases hl : ntree_last_sibling t.next_sibling fuel first with
        | none => rw [hl] at h; simp at h
        | some l =>
          rw [hl] at h
          rw [ntree_last_sibling_mono _ _ _ _ hl]
          exact h

theorem ntree_insert_at_mono_le (fuel fuel2 : Nat) (t : ntree D) (parent : Ptr) (d : D)
    (r : ntree D × Ptr × Option Errno) (h : ntree_insert_at fuel t parent d = some r)
    (hle : fuel ≤ fuel2) : ntree_insert_at fuel2 t parent d = some r := by
  induction fuel2 with
  | zero =>
    have : fuel = 0 := by omega
    subst this
    exact h
  | succ k ih =>
    by_cases e : fuel = k + 1
    · subst e; exact h
    · exact ntree_insert_at_mono k t parent d r (ih (by omega))

theorem internal_ntree_insert_mono [DecidableEq D] (fuel : Nat) :
    ∀ (t : ntree D) (x : Nat) (pd d : D) (r : ntree D × Ptr × Option Errno),
      internal_ntree_insert fuel t x pd d = some r →
      internal_ntree_insert (fuel + 1) t x pd d = some r := by
  induction fuel with
  | zero => intro t x pd d r h; simp [internal_ntree_insert] at h
  | succ f ih =>
    intro t x pd d r h
    rw [internal_ntree_insert] at h ⊢
    by_cases c : ntree_parent_matches t pd x = true
    · simp only [ntree_parent_matches] at c
      simp only [c, if_true] at h ⊢
      cases hl : ntree_last_sibling t.next_sibling f x with
      | none => rw [hl] at h; simp at h
      | some l =>
        rw [hl] at h
        rw [ntree_last_sibling_mono _ _ _ _ hl]
        exact h
    · simp only [Bool.not_eq_true] at c
      simp only [ntree_parent_matches] at c
      simp only [c, Bool.false_eq_true, if_false] at h ⊢
      have hrest : ∀ (s : ntree D) (e : Option Errno),
          (match s.first_child x with
            | none => some (s, none, e)
            | some child =>
              match internal_ntree_insert f s child pd d with
              | none => none
              | some (s2, added, e2) => some (s2, added, if e2.isSome then e2 else e)) = some r →
          (match s.first_child x with
            | none => some (s, none, e)
            | some child =>
              match internal_ntree_insert (f + 1) s child pd d with
              | none => none
              | some (s2, added, e2) => some (s2, added, if e2.isSome then e2 else e)) = some r := by
        intro s e hv
        cases hc : s.first_child x with
        | none => rw [hc] at hv; exact hv
        | some child =>
          rw [hc] at hv
          simp only [] at hv ⊢
          cases hi : internal_ntree_insert f s child pd d with
          | none => rw [hi] at hv; simp at hv
          | some v2 =>
            rw [hi] at hv
            rw [ih _ _ _ _ _ hi]
            exact hv
      cases hn : t.next_sibling x with
      | none =>
        simp only [hn] at h ⊢
        exact hrest _ _ h
      | some nxt =>
        simp only [hn] at h ⊢
        cases hf : internal_ntree_insert f t nxt pd d with
        | none => rw [hf] at h; simp at h
        | some v =>
          rw [hf] at h
          rw [ih _ _ _ _ _ hf]
          obtain ⟨s, added, e⟩ := v
          cases added with
          | some a => exact h
          | none => exact hrest _ _ h

theorem ntree_insert_at_by_data_mono_le [DecidableEq D] (fuel fuel2 : Nat) (t : ntree D)
    (pd d : D) (r : ntree D × Ptr × Option Errno)
    (h : ntree_insert_at_by_data fuel t pd d = some r) (hle : fuel ≤ fuel2) :
    ntree_insert_at_by_data fuel2 t pd d = some r := by
  induction fuel2 with
  | zero =>
    have : fuel = 0 := by omega
    subst this
    exact h
  | succ k ih =>
    by_cases e : fuel = k + 1
    · subst e; exact h
    · have h2 := ih (by omega)
      unfold ntree_insert_at_by_data at h2 ⊢
      cases hr : t.root with
      | none => rw [hr] at h2; exact h2
      | some root =>
        rw [hr] at h2
        exact internal_ntree_insert_mono k t root pd d r h2

end InsertMono
/-! ## Lemmas: ages, insertion by payload on a full pool -/

section AgeLemmas
variable {D : Type}

theorem AgeRep_congr (t t2 : ntree D) (b : BT) :
    ∀ d, (∀ y ∈ b.pre, t2.age y = t.age y) → AgeRep t d b → AgeRep t2 d b := by
  induction b with
  | nil => intro d _ _; trivial
  | node x c s ihc ihs =>
    intro d h ha
    obtain ⟨a1, a2, a3⟩ := ha
    refine ⟨by rw [h x (BT.mem_pre_self x c s)]; exact a1, ?_, ?_⟩
    · exact ihc _ (fun y hy => h y (BT.mem_pre_of_child x s hy)) a2
    · exact ihs _ (fun y hy => h y (BT.mem_pre_of_sib x c hy)) a3

theorem AgeRep_append_sib (t : ntree D) (b : BT) (a : Nat) (d : Nat)
    (h : AgeRep t d b) (ha : t.age a = (d : Int)) : AgeRep t d (b.append_sib a) := by
  induction b with
  | nil => exact ⟨ha, trivial, trivial⟩
  | node x c s _ ihs => exact ⟨h.1, h.2.1, ihs h.2.2⟩

theorem AgeRep_add_child (t t2 : ntree D) (b : BT) (q a : Nat) (ha : a ∉ b.pre)
    (hage : t2.age = Function.update t.age a (t.age q + 1)) :
    ∀ d, AgeRep t d b → AgeRep t2 d (b.add_child q a) := by
  have hsame : ∀ y, y ≠ a → t2.age y = t.age y := by
    intro y hy
    rw [hage, Function.update_noteq hy]
  induction b with
  | nil => intro d _; trivial
  | node x c s ihc ihs =>
    intro d h
    obtain ⟨a1, a2, a3⟩ := h
    simp only [BT.pre, List.mem_cons, List.mem_append, not_or] at ha
    have hxa : x ≠ a := fun e => ha.1 e.symm
    have hc2 : AgeRep t2 (d + 1) c :=
      AgeRep_congr t t2 c _ (fun y hy => hsame y (fun e => ha.2.1 (e ▸ hy))) a2
    have hs2 : AgeRep t2 d s :=
      AgeRep_congr t t2 s _ (fun y hy => hsame y (fun e => ha.2.2 (e ▸ hy))) a3
    by_cases hx : x = q
    · subst hx
      simp only [BT.add_child, if_true]
      refine ⟨by rw [hsame x hxa]; exact a1, ?_, hs2⟩
      apply AgeRep_append_sib t2 c a (d + 1) hc2
      rw [hage, Function.update_same, a1]
      push_cast
      rfl
    · simp only [BT.add_child, if_neg hx]
      exact ⟨by rw [hsame x hxa]; exact a1, ihc ha.2.1 _ a2, ihs ha.2.2 _ a3⟩

theorem AgeRep_remove (t : ntree D) (b : BT) (n : Nat) :
    ∀ d, AgeRep t d b → AgeRep t d (b.remove n) := by
  induction b with
  | nil => intro d _; trivial
  | node x c s ihc ihs =>
    intro d h
    obtain ⟨a1, a2, a3⟩ := h
    by_cases hx : x = n
    · simp only [BT.remove, if_pos hx]
      exact a3
    · simp only [BT.remove, if_neg hx]
      exact ⟨a1, ihc _ a2, ihs _ a3⟩

/-- Ages in terms of parents: the nodes of the first sibling chain have the age of the
chain, every other node the age of its parent plus one. -/
theorem AgeRep_parent (t : ntree D) (b : BT) :
    ∀ (par p : Ptr) (d : Nat), TRep t par p b → AgeRep t d b →
      (∀ x ∈ b.sibs, t.parent x = par ∧ t.age x = (d : Int)) ∧
      (∀ x ∈ b.pre, x ∉ b.sibs → ∃ q ∈ b.pre, t.parent x = some q ∧ t.age x = t.age q + 1) := by
  induction b with
  | nil => intro par p d _ _; simp [BT.sibs, BT.pre]
  | node y c s ihc ihs =>
    intro par p d h ha
    obtain ⟨h1, h2, h3, h4⟩ := h
    obtain ⟨a1, a2, a3⟩ := ha
    obtain ⟨c1, c2⟩ := ihc (some y) _ (d + 1) h3 a2
    obtain ⟨s1, s2⟩ := ihs par _ d h4 a3
    constructor
    · intro x hx
      simp only [BT.sibs, List.mem_cons] at hx
      rcases hx with e | e
      · rw [e]; exact ⟨h2, a1⟩
      · exact s1 x e
    · intro x hx hns
      simp only [BT.sibs, List.mem_cons, not_or] at hns
      simp only [BT.pre, List.mem_cons, List.mem_append] at hx
      rcases hx with e | e | e
      · exact absurd e hns.1
      · by_cases hcs : x ∈ c.sibs
        · obtain ⟨g1, g2⟩ := c1 x hcs
          refine ⟨y, BT.mem_pre_self y c s, g1, ?_⟩
          rw [g2, a1]
          push_cast
          rfl
        · obtain ⟨q, g1, g2, g3⟩ := c2 x e hcs
          exact ⟨q, BT.mem_pre_of_child y s g1, g2, g3⟩
      · obtain ⟨q, g1, g2, g3⟩ := s2 x e hns.2
        exact ⟨q, BT.mem_pre_of_sib y c g1, g2, g3⟩

end AgeLemmas

section ByDataFull
variable {D : Type} [DecidableEq D]

/-- `internal_ntree_insert` on a tree whose pool has no free cell changes nothing. -/
theorem internal_ntree_insert_full (t : ntree D) (pd d : D) (hroot : t.pool.root = none)
    (b : BT) : ∀ (par : Ptr) (x fuel : Nat), TRep t par (some x) b → b.pre.length < fuel →
      ∃ e, internal_ntree_insert fuel t x pd d = some (t, none, e) := by
  induction b with
  | nil => intro par x fuel h; exact absurd h (by simp [TRep])
  | node y c s ihc ihs =>
    intro par x fuel h hfuel
    have hsibs := TRep_sibs t par (some x) _ h
    obtain ⟨h1, h2, h3, h4⟩ := h
    have hxy : x = y := Option.some.inj h1
    subst hxy
    cases fuel with
    | zero => omega
    | succ k =>
      simp only [BT.pre, List.length_cons, List.length_append] at hfuel
      rw [internal_ntree_insert]
      by_cases hm : ntree_parent_matches t pd x = true
      · simp only [ntree_parent_matches] at hm
        simp only [hm, if_true]
        have hlen := BT.sibs_length_le s
        simp only [BT.sibs] at hsibs
        have hlast := ntree_last_sibling_seg t.next_sibling x s.sibs k hsibs (by omega)
        obtain ⟨l, hl2⟩ : ∃ l, (x :: s.sibs).getLast? = some l :=
          Option.ne_none_iff_exists'.mp (by simp)
        rw [hl2] at hlast
        have hnl : t.next_sibling l = none := Seg_getLast_none _ _ _ l hsibs hl2
        simp only [hlast, alloc_empty t.pool hroot]
        refine ⟨some Errno.ENOMEM, ?_⟩
        have hs : ({ t with pool := t.pool } : ntree D).set_next_sibling l none = t :=
          ntree.set_next_sibling_self t l none hnl
        rw [hs]
      · simp only [Bool.not_eq_true] at hm
        simp only [ntree_parent_matches] at hm
        simp only [hm, Bool.false_eq_true, if_false]
        have hsib : t.next_sibling x = none ∨
            ∃ nxt e, t.next_sibling x = some nxt ∧
              internal_ntree_insert k t nxt pd d = some (t, none, e) := by
          cases hs : t.next_sibling x with
          | none => exact Or.inl rfl
          | some nxt =>
            rw [hs] at h4
            obtain ⟨e, he⟩ := ihs par nxt k h4 (by omega)
            exact Or.inr ⟨nxt, e, rfl, he⟩
        have hch : t.pool.link x = none ∨
            ∃ ch e, t.pool.link x = some ch ∧
              internal_ntree_insert k t ch pd d = some (t, none, e) := by
          cases hc : t.pool.link x with
          | none => exact Or.inl rfl
          | some ch =>
            rw [hc] at h3
            obtain ⟨e, he⟩ := ihc (some x) ch k h3 (by omega)
            exact Or.inr ⟨ch, e, rfl, he⟩
        rcases hsib with e1 | ⟨nxt, e, e1, e2⟩ <;> rcases hch with f1 | ⟨ch, e', f1, f2⟩ <;>
          simp [e1, f1, ntree.first_child, *]

/-- On an empty tree `ntree_insert_at_by_data` is `ntree_insert_at` without parent. -/
theorem ntree_insert_at_by_data_empty (t : ntree D) (pd d : D) (fuel : Nat)
    (hr : t.root = none) :
    ntree_insert_at_by_data fuel t pd d = ntree_insert_at fuel t none d := by
  unfold ntree_insert_at_by_data ntree_insert_at
  simp only [hr]
  cases (pool_alloc t.pool).2.1 with
  | none => rfl
  | some a =>
    simp only [ntree_fill, NTREE_NODE_INITIALIZER, ntree.set_parent, ntree.set_age,
      ntree.set_data, ntree.set_action, ntree.set_next_sibling, ntree.set_first_child,
      Function.update_idem]

end ByDataFull

section AgeInv
variable {D : Type}

theorem ntree_init_ok_wf (mem : Nat) (zero : D) (data_bytes capacity : Nat) (t : ntree D)
    (h : ntree_init mem zero data_bytes capacity = Except.ok t) :
    ∃ fl, TreeWF t BT.nil fl := by
  obtain ⟨fl, h1, _⟩ := ntree_init_ok_inv mem zero data_bytes capacity t h
  exact ⟨fl, h1⟩

/-- The invariant of the reachable trees is kept by `ntree_insert_at`. -/
theorem age_inv_insert_at (t : ntree D) (b : BT) (fl : List Nat) (parent : Ptr) (d : D)
    (fuel : Nat) (t2 : ntree D) (r : Ptr) (e : Option Errno)
    (h : TreeWF t b fl) (ha : AgeRep t 1 b) (hp : ∀ q, parent = some q → q ∈ b.pre)
    (hc : ntree_insert_at fuel t parent d = some (t2, r, e)) :
    ∃ b2 fl2, TreeWF t2 b2 fl2 ∧ AgeRep t2 1 b2 ∧ ∀ y, y ∈ b2.pre ↔ y ∈ r.toList ++ b.pre := by
  have hbig := ntree_insert_at_mono_le fuel (max fuel (b.pre.length + 1)) t parent d _ hc
    (le_max_left _ _)
  have hlt : b.pre.length < max fuel (b.pre.length + 1) := by
    have := le_max_right fuel (b.pre.length + 1)
    omega
  have hnd : b.pre.Nodup := (List.nodup_append.mp h.1.2.2.1).1
  cases fl with
  | nil =>
    rw [ntree_insert_at_full t b parent d _ h.1 hp hlt] at hbig
    simp only [Option.some.injEq, Prod.mk.injEq] at hbig
    obtain ⟨e1, e2, _⟩ := hbig
    subst e1
    subst e2
    exact ⟨b, [], h, ha, fun y => by simp⟩
  | cons a fl2 =>
    have hab : a ∉ b.pre := fun hm =>
      (List.nodup_append.mp h.1.2.2.1).2.2 hm (List.mem_cons_self a fl2)
    cases parent with
    | none =>
      obtain ⟨t3, g1, g2, _, g4, _⟩ := TreeWF_insert_at_root t b a fl2 d _ h hlt
      rw [g1] at hbig
      simp only [Option.some.injEq, Prod.mk.injEq] at hbig
      obtain ⟨e1, e2, _⟩ := hbig
      subst e1
      subst e2
      refine ⟨b.append_sib a, fl2, g2, ?_, ?_⟩
      · apply AgeRep_append_sib
        · refine AgeRep_congr t t3 b 1 ?_ ha
          intro y hy
          rw [g4, Function.update_noteq (fun e => hab (by rw [← e]; exact hy))]
        · rw [g4, Function.update_same]
          rfl
      · intro y
        rw [BT.pre_append_sib]
        simp [or_comm]
    | some q =>
      have hq := hp q rfl
      obtain ⟨t3, g1, g2, _, g4, _⟩ := TreeWF_insert_at_child t b a fl2 q d _ h hq hlt
      rw [g1] at hbig
      simp only [Option.some.injEq, Prod.mk.injEq] at hbig
      obtain ⟨e1, e2, _⟩ := hbig
      subst e1
      subst e2
      refine ⟨b.add_child q a, fl2, g2, AgeRep_add_child t t3 b q a hab g4 1 ha, ?_⟩
      intro y
      rw [(BT.pre_add_child_perm b q a hq hnd).mem_iff]
      simp

/-- The invariant of the reachable trees is kept by `ntree_insert_at_by_data`. -/
theorem age_inv_by_data [DecidableEq D] (t : ntree D) (b : BT) (fl : List Nat) (pd d : D)
    (fuel : Nat) (t2 : ntree D) (r : Ptr) (e : Option Errno)
    (h : TreeWF t b fl) (ha : AgeRep t 1 b)
    (hc : ntree_insert_at_by_data fuel t pd d = some (t2, r, e)) :
    ∃ b2 fl2, TreeWF t2 b2 fl2 ∧ AgeRep t2 1 b2 ∧ ∀ y, y ∈ b2.pre ↔ y ∈ r.toList ++ b.pre := by
  cases b with
  | nil =>
    have hr : t.root = none := h.1.1
    rw [ntree_insert_at_by_data_empty t pd d fuel hr] at hc
    exact age_inv_insert_at t BT.nil fl none d fuel t2 r e h ha (by simp) hc
  | node x c s =>
    have hr : t.root = some x := h.1.1.1
    have hrep : TRep t none (some x) (BT.node x c s) := hr ▸ h.1.1
    have hbig := ntree_insert_at_by_data_mono_le fuel
      (max fuel ((BT.node x c s).pre.length + 1)) t pd d _ hc (le_max_left _ _)
    have hlt : (BT.node x c s).pre.length < max fuel ((BT.node x c s).pre.length + 1) := by
      have := le_max_right fuel ((BT.node x c s).pre.length + 1)
      omega
    have hunf : ntree_insert_at_by_data (max fuel ((BT.node x c s).pre.length + 1)) t pd d
        = internal_ntree_insert (max fuel ((BT.node x c s).pre.length + 1)) t x pd d := by
      unfold ntree_insert_at_by_data
      simp only [hr]
    rw [hunf] at hbig
    cases fl with
    | nil =>
      obtain ⟨e2, he⟩ := internal_ntree_insert_full t pd d h.1.2.1 _ none x _ hrep hlt
      rw [he] at hbig
      simp only [Option.some.injEq, Prod.mk.injEq] at hbig
      obtain ⟨e1, e3, _⟩ := hbig
      subst e1
      subst e3
      exact ⟨_, [], h, ha, fun y => by simp⟩
    | cons a fl2 =>
      cases hfind : (BT.node x c s).find_by (ntree_parent_matches t pd) with
      | none =>
        have hno := BT.find_by_eq_none _ _ hfind
        rw [internal_ntree_insert_none t pd d _ none x _ hrep hno hlt] at hbig
        simp only [Option.some.injEq, Prod.mk.injEq] at hbig
        obtain ⟨e1, e3, _⟩ := hbig
        subst e1
        subst e3
        exact ⟨_, _, h, ha, fun y => by simp⟩
      | some y =>
        obtain ⟨q, _, _, hq, _, heq⟩ := internal_ntree_insert_found t (BT.node x c s) a fl2
          pd d (max fuel ((BT.node x c s).pre.length + 1)) h.1 hlt (BT.node x c s) none x
          (max fuel ((BT.node x c s).pre.length + 1)) y hrep (fun z hz => hz) hlt hfind
        rw [heq] at hbig
        exact age_inv_insert_at t _ _ (some q) d _ t2 r e h ha
          (fun q2 e2 => by rw [← Option.some.inj e2]; exact hq) hbig

/-- The invariant of the reachable trees is kept by `ntree_remove`. -/
theorem age_inv_remove (t : ntree D) (b : BT) (fl : List Nat) (n fuel : Nat) (t2 : ntree D)
    (r : Int) (e : Option Errno) (freed : List Nat)
    (h : TreeWF t b fl) (ha : AgeRep t 1 b) (hn : n ∈ b.pre)
    (hc : ntree_remove fuel t (some n) = some (t2, r, e))
    (hf : ntree_remove_freed fuel t n = some freed) :
    ∃ b2 fl2, TreeWF t2 b2 fl2 ∧ AgeRep t2 1 b2 ∧ ∀ y, y ∈ b2.pre ↔ (y ∈ b.pre ∧ y ∉ freed) := by
  have hnd : b.pre.Nodup := (List.nodup_append.mp h.1.2.2.1).1
  have hpos : 0 < b.pre.length := List.length_pos_of_mem hn
  have hbig := ntree_remove_mono_le fuel (max fuel (2 * b.pre.length)) t (some n) _ hc
    (le_max_left _ _)
  have hfbig := ntree_remove_freed_mono_le fuel (max fuel (2 * b.pre.length)) t n _ hf
    (le_max_left _ _)
  have hle : 2 * b.pre.length ≤ max fuel (2 * b.pre.length) := le_max_right _ _
  obtain ⟨t3, g1, g2, _, g4⟩ := ntree_remove_wf t b fl n _ h hn hle
  rw [g1] at hbig
  simp only [Option.some.injEq, Prod.mk.injEq] at hbig
  obtain ⟨e1, _, _⟩ := hbig
  subst e1
  obtain ⟨t1, link, ns, act, proot, s1, _, _, _, s5, _, _, s8⟩ :=
    ntree_remove_stages t b fl n h hn
  have hfr : freed = (BT.node n (b.child_of n) BT.nil).post := by
    have e1 := s1 (max fuel (2 * b.pre.length)) (by omega)
    have e2 := s5 (max fuel (2 * b.pre.length)) (by omega)
    unfold ntree_remove_freed at hfbig
    rw [e1] at hfbig
    simp only [e2, Option.map_some', Option.some.injEq] at hfbig
    exact hfbig.symm
  obtain ⟨l1, l2, hpre, hrem⟩ := BT.remove_pre b n hn hnd
  refine ⟨b.remove n, _, g2, ?_, ?_⟩
  · refine AgeRep_congr t t3 _ 1 (fun y _ => by rw [g4]) (AgeRep_remove t b n 1 ha)
  · intro y
    rw [hfr, BT.mem_post_iff, hrem]
    have hnd' := hnd
    rw [hpre] at hnd'
    have hd1 := List.nodup_append.mp hnd'
    have hd2 := List.nodup_append.mp hd1.1
    rw [hpre]
    simp only [BT.pre, List.append_nil, List.mem_append]
    constructor
    · rintro (hy | hy)
      · exact ⟨Or.inl (Or.inl hy), fun hb => hd2.2.2 hy hb⟩
      · exact ⟨Or.inr hy, fun hb => hd1.2.2 (List.mem_append_right _ hb) hy⟩
    · rintro ⟨(hy | hy) | hy, hnot⟩
      · exact Or.inl hy
      · exact absurd hy hnot
      · exact Or.inr hy

/-- Every reachable tree is well-formed, the client holds its nodes, and the age of every
node is its depth. -/
theorem TreeReach_inv [DecidableEq D] (mem : Nat) (zero : D) (data_bytes capacity : Nat)
    (t : ntree D) (live : List Nat) (h : TreeReach mem zero data_bytes capacity t live) :
    ∃ b fl, TreeWF t b fl ∧ AgeRep t 1 b ∧ ∀ y, y ∈ live ↔ y ∈ b.pre := by
  induction h with
  | init t h0 =>
    obtain ⟨fl, hwf⟩ := ntree_init_ok_wf mem zero data_bytes capacity t h0
    exact ⟨BT.nil, fl, hwf, trivial, fun y => by simp [BT.pre]⟩
  | insert t live fuel d t2 r e _ hc ih =>
    obtain ⟨b, fl, hwf, hage, hlive⟩ := ih
    obtain ⟨b2, fl2, g1, g2, g3⟩ := age_inv_insert_at t b fl none d fuel t2 r e hwf hage
      (by simp) hc
    refine ⟨b2, fl2, g1, g2, fun y => ?_⟩
    rw [g3 y, List.mem_append, List.mem_append, hlive y]
  | insert_at t live fuel parent d t2 r e _ hp hc ih =>
    obtain ⟨b, fl, hwf, hage, hlive⟩ := ih
    obtain ⟨b2, fl2, g1, g2, g3⟩ := age_inv_insert_at t b fl parent d fuel t2 r e hwf hage
      (fun q hq => (hlive q).mp (hp q hq)) hc
    refine ⟨b2, fl2, g1, g2, fun y => ?_⟩
    rw [g3 y, List.mem_append, List.mem_append, hlive y]
  | insert_at_by_data t live fuel pd d t2 r e _ hc ih =>
    obtain ⟨b, fl, hwf, hage, hlive⟩ := ih
    obtain ⟨b2, fl2, g1, g2, g3⟩ := age_inv_by_data t b fl pd d fuel t2 r e hwf hage hc
    refine ⟨b2, fl2, g1, g2, fun y => ?_⟩
    rw [g3 y, List.mem_append, List.mem_append, hlive y]
  | remove t live fuel n t2 r e freed _ hn hc hf ih =>
    obtain ⟨b, fl, hwf, hage, hlive⟩ := ih
    obtain ⟨b2, fl2, g1, g2, g3⟩ := age_inv_remove t b fl n fuel t2 r e freed hwf hage
      ((hlive n).mp hn) hc hf
    refine ⟨b2, fl2, g1, g2, fun y => ?_⟩
    rw [g3 y, List.mem_filter, hlive y]
    simp

end AgeInv

/-! ## Theorems: memory pool -/

/-- C1: on a pool freshly created by `pool_init` with `data_bytes > 0` and capacity `n > 0`,
exactly `n` consecutive `pool_alloc` calls return a cell and the next one returns `NULL`
(`ENOMEM`) leaving the pool, whose `freeable` is 0, exactly as it was;  after `pool_free` of
`k` distinct cells of the pool, exactly `k` further `pool_alloc` calls return a cell and the
next one returns `NULL`. -/
theorem pool_capacity_exact (mem data_bytes n : Nat) (hd : 0 < data_bytes) (hn : 0 < n) :
    ∃ p, pool_init mem data_bytes n = Except.ok p ∧
      (pool_alloc_n n p).2.length = n ∧
      (∀ r ∈ (pool_alloc_n n p).2, ∃ a, r = some a) ∧
      (pool_alloc_n n p).1.freeable = 0 ∧
      pool_alloc (pool_alloc_n n p).1 = ((pool_alloc_n n p).1, none, some Errno.ENOMEM) ∧
      ∀ ps : List Nat, ps.Nodup → (∀ a ∈ ps, a ∈ pool_cells mem data_bytes n) →
        (pool_alloc_n ps.length (pool_free_all (pool_alloc_n n p).1 ps)).2.length = ps.length ∧
        (∀ r ∈ (pool_alloc_n ps.length (pool_free_all (pool_alloc_n n p).1 ps)).2,
          ∃ a, r = some a) ∧
        (pool_alloc (pool_alloc_n ps.length (pool_free_all (pool_alloc_n n p).1 ps)).1).2.1
          = none := by
  have hinit : pool_init mem data_bytes n = Except.ok (internal_pool_setup
      (POOL_INITIALIZER mem data_bytes n (fun _ => none)) mem data_bytes n) := by
    unfold pool_init
    rw [if_neg]
    omega
  refine ⟨_, hinit, ?_⟩
  obtain ⟨h1, _, _, _, h5⟩ := setup_spec (POOL_INITIALIZER mem data_bytes n (fun _ => none))
    mem data_bytes n
  have hlen : (pool_cells mem data_bytes n).reverse.length = n := by
    simp [pool_cells_length]
  have hall := alloc_n_seg _ _ _ h1
  rw [hlen] at hall
  rw [hall]
  refine ⟨by simp [pool_cells_length], ?_, by simp [h5], ?_, ?_⟩
  · intro r hr
    simp only [List.mem_map] at hr
    obtain ⟨a, _, rfl⟩ := hr
    exact ⟨a, rfl⟩
  · exact alloc_empty _ rfl
  · intro ps hnd _
    have hseg := push_all_seg { internal_pool_setup
      (POOL_INITIALIZER mem data_bytes n (fun _ => none)) mem data_bytes n with
        root := none, freeable := (internal_pool_setup
      (POOL_INITIALIZER mem data_bytes n (fun _ => none)) mem data_bytes n).freeable - n } ps hnd
    have h2 := alloc_n_seg _ _ _ hseg
    rw [List.length_reverse] at h2
    rw [h2]
    refine ⟨by simp, ?_, ?_⟩
    · intro r hr
      simp only [List.mem_map] at hr
      obtain ⟨a, _, rfl⟩ := hr
      exact ⟨a, rfl⟩
    · simp [pool_alloc, internal_pool_pop]

/-- Witness of C1: a pool of five `int` cells. -/
theorem pool_capacity_exact_witness :
    0 < 4 ∧ 0 < 5 ∧ ∃ p, pool_init 4096 4 5 = Except.ok p ∧
      (pool_alloc_n 5 p).2.length = 5 ∧ (pool_alloc_n 5 p).1.freeable = 0 :=
  ⟨by decide, by decide,
    (pool_capacity_exact 4096 4 5 (by decide) (by decide)).imp
      (fun _ h => ⟨h.1, h.2.1, h.2.2.2.1⟩)⟩

/-- C2: in every state reachable from `pool_init` by `pool_alloc`, `pool_free` of a held
cell, `pool_clear` and writes into held cells, the free list holds no cell twice, every
cell of the region (offsets `i * max(data_bytes, sizeof(struct pool_node))`, `i < capacity`)
is on the free list or held but not both, `freeable` is the length of the free list and
`freeable + held = capacity`; so a cell returned by `pool_alloc` is none of the held cells
and overlaps none of them. -/
theorem pool_partition_invariant (mem data_bytes capacity : Nat) (p : pool) (live : List Nat)
    (h : PoolReach mem data_bytes capacity p live) :
    ∃ fl : List Nat, Seg p.link p.root fl none ∧ fl.Nodup ∧ live.Nodup ∧
      (∀ a, a ∈ fl → a ∉ live) ∧
      (∀ a, (a ∈ fl ∨ a ∈ live) ↔
        ∃ i, i < capacity ∧ a = mem + max data_bytes sizeof_pool_node * i) ∧
      p.freeable = fl.length ∧ p.freeable + live.length = capacity ∧
      (∀ a, (pool_alloc p).2.1 = some a → a ∉ live ∧ ∀ b ∈ live,
        a + max data_bytes sizeof_pool_node ≤ b ∨ b + max data_bytes sizeof_pool_node ≤ a) := by
  obtain ⟨fl, hinv⟩ := PoolReach_inv h
  have hnd := PoolInv_nodup hinv
  have hlen := PoolInv_length hinv
  have hdisj := List.disjoint_of_nodup_append hnd
  have hmem : ∀ a, (a ∈ fl ∨ a ∈ live) ↔ a ∈ pool_cells mem data_bytes capacity := by
    intro a
    rw [← List.mem_append]
    exact hinv.2.1.mem_iff
  refine ⟨fl, hinv.1, (List.nodup_append.mp hnd).1, (List.nodup_append.mp hnd).2.1,
    fun a h1 h2 => hdisj h1 h2, ?_, hinv.2.2.1, ?_, ?_⟩
  · intro a
    rw [hmem a, mem_pool_cells]
  · rw [hinv.2.2.1]; exact hlen
  · intro a ha
    cases fl with
    | nil => rw [PoolInv_alloc_nil hinv] at ha; exact absurd ha (by simp)
    | cons b t =>
      rw [(PoolInv_alloc hinv).1] at ha
      have hba : b = a := Option.some.inj ha
      subst hba
      have hbl : b ∉ live := fun hx => hdisj (List.mem_cons_self b t) hx
      refine ⟨hbl, ?_⟩
      intro c hc
      apply pool_cells_apart mem data_bytes capacity
      · exact (hmem b).mp (Or.inl (List.mem_cons_self b t))
      · exact (hmem c).mp (Or.inr hc)
      · rintro rfl; exact hbl hc

/-- Witness of C2: on a pool of three cells at 4096, two cells are allocated (4112, then
4104) and the first one is released: the pool holds 4104, its free list has two cells,
and the next `pool_alloc` returns a cell other than 4104; after `pool_clear` the three
cells are free again. -/
theorem pool_partition_invariant_witness :
    ∃ p0 p, pool_init 4096 4 3 = Except.ok p0 ∧
      (pool_alloc p0).2.1 = some 4112 ∧ (pool_alloc (pool_alloc p0).1).2.1 = some 4104 ∧
      p = pool_free (pool_alloc (pool_alloc p0).1).1 (some 4112) ∧
      PoolReach 4096 4 3 p [4104] ∧
      ∃ fl : List Nat, Seg p.link p.root fl none ∧ fl.Nodup ∧ (∀ a, a ∈ fl → a ∉ [4104]) ∧
        p.freeable = fl.length ∧ p.freeable + [4104].length = 3 ∧
        (∀ a, (pool_alloc p).2.1 = some a → a ∉ [4104]) ∧
        ∃ fl2 : List Nat, Seg (pool_clear p).1.link (pool_clear p).1.root fl2 none ∧
          fl2.Nodup ∧ (pool_clear p).1.freeable = 3 := by
  have hr0 : PoolReach 4096 4 3
      (internal_pool_setup (POOL_INITIALIZER 4096 4 3 (fun _ => none)) 4096 4 3) [] :=
    PoolReach.init _ rfl
  have hr1 := PoolReach.alloc _ _ 4112 hr0 (by decide)
  have hr2 := PoolReach.alloc _ _ 4104 hr1 (by decide)
  have hr3 : PoolReach 4096 4 3 _ [4104] := PoolReach.free _ _ 4112 hr2 (by decide)
  obtain ⟨fl, h1, h2, _, h4, _, h6, h7, h8⟩ := pool_partition_invariant 4096 4 3 _ [4104] hr3
  obtain ⟨fl2, g1, g2, _, _, _, _, g7, _⟩ :=
    pool_partition_invariant 4096 4 3 _ [] (PoolReach.clear _ _ hr3)
  exact ⟨_, _, rfl, by decide, by decide, rfl, hr3, fl, h1, h2, h4, h6, h7,
    fun a ha => (h8 a ha).1, fl2, g1, g2, by simpa using g7⟩

/-- C19: reuse is LIFO.  On every pool, `pool_free(pool, a)` immediately followed by
`pool_alloc(pool)` returns `a`; after `pool_free` of pairwise distinct cells `p1, ..., pk`
in this order the next `k` allocations return `pk, ..., p1`. -/
theorem pool_reuse_lifo (p : pool) (a : Nat) (ps : List Nat) (hnd : ps.Nodup) :
    (pool_alloc (pool_free p (some a))).2.1 = some a ∧
    (pool_alloc_n ps.length (pool_free_all p ps)).2 = ps.reverse.map some := by
  constructor
  · simp [pool_alloc, pool_free, internal_pool_pop, internal_pool_push]
  · have h2 := alloc_n_seg _ _ _ (push_all_seg p ps hnd)
    rw [List.length_reverse] at h2
    rw [h2]

/-- Witness of C19: three cells of a pool of five are released and come back newest first. -/
theorem pool_reuse_lifo_witness :
    [4112, 4096, 4128].Nodup ∧
    ∀ p : pool, (pool_alloc_n 3 (pool_free_all p [4112, 4096, 4128])).2
      = [some 4128, some 4096, some 4112] :=
  ⟨by decide, fun p => (pool_reuse_lifo p 0 [4112, 4096, 4128] (by decide)).2⟩

/-- C20, as stated, fails: on a fresh pool of two cells at `4096` the first `pool_alloc`
returns the cell at offset `8`, the highest one, not the cell at offset `0`. -/
theorem pool_first_alloc_low_counterexample :
    ∃ p, pool_init 4096 4 2 = Except.ok p ∧ (pool_alloc p).2.1 = some (4096 + 8) ∧
      (pool_alloc p).2.1 ≠ some 4096 :=
  ⟨_, rfl, by decide, by decide⟩

/-- C20, amended: on creation and on reset the cells are pushed in ascending address
order, so the free list is in descending address order: on a fresh pool (or after
`pool_clear`) of capacity `n` the `i`-th `pool_alloc`, `i = 1 .. n`, returns the cell at
offset `(n - i) * cell_size`; the first one returns the highest cell. -/
theorem pool_alloc_order_descending (mem data_bytes n : Nat) (hd : 0 < data_bytes)
    (hn : 0 < n) :
    ∃ p, pool_init mem data_bytes n = Except.ok p ∧
      (∀ i, i < n → (pool_alloc_n n p).2.get? i
        = some (some (mem + max data_bytes sizeof_pool_node * (n - 1 - i)))) ∧
      (∀ s : pool, s.mem = mem → s.data_bytes = data_bytes → s.capacity = n →
        ∀ i, i < n → (pool_alloc_n n (pool_clear s).1).2.get? i
          = some (some (mem + max data_bytes sizeof_pool_node * (n - 1 - i)))) := by
  have hinit : pool_init mem data_bytes n = Except.ok (internal_pool_setup
      (POOL_INITIALIZER mem data_bytes n (fun _ => none)) mem data_bytes n) := by
    unfold pool_init
    rw [if_neg]
    omega
  have key : ∀ s : pool, ∀ i, i < n →
      (pool_alloc_n n (internal_pool_setup s mem data_bytes n)).2.get? i
        = some (some (mem + max data_bytes sizeof_pool_node * (n - 1 - i))) := by
    intro s i hi
    obtain ⟨h1, _⟩ := setup_spec s mem data_bytes n
    have hall := alloc_n_seg _ _ _ h1
    rw [List.length_reverse, pool_cells_length] at hall
    rw [hall]
    have hcell : (pool_cells mem data_bytes n).reverse[i]?
        = some (cell_addr mem data_bytes (n - 1 - i)) := by
      rw [List.getElem?_reverse (by simpa [pool_cells_length] using hi)]
      have hlt : n - 1 - i < n := by omega
      simp [pool_cells, List.getElem?_range hlt]
    simp only [List.get?_eq_getElem?, List.getElem?_map, hcell]
    simp [cell_addr, node_bytes]
  refine ⟨_, hinit, key _, ?_⟩
  intro s h1 h2 h3 i hi
  simp only [pool_clear, h1, h2, h3]
  exact key s i hi

/-- Witness of the amended C20: five `int` cells at `4096`. -/
theorem pool_alloc_order_descending_witness :
    0 < 4 ∧ 0 < 5 ∧ ∃ p, pool_init 4096 4 5 = Except.ok p ∧
      (pool_alloc_n 5 p).2.get? 0 = some (some (4096 + max 4 sizeof_pool_node * (5 - 1 - 0))) :=
  ⟨by decide, by decide,
    (pool_alloc_order_descending 4096 4 5 (by decide) (by decide)).imp
      (fun _ h => ⟨h.1, h.2.1 0 (by decide)⟩)⟩


/-! ## Theorems: list -/

/-- C3: on a list holding `xs` with a free cell, `list_insert(list, index, data)` with
`0 <= index <= length(xs)` yields `xs` with `data` at position `index`, the other elements
in their order (`0`: new head, `length`: new tail); with a negative index it yields `xs`
followed by `data`.  The returned address is that of the node that stores the copy of
`data`, and `list_count` grows by exactly 1. -/
theorem list_insert_position {D : Type} (l : list D) (ns fl : List Nat) (xs : List D) (d : D)
    (index : Int) (h : ListHolds l ns fl xs) (hfree : 0 < pool_freeable l.pool) :
    (0 ≤ index → index ≤ (xs.length : Int) → ∃ l2 a,
        list_insert l index d = some (l2, some a, none) ∧
        ListHolds l2 (ns.take index.toNat ++ a :: ns.drop index.toNat) fl.tail
          (xs.take index.toNat ++ d :: xs.drop index.toNat) ∧
        l2.data a = d ∧ list_count l2 = list_count l + 1) ∧
    (index < 0 → ∃ l2 a,
        list_insert l index d = some (l2, some a, none) ∧
        ListHolds l2 (ns ++ [a]) fl.tail (xs ++ [d]) ∧
        l2.data a = d ∧ list_count l2 = list_count l + 1) := by
  obtain ⟨hinv, hxs⟩ := h
  have hlen : xs.length = ns.length := by rw [← hxs]; simp
  cases fl with
  | nil =>
    simp only [pool_freeable, hinv.2.2.2.2, List.length_nil] at hfree
    exact absurd hfree (by decide)
  | cons a t =>
    have han := ListInv_not_mem_of_free hinv
    have hcount : ∀ l2 : list D, l.same_frame l2 → l2.pool.freeable = t.length →
        list_count l2 = list_count l + 1 := by
      intro l2 hsf hfr
      simp only [list_count, pool_capacity, pool_freeable, hsf.2.1, hfr, hinv.2.2.2.2,
        List.length_cons]
      push_cast
      omega
    constructor
    · intro h0 h1
      have hk : index.toNat ≤ ns.length := by omega
      have hsplit : ns = ns.take index.toNat ++ ns.drop index.toNat :=
        (List.take_append_drop _ _).symm
      have hinv2 : ListInv l (ns.take index.toNat ++ ns.drop index.toNat) (a :: t) := by
        rw [← hsplit]; exact hinv
      have hidx : index = ((ns.take index.toNat).length : Int) := by
        rw [List.length_take, Nat.min_eq_left hk]
        omega
      obtain ⟨l2, h2, h3, h4, h5⟩ := list_insert_at l _ _ t a d index hinv2 hidx
      refine ⟨l2, a, h2, ⟨h3, ?_⟩, by rw [h4]; simp, hcount l2 h5 h3.2.2.2.2⟩
      rw [h4, List.map_append, List.map_cons, Function.update_same,
        map_update_of_not_mem _ _ _ _ (fun hx => han (List.mem_of_mem_take hx)),
        map_update_of_not_mem _ _ _ _ (fun hx => han (List.mem_of_mem_drop hx)),
        ← hxs, List.map_take, List.map_drop]
    · intro h0
      obtain ⟨l2, h2, h3, h4, h5⟩ := list_insert_neg l ns t a d index hinv h0
      refine ⟨l2, a, h2, ⟨h3, ?_⟩, by rw [h4]; simp, hcount l2 h5 h3.2.2.2.2⟩
      rw [h4, List.map_append, List.map_cons, List.map_nil, Function.update_same,
        map_update_of_not_mem _ _ _ _ han, hxs]

/-- Witness of C3: an insertion at index 0 into a fresh list of three cells. -/
theorem list_insert_position_witness :
    ∃ (l : list Nat) (fl : List Nat), ListHolds l [] fl [] ∧ 0 < pool_freeable l.pool ∧
      ∃ l2 a, list_insert l 0 7 = some (l2, some a, none) ∧ ListHolds l2 [a] fl.tail [7] := by
  obtain ⟨l, _, hinv, hc, _⟩ := list_init_inv 4096 (0 : Nat) 4 3 (by decide) (by decide)
    (by decide)
  have hh : ListHolds l [] (pool_cells 4096 (sizeof_list_node + 4) 3).reverse [] := ⟨hinv, rfl⟩
  have hf : 0 < pool_freeable l.pool := by
    simp [pool_freeable, hinv.2.2.2.2, pool_cells_length]
  obtain ⟨l2, a, h1, h2, _⟩ :=
    (list_insert_position l [] _ [] 7 0 hh hf).1 (by decide) (by decide)
  exact ⟨l, _, hh, hf, l2, a, h1, by simpa using h2⟩

/-- C4, the behaviour of the code: on a fresh list of two cells `list_insert(list, 1, data)`
fails with `ERANGE` and links nothing, but the cell it took from the pool is not given
back: `list_count` is 1 afterwards although the list is still empty. -/
theorem list_insert_range_leak :
    ∃ l l2 : list Nat, list_init 4096 0 4 2 = Except.ok l ∧ list_count l = 0 ∧
      list_insert l 1 7 = some (l2, none, some Errno.ERANGE) ∧
      l2.root = none ∧ l2.last = none ∧ list_count l2 = 1 ∧
      (list_insert l2 2 7).map (fun r => (r.2.1, list_count r.1)) = some (none, 2) :=
  ⟨_, _, rfl, by decide, rfl, rfl, rfl, by decide, by decide⟩

/-- C16: on a list holding `xs`, `list_get(list, index, out)` with `0 <= index < length(xs)`
returns 0 and copies `xs[index]`; with a negative index on a non-empty list it returns 0
and copies the last element; with `index >= length(xs)`, or a negative index on an empty
list, it returns -1 with `ERANGE` and writes nothing.  The function has no effect on the
list: it only reads. -/
theorem list_get_spec {D : Type} (l : list D) (ns fl : List Nat) (xs : List D) (index : Int)
    (h : ListHolds l ns fl xs) :
    (0 ≤ index → index < (xs.length : Int) →
      ∃ x, xs.get? index.toNat = some x ∧ list_get l index = (0, some x, none)) ∧
    (index < 0 → xs ≠ [] →
      ∃ x, xs.getLast? = some x ∧ list_get l index = (0, some x, none)) ∧
    ((xs.length : Int) ≤ index → list_get l index = (-1, none, some Errno.ERANGE)) ∧
    (index < 0 → xs = [] → list_get l index = (-1, none, some Errno.ERANGE)) := by
  obtain ⟨hinv, hxs⟩ := h
  have hlen : xs.length = ns.length := by rw [← hxs]; simp
  have hget := list_get_node l ns fl index hinv
  refine ⟨?_, ?_, ?_, ?_⟩
  · intro h0 h1
    have hk : index.toNat < ns.length := by omega
    rw [hget, if_pos h0]
    refine ⟨l.data ns[index.toNat], ?_, ?_⟩
    · rw [← hxs]
      simp [List.getElem?_eq_getElem hk]
    · simp [List.getElem?_eq_getElem hk]
  · intro h0 h1
    rw [hget, if_neg (by omega)]
    have hne : ns ≠ [] := by
      intro e
      apply h1
      rw [← hxs, e]
      rfl
    obtain ⟨a, ha⟩ := Option.ne_none_iff_exists.mp
      (fun e => hne (List.getLast?_eq_none_iff.mp e))
    refine ⟨l.data a, ?_, ?_⟩
    · rw [← hxs, List.getLast?_map, ← ha]
      rfl
    · rw [← ha]
  · intro h0
    have h1 : 0 ≤ index := by omega
    rw [hget, if_pos h1, List.get?_eq_none.mpr (by omega)]
  · intro h0 h1
    have hne : ns = [] := by
      rw [← hxs] at h1
      exact List.map_eq_nil_iff.mp h1
    rw [hget, if_neg (by omega), hne]
    rfl

/-- Witness of C16: on a list holding 7 and 9, the indices 0 and 1 read 7 and 9, the
negative indices -1 and -5 read the last element 9, and the indices 2 and 3 are out of
range; on the empty list the indices 0 and -1 are out of range. -/
theorem list_get_spec_witness :
    ∃ (l0 l : list Nat) (ns fl fl0 : List Nat), ListHolds l0 [] fl0 [] ∧
      ListHolds l ns fl [7, 9] ∧
      list_get l 0 = (0, some 7, none) ∧ list_get l 1 = (0, some 9, none) ∧
      list_get l (-1) = (0, some 9, none) ∧ list_get l (-5) = (0, some 9, none) ∧
      list_get l 2 = (-1, none, some Errno.ERANGE) ∧
      list_get l 3 = (-1, none, some Errno.ERANGE) ∧
      list_get l0 0 = (-1, none, some Errno.ERANGE) ∧
      list_get l0 (-1) = (-1, none, some Errno.ERANGE) := by
  obtain ⟨l0, fl0, _, hwf0, hcap⟩ :=
    list_init_wf 4096 (0 : Nat) 4 3 (by decide) (by decide) (by decide)
  obtain ⟨l1, a1, t1, rfl, _, hwf1, hc1, _⟩ := ListWF_push l0 [] fl0 [] 7 hwf0 (by
    rw [hcap]; decide)
  obtain ⟨l2, a2, t2, rfl, _, hwf2, _, _⟩ := ListWF_push l1 [a1] _ [7] 9 hwf1 (by
    rw [hc1, hcap]; decide)
  have hh : ListHolds l2 ([a1] ++ [a2]) t2 ([7] ++ [9]) := hwf2.1
  obtain ⟨x0, e0, g0⟩ := (list_get_spec l2 _ t2 [7, 9] 0 hh).1 (by decide) (by decide)
  obtain ⟨x1, e1, g1⟩ := (list_get_spec l2 _ t2 [7, 9] 1 hh).1 (by decide) (by decide)
  obtain ⟨x2, e2, g2⟩ := (list_get_spec l2 _ t2 [7, 9] (-1) hh).2.1 (by decide) (by simp)
  obtain ⟨x3, e3, g3⟩ := (list_get_spec l2 _ t2 [7, 9] (-5) hh).2.1 (by decide) (by simp)
  have v0 : x0 = 7 := by simpa using e0.symm
  have v1 : x1 = 9 := by simpa using e1.symm
  have v2 : x2 = 9 := by simpa using e2.symm
  have v3 : x3 = 9 := by simpa using e3.symm
  subst v0 v1 v2 v3
  exact ⟨l0, l2, _, t2, _, hwf0.1, hh, g0, g1, g2, g3,
    (list_get_spec l2 _ t2 [7, 9] 2 hh).2.2.1 (by decide),
    (list_get_spec l2 _ t2 [7, 9] 3 hh).2.2.1 (by decide),
    (list_get_spec l0 [] _ [] 0 hwf0.1).2.2.1 (by decide),
    (list_get_spec l0 [] _ [] (-1) hwf0.1).2.2.2 (by decide) rfl⟩

/-- C17: on a list holding `xs` in the nodes `ns`, `list_remove(list, iter)` with an
iterator on the `i`-th node returns 0 and yields the list without exactly that element,
the others in their order, head and tail included; the cell is back on the free list and
`list_count` is one less.  With the end marker it returns -1 with `EINVAL` and the list
is unchanged. -/
theorem list_remove_spec {D : Type} (l : list D) (ns fl : List Nat) (xs : List D) (it : ITER)
    (h : ListHolds l ns fl xs) :
    (∀ i a, ns.get? i = some a → it.object = some (iter_object.addr a) →
      ∃ l2, list_remove l it = some (l2, 0, none) ∧
        ListHolds l2 (ns.take i ++ ns.drop (i + 1)) (a :: fl)
          (xs.take i ++ xs.drop (i + 1)) ∧
        list_count l2 = list_count l - 1) ∧
    (it.object = none → list_remove l it = some (l, -1, some Errno.EINVAL)) := by
  obtain ⟨hinv, hxs⟩ := h
  constructor
  · intro i a hi hit
    have hsplit := get?_split ns i a hi
    have hinv2 : ListInv l (ns.take i ++ a :: ns.drop (i + 1)) fl := by
      rw [← hsplit]; exact hinv
    obtain ⟨l2, h1, h2, h3, h4, h5⟩ := list_remove_node l _ _ fl a it hinv2 hit
    refine ⟨l2, h1, ⟨h2, ?_⟩, ?_⟩
    · rw [h3, ← hxs, List.map_append, List.map_take, List.map_drop]
    · simp only [list_count, pool_capacity, pool_freeable, h4.2.1, h5]
      push_cast
      omega
  · intro hit
    simp [list_remove, iter_is_end, hit]

/-- Witness of C17: the only element of a list is removed through `list_iter`. -/
theorem list_remove_spec_witness :
    ∃ (l : list Nat) (a : Nat) (fl : List Nat), ListHolds l [a] fl [7] ∧
      (list_iter l).1.object = some (iter_object.addr a) ∧
      ∃ l2, list_remove l (list_iter l).1 = some (l2, 0, none) ∧ ListHolds l2 [] (a :: fl) [] := by
  obtain ⟨l0, _, hinv, _, _⟩ := list_init_inv 4096 (0 : Nat) 4 3 (by decide) (by decide)
    (by decide)
  obtain ⟨a, t, hfl⟩ : ∃ a t, (pool_cells 4096 (sizeof_list_node + 4) 3).reverse = a :: t :=
    ⟨_, _, rfl⟩
  rw [hfl] at hinv
  obtain ⟨l, _, h3, h4, _⟩ := list_insert_neg l0 [] t a 7 (-1) hinv (by decide)
  have hh : ListHolds l [a] t [7] := ⟨h3, by rw [h4]; simp⟩
  have hit : (list_iter l).1.object = some (iter_object.addr a) := by
    simp [list_iter, ListInv_root_cons h3]
  obtain ⟨l2, h5, h6, _⟩ := (list_remove_spec l [a] t [7] (list_iter l).1 hh).1 0 a rfl hit
  exact ⟨l, a, t, hh, hit, l2, h5, by simpa using h6⟩


/-! ## Theorems: queue, stack and the double-ended interface of the list -/

/-- C11: the queue refines the abstract FIFO.  On a queue holding `xs`, for every sequence
of `queue_enq` / `queue_deq` calls that never holds more than `capacity` elements, every
`queue_enq` stores its element, every `queue_deq` on a non-empty queue copies out the
oldest element and returns the number of elements left, `queue_deq` on an empty queue
returns -1 and leaves queue and buffer as they are, and `queue_count` is the length of the
abstract queue after every call. -/
theorem queue_refines_fifo {D : Type} (q : list D) (ns fl : List Nat) (xs : List D)
    (ops : List (QueueOp D)) (h : ListWF q ns fl xs)
    (hw : fifo_within q.pool.capacity xs ops) :
    (∃ q2 ns2 fl2, queue_run q ops = some (q2, (fifo_run xs ops).2) ∧
      ListWF q2 ns2 fl2 (fifo_run xs ops).1 ∧
      queue_count q2 = (((fifo_run xs ops).1.length : Nat) : Int)) ∧
    (xs = [] → queue_deq q = (q, -1, none)) := by
  constructor
  · obtain ⟨q2, ns2, fl2, h1, h2, _⟩ := queue_run_refines q ns fl xs ops h hw
    exact ⟨q2, ns2, fl2, h1, h2, ListWF_count h2⟩
  · intro hx
    subst hx
    have hn := ListWF_nil_of_nil h
    subst hn
    exact list_shift_empty q fl h.1.1

/-- Witness of C11: `a, b, c` are enqueued into a fresh queue of five cells and come out as
`a, b, c`, each call with the number of elements held after it. -/
theorem queue_refines_fifo_witness :
    ∃ (q : list Nat) (fl : List Nat), queue_init 4096 0 4 5 = Except.ok q ∧ ListWF q [] fl [] ∧
      ∃ q2, queue_run q [QueueOp.enq 10, QueueOp.enq 11, QueueOp.enq 12, QueueOp.deq,
          QueueOp.deq, QueueOp.deq, QueueOp.deq]
        = some (q2, [(ListObs.stored true, 1), (ListObs.stored true, 2),
            (ListObs.stored true, 3), (ListObs.removed 2 (some 10), 2),
            (ListObs.removed 1 (some 11), 1), (ListObs.removed 0 (some 12), 0),
            (ListObs.removed (-1) none, 0)]) := by
  obtain ⟨q, fl, h1, h2, h3⟩ := list_init_wf 4096 (0 : Nat) 4 5 (by decide) (by decide) (by decide)
  have hw : fifo_within q.pool.capacity ([] : List Nat)
      [QueueOp.enq 10, QueueOp.enq 11, QueueOp.enq 12, QueueOp.deq,
          QueueOp.deq, QueueOp.deq, QueueOp.deq] := by
    rw [h3]
    simp [fifo_within, fifo_step]
  obtain ⟨q2, _, _, h4, _, _⟩ := (queue_refines_fifo q [] fl [] _ h2 hw).1
  exact ⟨q, fl, h1, h2, q2, h4⟩

/-- C12: the stack is LIFO.  On an empty stack, for every `xs` with `length(xs) <= capacity`,
pushing `xs` in order with `stack_push` and then calling `stack_pop` `length(xs)` times
copies out the elements of `xs` in reverse order, the `i`-th pop returning
`length(xs) - i`; `stack_peek` on an empty stack returns -1 with `ERANGE`; on a stack
holding a non-empty `ys` it returns 0 and copies out the last pushed element of `ys`, and,
being a read, changes neither the contents nor `stack_count`. -/
theorem stack_lifo {D : Type} (s : list D) (fl : List Nat) (h : ListWF s [] fl []) :
    (∀ xs : List D, xs.length ≤ s.pool.capacity →
      ∃ s1 ns1 fl1, stack_push_all s xs = some s1 ∧ ListWF s1 ns1 fl1 xs ∧
        (stack_pop_n xs.length s1).2 = drain_results xs.reverse ∧
        stack_count (stack_pop_n xs.length s1).1 = 0) ∧
    stack_peek s = (-1, none, some Errno.ERANGE) ∧
    (∀ (s2 : list D) (ns2 fl2 : List Nat) (ys : List D), ListWF s2 ns2 fl2 ys → ys ≠ [] →
      ∃ y, ys.getLast? = some y ∧ stack_peek s2 = (0, some y, none)) := by
  refine ⟨?_, ?_, ?_⟩
  · intro xs hlen
    obtain ⟨s1, ns1, fl1, h1, h2, _⟩ := stack_push_all_wf s [] fl [] xs h (by simpa using hlen)
    simp only [List.nil_append] at h2
    have h3 : ListWF s1 ns1 fl1 xs.reverse.reverse := by simpa using h2
    obtain ⟨h4, fl2, h5⟩ := stack_pop_n_wf s1 ns1 fl1 xs.reverse h3
    rw [List.length_reverse] at h4 h5
    refine ⟨s1, ns1, fl1, h1, h2, h4, ?_⟩
    have := ListWF_count h5
    simpa [stack_count] using this
  · have := list_get_node s [] fl (-1) h.1.1
    simpa [stack_peek] using this
  · intro s2 ns2 fl2 ys h2 hne
    have hget := list_get_node s2 ns2 fl2 (-1) h2.1.1
    have hns : ns2 ≠ [] := by
      intro e
      apply hne
      rw [← h2.1.2, e]
      rfl
    obtain ⟨a, ha⟩ := Option.ne_none_iff_exists.mp
      (fun e => hns (List.getLast?_eq_none_iff.mp e))
    refine ⟨s2.data a, ?_, ?_⟩
    · rw [← h2.1.2, List.getLast?_map, ← ha]
      rfl
    · rw [stack_peek, hget, if_neg (by decide), ← ha]

/-- Witness of C12: `10, 11, 12` are pushed on a fresh stack of five cells; the pops give
`12, 11, 10` with `2, 1, 0` elements left. -/
theorem stack_lifo_witness :
    ∃ (s : list Nat) (fl : List Nat), stack_init 4096 0 4 5 = Except.ok s ∧ ListWF s [] fl [] ∧
      ∃ s1, stack_push_all s [10, 11, 12] = some s1 ∧
        (stack_pop_n 3 s1).2 = [(2, some 12), (1, some 11), (0, some 10)] := by
  obtain ⟨s, fl, h1, h2, h3⟩ := list_init_wf 4096 (0 : Nat) 4 5 (by decide) (by decide) (by decide)
  obtain ⟨s1, _, _, h4, _, h5, _⟩ := (stack_lifo s fl h2).1 [10, 11, 12] (by rw [h3]; decide)
  exact ⟨s, fl, h1, h2, s1, h4, h5⟩

/-- C13: the list refines the abstract double-ended sequence.  On a list holding `xs`, for
every sequence of `list_push`, `list_unshift`, `list_pop`, `list_shift` calls that stays
within the capacity, `list_push` appends, `list_unshift` prepends, `list_pop` /
`list_shift` remove and copy out the last / first element and return the element count
after the removal, and on an empty list they return -1 and leave it unchanged.  In
particular, on an empty list, pushing `ys` and shifting `length(ys)` times, or unshifting
`ys` and popping `length(ys)` times, copies out `ys` in order. -/
theorem list_refines_deque {D : Type} (l : list D) (ns fl : List Nat) (xs : List D)
    (ops : List (ListOp D)) (h : ListWF l ns fl xs)
    (hw : deque_within l.pool.capacity xs ops) :
    (∃ l2 ns2 fl2, list_run l ops = some (l2, (deque_run xs ops).2) ∧
      ListWF l2 ns2 fl2 (deque_run xs ops).1 ∧
      list_count l2 = (((deque_run xs ops).1.length : Nat) : Int)) ∧
    (xs = [] → list_pop l = (l, -1, none) ∧ list_shift l = (l, -1, none)) ∧
    (xs = [] → ∀ ys : List D, ys.length ≤ l.pool.capacity →
      (∃ l2, list_run l (ys.map ListOp.push ++ List.replicate ys.length ListOp.shift)
        = some (l2, ys.map (fun _ => ListObs.stored true) ++ drain_obs ys)) ∧
      (∃ l2, list_run l (ys.map ListOp.unshift ++ List.replicate ys.length ListOp.pop)
        = some (l2, ys.map (fun _ => ListObs.stored true) ++ drain_obs ys))) := by
  refine ⟨?_, ?_, ?_⟩
  · obtain ⟨l2, ns2, fl2, h1, h2, _⟩ := list_run_refines l ns fl xs ops h hw
    exact ⟨l2, ns2, fl2, h1, h2, ListWF_count h2⟩
  · intro hx
    subst hx
    have hn := ListWF_nil_of_nil h
    subst hn
    exact ⟨list_pop_empty l fl h.1.1, list_shift_empty l fl h.1.1⟩
  · intro hx ys hlen
    subst hx
    constructor
    · have hw2 : deque_within l.pool.capacity ([] : List D)
          (ys.map ListOp.push ++ List.replicate ys.length ListOp.shift) := by
        apply deque_within_append
        · exact deque_within_push _ _ _ (by simpa using hlen)
        · rw [deque_run_push]
          simpa using deque_within_shift _ ys hlen
      obtain ⟨l2, _, _, h1, _, _⟩ := list_run_refines l ns fl [] _ h hw2
      refine ⟨l2, ?_⟩
      rw [h1, deque_run_append, deque_run_push]
      simp only [List.nil_append]
      rw [deque_run_shift]
    · have hw2 : deque_within l.pool.capacity ([] : List D)
          (ys.map ListOp.unshift ++ List.replicate ys.length ListOp.pop) := by
        apply deque_within_append
        · exact deque_within_unshift _ _ _ (by simpa using hlen)
        · rw [deque_run_unshift]
          simpa using deque_within_pop _ ys hlen
      obtain ⟨l2, _, _, h1, _, _⟩ := list_run_refines l ns fl [] _ h hw2
      refine ⟨l2, ?_⟩
      rw [h1, deque_run_append, deque_run_unshift]
      simp only [List.append_nil]
      rw [deque_run_pop]

/-- Witness of C13: `1, 2, 3` are pushed to a fresh list of five cells and shifted out. -/
theorem list_refines_deque_witness :
    ∃ (l : list Nat) (fl : List Nat), list_init 4096 0 4 5 = Except.ok l ∧ ListWF l [] fl [] ∧
      ∃ l2, list_run l [ListOp.push 1, ListOp.push 2, ListOp.push 3, ListOp.shift,
          ListOp.shift, ListOp.shift]
        = some (l2, [ListObs.stored true, ListObs.stored true, ListObs.stored true,
            ListObs.removed 2 (some 1), ListObs.removed 1 (some 2),
            ListObs.removed 0 (some 3)]) := by
  obtain ⟨l, fl, h1, h2, h3⟩ := list_init_wf 4096 (0 : Nat) 4 5 (by decide) (by decide) (by decide)
  have hw : deque_within l.pool.capacity ([] : List Nat)
      [ListOp.push 1, ListOp.push 2, ListOp.push 3, ListOp.shift,
          ListOp.shift, ListOp.shift] := by
    rw [h3]
    simp [deque_within, deque_step]
  obtain ⟨l2, _, _, h4, _, _⟩ := (list_refines_deque l [] fl [] _ h2 hw).1
  exact ⟨l, fl, h1, h2, l2, h4⟩


/-! ## Theorems: set -/

/-- C14: on a set holding `xs`, `set_add` of a payload equal to a stored element returns the
address of the first such element and changes nothing, also when the set is full;
otherwise `set_add` is `list_insert` at the tail: the element is appended and `set_count`
grows by 1, or, when the set is full, `NULL` is returned with `ENOMEM` and nothing
changes.  In particular adding a payload twice to an empty set returns the same address
both times and leaves `set_count == 1`. -/
theorem set_add_spec {D : Type} [DecidableEq D] (s : list D) (ns fl : List Nat) (xs : List D)
    (d : D) (fuel : Nat) (h : ListWF s ns fl xs) (hfuel : xs.length + 1 < fuel) :
    (d ∈ xs → ∃ a, a ∈ ns ∧ s.data a = d ∧
      ns.find? (fun b => decide (d = s.data b)) = some a ∧
      set_add fuel s d = some (s, some a, none)) ∧
    (d ∉ xs →
      (set_add fuel s d).map (fun r => (r.1, r.2.1))
        = (list_insert s (-1) d).map (fun r => (r.1, r.2.1)) ∧
      (fl ≠ [] → ∃ s2 a e, set_add fuel s d = some (s2, some a, e) ∧
        ListWF s2 (ns ++ [a]) fl.tail (xs ++ [d]) ∧ set_count s2 = set_count s + 1) ∧
      (fl = [] → set_add fuel s d = some (s, none, some Errno.ENOMEM))) ∧
    (xs = [] → fl ≠ [] → ∃ s2 a e, set_add fuel s d = some (s2, some a, e) ∧
      set_add fuel s2 d = some (s2, some a, none) ∧ set_count s2 = 1) := by
  have hlen := ListWF_length h
  have hfuel2 : ns.length < fuel := by omega
  have hfresh : d ∉ xs → fl ≠ [] → ∃ s2 a e, set_add fuel s d = some (s2, some a, e) ∧
      ListWF s2 (ns ++ [a]) fl.tail (xs ++ [d]) ∧ set_count s2 = set_count s + 1 ∧
      s2.data a = d := by
    intro hd hfl
    have hnone := find?_data_none s d ns (by rw [h.1.2]; exact hd)
    have hroom : xs.length < s.pool.capacity := by
      rw [h.2, hlen]
      have : 0 < fl.length := List.length_pos.mpr hfl
      omega
    obtain ⟨s2, a, t, h1, h2, h3, _, h5⟩ := ListWF_push s ns fl xs d h hroom
    refine ⟨s2, a, (list_iter s).2, ?_, by rw [h1]; exact h3, ?_, h5⟩
    · rw [set_add_fresh s ns fl d fuel h.1.1 hfuel2 hnone]
      simp only [list_push] at h2
      rw [h2]
      rfl
    · simp only [set_count, ListWF_count h3, ListWF_count h, List.length_append,
        List.length_cons, List.length_nil]
      push_cast
      rfl
  refine ⟨?_, ?_, ?_⟩
  · intro hd
    obtain ⟨a, h1, h2, h3⟩ := find?_data_some s d ns (by rw [h.1.2]; exact hd)
    exact ⟨a, h3, h2, h1, set_add_found s ns fl d fuel a h.1.1 hfuel2 h1⟩
  · intro hd
    have hnone := find?_data_none s d ns (by rw [h.1.2]; exact hd)
    refine ⟨?_, ?_, ?_⟩
    · rw [set_add_fresh s ns fl d fuel h.1.1 hfuel2 hnone, Option.map_map]
      rfl
    · intro hfl
      obtain ⟨s2, a, e, h1, h2, h3, _⟩ := hfresh hd hfl
      exact ⟨s2, a, e, h1, h2, h3⟩
    · intro hfl
      subst hfl
      rw [set_add_fresh s ns [] d fuel h.1.1 hfuel2 hnone, list_insert_full s ns d (-1) h.1.1]
      rfl
  · intro hx hfl
    subst hx
    obtain ⟨s2, a, e, h1, h2, h3, h4⟩ := hfresh (by simp) hfl
    have hn := ListWF_nil_of_nil h
    subst hn
    simp only [List.nil_append] at h2
    refine ⟨s2, a, e, h1, ?_, ?_⟩
    · apply set_add_found s2 [a] fl.tail d fuel a h2.1.1 (by simp; omega)
      simp [h4]
    · simpa [set_count] using ListWF_count h2

/-- Witness of C14: the payload 7 is added twice to a fresh set of three cells. -/
theorem set_add_spec_witness :
    ∃ (s : list Nat) (fl : List Nat), set_init 4096 0 4 3 = Except.ok s ∧ ListWF s [] fl [] ∧
      ∃ s2 a e, set_add 5 s 7 = some (s2, some a, e) ∧
        set_add 5 s2 7 = some (s2, some a, none) ∧ set_count s2 = 1 := by
  obtain ⟨s, fl, h1, h2, h3⟩ := list_init_wf 4096 (0 : Nat) 4 3 (by decide) (by decide) (by decide)
  have hfl : fl ≠ [] := by
    intro e
    have := h2.2
    rw [h3, e] at this
    simp at this
  exact ⟨s, fl, h1, h2, (set_add_spec s [] fl [] 7 5 h2 (by decide)).2.2 rfl hfl⟩

/-- C15: in every state reachable from `set_init` by `set_add` and `set_clear`, no two
stored elements are equal. -/
theorem set_unique_invariant {D : Type} [DecidableEq D] (mem : Nat) (zero : D)
    (data_bytes capacity : Nat) (s : list D)
    (h : SetReach mem zero data_bytes capacity s) :
    ∃ ns fl xs, ListWF s ns fl xs ∧ xs.Nodup := by
  induction h with
  | init s hs =>
    unfold set_init at hs
    obtain ⟨fl, h2, _⟩ := list_init_ok_wf mem zero data_bytes capacity s hs
    exact ⟨[], fl, [], h2, List.nodup_nil⟩
  | add s s2 fuel d r e _ hadd ih =>
    obtain ⟨ns, fl, xs, hwf, hnd⟩ := ih
    have hloop : ∃ q, set_add_loop s d fuel (list_iter s).1 = some q := by
      unfold set_add at hadd
      cases hq : set_add_loop s d fuel (list_iter s).1 with
      | none => rw [hq] at hadd; exact absurd hadd (by simp)
      | some q => exact ⟨q, rfl⟩
    obtain ⟨q, hq⟩ := hloop
    have hqe : q = ns.find? (fun a => decide (d = s.data a)) := by
      rw [list_iter_eq] at hq
      exact set_add_loop_sound s d ns s.root fuel q hwf.1.1.1 hq
    unfold set_add at hadd
    rw [hq] at hadd
    cases q with
    | some a =>
      simp only [Option.some.injEq, Prod.mk.injEq] at hadd
      rw [← hadd.1]
      exact ⟨ns, fl, xs, hwf, hnd⟩
    | none =>
      have hdx : d ∉ xs := by
        intro hd
        obtain ⟨a, ha, _⟩ := find?_data_some s d ns (by rw [hwf.1.2]; exact hd)
        rw [← hqe] at ha
        exact absurd ha (by simp)
      cases fl with
      | nil =>
        rw [list_insert_full s ns d (-1) hwf.1.1] at hadd
        simp only [Option.some.injEq, Prod.mk.injEq] at hadd
        rw [← hadd.1]
        exact ⟨ns, [], xs, hwf, hnd⟩
      | cons a t =>
        have hroom : xs.length < s.pool.capacity := by
          rw [hwf.2, ListWF_length hwf]
          simp
        obtain ⟨s3, b, t2, h1, h2, h3, _, _⟩ := ListWF_push s ns (a :: t) xs d hwf hroom
        simp only [list_push] at h2
        rw [h2] at hadd
        simp only [Option.some.injEq, Prod.mk.injEq] at hadd
        rw [← hadd.1]
        refine ⟨_, _, _, h3, ?_⟩
        rw [List.nodup_append]
        refine ⟨hnd, by simp, ?_⟩
        intro x hx1 hx2
        simp only [List.mem_singleton] at hx2
        exact hdx (hx2 ▸ hx1)
  | clear s _ _ =>
    exact ⟨[], _, [], list_clear_wf s, List.nodup_nil⟩

/-- Witness of C15: on a fresh set of three cells, 7 is added, 7 is added again (the set
does not change), 9 is added, the set is cleared and 9 is added: the set that held 7 and
9, and the final set, hold no element twice. -/
theorem set_unique_invariant_witness :
    ∃ s0 s1 s2 s3 : list Nat, set_init 4096 0 4 3 = Except.ok s0 ∧
      (set_add 5 s0 7).map (fun r => r.1) = some s1 ∧
      (set_add 5 s1 7).map (fun r => r.1) = some s1 ∧
      (set_add 5 s1 9).map (fun r => r.1) = some s2 ∧ set_count s2 = 2 ∧
      (set_add 5 (set_clear s2).1 9).map (fun r => r.1) = some s3 ∧ set_count s3 = 1 ∧
      (∃ ns fl xs, ListWF s2 ns fl xs ∧ xs.Nodup) ∧
      (∃ ns fl xs, ListWF s3 ns fl xs ∧ xs.Nodup) := by
  have hstep : ∀ (s s2 : list Nat) (d : Nat), SetReach 4096 0 4 3 s →
      (set_add 5 s d).map (fun r => r.1) = some s2 → SetReach 4096 0 4 3 s2 := by
    intro s s2 d hr h1
    cases h : set_add 5 s d with
    | none => rw [h] at h1; exact absurd h1 (by simp)
    | some r =>
      rw [h] at h1
      obtain ⟨t, r, e⟩ := r
      have : t = s2 := by simpa using h1
      subst this
      exact SetReach.add s t 5 d r e hr h
  refine ⟨_, _, _, _, rfl, rfl, rfl, rfl, by decide, rfl, by decide, ?_, ?_⟩
  · exact set_unique_invariant 4096 0 4 3 _
      (hstep _ _ 9 (hstep _ _ 7 (hstep _ _ 7 (SetReach.init _ rfl) rfl) rfl) rfl)
  · exact set_unique_invariant 4096 0 4 3 _
      (hstep _ _ 9 (SetReach.clear _ (hstep _ _ 9 (hstep _ _ 7 (SetReach.init _ rfl) rfl) rfl))
        rfl)

/-! ## Theorems: tree insertion -/

/-- C7: on a tree with a free cell, `ntree_insert_at` on an empty tree makes the new node
the root with age 1; on a non-empty tree with a null parent it appends the new node as
last root-level sibling with age 1 and a null parent; with a parent `q` of the tree it
appends the new node as last child of `q`, after the existing children in their order,
with parent `q` and age `q.age + 1`.  In every case the new node has no children, its
payload is the copy of `data`, no other payload or age changes, and `ntree_count` grows
by 1. -/
theorem ntree_insert_at_spec {D : Type} (t : ntree D) (b : BT) (fl : List Nat) (d : D)
    (fuel : Nat) (h : TreeWF t b fl) (hfree : 0 < pool_freeable t.pool)
    (hfuel : b.pre.length < fuel) :
    (b = BT.nil → ∀ parent, ∃ t2 a, ntree_insert_at fuel t parent d = some (t2, some a, none) ∧
      t2.root = some a ∧ t2.next_sibling a = none ∧ t2.age a = 1 ∧
      t2.first_child a = none ∧ t2.data a = d ∧
      (∀ y, y ≠ a → t2.data y = t.data y ∧ t2.age y = t.age y) ∧
      ntree_count t2 = ntree_count t + 1 ∧
      (parent = none → TreeWF t2 (BT.node a BT.nil BT.nil) fl.tail)) ∧
    (b ≠ BT.nil → ∃ t2 a, ntree_insert_at fuel t none d = some (t2, some a, none) ∧
      TreeWF t2 (b.append_sib a) fl.tail ∧ (b.append_sib a).sibs = b.sibs ++ [a] ∧
      t2.parent a = none ∧ t2.age a = 1 ∧
      t2.first_child a = none ∧ t2.data a = d ∧
      (∀ y, y ≠ a → t2.data y = t.data y ∧ t2.age y = t.age y) ∧
      ntree_count t2 = ntree_count t + 1) ∧
    (∀ q ∈ b.pre, ∃ t2 a, ntree_insert_at fuel t (some q) d = some (t2, some a, none) ∧
      TreeWF t2 (b.add_child q a) fl.tail ∧
      (b.add_child q a).children q = b.children q ++ [a] ∧
      t2.parent a = some q ∧ t2.age a = t.age q + 1 ∧
      t2.first_child a = none ∧ t2.data a = d ∧
      (∀ y, y ≠ a → t2.data y = t.data y ∧ t2.age y = t.age y) ∧
      ntree_count t2 = ntree_count t + 1) := by
  obtain ⟨a, rest, hfl⟩ := TreeWF_free_cons h hfree
  subst hfl
  have hnd : b.pre.Nodup := (List.nodup_append.mp h.1.2.2.1).1
  have hcount : ∀ t2 : ntree D, t2.pool.capacity = t.pool.capacity →
      t2.pool.freeable = rest.length → ntree_count t2 = ntree_count t + 1 := by
    intro t2 hc hf
    simp only [ntree_count, pool_capacity, pool_freeable, hc, hf, h.1.2.2.2.1,
      List.length_cons]
    push_cast
    omega
  have hframe : ∀ (t2 : ntree D) (v : Int), t2.data = Function.update t.data a d →
      t2.age = Function.update t.age a v →
      t2.data a = d ∧ t2.age a = v ∧
        ∀ y, y ≠ a → t2.data y = t.data y ∧ t2.age y = t.age y := by
    intro t2 v h1 h2
    refine ⟨by rw [h1, Function.update_same], by rw [h2, Function.update_same], ?_⟩
    intro y hy
    rw [h1, h2, Function.update_noteq hy, Function.update_noteq hy]
    exact ⟨rfl, rfl⟩
  have hwf : ∀ (t2 : ntree D) (b2 : BT), TreeInv t2 b2 rest →
      t2.pool.capacity = t.pool.capacity → b2.pre.Perm (a :: b.pre) → TreeWF t2 b2 rest := by
    intro t2 b2 hi hc hp
    refine ⟨hi, ?_⟩
    rw [hc, h.2, hp.length_eq]
    simp only [List.length_cons]
    omega
  refine ⟨?_, ?_, ?_⟩
  · intro hb parent
    subst hb
    obtain ⟨t2, h1, h2, h3, h4, _, h6, h7, h8, h9⟩ :=
      ntree_insert_at_empty t a rest parent d fuel h.1
    obtain ⟨f1, f2, f3⟩ := hframe t2 1 h3 h4
    refine ⟨t2, a, h1, h2, h7, f2, h6, f1, f3, hcount t2 h8 h9, ?_⟩
    intro hp
    subst hp
    obtain ⟨t3, g1, g2, _, _, _, _, g7⟩ := ntree_insert_at_root t BT.nil a rest d fuel h.1 hfuel
    rw [h1] at g1
    have e : t2 = t3 := by
      have := Option.some.inj g1
      exact (Prod.mk.inj this).1
    subst e
    exact hwf t2 _ g2 g7 (by simp [BT.append_sib, BT.pre])
  · intro _
    obtain ⟨t2, h1, h2, h3, h4, h5, h6, h7⟩ := ntree_insert_at_root t b a rest d fuel h.1 hfuel
    obtain ⟨f1, f2, f3⟩ := hframe t2 1 h3 h4
    have hp : (b.append_sib a).pre.Perm (a :: b.pre) := by
      rw [BT.pre_append_sib]
      exact List.perm_append_singleton a b.pre
    exact ⟨t2, a, h1, hwf t2 _ h2 h7 hp, BT.sibs_append_sib b a, h5, f2, h6, f1, f3,
      hcount t2 h7 h2.2.2.2.1⟩
  · intro q hq
    obtain ⟨t2, h1, h2, h3, h4, h5, h6, h7⟩ :=
      ntree_insert_at_child t b a rest q d fuel h.1 hq hfuel
    obtain ⟨f1, f2, f3⟩ := hframe t2 _ h3 h4
    exact ⟨t2, a, h1, hwf t2 _ h2 h7 (BT.pre_add_child_perm b q a hq hnd),
      BT.children_add_child b q a hq hnd, h5, f2, h6, f1, f3, hcount t2 h7 h2.2.2.2.1⟩

/-- Witness of C7: the first insertion into a fresh tree of five cells. -/
theorem ntree_insert_at_spec_witness :
    ∃ (t : ntree Nat) (fl : List Nat), ntree_init 4096 0 4 5 = Except.ok t ∧
      TreeWF t BT.nil fl ∧ 0 < pool_freeable t.pool ∧
      ∃ t2 a, ntree_insert_at 1 t none 7 = some (t2, some a, none) ∧ t2.root = some a ∧
        t2.age a = 1 ∧ TreeWF t2 (BT.node a BT.nil BT.nil) fl.tail := by
  obtain ⟨t, fl, h1, h2, h3, h4⟩ := ntree_init_wf 4096 (0 : Nat) 4 5 (by decide) (by decide) (by decide)
  have hf : 0 < pool_freeable t.pool := by
    simp [pool_freeable, h2.1.2.2.2.1, h4]
  obtain ⟨t2, a, g1, g2, _, g4, _, _, _, _, g9⟩ :=
    (ntree_insert_at_spec t BT.nil fl 7 1 h2 hf (by simp [BT.pre])).1 rfl none
  exact ⟨t, fl, h1, h2, hf, t2, a, g1, g2, g4, g9 rfl⟩

/-- C18: exceeding the capacity is a failure that changes nothing.  On a list (queue,
stack) whose pool has no free cell, `list_insert`, `list_push`, `queue_enq` and
`stack_push` return `NULL` with `ENOMEM` and leave the list as it is; on a tree whose pool
has no free cell, `ntree_insert` and `ntree_insert_at`, for a null parent or a parent of
the tree, return `NULL` with `ENOMEM` and leave the tree as it is. -/
theorem capacity_exceeded_unchanged {D : Type} :
    (∀ (l : list D) (ns fl : List Nat) (xs : List D) (index : Int) (d : D),
      ListHolds l ns fl xs → pool_freeable l.pool = 0 →
      list_insert l index d = some (l, none, some Errno.ENOMEM) ∧
      list_push l d = some (l, none, some Errno.ENOMEM) ∧
      queue_enq l d = some (l, none, some Errno.ENOMEM) ∧
      stack_push l d = some (l, none, some Errno.ENOMEM)) ∧
    (∀ (t : ntree D) (b : BT) (fl : List Nat) (fuel : Nat) (parent : Ptr) (d : D),
      TreeWF t b fl → pool_freeable t.pool = 0 → (∀ q, parent = some q → q ∈ b.pre) →
      b.pre.length < fuel →
      ntree_insert_at fuel t parent d = some (t, none, some Errno.ENOMEM) ∧
      ntree_insert fuel t d = some (t, none, some Errno.ENOMEM)) := by
  constructor
  · intro l ns fl xs index d h hfull
    have hfl : fl = [] := by
      have := h.1.2.2.2.2
      simp only [pool_freeable] at hfull
      have h0 : l.pool.freeable = 0 := by exact_mod_cast hfull
      rw [h0] at this
      exact List.length_eq_zero.mp this.symm
    subst hfl
    exact ⟨list_insert_full l ns d index h.1, list_insert_full l ns d (-1) h.1,
      list_insert_full l ns d (-1) h.1, list_insert_full l ns d (-1) h.1⟩
  · intro t b fl fuel parent d h hfull hp hfuel
    have hfl : fl = [] := by
      have := h.1.2.2.2.1
      simp only [pool_freeable] at hfull
      have h0 : t.pool.freeable = 0 := by exact_mod_cast hfull
      rw [h0] at this
      exact List.length_eq_zero.mp this.symm
    subst hfl
    exact ⟨ntree_insert_at_full t b parent d fuel h.1 hp hfuel,
      ntree_insert_at_full t b none d fuel h.1 (by simp) hfuel⟩

/-- Witness of C18: a queue of one cell that holds one element refuses a second one. -/
theorem capacity_exceeded_unchanged_witness :
    ∃ (q : list Nat) (a : Nat), ListHolds q [a] [] [7] ∧ pool_freeable q.pool = 0 ∧
      queue_enq q 8 = some (q, none, some Errno.ENOMEM) := by
  obtain ⟨q0, fl, _, h2, h3⟩ := list_init_wf 4096 (0 : Nat) 4 1 (by decide) (by decide) (by decide)
  obtain ⟨q, a, t, h4, _, h6, _, _⟩ := ListWF_push q0 [] fl [] 7 h2 (by rw [h3]; decide)
  have ht : t = [] := by
    have := h2.2
    rw [h3, h4] at this
    simp only [List.length_nil, List.length_cons, zero_add] at this
    exact List.length_eq_zero.mp (by omega)
  subst ht
  have hh : ListHolds q [a] [] [7] := by simpa using h6.1
  have hf : pool_freeable q.pool = 0 := by simp [pool_freeable, hh.1.2.2.2.2]
  exact ⟨q, a, hh, hf,
    ((@capacity_exceeded_unchanged Nat).1 q [a] [] [7] 0 8 hh hf).2.2.1⟩

/-! ## Theorems: insertion by payload -/

/-- C10: on a non-empty well-formed tree, when no node has a payload equal to
`parent_data`, `ntree_insert_at_by_data` returns `NULL` and the tree is exactly as it was:
the same links, payloads and pool, hence the same `ntree_count`. -/
theorem ntree_insert_at_by_data_no_match {D : Type} [DecidableEq D] (t : ntree D) (b : BT)
    (fl : List Nat) (pd d : D) (fuel : Nat) (h : TreeWF t b fl) (hne : b ≠ BT.nil)
    (hno : ∀ y ∈ b.pre, t.data y ≠ pd) (hfuel : b.pre.length < fuel) :
    ntree_insert_at_by_data fuel t pd d = some (t, none, none) ∧
      ntree_count t = ((b.pre.length : Nat) : Int) := by
  refine ⟨?_, TreeWF_count h⟩
  have hnd : b.pre.Nodup := (List.nodup_append.mp h.1.2.2.1).1
  cases b with
  | nil => exact absurd rfl hne
  | node x c s =>
    have hr : t.root = some x := h.1.1.1
    have hrep : TRep t none (some x) (BT.node x c s) := hr ▸ h.1.1
    unfold ntree_insert_at_by_data
    simp only [hr]
    refine internal_ntree_insert_none t pd d _ none x fuel hrep ?_ hfuel
    intro y hy
    simp only [ntree_parent_matches]
    rcases TRep_parent t none (some x) _ y hrep hnd hy with ⟨_, g⟩ | ⟨q, g1, g2, _⟩
    · rw [g]
    · rw [g2]
      exact decide_eq_false (fun e => hno q g1 e.symm)

/-- Witness of C10: a tree with the single payload 7 is searched for the payload 9. -/
theorem ntree_insert_at_by_data_no_match_witness :
    ∃ (t : ntree Nat) (a : Nat) (fl : List Nat),
      TreeWF t (BT.node a BT.nil BT.nil) fl ∧ t.data a = 7 ∧
      ntree_insert_at_by_data 2 t 9 5 = some (t, none, none) ∧ ntree_count t = 1 := by
  obtain ⟨t, a, fl, h1, h2, _⟩ := ntree_example_one 1 7
  have hw := ntree_insert_at_by_data_no_match t (BT.node a BT.nil BT.nil) fl 9 5 2 h1
    (by simp) (by simp [BT.pre, h2]) (by simp [BT.pre])
  exact ⟨t, a, fl, h1, h2, hw.1, by simpa [BT.pre] using hw.2⟩

/-- C8 (the code fails where the claim promises success): on a non-empty well-formed tree
in which every node whose payload equals `parent_data` has no child, among them a tree
whose only node has that payload, `ntree_insert_at_by_data` returns `NULL` and changes
nothing, whatever the free capacity. -/
theorem ntree_insert_at_by_data_childless_fails {D : Type} [DecidableEq D] (t : ntree D)
    (b : BT) (fl : List Nat) (pd d : D) (fuel : Nat) (h : TreeWF t b fl) (hne : b ≠ BT.nil)
    (hleaf : ∀ q ∈ b.pre, t.data q = pd → t.first_child q = none)
    (hfuel : b.pre.length < fuel) :
    ntree_insert_at_by_data fuel t pd d = some (t, none, none) := by
  have hnd : b.pre.Nodup := (List.nodup_append.mp h.1.2.2.1).1
  cases b with
  | nil => exact absurd rfl hne
  | node x c s =>
    have hr : t.root = some x := h.1.1.1
    have hrep : TRep t none (some x) (BT.node x c s) := hr ▸ h.1.1
    unfold ntree_insert_at_by_data
    simp only [hr]
    refine internal_ntree_insert_none t pd d _ none x fuel hrep ?_ hfuel
    intro y hy
    simp only [ntree_parent_matches]
    rcases TRep_parent t none (some x) _ y hrep hnd hy with ⟨_, g⟩ | ⟨q, g1, g2, g3⟩
    · rw [g]
    · rw [g2]
      refine decide_eq_false (fun e => ?_)
      have hl : t.pool.link q = none := hleaf q g1 e.symm
      have hch := TRep_children t none (some x) _ q hrep g1 hnd
      rw [hl] at hch
      rw [Seg_none_nil _ _ hch] at g3
      exact absurd g3 (List.not_mem_nil y)

/-- Witness of C8: the tree whose only node has the payload 7 has a free cell, and the
insertion under the payload 7 fails. -/
theorem ntree_insert_at_by_data_childless_fails_witness :
    ∃ (t : ntree Nat) (a : Nat) (fl : List Nat),
      TreeWF t (BT.node a BT.nil BT.nil) fl ∧ t.data a = 7 ∧ fl.length = 1 ∧
      ntree_insert_at_by_data 2 t 7 5 = some (t, none, none) := by
  obtain ⟨t, a, fl, h1, h2, _, h4, _⟩ := ntree_example_one 1 7
  refine ⟨t, a, fl, h1, h2, h4, ntree_insert_at_by_data_childless_fails t _ fl 7 5 2 h1
    (by simp) ?_ (by simp [BT.pre])⟩
  intro q hq _
  simp only [BT.pre, List.append_nil, List.mem_singleton] at hq
  rw [hq]
  exact h1.1.1.2.2.1

/-- C9, counterexample: in the forest `0:[9:[1]], 9:[2]` the first node in pre-order with
the payload 9 is the child of the first root, and `ntree_insert_at_by_data` with the
payload 9 attaches the new node under the second root: the pre-order sequence becomes
`0, 9, 1, 9, 2, 5` and not `0, 9, 1, 5, 9, 2`. -/
theorem ntree_insert_at_by_data_preorder_counterexample :
    ∃ (t0 t t2 : ntree Nat) (hs : List Nat) (a : Nat),
      ntree_init 4096 (0 : Nat) 4 6 = Except.ok t0 ∧
      ntree_build 6 t0 [(none, 0), (some 0, 9), (some 1, 1), (none, 9), (some 3, 2)] []
        = some (t, hs) ∧
      ntree_preorder 8192 9 t = some [(0, 1), (9, 2), (1, 3), (9, 1), (2, 2)] ∧
      ntree_insert_at_by_data 6 t 9 5 = some (t2, some a, none) ∧
      t2.parent a = hs.get? 3 ∧ t2.parent a ≠ hs.get? 1 ∧
      ntree_preorder 8192 9 t2 = some [(0, 1), (9, 2), (1, 3), (9, 1), (2, 2), (5, 2)] := by
  refine ⟨_, _, _, _, _, rfl, rfl, ?_, rfl, ?_, ?_, ?_⟩
  · decide
  · rfl
  · decide
  · decide

/-- C9, amended: on a well-formed tree with a free cell, `ntree_insert_at_by_data` searches
the nodes in the order `BT.find_by` (a node, then the forest of its next sibling, then the
forest of its first child) for the first node `y` whose parent has a payload equal to
`parent_data`, and has the effect of `ntree_insert_at` with the parent `q` of `y`: the new
node becomes the last child of `q` with age `q.age + 1`. -/
theorem ntree_insert_at_by_data_search_order {D : Type} [DecidableEq D] (t : ntree D)
    (b : BT) (fl : List Nat) (pd d : D) (fuel : Nat) (y : Nat) (h : TreeWF t b fl)
    (hfree : 0 < pool_freeable t.pool) (hfuel : b.pre.length < fuel)
    (hfind : b.find_by (ntree_parent_matches t pd) = some y) :
    ∃ q t2 a, t.parent y = some q ∧ t.data q = pd ∧ q ∈ b.pre ∧ y ∈ b.children q ∧
      ntree_insert_at_by_data fuel t pd d = some (t2, some a, none) ∧
      ntree_insert_at fuel t (some q) d = some (t2, some a, none) ∧
      TreeWF t2 (b.add_child q a) fl.tail ∧
      (b.add_child q a).children q = b.children q ++ [a] ∧
      t2.parent a = some q ∧ t2.age a = t.age q + 1 ∧ t2.data a = d := by
  obtain ⟨a, rest, hfl⟩ := TreeWF_free_cons h hfree
  subst hfl
  have hnd : b.pre.Nodup := (List.nodup_append.mp h.1.2.2.1).1
  cases b with
  | nil => simp [BT.find_by] at hfind
  | node x c s =>
    have hr : t.root = some x := h.1.1.1
    have hrep : TRep t none (some x) (BT.node x c s) := hr ▸ h.1.1
    obtain ⟨q, g1, g2, g3, g4, g5⟩ := internal_ntree_insert_found t _ a rest pd d fuel h.1
      hfuel _ none x fuel y hrep (fun z hz => hz) hfuel hfind
    obtain ⟨t2, e1, e2, e3, e4, e5⟩ := TreeWF_insert_at_child t _ a rest q d fuel h g3 hfuel
    refine ⟨q, t2, a, g1, g2.symm, g3, g4, ?_, e1, e2, BT.children_add_child _ q a g3 hnd, e5,
      by rw [e4, Function.update_same], by rw [e3, Function.update_same]⟩
    unfold ntree_insert_at_by_data
    simp only [hr]
    rw [g5, e1]

/-- Witness of C9: in the tree `7:[8]` the search for the payload 7 finds the child and the
new node becomes the second child of the root. -/
theorem ntree_insert_at_by_data_search_order_witness :
    ∃ (t : ntree Nat) (r c : Nat) (fl : List Nat),
      TreeWF t (BT.node r (BT.node c BT.nil BT.nil) BT.nil) fl ∧ t.data r = 7 ∧
      ∃ t2 a, ntree_insert_at_by_data 3 t 7 5 = some (t2, some a, none) ∧
        t2.parent a = some r ∧ t2.age a = 2 ∧
        TreeWF t2 ((BT.node r (BT.node c BT.nil BT.nil) BT.nil).add_child r a) fl.tail := by
  obtain ⟨t, r, c, fl, h1, h2, h3, h4, h5, h6, h7, h8, h9⟩ := ntree_example_two 1 7 8
  have hfree : 0 < pool_freeable t.pool := by
    simp [pool_freeable, h1.1.2.2.2.1, h8]
  have hfind : (BT.node r (BT.node c BT.nil BT.nil) BT.nil).find_by
      (ntree_parent_matches t 7) = some c := by
    simp [BT.find_by, ntree_parent_matches, h6, h7, h2]
  obtain ⟨q, t2, a, g1, _, _, _, g5, _, g7, _, g9, g10, _⟩ :=
    ntree_insert_at_by_data_search_order t _ fl 7 5 3 c h1 hfree (by simp [BT.pre]) hfind
  have hq : q = r := by
    rw [h7] at g1
    exact (Option.some.inj g1).symm
  subst hq
  exact ⟨t, q, c, fl, h1, h2, t2, a, g5, g9, by rw [g10, h4]; rfl, g7⟩

/-! ## Theorems: reset, bounds check and creation -/

/-- C21: `pool_clear` returns 0 and resets a pool, whatever its state, to the state of a
pool just created by `pool_init` over the same region: the same `mem`, `data_bytes`,
`capacity`, `freeable` (the capacity) and root, the same free list (every cell of the
region, the links of the cells being equal); `pool_clear` is idempotent, and after it
exactly `capacity` allocations succeed, with the results they have on the fresh pool. -/
theorem pool_clear_resets (p p0 : pool)
    (h0 : pool_init p.mem p.data_bytes p.capacity = Except.ok p0) :
    (pool_clear p).2 = 0 ∧
    (pool_clear p).1.mem = p0.mem ∧ (pool_clear p).1.data_bytes = p0.data_bytes ∧
    (pool_clear p).1.capacity = p0.capacity ∧ (pool_clear p).1.freeable = p0.freeable ∧
    pool_freeable (pool_clear p).1 = pool_capacity (pool_clear p).1 ∧
    (pool_clear p).1.root = p0.root ∧
    Seg (pool_clear p).1.link (pool_clear p).1.root
      (pool_cells p.mem p.data_bytes p.capacity).reverse none ∧
    Seg p0.link p0.root (pool_cells p.mem p.data_bytes p.capacity).reverse none ∧
    (∀ a ∈ pool_cells p.mem p.data_bytes p.capacity, (pool_clear p).1.link a = p0.link a) ∧
    (pool_clear (pool_clear p).1).1 = (pool_clear p).1 ∧
    (pool_alloc_n p.capacity (pool_clear p).1).2 = (pool_alloc_n p.capacity p0).2 ∧
    (pool_alloc_n p.capacity (pool_clear p).1).2.length = p.capacity ∧
    (∀ r ∈ (pool_alloc_n p.capacity (pool_clear p).1).2, ∃ a, r = some a) ∧
    (pool_alloc (pool_alloc_n p.capacity (pool_clear p).1).1).2.1 = none := by
  obtain ⟨_, _, hp0⟩ := pool_init_ok_inv _ _ _ _ h0
  subst hp0
  obtain ⟨h1, h2, h3, h4, h5⟩ := setup_spec p p.mem p.data_bytes p.capacity
  obtain ⟨g1, g2, g3, g4, g5⟩ := setup_spec
    (POOL_INITIALIZER p.mem p.data_bytes p.capacity (fun _ => none))
    p.mem p.data_bytes p.capacity
  obtain ⟨a1, a2, _⟩ := setup_agree p
    (POOL_INITIALIZER p.mem p.data_bytes p.capacity (fun _ => none))
    p.mem p.data_bytes p.capacity
  obtain ⟨b1, b2⟩ := setup_alloc_n p p.mem p.data_bytes p.capacity
  obtain ⟨c1, _⟩ := setup_alloc_n
    (POOL_INITIALIZER p.mem p.data_bytes p.capacity (fun _ => none))
    p.mem p.data_bytes p.capacity
  refine ⟨rfl, h2.trans g2.symm, h3.trans g3.symm, h4.trans g4.symm, h5.trans g5.symm, ?_, a1,
    h1, g1, a2, pool_clear_idem p, b1.trans c1.symm, ?_, ?_, b2⟩
  · simp only [pool_freeable, pool_capacity, pool_clear, h4, h5]
  · simp only [pool_clear]
    rw [b1]
    simp [pool_cells_length]
  · intro r hr
    simp only [pool_clear] at hr
    rw [b1] at hr
    simp only [List.mem_map] at hr
    obtain ⟨a, _, rfl⟩ := hr
    exact ⟨a, rfl⟩

/-- Witness of C21: a pool of five cells, three of them allocated, is cleared. -/
theorem pool_clear_resets_witness :
    ∃ p0 p, pool_init 4096 4 5 = Except.ok p0 ∧ p = (pool_alloc_n 3 p0).1 ∧
      pool_freeable p = 2 ∧ pool_freeable (pool_clear p).1 = 5 ∧
      (pool_clear p).1.root = p0.root ∧
      (pool_alloc_n 5 (pool_clear p).1).2 = (pool_alloc_n 5 p0).2 := by
  have hw := pool_clear_resets
    (pool_alloc_n 3 (internal_pool_setup (POOL_INITIALIZER 4096 4 5 (fun _ => none)) 4096 4 5)).1
    (internal_pool_setup (POOL_INITIALIZER 4096 4 5 (fun _ => none)) 4096 4 5) rfl
  exact ⟨_, _, rfl, rfl, by decide, by decide, hw.2.2.2.2.2.2.1,
    hw.2.2.2.2.2.2.2.2.2.2.2.1⟩

/-- C22 (the code misses the claim for small payloads): `pool_contains` compares with
`mem + data_bytes * capacity`, the requested payload size and not the size of a cell.
When `data_bytes` is at least the size of a link this is the region; when it is smaller,
cells at the high end of the region, among them the first cell `pool_alloc` returns on a
fresh pool of capacity at least 2 with `data_bytes <= 4`, are reported as not contained. -/
theorem pool_contains_uses_data_bytes (mem data_bytes capacity : Nat) (p : pool)
    (h : pool_init mem data_bytes capacity = Except.ok p) :
    (∀ x, pool_contains p x = true ↔ mem ≤ x ∧ x < mem + data_bytes * capacity) ∧
    (sizeof_pool_node ≤ data_bytes →
      ∀ x, pool_contains p x = true ↔
        mem ≤ x ∧ x < mem + capacity * max data_bytes sizeof_pool_node) ∧
    (pool_alloc p).2.1 = some (mem + max data_bytes sizeof_pool_node * (capacity - 1)) ∧
    (data_bytes * capacity ≤ max data_bytes sizeof_pool_node * (capacity - 1) →
      pool_contains p (mem + max data_bytes sizeof_pool_node * (capacity - 1)) = false) := by
  obtain ⟨hd, hc, hp⟩ := pool_init_ok_inv _ _ _ _ h
  subst hp
  obtain ⟨h1, h2, h3, h4, h5⟩ := setup_spec
    (POOL_INITIALIZER mem data_bytes capacity (fun _ => none)) mem data_bytes capacity
  have hcont : ∀ x, pool_contains (internal_pool_setup
      (POOL_INITIALIZER mem data_bytes capacity (fun _ => none)) mem data_bytes capacity) x
      = true ↔ mem ≤ x ∧ x < mem + data_bytes * capacity := by
    intro x
    simp only [pool_contains, h2, h3, h4, Bool.and_eq_true, decide_eq_true_eq]
  refine ⟨hcont, ?_, ?_, ?_⟩
  · intro hge x
    rw [hcont x, Nat.max_eq_left hge, Nat.mul_comm]
  · obtain ⟨n, hn⟩ : ∃ n, capacity = n + 1 := ⟨capacity - 1, by omega⟩
    subst hn
    have hcells : (pool_cells mem data_bytes (n + 1)).reverse
        = cell_addr mem data_bytes n :: (pool_cells mem data_bytes n).reverse := by
      simp [pool_cells, List.range_succ]
    rw [hcells] at h1
    simp only [pool_alloc, internal_pool_pop, h1.1]
    simp [cell_addr, node_bytes]
  · intro hle
    cases hv : pool_contains (internal_pool_setup
      (POOL_INITIALIZER mem data_bytes capacity (fun _ => none)) mem data_bytes capacity)
      (mem + max data_bytes sizeof_pool_node * (capacity - 1)) with
    | false => rfl
    | true =>
      have := (hcont _).mp hv
      omega

/-- Witness of C22: a pool of two cells for payloads of four bytes; the first allocated
cell is at offset 8 and `pool_contains` rejects it. -/
theorem pool_contains_uses_data_bytes_witness :
    ∃ p, pool_init 4096 4 2 = Except.ok p ∧ (pool_alloc p).2.1 = some (4096 + 8) ∧
      pool_contains p (4096 + 8) = false :=
  ⟨_, rfl, (pool_contains_uses_data_bytes 4096 4 2 _ rfl).2.2.1,
    (pool_contains_uses_data_bytes 4096 4 2 _ rfl).2.2.2 (by decide)⟩

/-- C5: on a well-formed tree (the states `ntree_insert` and `ntree_insert_at` build),
`ntree_iter` followed by `iter_next` until the end marker reads the payloads of the forest
in pre-order (a node, the subtree of its first child, the subtree of its next sibling),
every node once, and `ntree_iter_age` gives the age of the node at each position; after
the last node comes the end marker, and on an empty tree `ntree_iter` returns it. -/
theorem ntree_iter_preorder {D : Type} (t : ntree D) (b : BT) (fl : List Nat)
    (fmem fuel : Nat) (h : TreeWF t b fl) (hfuel : b.pre.length + 1 < fuel) :
    ntree_preorder fmem fuel t = some (b.pre.map (fun x => (t.data x, t.age x))) ∧
    b.pre.Nodup ∧ ntree_count t = ((b.pre.length : Nat) : Int) ∧
    (b = BT.nil → ∃ e, ntree_iter fmem t = some (NULL_ITER, e)) ∧
    (b ≠ BT.nil → ∃ it0, ntree_iter fmem t = some (it0, none) ∧
      (∀ k x, b.pre.get? k = some x → ∃ itk, iter_next_n k it0 = some itk ∧
        iter_is_end itk = false ∧ iter_data itk = some (some x, none) ∧
        ntree_iter_age t.next_sibling itk = some (t.age x, none)) ∧
      iter_next_n b.pre.length it0 = some NULL_ITER) := by
  have hnd : b.pre.Nodup := (List.nodup_append.mp h.1.2.2.1).1
  refine ⟨?_, hnd, TreeWF_count h, ?_, ?_⟩
  · cases b with
    | nil =>
      obtain ⟨e, he⟩ := ntree_iter_empty t fl fmem h
      obtain ⟨k, hk⟩ : ∃ k, fuel = k + 1 := ⟨fuel - 1, by omega⟩
      subst hk
      simp only [ntree_preorder, he, ntree_walk_end]
      rfl
    | node a c s =>
      obtain ⟨f, h1, h2⟩ := ntree_iter_start t a c s fl fmem h
      have hpres : BT.pres (BT.push_nonnil c (BT.push_nonnil s [])) = c.pre ++ s.pre := by
        rw [BT.pres_push_nonnil, BT.pres_push_nonnil]
        simp [BT.pres]
      have hw := ntree_walk_dfs t _ _ { fringe := f, age := t.age a, node := some a } a fuel
        rfl h2 rfl rfl (by
          rw [hpres]
          simp only [BT.pre, List.length_cons, List.length_append] at hfuel ⊢
          omega)
      simp only [ntree_preorder, h1, hw, hpres]
      rfl
  · intro hb
    subst hb
    exact ntree_iter_empty t fl fmem h
  · intro hb
    obtain ⟨it0, h1, h2, h3⟩ := ntree_iter_positions t b fl fmem h hb
    refine ⟨it0, h1, ?_, h3⟩
    intro k x hk
    obtain ⟨itk, g1, g2, g3, _⟩ := h2 k x hk
    refine ⟨_, g1, rfl, ?_, ?_⟩
    · simp [iter_data, ntree_iter_at, ntree_iter_data, g2]
    · simp [ntree_iter_age, ntree_iter_at, g3]

/-- Witness of C5: the tree `7:[8]`, and the two trees of the specification: `0:[1:[3:[4]],2]`
is read as `0, 1, 3, 4, 2` with the ages `1, 2, 3, 4, 2`, the root chain `0, 1, 2, 3, 4`
in this order. -/
theorem ntree_iter_preorder_witness :
    (∃ (t : ntree Nat) (r c : Nat) (fl : List Nat),
      TreeWF t (BT.node r (BT.node c BT.nil BT.nil) BT.nil) fl ∧
      ntree_preorder 8192 4 t = some [(7, 1), (8, 2)]) ∧
    (∃ (t0 t : ntree Nat) (hs : List Nat), ntree_init 4096 (0 : Nat) 4 5 = Except.ok t0 ∧
      ntree_build 6 t0 [(none, 0), (some 0, 1), (some 0, 2), (some 1, 3), (some 3, 4)] []
        = some (t, hs) ∧
      ntree_preorder 8192 7 t = some [(0, 1), (1, 2), (3, 3), (4, 4), (2, 2)]) ∧
    (∃ (t0 t : ntree Nat) (hs : List Nat), ntree_init 4096 (0 : Nat) 4 5 = Except.ok t0 ∧
      ntree_build 6 t0 [(none, 0), (none, 1), (none, 2), (none, 3), (none, 4)] []
        = some (t, hs) ∧
      ntree_preorder 8192 7 t = some [(0, 1), (1, 1), (2, 1), (3, 1), (4, 1)]) := by
  refine ⟨?_, ⟨_, _, _, rfl, rfl, by decide⟩, ⟨_, _, _, rfl, rfl, by decide⟩⟩
  obtain ⟨t, r, c, fl, h1, h2, h3, h4, h5, _⟩ := ntree_example_two 0 7 8
  have hw := (ntree_iter_preorder t _ fl 8192 4 h1 (by simp [BT.pre])).1
  refine ⟨t, r, c, fl, h1, ?_⟩
  rw [hw]
  simp [BT.pre, h2, h3, h4, h5]

/-- C25: a list (stack, queue, set) that holds `e0, ..., e(n-1)` in the nodes `ns`:
`list_iter` is on `e0`, `k` calls of `iter_next` lead to `ek` for `k < n` and `n` calls to
the end marker, so the generic loop visits the elements head to tail, once each; on an
empty list `list_iter` returns the end marker. -/
theorem list_iter_visits_all {D : Type} (l : list D) (ns fl : List Nat) (xs : List D)
    (h : ListHolds l ns fl xs) :
    (xs = [] → list_iter l = (NULL_ITER, some Errno.ENOENT)) ∧
    (∀ k x, xs.get? k = some x → ∃ a itk, ns.get? k = some a ∧ l.data a = x ∧
      iter_next_n k (list_iter l).1 = some itk ∧ iter_is_end itk = false ∧
      iter_data itk = some (some a, none)) ∧
    iter_next_n xs.length (list_iter l).1 = some NULL_ITER ∧
    iter_walk (xs.length + 1) (list_iter l).1 = some ns ∧ ns.map l.data = xs ∧ ns.Nodup ∧
    stack_iter l = list_iter l ∧ queue_iter l = list_iter l ∧ set_iter l = list_iter l := by
  obtain ⟨hinv, hxs⟩ := h
  have hlen : xs.length = ns.length := by rw [← hxs]; simp
  have hnd : ns.Nodup := (List.nodup_append.mp hinv.2.2.2.1).1
  refine ⟨?_, ?_, ?_, ?_, hxs, hnd, rfl, rfl, rfl⟩
  · intro he
    subst he
    have hn : ns = [] := List.length_eq_zero.mp hlen.symm
    subst hn
    have hr : l.root = none := hinv.1
    simp [list_iter, hr]
  · intro k x hk
    have hlt : k < ns.length := by
      rw [← hlen]
      exact lt_length_of_get? _ _ _ hk
    obtain ⟨a, ha⟩ : ∃ a, ns.get? k = some a := ⟨_, List.get?_eq_get hlt⟩
    have hx : l.data a = x := by
      rw [← hxs, List.get?_eq_getElem?, List.getElem?_map, ← List.get?_eq_getElem?, ha] at hk
      exact Option.some.inj hk
    have hn := iter_next_n_list l ns l.root k hinv.1 (by omega)
    rw [ha] at hn
    refine ⟨a, list_iter_at l (some a), ha, hx, ?_, ?_, ?_⟩
    · rw [list_iter_eq]; exact hn
    · rfl
    · rfl
  · have hn := iter_next_n_list l ns l.root ns.length hinv.1 (le_refl _)
    rw [List.get?_eq_none.mpr (le_refl _)] at hn
    rw [list_iter_eq, hlen]
    exact hn
  · rw [list_iter_eq, hlen]
    exact iter_walk_list l ns l.root _ hinv.1 (by omega)

/-- Witness of C25: a queue that holds `7, 8`. -/
theorem list_iter_visits_all_witness :
    ∃ (q : list Nat) (ns fl : List Nat), ListHolds q ns fl [7, 8] ∧
      iter_walk 3 (queue_iter q).1 = some ns ∧ ns.map q.data = [7, 8] := by
  obtain ⟨q0, fl, _, h2, h3⟩ := list_init_wf 4096 (0 : Nat) 4 2 (by decide) (by decide)
    (by decide)
  obtain ⟨q1, a, t, _, _, h6, h7, _⟩ := ListWF_push q0 [] fl [] 7 h2 (by rw [h3]; decide)
  obtain ⟨q2, b, u, _, _, h8, _, _⟩ := ListWF_push q1 _ t _ 8 h6 (by rw [h7, h3]; decide)
  have hw := list_iter_visits_all q2 _ u _ h8.1
  exact ⟨q2, _, u, h8.1, hw.2.2.2.1, hw.2.2.2.2.1⟩

/-- C26: for a node `p` of a well-formed tree, `ntree_children_iter(p)` followed by
`iter_next` until the end marker visits exactly the children of `p` (the nodes whose
parent is `p`), oldest first: a child added by `ntree_insert_at` comes last; when `p` has
no children the result is the end marker. -/
theorem ntree_children_iter_visits_children {D : Type} (t : ntree D) (b : BT)
    (fl : List Nat) (p : Nat) (fuel : Nat) (h : TreeWF t b fl) (hp : p ∈ b.pre)
    (hfuel : b.pre.length < fuel) :
    iter_walk fuel (ntree_children_iter t (some p)).1 = some (b.children p) ∧
    (∀ x, x ∈ b.children p ↔ (x ∈ b.pre ∧ t.parent x = some p)) ∧
    (b.children p).Nodup ∧
    (b.children p = [] → ntree_children_iter t (some p) = (NULL_ITER, some Errno.ENOENT)) ∧
    (∀ d t2 a, ntree_insert_at fuel t (some p) d = some (t2, some a, none) →
      iter_walk (fuel + 1) (ntree_children_iter t2 (some p)).1
        = some (b.children p ++ [a])) := by
  have hnd : b.pre.Nodup := (List.nodup_append.mp h.1.2.2.1).1
  have hseg := TRep_children t none t.root b p h.1.1 hp hnd
  have hlen := BT.children_length_lt b p
  refine ⟨?_, ?_, (BT.children_nodup b p hnd), ?_, ?_⟩
  · rw [ntree_children_iter_eq]
    exact iter_walk_children t _ _ fuel hseg (by omega)
  · intro x
    constructor
    · intro hx
      exact ⟨BT.children_subset_pre b p x hx, TRep_children_parent t none t.root b p h.1.1 hnd x hx⟩
    · rintro ⟨hx, hpar⟩
      rcases TRep_parent t none t.root b x h.1.1 hnd hx with ⟨_, g⟩ | ⟨q, _, g2, g3⟩
      · rw [hpar] at g; exact absurd g (by simp)
      · rw [hpar] at g2
        rw [Option.some.inj g2]
        exact g3
  · intro he
    rw [he] at hseg
    have hl : t.first_child p = none := hseg
    simp [ntree_children_iter, hl]
  · intro d t2 a hins
    cases fl with
    | nil =>
      have := ntree_insert_at_full t b (some p) d fuel h.1 (fun q hq => by
        rw [← Option.some.inj hq]; exact hp) hfuel
      rw [this] at hins
      exact absurd hins (by simp)
    | cons a2 rest =>
      obtain ⟨t3, e1, e2, _⟩ := TreeWF_insert_at_child t b a2 rest p d fuel h hp hfuel
      rw [e1] at hins
      have e3 := Option.some.inj hins
      have e4 : t3 = t2 := (Prod.mk.inj e3).1
      have e5 : a2 = a := Option.some.inj (Prod.mk.inj (Prod.mk.inj e3).2).1
      subst e4 e5
      have hnd2 : (b.add_child p a2).pre.Nodup := (List.nodup_append.mp e2.1.2.2.1).1
      have hp2 : p ∈ (b.add_child p a2).pre :=
        (BT.pre_add_child_perm b p a2 hp hnd).mem_iff.mpr (List.mem_cons_of_mem _ hp)
      have hseg2 := TRep_children t3 none t3.root _ p e2.1.1 hp2 hnd2
      rw [BT.children_add_child b p a2 hp hnd] at hseg2
      rw [ntree_children_iter_eq]
      exact iter_walk_children t3 _ _ _ hseg2 (by
        simp only [List.length_append, List.length_singleton]
        omega)

/-- Witness of C26: the children of the root of the tree `7:[8]`. -/
theorem ntree_children_iter_visits_children_witness :
    ∃ (t : ntree Nat) (r c : Nat) (fl : List Nat),
      TreeWF t (BT.node r (BT.node c BT.nil BT.nil) BT.nil) fl ∧
      iter_walk 3 (ntree_children_iter t (some r)).1 = some [c] ∧ t.data c = 8 := by
  obtain ⟨t, r, c, fl, h1, _, h3, _⟩ := ntree_example_two 0 7 8
  have hw := (ntree_children_iter_visits_children t _ fl r 3 h1 (BT.mem_pre_self _ _ _)
    (by simp [BT.pre])).1
  refine ⟨t, r, c, fl, h1, ?_, h3⟩
  rw [hw]
  simp [BT.children, BT.sibs]
/-- C24: the end marker.  From the last element of a list, of the children of a node and
of the depth-first traversal of a tree, `iter_next` returns the end marker; `iter_is_end`
is true for the end marker and false on every element (the iterators the library hands
out are the end marker when their object is `NULL`); on an iterator whose object is `NULL`,
whatever its handlers, `iter_data` returns `NULL` with `EINVAL` and `iter_next` returns
the end marker with `EINVAL`. -/
theorem iter_end_marker {D : Type} :
    (∀ (l : list D) (ns fl : List Nat) (xs : List D) (a : Nat), ListHolds l ns fl xs →
      ns.getLast? = some a →
      iter_next_n (ns.length - 1) (list_iter l).1 = some (list_iter_at l (some a)) ∧
      iter_is_end (list_iter_at l (some a)) = false ∧
      iter_next (list_iter_at l (some a)) = some (NULL_ITER, none)) ∧
    (∀ (t : ntree D) (b : BT) (fl : List Nat) (p a : Nat), TreeWF t b fl → p ∈ b.pre →
      (b.children p).getLast? = some a →
      iter_next_n ((b.children p).length - 1) (ntree_children_iter t (some p)).1
        = some (ntree_children_iter_at t (some a)) ∧
      iter_is_end (ntree_children_iter_at t (some a)) = false ∧
      iter_next (ntree_children_iter_at t (some a)) = some (NULL_ITER, none)) ∧
    (∀ (t : ntree D) (b : BT) (fl : List Nat) (fmem x : Nat), TreeWF t b fl →
      b.pre.getLast? = some x →
      ∃ it0 itk e, ntree_iter fmem t = some (it0, none) ∧
        iter_next_n (b.pre.length - 1) it0 = some itk ∧ iter_is_end itk = false ∧
        iter_data itk = some (some x, none) ∧ iter_next itk = some (NULL_ITER, e)) ∧
    iter_is_end NULL_ITER = true ∧
    (∀ it : ITER, iter_is_end it = true ↔ it.object = none) ∧
    (∀ (l : list D) (p : Ptr), iter_is_end (list_iter_at l p) = true →
      list_iter_at l p = NULL_ITER) ∧
    (∀ (t : ntree D) (p : Ptr), iter_is_end (ntree_children_iter_at t p) = true →
      ntree_children_iter_at t p = NULL_ITER) ∧
    (∀ (t : ntree D) (it : struct_ntree_iter), iter_is_end (ntree_iter_at t it) = false) ∧
    (∀ it : ITER, it.object = none →
      iter_data it = some (none, some Errno.EINVAL) ∧
      iter_next it = some (NULL_ITER, some Errno.EINVAL)) := by
  have hget : ∀ (ns : List Nat) (a : Nat), ns.getLast? = some a →
      ns.get? (ns.length - 1) = some a := by
    intro ns a h
    rw [List.get?_eq_getElem?, ← List.getLast?_eq_getElem?]
    exact h
  refine ⟨?_, ?_, ?_, rfl, ?_, ?_, ?_, fun _ _ => rfl, ?_⟩
  · intro l ns fl xs a h hl
    have hn := iter_next_n_list l ns l.root (ns.length - 1) h.1.1 (by omega)
    rw [hget ns a hl] at hn
    have hnone := Seg_getLast_none l.next l.root ns a h.1.1 hl
    refine ⟨by rw [list_iter_eq]; exact hn, rfl, ?_⟩
    rw [iter_next_list_iter_at, hnone]
    rfl
  · intro t b fl p a h hp hl
    have hnd : b.pre.Nodup := (List.nodup_append.mp h.1.2.2.1).1
    have hseg := TRep_children t none t.root b p h.1.1 hp hnd
    have hn := iter_next_n_children t _ _ ((b.children p).length - 1) hseg (by omega)
    rw [hget _ a hl] at hn
    have hnone := Seg_getLast_none t.next_sibling _ _ a hseg hl
    refine ⟨by rw [ntree_children_iter_eq]; exact hn, rfl, ?_⟩
    rw [iter_next_children_iter_at, hnone]
    rfl
  · intro t b fl fmem x h hl
    have hb : b ≠ BT.nil := by
      rintro rfl
      simp [BT.pre] at hl
    obtain ⟨it0, h1, h2, _⟩ := ntree_iter_positions t b fl fmem h hb
    obtain ⟨itk, g1, g2, _, g4⟩ := h2 _ x (hget _ x hl)
    have hpos : 0 < b.pre.length := by
      cases b with
      | nil => exact absurd rfl hb
      | node a c s => simp [BT.pre]
    refine ⟨it0, _, _, h1, g1, rfl, ?_, g4 (by omega)⟩
    simp [iter_data, ntree_iter_at, ntree_iter_data, g2]
  · intro it
    simp [iter_is_end]
  · intro l p hp
    cases p with
    | none => rfl
    | some a => exact absurd hp (by simp [iter_is_end, list_iter_at])
  · intro t p hp
    cases p with
    | none => rfl
    | some a => exact absurd hp (by simp [iter_is_end, ntree_children_iter_at])
  · intro it h
    exact (iter_end_of_object_none it h).2

/-- Witness of C24: the depth-first iterator of the tree `7:[8]` ends after the node 8. -/
theorem iter_end_marker_witness :
    ∃ (t : ntree Nat) (r c : Nat) (fl : List Nat),
      TreeWF t (BT.node r (BT.node c BT.nil BT.nil) BT.nil) fl ∧
      ∃ it0 itk e, ntree_iter 8192 t = some (it0, none) ∧ iter_next_n 1 it0 = some itk ∧
        iter_data itk = some (some c, none) ∧ iter_next itk = some (NULL_ITER, e) := by
  obtain ⟨t, r, c, fl, h1, _⟩ := ntree_example_two 0 7 8
  obtain ⟨it0, itk, e, g1, g2, _, g4, g5⟩ :=
    (@iter_end_marker Nat).2.2.1 t _ fl 8192 c h1 (by simp [BT.pre])
  exact ⟨t, r, c, fl, h1, it0, itk, e, g1, by simpa [BT.pre] using g2, g4, g5⟩

/-- C27, counterexample: the iterator of a list that holds one element is not the end
marker, and `ntree_iter_age` does not answer it with the error `-1` / `EINVAL`: the node
is read as a `struct ntree_iter`, and the call returns what it finds at the offset of
`age`, the low half of the `next` pointer of the node, here 0, without assigning `errno`. -/
theorem ntree_iter_age_list_counterexample :
    ∃ (l0 l : list Nat) (a : Nat), list_init 4096 (0 : Nat) 4 2 = Except.ok l0 ∧
      list_push l0 7 = some (l, some a, none) ∧ iter_is_end (list_iter l).1 = false ∧
      ntree_iter_age l.next (list_iter l).1 = some (0, none) ∧
      ntree_iter_age l.next (list_iter l).1 ≠ some (-1, some Errno.EINVAL) :=
  ⟨_, _, _, rfl, rfl, by decide, by decide, by decide⟩

/-- C27, amended: `ntree_iter_age` returns the age of the current node of a depth-first
iterator (1 for a node inserted at the root level, the age of the parent plus 1 for a
node inserted under a parent), and `-1` with `EINVAL` when the object of the iterator is
`NULL` (the end marker); it does not look at the type of the iterator: the object of a
list iterator or of a children iterator on an element is read as a `struct ntree_iter`,
and the call returns, without an error, the `int` it finds at the offset of `age`: the
low half of the `next` pointer of the list node, of the `next_sibling` pointer of the
tree node, which is 0 on the last element and the last child. -/
theorem ntree_iter_age_spec {D : Type} :
    (∀ (t : ntree D) (b : BT) (fl : List Nat) (fmem : Nat), TreeWF t b fl → b ≠ BT.nil →
      ∃ it0, ntree_iter fmem t = some (it0, none) ∧
        ∀ k x, b.pre.get? k = some x → ∃ itk, iter_next_n k it0 = some itk ∧
          ntree_iter_age t.next_sibling itk = some (t.age x, none)) ∧
    (∀ (t : ntree D) (b : BT) (fl : List Nat) (fuel : Nat) (d : D), TreeWF t b fl →
      0 < pool_freeable t.pool → b.pre.length < fuel →
      (∃ t2 a, ntree_insert fuel t d = some (t2, some a, none) ∧ t2.age a = 1) ∧
      ∀ q ∈ b.pre, ∃ t2 a, ntree_insert_at fuel t (some q) d = some (t2, some a, none) ∧
        t2.age a = t.age q + 1) ∧
    (∀ word1 : Nat → Ptr, ntree_iter_age word1 NULL_ITER = some (-1, some Errno.EINVAL)) ∧
    (∀ (word1 : Nat → Ptr) (it : ITER), it.object = none →
      ntree_iter_age word1 it = some (-1, some Errno.EINVAL)) ∧
    (∀ (l : list D) (a : Nat), ntree_iter_age l.next (list_iter_at l (some a))
      = some (int_of_low_half (l.next a), none)) ∧
    (∀ (l : list D) (a : Nat), l.next a = none →
      ntree_iter_age l.next (list_iter_at l (some a)) = some (0, none)) ∧
    (∀ (t : ntree D) (a : Nat),
      ntree_iter_age t.next_sibling (ntree_children_iter_at t (some a))
        = some (int_of_low_half (t.next_sibling a), none)) ∧
    (∀ (t : ntree D) (a : Nat), t.next_sibling a = none →
      ntree_iter_age t.next_sibling (ntree_children_iter_at t (some a)) = some (0, none)) := by
  refine ⟨?_, ?_, fun _ => rfl, ?_, fun _ _ => rfl, ?_, fun _ _ => rfl, ?_⟩
  · intro t b fl fmem h hb
    obtain ⟨it0, h1, h2, _⟩ := ntree_iter_positions t b fl fmem h hb
    refine ⟨it0, h1, ?_⟩
    intro k x hk
    obtain ⟨itk, g1, _, g3, _⟩ := h2 k x hk
    exact ⟨_, g1, by simp [ntree_iter_age, ntree_iter_at, g3]⟩
  · intro t b fl fuel d h hfree hfuel
    obtain ⟨a, rest, hfl⟩ := TreeWF_free_cons h hfree
    subst hfl
    constructor
    · obtain ⟨t2, e1, _, _, e4, _⟩ := TreeWF_insert_at_root t b a rest d fuel h hfuel
      exact ⟨t2, a, e1, by rw [e4, Function.update_same]⟩
    · intro q hq
      obtain ⟨t2, e1, _, _, e4, _⟩ := TreeWF_insert_at_child t b a rest q d fuel h hq hfuel
      exact ⟨t2, a, e1, by rw [e4, Function.update_same]⟩
  · intro word1 it h
    simp [ntree_iter_age, h]
  · intro l a h
    simp [ntree_iter_age, list_iter_at, h, int_of_low_half]
  · intro t a h
    simp [ntree_iter_age, ntree_children_iter_at, h, int_of_low_half]

/-- Witness of the amended C27: on the tree `7:[8]` the iterator reports the ages 1, 2; on
the iterator of a list holding one element the call returns 0 and no error. -/
theorem ntree_iter_age_spec_witness :
    (∃ (t : ntree Nat) (r c : Nat) (fl : List Nat),
      TreeWF t (BT.node r (BT.node c BT.nil BT.nil) BT.nil) fl ∧
      ∃ it0 it1, ntree_iter 8192 t = some (it0, none) ∧
        ntree_iter_age t.next_sibling it0 = some (1, none) ∧
        iter_next_n 1 it0 = some it1 ∧
        ntree_iter_age t.next_sibling it1 = some (2, none)) ∧
    (∃ (l0 l : list Nat) (a : Nat), list_init 4096 (0 : Nat) 4 2 = Except.ok l0 ∧
      list_push l0 7 = some (l, some a, none) ∧ (list_iter l).1 = list_iter_at l (some a) ∧
      ntree_iter_age l.next (list_iter_at l (some a)) = some (0, none)) := by
  constructor
  · obtain ⟨t, r, c, fl, h1, _, _, h4, h5, _⟩ := ntree_example_two 0 7 8
    obtain ⟨it0, g1, g2⟩ := (@ntree_iter_age_spec Nat).1 t _ fl 8192 h1 (by simp)
    obtain ⟨i0, a1, a2⟩ := g2 0 r (by simp [BT.pre])
    obtain ⟨i1, b1, b2⟩ := g2 1 c (by simp [BT.pre])
    have hi : i0 = it0 := by
      simp only [iter_next_n] at a1
      exact (Option.some.inj a1).symm
    subst hi
    exact ⟨t, r, c, fl, h1, i0, i1, g1, by rw [a2, h4], b1, by rw [b2, h5]⟩
  · exact ⟨_, _, _, rfl, rfl, rfl, (@ntree_iter_age_spec Nat).2.2.2.2.2.1 _ _ rfl⟩

/-- C28 (the code misses its documentation): `ntree_clear` returns 0 and resets the pool,
so that `ntree_count` is 0, but it leaves `root` as it is.  After one insertion into a
fresh tree of three cells and `ntree_clear`, `ntree_iter` does not return the end marker:
the traversal starts at the stale root and reads three nodes, the old payload 7 and the
free cells of the pool. -/
theorem ntree_clear_keeps_root :
    (∀ {D : Type} (t : ntree D), (ntree_clear t).2 = 0 ∧ (ntree_clear t).1.root = t.root ∧
      ntree_count (ntree_clear t).1 = 0) ∧
    ∃ (t0 t1 : ntree Nat) (a : Nat) (it : ITER),
      ntree_init 4096 (0 : Nat) 4 3 = Except.ok t0 ∧
      ntree_insert 1 t0 7 = some (t1, some a, none) ∧
      ntree_count (ntree_clear t1).1 = 0 ∧ (ntree_clear t1).1.root = some a ∧
      ntree_iter 8192 (ntree_clear t1).1 = some (it, none) ∧ iter_is_end it = false ∧
      iter_data it = some (some a, none) ∧ (ntree_clear t1).1.data a = 7 ∧
      ntree_preorder 8192 9 (ntree_clear t1).1 = some [(7, 1), (0, 0), (0, 0)] := by
  constructor
  · intro D t
    refine ⟨rfl, rfl, ?_⟩
    obtain ⟨_, _, _, h4, h5⟩ := setup_spec t.pool t.pool.mem t.pool.data_bytes t.pool.capacity
    simp only [ntree_count, ntree_clear, pool_clear, pool_capacity, pool_freeable, h4, h5,
      sub_self]
  · exact ⟨_, _, _, _, rfl, rfl, by decide, rfl, rfl, rfl, rfl, rfl, by decide⟩
/-! ## Theorems: `string_match` -/

/-- C29: for an ASCII pattern without `+`, backslash and upper case letter and an ASCII
string without backslash, `string_match` returns (given a budget above the two lengths)
whether the whole string matches the pattern under glob semantics: `*` matches any run of
characters, `?` one character, any other character the same character ignoring letter
case. -/
theorem string_match_glob (pat str : List Nat) (fuel : Nat)
    (hp : ∀ c ∈ pat, is_ascii c ∧ c ≠ 43 ∧ c ≠ 92 ∧ isupper c = false)
    (hs : ∀ c ∈ str, is_ascii c ∧ c ≠ 92) (hfuel : pat.length + str.length < fuel) :
    string_match fuel pat str = some (glob_match pat str) := by
  unfold string_match
  rw [any_isupper_false pat (fun c hc => (hp c hc).2.2.2)]
  exact internal_string_match_glob fuel pat str hp hs hfuel

/-- Witness of C29: the patterns of the specification against the string `aaa`. -/
theorem string_match_glob_witness :
    string_match 7 (cstr "a*a") (cstr "aaa") = some (glob_match (cstr "a*a") (cstr "aaa")) ∧
    ["aaa", "aa?", "a*", "a*a", "*a"].map (fun p => string_match 8 (cstr p) (cstr "aaa"))
      = [some true, some true, some true, some true, some true] ∧
    ["aba", "aa", "aaaa", "a*b", "*b"].map (fun p => string_match 8 (cstr p) (cstr "aaa"))
      = [some false, some false, some false, some false, some false] ∧
    ["aaa", "aa?", "a*", "a*a", "*a", "aba", "aa", "aaaa", "a*b", "*b"].map
        (fun p => glob_match (cstr p) (cstr "aaa"))
      = [true, true, true, true, true, false, false, false, false, false] :=
  ⟨string_match_glob (cstr "a*a") (cstr "aaa") 7 (by decide) (by decide) (by decide),
    by decide, by decide, by decide⟩

/-- C30: the case rule of `string_match` on letters and digits.  When the pattern has no
upper case letter the result is whether pattern and string are equal ignoring letter
case; when it has one, whether they are identical. -/
theorem string_match_case_rule (pat str : List Nat) (fuel : Nat)
    (hp : ∀ c ∈ pat, is_alnum c) (hs : ∀ c ∈ str, is_alnum c)
    (hfuel : pat.length + str.length < fuel) :
    (pat.any isupper = false → string_match fuel pat str = some (eq_ignoring_case pat str)) ∧
    (pat.any isupper = true → string_match fuel pat str = some (decide (pat = str))) := by
  constructor
  · intro hu
    unfold string_match eq_ignoring_case
    rw [hu, internal_string_match_alnum false fuel pat str hp hs hfuel]
    simp only [Bool.false_eq_true, if_false]
    congr 1
    exact decide_eq_decide.mpr (map_eq_map_iff_of_rel toupper_eq_iff_fold pat str)
  · intro hu
    unfold string_match
    rw [hu, internal_string_match_alnum true fuel pat str hp hs hfuel]
    simp

/-- Witness of C30: the patterns of the specification against the string `ABCDEfg`. -/
theorem string_match_case_rule_witness :
    (cstr "abcdefg").any isupper = false ∧
    string_match 15 (cstr "abcdefg") (cstr "ABCDEfg")
      = some (eq_ignoring_case (cstr "abcdefg") (cstr "ABCDEfg")) ∧
    ["abcdefg", "abcDefg", "ABCDEfg"].map (fun p => string_match 15 (cstr p) (cstr "ABCDEfg"))
      = [some true, some false, some true] :=
  ⟨by decide,
    (string_match_case_rule (cstr "abcdefg") (cstr "ABCDEfg") 15 (by decide) (by decide)
      (by decide)).1 (by decide),
    by decide⟩
/-! ## Theorems: removal of a subtree -/

/-- C6: for a node `n` of a well-formed tree, `ntree_remove` returns 0; `ntree_count`
decreases by the number of nodes of the subtree of `n` (`n` and its descendants, not its
siblings); the pre-order sequence of the tree is the former one without the block of this
subtree, and the remaining nodes keep their payloads and ages.  The tree stays well
formed, the cells of the subtree being free again. -/
theorem ntree_remove_spec {D : Type} (t : ntree D) (b : BT) (fl : List Nat)
    (n fuel fmem fuel2 : Nat) (h : TreeWF t b fl) (hn : n ∈ b.pre)
    (hfuel : 2 * b.pre.length ≤ fuel) (hfuel2 : b.pre.length + 1 < fuel2) :
    ∃ t2 l1 l2, ntree_remove fuel t (some n) = some (t2, 0, none) ∧
      b.pre = l1 ++ (n :: (b.child_of n).pre) ++ l2 ∧
      (b.child_of n).sibs = b.children n ∧
      ntree_count t2 = ntree_count t - (1 + ((b.child_of n).pre.length : Nat)) ∧
      ntree_preorder fmem fuel2 t = some (b.pre.map (fun x => (t.data x, t.age x))) ∧
      ntree_preorder fmem fuel2 t2 = some ((l1 ++ l2).map (fun x => (t.data x, t.age x))) ∧
      t2.data = t.data ∧ t2.age = t.age ∧
      TreeWF t2 (b.remove n) ((BT.node n (b.child_of n) BT.nil).post.reverse ++ fl) ∧
      (b.remove n).pre = l1 ++ l2 := by
  have hnd : b.pre.Nodup := (List.nodup_append.mp h.1.2.2.1).1
  obtain ⟨l1, l2, hpre, hrem⟩ := BT.remove_pre b n hn hnd
  obtain ⟨t2, h1, h2, h3, h4⟩ := ntree_remove_wf t b fl n fuel h hn hfuel
  have hlen : b.pre.length = (l1 ++ l2).length + (1 + (b.child_of n).pre.length) := by
    rw [hpre]
    simp only [List.length_append, List.length_cons]
    omega
  refine ⟨t2, l1, l2, h1, hpre, BT.child_of_sibs b n hnd, ?_, ntree_preorder_wf t b fl fmem fuel2
    h hfuel2, ?_, h3, h4, h2, hrem⟩
  · rw [TreeWF_count h2, TreeWF_count h, hrem, hlen]
    push_cast
    omega
  · have := ntree_preorder_wf t2 (b.remove n) _ fmem fuel2 h2 (by
      rw [hrem]
      omega)
    rw [this, hrem, h3, h4]

/-- Witness of C6: the child is removed from the tree `7:[8]`; and the trees of the
specification: removing 1 from the chain `0, 1, 2, 3, 4` leaves `0, 2, 3, 4`, removing 3
from `0, 1, 2, 3:[5, 6], 4` leaves `0, 1, 2, 4`, both with count 4. -/
theorem ntree_remove_spec_witness :
    (∃ (t : ntree Nat) (r c : Nat) (fl : List Nat),
      TreeWF t (BT.node r (BT.node c BT.nil BT.nil) BT.nil) fl ∧
      ∃ t2, ntree_remove 4 t (some c) = some (t2, 0, none) ∧ ntree_count t2 = 1 ∧
        ntree_preorder 8192 4 t2 = some [(7, 1)]) ∧
    (∃ (t0 t t2 : ntree Nat) (hs : List Nat), ntree_init 4096 (0 : Nat) 4 5 = Except.ok t0 ∧
      ntree_build 12 t0 [(none, 0), (none, 1), (none, 2), (none, 3), (none, 4)] []
        = some (t, hs) ∧
      ntree_remove 20 t (hs.get? 1) = some (t2, 0, none) ∧ ntree_count t2 = 4 ∧
      ntree_preorder 8192 12 t2 = some [(0, 1), (2, 1), (3, 1), (4, 1)]) ∧
    (∃ (t0 t t2 : ntree Nat) (hs : List Nat), ntree_init 4096 (0 : Nat) 4 10 = Except.ok t0 ∧
      ntree_build 12 t0
        [(none, 0), (none, 1), (none, 2), (none, 3), (none, 4), (some 3, 5), (some 3, 6)] []
        = some (t, hs) ∧
      ntree_remove 20 t (hs.get? 3) = some (t2, 0, none) ∧ ntree_count t2 = 4 ∧
      ntree_preorder 8192 12 t2 = some [(0, 1), (1, 1), (2, 1), (4, 1)]) := by
  refine ⟨?_, ⟨_, _, _, _, rfl, rfl, rfl, by decide, by decide⟩,
    ⟨_, _, _, _, rfl, rfl, rfl, by decide, by decide⟩⟩
  obtain ⟨t, r, c, fl, h1, h2, h3, h4, h5, _⟩ := ntree_example_two 0 7 8
  have hc : c ∈ (BT.node r (BT.node c BT.nil BT.nil) BT.nil).pre := by simp [BT.pre]
  obtain ⟨t2, l1, l2, g1, g2, _, g4, _, g6, _, _, g9, g10⟩ :=
    ntree_remove_spec t _ fl c 4 8192 4 h1 hc (by simp [BT.pre]) (by simp [BT.pre])
  have hrc : r ≠ c := by
    have := (List.nodup_append.mp h1.1.2.2.1).1
    simp only [BT.pre, List.append_nil, List.singleton_append, List.nodup_cons,
      List.mem_singleton] at this
    exact this.1
  have hrem : (BT.node r (BT.node c BT.nil BT.nil) BT.nil).remove c
      = BT.node r BT.nil BT.nil := by
    simp [BT.remove, hrc]
  have hl : l1 ++ l2 = [r] := by
    rw [← g10, hrem]
    simp [BT.pre]
  refine ⟨t, r, c, fl, h1, t2, g1, ?_, ?_⟩
  · rw [TreeWF_count g9, hrem]
    simp [BT.pre]
  · rw [g6, hl]
    simp [h2, h4]

/-! ## Theorems: `string_match`, escapes and the wildcard `+` -/

/-- C31: an escaped star in the pattern matches exactly one literal `*`.  For strings `a`
and `b` of non-zero bytes without `*`, `+`, `?`, backslash and upper case letter, and a
string `s` without backslash, `string_match` of the pattern `a`, backslash, `*`, `b`
against `s` returns (given a budget above the lengths) whether `s` equals `a`, `*`, `b`
ignoring letter case. -/
theorem string_match_escaped_star (a b s : List Nat) (fuel : Nat)
    (ha : ∀ c ∈ a, (c ≠ 0 ∧ c < 256) ∧ c ≠ 42 ∧ c ≠ 43 ∧ c ≠ 63 ∧ c ≠ 92 ∧ isupper c = false)
    (hb : ∀ c ∈ b, (c ≠ 0 ∧ c < 256) ∧ c ≠ 42 ∧ c ≠ 43 ∧ c ≠ 63 ∧ c ≠ 92 ∧ isupper c = false)
    (hs : ∀ c ∈ s, c ≠ 0 ∧ c ≠ 92)
    (hfuel : a.length + b.length + 2 + s.length < fuel) :
    string_match fuel (a ++ cstr "\\*" ++ b) s
      = some (eq_ignoring_case (a ++ cstr "*" ++ b) s) := by
  have e1 : cstr "\\*" = [92, 42] := by decide
  have e2 : cstr "*" = [42] := by decide
  have hup : (a ++ [92, 42] ++ b).any isupper = false := by
    apply any_isupper_false
    intro c hc
    simp only [List.append_assoc, List.mem_append, List.mem_cons, List.mem_singleton,
      List.not_mem_nil, or_false] at hc
    rcases hc with h | h | h
    · exact (ha c h).2.2.2.2.2
    · rcases h with rfl | rfl <;> decide
    · exact (hb c h).2.2.2.2.2
  unfold string_match eq_ignoring_case
  rw [e1, e2, hup]
  simp only [List.append_assoc, List.cons_append, List.nil_append]
  rw [internal_string_match_escape a b s fuel ha hb hs hfuel]
  congr 1
  exact decide_eq_decide.mpr (map_eq_map_iff_of_rel toupper_eq_iff_fold _ s)

/-- Witness of C31: the quoted pattern `va\*lue` of the tests matches the quoted `va*lue`
and not the quoted `va?lue`; the same with the bytes 233 and 200, which are not ASCII. -/
theorem string_match_escaped_star_witness :
    string_match 20 (cstr "\"va" ++ cstr "\\*" ++ cstr "lue\"") (cstr "\"va*lue\"")
      = some (eq_ignoring_case (cstr "\"va" ++ cstr "*" ++ cstr "lue\"") (cstr "\"va*lue\"")) ∧
    string_match 20 (cstr "\"va\\*lue\"") (cstr "\"va*lue\"") = some true ∧
    string_match 20 (cstr "\"va\\*lue\"") (cstr "\"va?lue\"") = some false ∧
    string_match 20 ([233] ++ cstr "\\*" ++ [200]) [233, 42, 200] = some true ∧
    string_match 20 ([233] ++ cstr "\\*" ++ [200]) [233, 42, 201] = some false :=
  ⟨string_match_escaped_star (cstr "\"va") (cstr "lue\"") (cstr "\"va*lue\"") 20 (by decide)
      (by decide) (by decide) (by decide),
    by decide, by decide, by decide, by decide⟩

/-- C32: the wildcard `+` between two quote characters.  For `q` the double quote (34) or
the single quote (39) and a string `s`, `string_match` of the pattern `q + q` against `s`
returns (given a budget of the length of `s` plus three) whether `s` is a run delimited by
`q`: at least two characters, first and last `q`, the last `q` not immediately preceded by a
backslash, every `q` in between immediately preceded by a backslash. -/
theorem string_match_delimited_run (q : Nat) (s : List Nat) (fuel : Nat)
    (hq : q = 34 ∨ q = 39) (hs : ∀ c ∈ s, c ≠ 0) (hfuel : s.length + 3 ≤ fuel) :
    string_match fuel [q, 43, q] s = some (decide (delimited_run q s)) := by
  have hup : [q, 43, q].any isupper = false := by
    rcases hq with rfl | rfl <;> decide
  unfold string_match
  rw [hup]
  exact internal_string_match_quoted q hq s fuel hs hfuel

/-- Witness of C32: the strings of the tests against the patterns `"+"` and `'+'`. -/
theorem string_match_delimited_run_witness :
    string_match 14 [34, 43, 34] (cstr "\"a\\\"b\\tc\"")
      = some (decide (delimited_run 34 (cstr "\"a\\\"b\\tc\""))) ∧
    delimited_run 34 (cstr "\"a\\\"b\\tc\"") ∧
    ¬ delimited_run 34 (cstr "\"\"\"value\"\"\"") ∧
    string_match 14 (cstr "\"+\"") (cstr "\"\"\"value\"\"\"") = some false ∧
    string_match 14 (cstr "'+'") (cstr "'''value'''") = some false ∧
    string_match 14 (cstr "\"\"\"+\"\"\"") (cstr "\"\"\"value\"\"\"") = some true :=
  ⟨string_match_delimited_run 34 (cstr "\"a\\\"b\\tc\"") 14 (Or.inl rfl) (by decide)
      (by decide),
    by decide, by decide, by decide, by decide, by decide⟩

/-- C38: `string_match` never reads behind the terminator of the pattern or of the string.
With every read checked, no call falls out of range, whatever the budget; with a budget
above the two lengths the checked function returns, and returns what `string_match`
returns; and a pattern (of non-zero characters) that ends in a lone backslash matches no
string. -/
theorem string_match_in_bounds (pat str : List Nat) :
    (∀ fuel, string_match_checked fuel pat str ≠ sm_outcome.out_of_range) ∧
    (∀ fuel, pat.length + str.length < fuel →
      ∃ b, string_match_checked fuel pat str = sm_outcome.value b ∧
        string_match fuel pat str = some b) ∧
    ((∀ c ∈ pat, c ≠ 0) → lone_backslash false pat = true →
      ∀ fuel, pat.length + str.length < fuel →
        string_match fuel pat str = some false ∧
        string_match_checked fuel pat str = sm_outcome.value false) := by
  have hagree := fun fuel =>
    internal_string_match_checked_agrees fuel pat str false false (pat.any isupper) (by simp)
  have hret : ∀ fuel, pat.length + str.length < fuel →
      ∃ b, string_match_checked fuel pat str = sm_outcome.value b ∧
        string_match fuel pat str = some b := by
    intro fuel hfuel
    obtain ⟨b, hb⟩ := internal_string_match_returns fuel pat str false false (pat.any isupper)
      (by simp) hfuel
    rcases hagree fuel with ⟨_, e2⟩ | ⟨b2, e1, e2⟩
    · rw [hb] at e2; exact absurd e2 (by simp)
    · exact ⟨b2, e1, e2⟩
  refine ⟨?_, hret, ?_⟩
  · intro fuel
    unfold string_match_checked
    rcases hagree fuel with ⟨e1, _⟩ | ⟨b, e1, _⟩
    · rw [e1]; simp
    · rw [e1]; simp
  · intro hnz hlone fuel hfuel
    obtain ⟨b, e1, e2⟩ := hret fuel hfuel
    have hne := internal_string_match_lone fuel pat str false false (pat.any isupper) hnz
      (Or.inl hlone) (by simp)
    cases b
    · exact ⟨e2, e1⟩
    · exact absurd e2 hne

/-- Example of C38: the pattern `a\`, which ends in a lone backslash, against the string
`a\`, which ends in a backslash, and the pattern `a\\` of a literal backslash. -/
theorem string_match_in_bounds_witness :
    lone_backslash false (cstr "a\\") = true ∧
    (string_match 5 (cstr "a\\") (cstr "a\\") = some false ∧
      string_match_checked 5 (cstr "a\\") (cstr "a\\") = sm_outcome.value false) ∧
    lone_backslash false (cstr "a\\\\") = false ∧
    string_match 6 (cstr "a\\\\") (cstr "a\\") = some true :=
  ⟨by decide,
    (string_match_in_bounds (cstr "a\\") (cstr "a\\")).2.2 (by decide) (by decide) 5
      (by decide),
    by decide, by decide⟩

/-- C39: the wildcard `+` and the pattern character after it.  The source compares the
character `*(pat + 1)` as written with the character of the string after `toupper`, so for
a lower case letter `c` the comparison never holds: `string_match` of the pattern `c + c`
against the string `c c c` returns true for the lower case letters, and false for every
other ASCII character that is not `*`, `+`, `?` or a backslash. -/
theorem string_match_plus_next_char (c fuel : Nat) (hc : is_ascii c)
    (hne : c ≠ 42 ∧ c ≠ 43 ∧ c ≠ 63 ∧ c ≠ 92) (hfuel : 6 ≤ fuel) :
    string_match fuel [c, 43, c] [c, c, c] = some (decide (97 ≤ c ∧ c ≤ 122)) := by
  have h6 := string_match_plus_table c (List.mem_range.mpr (by have := hc.2; omega)) hc.1 hne.1 hne.2.1 hne.2.2.1
    hne.2.2.2
  unfold string_match at h6 ⊢
  exact internal_string_match_mono_le 6 fuel _ _ _ _ _ _ h6 hfuel

/-- Witness of C39: the pattern `a+a` matches the string `aaa`, the pattern `A+A` does not
match `AAA`, and the pattern `"+"` does not match three double quotes. -/
theorem string_match_plus_next_char_witness :
    string_match 6 (cstr "a+a") (cstr "aaa") = some true ∧
    string_match 6 (cstr "A+A") (cstr "AAA") = some false ∧
    string_match 6 (cstr "\"+\"") (cstr "\"\"\"") = some false :=
  ⟨string_match_plus_next_char 97 6 (by decide) (by decide) (by decide),
    string_match_plus_next_char 65 6 (by decide) (by decide) (by decide),
    string_match_plus_next_char 34 6 (by decide) (by decide) (by decide)⟩
/-! ## Theorems: well-formedness of the list, `list_to_array` -/

/-- C36: doubly-linked well-formedness is preserved by every list operation.  Take a list
that is well-formed in the sense of the specification (the `prev` of the head and the
`next` of the tail are null, `x.next.prev` is `x`, following `next` from the head visits
the linked nodes once each and ends at the tail, the list is empty exactly when head and
tail are null, and every linked node is a cell of the pool that is not free), `fl` being
the free list of its pool (`PoolFree`: the chain from the root of the pool is made of
cells of its region and `freeable` counts them; nothing is asked of the cells that are
neither linked nor free).  Every call of `list_insert`, `list_push`, `list_unshift`,
`list_pop`, `list_shift`, of `list_remove` with the end marker or an iterator on a linked
node, and of `list_clear`, successful or not, gives a list that is well-formed again, over
the free list of its pool.  And every state that a client reaches from `list_init` by
these calls is well-formed, the states after a failed `list_insert` included. -/
theorem list_wellformed_preserved {D : Type} :
    (∀ (l : list D) (ns fl : List Nat), list_wellformed l ns fl → PoolFree l.pool fl →
      (∀ index d l2 r e, list_insert l index d = some (l2, r, e) →
        ∃ ns2 fl2, list_wellformed l2 ns2 fl2 ∧ PoolFree l2.pool fl2) ∧
      (∀ d l2 r e, list_push l d = some (l2, r, e) →
        ∃ ns2 fl2, list_wellformed l2 ns2 fl2 ∧ PoolFree l2.pool fl2) ∧
      (∀ d l2 r e, list_unshift l d = some (l2, r, e) →
        ∃ ns2 fl2, list_wellformed l2 ns2 fl2 ∧ PoolFree l2.pool fl2) ∧
      (∃ ns2 fl2, list_wellformed (list_pop l).1 ns2 fl2 ∧
        PoolFree (list_pop l).1.pool fl2) ∧
      (∃ ns2 fl2, list_wellformed (list_shift l).1 ns2 fl2 ∧
        PoolFree (list_shift l).1.pool fl2) ∧
      (∀ it l2 r e,
        (it.object = none ∨ ∃ a, a ∈ ns ∧ it.object = some (iter_object.addr a)) →
        list_remove l it = some (l2, r, e) →
        ∃ ns2 fl2, list_wellformed l2 ns2 fl2 ∧ PoolFree l2.pool fl2) ∧
      (∀ k it l2 r e, iter_next_n k (list_iter l).1 = some it →
        list_remove l it = some (l2, r, e) →
        ∃ ns2 fl2, list_wellformed l2 ns2 fl2 ∧ PoolFree l2.pool fl2) ∧
      (∃ fl2, list_wellformed (list_clear l).1 [] fl2 ∧
        PoolFree (list_clear l).1.pool fl2)) ∧
    (∀ (mem : Nat) (zero : D) (data_bytes capacity : Nat) (l : list D),
      ListReach mem zero data_bytes capacity l →
      ∃ ns fl, list_wellformed l ns fl ∧ PoolFree l.pool fl) := by
  have key : ∀ (l : list D), (∃ ns fl, ListLive l ns fl) →
      ∃ ns fl, list_wellformed l ns fl ∧ PoolFree l.pool fl := by
    rintro l ⟨ns, fl, h⟩
    exact ⟨ns, fl, ListLive_wellformed h, ListLive_poolfree h⟩
  constructor
  · intro l ns fl hw hp
    have h := wellformed_ListLive hw hp
    refine ⟨?_, ?_, ?_, ?_, ?_, ?_, ?_, ?_⟩
    · intro index d l2 r e hc
      exact key l2 (ListLive_insert l ns fl index d l2 r e h hc)
    · intro d l2 r e hc
      exact key l2 (ListLive_insert l ns fl (-1) d l2 r e h hc)
    · intro d l2 r e hc
      exact key l2 (ListLive_insert l ns fl 0 d l2 r e h hc)
    · exact key _ (ListLive_pop l ns fl h)
    · exact key _ (ListLive_shift l ns fl h)
    · intro it l2 r e hit hc
      exact key l2 (ListLive_remove l ns fl it l2 r e h hit hc)
    · intro k it l2 r e hk hc
      exact key l2 (ListLive_remove l ns fl it l2 r e h (list_iter_object l ns fl k it h.1 hk)
        hc)
    · exact ⟨_, ListLive_wellformed (ListLive_clear l), ListLive_poolfree (ListLive_clear l)⟩
  · intro mem zero data_bytes capacity l hr
    exact key l (ListReach_live mem zero data_bytes capacity l hr)

/-- Witness of C36: on a fresh list of two cells, `list_insert` at the index 1 fails with
`ERANGE` and keeps a cell; the list is well-formed, and so is the list after the push of 9
that follows, and the list after the only element is removed through `list_iter`. -/
theorem list_wellformed_preserved_witness :
    ∃ (l0 l1 l2 l3 : list Nat) (a : Nat), list_init 4096 0 4 2 = Except.ok l0 ∧
      list_insert l0 1 7 = some (l1, none, some Errno.ERANGE) ∧
      list_push l1 9 = some (l2, some a, none) ∧
      list_remove l2 (list_iter l2).1 = some (l3, 0, none) ∧
      (∃ ns fl, list_wellformed l1 ns fl ∧ PoolFree l1.pool fl) ∧
      (∃ ns fl, list_wellformed l2 ns fl ∧ PoolFree l2.pool fl) ∧
      (∃ ns fl, list_wellformed l3 ns fl ∧ PoolFree l3.pool fl) := by
  obtain ⟨l0, h0⟩ : ∃ l0 : list Nat, list_init 4096 0 4 2 = Except.ok l0 := ⟨_, rfl⟩
  have hl0 := ListLive_init 4096 (0 : Nat) 4 2 l0 h0
  have hm : (sizeof_list_node + 4) % 2 ^ 64 = 20 := by decide
  rw [hm] at hl0
  obtain ⟨c1, c2, t, hfl⟩ : ∃ c1 c2 t, (pool_cells 4096 20 2).reverse = c1 :: c2 :: t :=
    ⟨_, _, _, rfl⟩
  rw [hfl] at hl0
  obtain ⟨l1, g1, hl1, d1, _⟩ := ListLive_range l0 [] _ c1 [] 7 1 hl0 rfl (by decide)
  obtain ⟨l2, g2, hl2, _, _⟩ := ListLive_push l1 [] t c2 [] 9 hl1 d1
  have hit : (list_iter l2).1.object = some (iter_object.addr c2) := by
    simp [list_iter, ListInv_root_cons hl2.1]
  obtain ⟨l3, g3, _⟩ := list_remove_node l2 [] [] t c2 (list_iter l2).1 hl2.1 hit
  obtain ⟨ns1, fl1, w1, p1⟩ := (@list_wellformed_preserved Nat).2 4096 0 4 2 l1
    (ListReach.insert l0 l1 1 7 none (some Errno.ERANGE) (ListReach.init l0 h0) g1)
  obtain ⟨ns2, fl2, w2, p2⟩ :=
    ((@list_wellformed_preserved Nat).1 l1 ns1 fl1 w1 p1).2.1 9 l2 (some c2) none g2
  exact ⟨l0, l1, l2, l3, c2, h0, g1, g2, g3, ⟨ns1, fl1, w1, p1⟩, ⟨ns2, fl2, w2, p2⟩,
    ((@list_wellformed_preserved Nat).1 l2 ns2 fl2 w2 p2).2.2.2.2.2.2.1 0 (list_iter l2).1 l3
      0 none rfl g3⟩

/-- C40, the behaviour of the code: on a well-formed list (or queue) holding
`e0, ..., e(n-1)` the count is `n + k` for some `k`, and `list_to_array` and
`queue_to_array` return 0 (given a budget above `n` and the allocation of the buffer
succeeding), set `*count` to `n + k` and fill the first `n` elements of the array with
`e0, ..., e(n-1)`, head to tail, the last `k` being left unwritten; they shift the elements
out, so that the list holds nothing afterwards: its count is `k`, and `list_iter` returns
the end marker.  On a list whose count is the number of its elements (`k = 0`) this is the
claim: `*count` is `n`, the array is `e0, ..., e(n-1)` and `list_count` is 0 afterwards.
A call of `list_insert` that failed with `ERANGE` has kept a cell (C4), the list is still
well-formed, and `k` is the number of these cells: then `*count` is not `n` and
`list_count` is not 0 afterwards. -/
theorem list_to_array_shifts_out {D : Type} (l : list D) (ns fl : List Nat) (xs : List D)
    (fuel : Nat) (hw : list_wellformed l ns fl) (hp : PoolFree l.pool fl)
    (hxs : ns.map l.data = xs) (hfuel : xs.length < fuel) :
    ∃ (k : Nat) (l2 : list D), list_count l = ((xs.length + k : Nat) : Int) ∧
      list_to_array fuel l
        = some (l2, 0, xs.map some ++ List.replicate k none, ((xs.length + k : Nat) : Int)) ∧
      queue_to_array fuel l
        = some (l2, 0, xs.map some ++ List.replicate k none, ((xs.length + k : Nat) : Int)) ∧
      list_wellformed l2 [] (ns.reverse ++ fl) ∧ PoolFree l2.pool (ns.reverse ++ fl) ∧
      list_count l2 = (k : Int) ∧
      list_iter l2 = (NULL_ITER, some Errno.ENOENT) ∧ iter_is_end (list_iter l2).1 = true ∧
      (list_count l = ((xs.length : Nat) : Int) →
        list_to_array fuel l = some (l2, 0, xs.map some, ((xs.length : Nat) : Int)) ∧
        list_count l2 = 0) := by
  have hl := wellformed_ListLive hw hp
  have hlen : xs.length = ns.length := by rw [← hxs]; simp
  obtain ⟨k, hk, _⟩ := ListLive_count_ge hl
  rw [← hlen] at hk
  obtain ⟨l2, h1, h2, h3, h4⟩ := list_to_array_live l ns fl xs fuel k hl hxs hk hfuel
  refine ⟨k, l2, hk, h1, h1, ListLive_wellformed h2, ListLive_poolfree h2, h3, h4, ?_, ?_⟩
  · rw [h4]; rfl
  · intro hc
    have hk0 : k = 0 := by
      rw [hk] at hc
      push_cast at hc
      omega
    subst hk0
    refine ⟨?_, by simpa using h3⟩
    rw [h1]
    simp

/-- Witness of C40: a fresh list of two cells on which `list_insert` at the index 1 failed
with `ERANGE` is well-formed and holds nothing, but `list_to_array` sets `*count` to 1, the
array has one element that is not written, and `list_count` is 1 afterwards.  A list
holding 7 and 9 on which no call failed is emptied into the array `[7, 9]` with `*count`
2 and its count is 0 afterwards; after a failed `list_insert` it has the count 3 and is
emptied into an array of three elements, the last one not written, its count being 1
afterwards. -/
theorem list_to_array_shifts_out_witness :
    (∃ (l0 l l2 : list Nat) (fl : List Nat), list_init 4096 0 4 2 = Except.ok l0 ∧
      list_insert l0 1 7 = some (l, none, some Errno.ERANGE) ∧
      list_wellformed l [] fl ∧ PoolFree l.pool fl ∧
      list_iter l = (NULL_ITER, some Errno.ENOENT) ∧
      list_to_array 3 l = some (l2, 0, [none], 1) ∧
      queue_to_array 3 l = some (l2, 0, [none], 1) ∧ list_count l2 = 1) ∧
    (∃ (l0 l l3 l4 l5 : list Nat) (ns fl : List Nat),
      list_init 4096 0 4 4 = Except.ok l0 ∧
      (list_push l0 7).bind (fun r => (list_push r.1 9).map (fun r2 => r2.1)) = some l ∧
      list_wellformed l ns fl ∧ ns.map l.data = [7, 9] ∧
      list_to_array 3 l = some (l3, 0, [some 7, some 9], 2) ∧ list_count l3 = 0 ∧
      list_insert l 5 8 = some (l4, none, some Errno.ERANGE) ∧
      list_to_array 3 l4 = some (l5, 0, [some 7, some 9, none], 3) ∧ list_count l5 = 1) := by
  have hm : (sizeof_list_node + 4) % 2 ^ 64 = 20 := by decide
  constructor
  · obtain ⟨l0, h0⟩ : ∃ l0 : list Nat, list_init 4096 0 4 2 = Except.ok l0 := ⟨_, rfl⟩
    have hl0 := ListLive_init 4096 (0 : Nat) 4 2 l0 h0
    rw [hm] at hl0
    obtain ⟨c, t, hfl⟩ : ∃ c t, (pool_cells 4096 20 2).reverse = c :: t := ⟨_, _, rfl⟩
    rw [hfl] at hl0
    obtain ⟨l1, g1, g2, g3, g4⟩ := ListLive_range l0 [] t c [] 7 1 hl0 rfl (by decide)
    have hc1 : list_count l1 = 1 := by
      rw [g4, list_init_count 4096 (0 : Nat) 4 2 l0 h0]
      rfl
    obtain ⟨k, l2, k0, k1, k2, _, _, k5, _⟩ := list_to_array_shifts_out l1 [] t [] 3
      (ListLive_wellformed g2) (ListLive_poolfree g2) g3 (by decide)
    have hk : k = 1 := by
      rw [hc1] at k0
      simp only [List.length_nil, Nat.zero_add] at k0
      exact_mod_cast k0.symm
    subst hk
    have hroot : l1.root = none := g2.1.1
    exact ⟨l0, l1, l2, t, h0, g1, ListLive_wellformed g2, ListLive_poolfree g2,
      by simp [list_iter, hroot], k1, k2, k5⟩
  · obtain ⟨l0, h0⟩ : ∃ l0 : list Nat, list_init 4096 0 4 4 = Except.ok l0 := ⟨_, rfl⟩
    have hl0 := ListLive_init 4096 (0 : Nat) 4 4 l0 h0
    rw [hm] at hl0
    obtain ⟨c1, c2, c3, t, hfl⟩ : ∃ c1 c2 c3 t,
        (pool_cells 4096 20 4).reverse = c1 :: c2 :: c3 :: t := ⟨_, _, _, _, rfl⟩
    rw [hfl] at hl0
    have hc0 := list_init_count 4096 (0 : Nat) 4 4 l0 h0
    obtain ⟨l1, p1, hl1, d1, n1⟩ := ListLive_push l0 [] _ c1 [] 7 hl0 rfl
    obtain ⟨l2, p2, hl2, d2, n2⟩ := ListLive_push l1 _ _ c2 _ 9 hl1 d1
    have hcount2 : list_count l2 = 2 := by
      rw [n2, n1, hc0]; rfl
    obtain ⟨k, l3, _, _, _, _, _, _, _, _, k8⟩ := list_to_array_shifts_out l2 _ _ [7, 9] 3
      (ListLive_wellformed hl2) (ListLive_poolfree hl2) d2 (by decide)
    obtain ⟨l4, p4, hl4, d4, n4⟩ := ListLive_range l2 _ _ c3 _ 8 5 hl2 d2 (by simp)
    have hcount4 : list_count l4 = 3 := by
      rw [n4, n2, n1, hc0]; rfl
    obtain ⟨k4, l5, m0, m1, _, _, _, m5, _⟩ := list_to_array_shifts_out l4 _ _ [7, 9] 3
      (ListLive_wellformed hl4) (ListLive_poolfree hl4) d4 (by decide)
    have hk4 : k4 = 1 := by
      rw [hcount4] at m0
      simp only [List.length_cons, List.length_nil] at m0
      have : (3 : Int) = ((2 + k4 : Nat) : Int) := m0
      omega
    subst hk4
    refine ⟨l0, l2, l3, l4, l5, _, _, h0, ?_, ListLive_wellformed hl2, d2,
      (k8 hcount2).1, (k8 hcount2).2, p4, m1, m5⟩
    simp [p1, p2]

/-! ## Theorems: the fringe of the depth-first iterator -/

/-- C37: the fringe stack of the depth-first iterator never overflows.  On a well-formed,
non-empty tree `ntree_iter` succeeds, and at every position `k` of the traversal the fringe
has the capacity of the tree and holds a list `xs` of pairwise distinct nodes of the tree
that are not among the `k + 1` nodes visited so far, so that its size plus the number of
visited nodes is at most the number of nodes, itself at most the capacity.  The next call
of `ntree_iter_next` returns with `errno` unset, that is every `stack_push` in it
succeeded, until the call after the last node, which returns `NULL` with `ENOENT`. -/
theorem ntree_iter_fringe_never_overflows {D : Type} (t : ntree D) (b : BT) (fl : List Nat)
    (fmem : Nat) (h : TreeWF t b fl) (hne : b ≠ BT.nil) :
    ∃ it0, ntree_iter fmem t = some (it0, none) ∧
      ∀ k x, b.pre.get? k = some x →
        ∃ (itk : struct_ntree_iter) (xs : List Nat),
          iter_next_n k it0 = some (ntree_iter_at t itk) ∧ itk.node = some x ∧
          itk.fringe.pool.capacity = t.pool.capacity ∧
          StackHolds itk.fringe xs ∧ stack_count itk.fringe = ((xs.length : Nat) : Int) ∧
          xs.Nodup ∧ (∀ y ∈ xs, y ∈ b.pre ∧ y ∉ b.pre.take (k + 1)) ∧
          xs.length + (k + 1) ≤ b.pre.length ∧ b.pre.length ≤ t.pool.capacity ∧
          (k + 1 < b.pre.length →
            ∃ itn, ntree_iter_next t itk = some (some itn, none)) ∧
          (k + 1 = b.pre.length →
            ntree_iter_next t itk = some (none, some Errno.ENOENT)) := by
  have hnd : b.pre.Nodup := (List.nodup_append.mp h.1.2.2.1).1
  obtain ⟨it0, h0, hall⟩ := ntree_iter_fringe t b fl fmem h hne
  refine ⟨it0, h0, ?_⟩
  intro k x hk
  obtain ⟨itk, pend, g1, g2, g3, g4, g5, g6, g7⟩ := hall k x hk
  have hklt : k < b.pre.length := lt_length_of_get? _ _ _ hk
  have hsplit : b.pre.take (k + 1) ++ b.pre.drop (k + 1) = b.pre := List.take_append_drop _ _
  have hnd2 : (b.pre.take (k + 1) ++ b.pre.drop (k + 1)).Nodup := by rw [hsplit]; exact hnd
  have hnd3 := List.nodup_append.mp hnd2
  refine ⟨itk, (BT.roots pend).reverse, g1, g2, g3, g4, StackHolds_count g4, ?_, ?_, ?_, ?_,
    g6, g7⟩
  · exact List.nodup_reverse.mpr (g5.nodup hnd3.2.1)
  · intro y hy
    have hy2 : y ∈ b.pre.drop (k + 1) := g5.subset (List.mem_reverse.mp hy)
    exact ⟨List.mem_of_mem_drop hy2, fun ht => hnd3.2.2 ht hy2⟩
  · have := g5.length_le
    rw [List.length_drop] at this
    rw [List.length_reverse]
    omega
  · rw [h.2]
    omega

/-- Witness of C37: the traversal of a tree of two nodes, a root and its child. -/
theorem ntree_iter_fringe_never_overflows_witness :
    ∃ (t : ntree Nat) (b : BT) (fl : List Nat), TreeWF t b fl ∧ b.pre.length = 2 ∧
      ∃ it0, ntree_iter 8192 t = some (it0, none) ∧
        ∀ k x, b.pre.get? k = some x →
          ∃ (itk : struct_ntree_iter) (xs : List Nat),
            iter_next_n k it0 = some (ntree_iter_at t itk) ∧ itk.node = some x ∧
            itk.fringe.pool.capacity = t.pool.capacity ∧
            StackHolds itk.fringe xs ∧ stack_count itk.fringe = ((xs.length : Nat) : Int) ∧
            xs.Nodup ∧ (∀ y ∈ xs, y ∈ b.pre ∧ y ∉ b.pre.take (k + 1)) ∧
            xs.length + (k + 1) ≤ b.pre.length ∧ b.pre.length ≤ t.pool.capacity ∧
            (k + 1 < b.pre.length →
              ∃ itn, ntree_iter_next t itk = some (some itn, none)) ∧
            (k + 1 = b.pre.length →
              ntree_iter_next t itk = some (none, some Errno.ENOENT)) := by
  obtain ⟨t, a, c, fl, hwf, _⟩ := ntree_example_two 1 7 9
  exact ⟨t, _, fl, hwf, rfl,
    ntree_iter_fringe_never_overflows t _ fl 8192 hwf (by simp)⟩

/-! ## Theorems: the walk of `ntree_remove` -/

/-- C33: the pointer-reversal walk of `ntree_remove` refines the recursive post-order
destruction.  On a well-formed tree with the node `n`, after `n` is unlinked (state `t1`,
`n` without next sibling) the loop of `ntree_remove` and the recursive procedure
`destroy(x) = destroy(x.first_child); destroy(x.next_sibling); free(x)` applied to `n`
give the same sequence of cells to `pool_free`, the post-order sequence of the subtree of
`n`: each node of the subtree once, no other node, and every descendant of a node before
the node.  The pool is the same after both. -/
theorem ntree_remove_refines_destroy {D : Type} (t : ntree D) (b : BT) (fl : List Nat)
    (n : Nat) (h : TreeWF t b fl) (hn : n ∈ b.pre) :
    ∃ t1 t2 t3 : ntree D,
      (∀ fuel, b.pre.length < fuel → ntree_unlink fuel t n = some t1) ∧
      t1.next_sibling n = none ∧
      (∀ fuel, 2 * (b.subtree n).pre.length - 1 ≤ fuel →
        ntree_remove_loop fuel t1 (some n) none [] = some (t2, (b.subtree n).post)) ∧
      (∀ fuel, (b.subtree n).pre.length < fuel →
        destroy fuel t1 (some n) = some (t3, (b.subtree n).post)) ∧
      t2.pool = t3.pool ∧
      (b.subtree n).post.Nodup ∧
      (∀ y, y ∈ (b.subtree n).post ↔ y = n ∨ y ∈ (b.child_of n).pre) ∧
      (∀ y z, y ∈ (b.subtree n).pre → z ∈ ((b.subtree n).child_of y).pre →
        ∃ u v w, (b.subtree n).post = u ++ z :: v ++ y :: w) := by
  simp only [BT.subtree]
  obtain ⟨t1, link, ns, act, proot, s1, s2, s3, s4, s5, s6, s7, _⟩ :=
    ntree_remove_stages t b fl n h hn
  obtain ⟨link2, proot2, d1, d2, d3⟩ := destroy_spec (BT.node n (b.child_of n) BT.nil) t1
    none (some n) fl ((BT.node n (b.child_of n) BT.nil).pre.length + 1) s2 s3 s4 (by omega)
  have hndsub : (BT.node n (b.child_of n) BT.nil).pre.Nodup := (List.nodup_append.mp s4).1
  have hroot : proot = proot2 := by
    rw [Seg_head _ _ _ s6, Seg_head _ _ _ d2]
  have hlink : link = link2 := by
    funext y
    by_cases hy : y ∈ (BT.node n (b.child_of n) BT.nil).post.reverse ++ fl
    · rw [← hroot] at d2
      exact Seg_agree link link2 _ proot none s6 d2 y hy
    · have hy2 : y ∉ (BT.node n (b.child_of n) BT.nil).pre := fun hp =>
        hy (List.mem_append_left _ (List.mem_reverse.mpr ((BT.mem_post_iff _ y).mpr hp)))
      rw [s7 y hy2, d3 y hy2]
  refine ⟨t1,
    t1.with_walk link ns act proot
      (t1.pool.freeable + (BT.node n (b.child_of n) BT.nil).pre.length),
    t1.with_walk link2 t1.next_sibling t1.action proot2
      (t1.pool.freeable + (BT.node n (b.child_of n) BT.nil).pre.length),
    s1, s2.2.2.2, s5, ?_, ?_, ?_, ?_, ?_⟩
  · intro fuel hfuel
    exact destroy_mono_le _ fuel t1 _ _ d1 (by omega)
  · simp only [ntree.with_walk]
    rw [hlink, hroot]
  · exact (BT.post_perm_pre _).nodup_iff.mpr hndsub
  · intro y
    rw [BT.mem_post_iff]
    simp [BT.pre]
  · exact BT.post_descendant_before _ hndsub

/-- Witness of C33: the removal of the root of a tree of two nodes, a root and its child;
the child is given back first. -/
theorem ntree_remove_refines_destroy_witness :
    ∃ (t : ntree Nat) (a c : Nat) (fl : List Nat),
      TreeWF t (BT.node a (BT.node c BT.nil BT.nil) BT.nil) fl ∧
      ∃ t1 t2 t3 : ntree Nat,
        ntree_unlink 3 t a = some t1 ∧
        ntree_remove_loop 3 t1 (some a) none [] = some (t2, [c, a]) ∧
        destroy 3 t1 (some a) = some (t3, [c, a]) ∧ t2.pool = t3.pool := by
  obtain ⟨t, a, c, fl, hwf, _⟩ := ntree_example_two 1 7 9
  obtain ⟨t1, t2, t3, h1, _, h2, h3, h4, _⟩ :=
    ntree_remove_refines_destroy t _ fl a hwf (by simp [BT.pre])
  refine ⟨t, a, c, fl, hwf, t1, t2, t3, h1 3 (by simp [BT.pre]), ?_, ?_, h4⟩
  · have := h2 3 (by simp [BT.subtree, BT.pre, BT.child_of])
    simpa [BT.subtree, BT.post, BT.child_of] using this
  · have := h3 3 (by simp [BT.subtree, BT.pre, BT.child_of])
    simpa [BT.subtree, BT.post, BT.child_of] using this

/-- C34: `ntree_remove` terminates.  On a well-formed tree with the node `n`, the search
for the elder sibling in the unlinking returns with every budget above the number of
nodes, the walk returns, at `current == NULL`, with every budget of at least twice the
size of the subtree of `n` minus one, and `ntree_remove` returns 0 with every budget of
at least twice the number of nodes; the results do not depend on the budget. -/
theorem ntree_remove_terminates {D : Type} (t : ntree D) (b : BT) (fl : List Nat) (n : Nat)
    (h : TreeWF t b fl) (hn : n ∈ b.pre) :
    ∃ (t1 t2 : ntree D) (freed : List Nat),
      (∀ fuel, b.pre.length < fuel → ntree_unlink fuel t n = some t1) ∧
      (∀ fuel, 2 * (b.subtree n).pre.length - 1 ≤ fuel →
        ntree_remove_loop fuel t1 (some n) none [] = some (t2, freed)) ∧
      (∀ fuel, 2 * b.pre.length ≤ fuel →
        ntree_remove fuel t (some n) = some (t2, 0, none)) ∧
      (b.subtree n).pre.length ≤ b.pre.length := by
  simp only [BT.subtree]
  obtain ⟨t1, link, ns, act, proot, s1, _, _, _, s5, _, _, s8⟩ :=
    ntree_remove_stages t b fl n h hn
  obtain ⟨r, hr, _⟩ := TreeInv_root_ne_none t b fl n h.1 hn
  have hpos : 0 < b.pre.length := List.length_pos_of_mem hn
  refine ⟨t1, _, _, s1, s5, ?_, s8⟩
  intro fuel hfuel
  have e1 := s1 fuel (by omega)
  have e2 := s5 fuel (by omega)
  simp only [ntree_remove, hr, reduceCtorEq, if_false, e1, e2]

/-- Witness of C34: the removal of the root of a tree of two nodes returns with a budget
of four. -/
theorem ntree_remove_terminates_witness :
    ∃ (t : ntree Nat) (a c : Nat) (fl : List Nat),
      TreeWF t (BT.node a (BT.node c BT.nil BT.nil) BT.nil) fl ∧
      ∃ t2 : ntree Nat, ntree_remove 4 t (some a) = some (t2, 0, none) := by
  obtain ⟨t, a, c, fl, hwf, _⟩ := ntree_example_two 1 7 9
  obtain ⟨t1, t2, freed, _, _, h3, _⟩ :=
    ntree_remove_terminates t _ fl a hwf (by simp [BT.pre])
  exact ⟨t, a, c, fl, hwf, t2, h3 4 (by simp [BT.pre])⟩

/-! ## Theorems: the ages of the nodes -/

/-- C35: the age invariant.  In every tree state reachable from `ntree_init` by
`ntree_insert`, `ntree_insert_at` (under no parent or under a node of the tree),
`ntree_insert_at_by_data` and `ntree_remove`, the tree is well-formed, the nodes the client
holds are the nodes of the tree, and the age of every node is its depth counted from 1:
every root-level node has age 1 and a null parent, and every other node has a parent in
the tree and the age of its parent plus 1. -/
theorem ntree_age_invariant {D : Type} [DecidableEq D] (mem : Nat) (zero : D)
    (data_bytes capacity : Nat) (t : ntree D) (live : List Nat)
    (h : TreeReach mem zero data_bytes capacity t live) :
    ∃ b fl, TreeWF t b fl ∧ (∀ y, y ∈ live ↔ y ∈ b.pre) ∧ AgeRep t 1 b ∧
      (∀ x ∈ b.sibs, t.parent x = none ∧ t.age x = 1) ∧
      (∀ x ∈ b.pre, x ∉ b.sibs →
        ∃ q ∈ b.pre, t.parent x = some q ∧ t.age x = t.age q + 1) := by
  obtain ⟨b, fl, hwf, hage, hlive⟩ := TreeReach_inv mem zero data_bytes capacity t live h
  obtain ⟨p1, p2⟩ := AgeRep_parent t b none t.root 1 hwf.1.1 hage
  exact ⟨b, fl, hwf, hlive, hage, fun x hx => by simpa using p1 x hx, p2⟩

/-- Witness of C35: the tree after `ntree_init` and one `ntree_insert`. -/
theorem ntree_age_invariant_witness :
    ∃ (t : ntree Nat) (a : Nat), TreeReach 4096 0 4 3 t [a] ∧
      ∃ b fl, TreeWF t b fl ∧ (∀ y, y ∈ [a] ↔ y ∈ b.pre) ∧ AgeRep t 1 b ∧
        (∀ x ∈ b.sibs, t.parent x = none ∧ t.age x = 1) ∧
        (∀ x ∈ b.pre, x ∉ b.sibs →
          ∃ q ∈ b.pre, t.parent x = some q ∧ t.age x = t.age q + 1) := by
  obtain ⟨t0, fl, h0, hwf, _, hlen⟩ := ntree_init_wf 4096 (0 : Nat) 4 3 (by decide) (by decide) (by decide)
  obtain ⟨a, fl2, rfl⟩ : ∃ a fl2, fl = a :: fl2 := by
    cases fl with
    | nil => simp at hlen
    | cons a fl2 => exact ⟨a, fl2, rfl⟩
  obtain ⟨t1, h1, _⟩ := TreeWF_insert_at_root t0 BT.nil a fl2 7 1 hwf (by simp [BT.pre])
  have hr : TreeReach 4096 0 4 3 t1 [a] :=
    TreeReach.insert t0 [] 1 7 t1 (some a) none (TreeReach.init t0 h0) h1
  exact ⟨t1, a, hr, ntree_age_invariant 4096 0 4 3 t1 [a] hr⟩

end Ctomat
